import Mathlib

/-! # upscaledb: group-varint key blocks, B+tree find and insert, merge reader

A shallow embedding of

* `src/3btree/btree_keys_groupvarint.h` (namespace `Zint32`): the group-varint
  delta codec for blocks of 32 bit keys,
* `src/3btree/btree_find.cc` (namespace `BtreeFind`): `BtreeFindAction`,
* `src/btree_insert.c` (namespace `BtreeInsert`): insertion with splits, the calls
  that uncouple cursors, the store of an extended key and the cursor of the insert,
* the merge reader of an ordered scan over the B+tree and the staged transactions
  (namespace `MergeReader`), which is described by the specification only,

followed by the properties proved about them.

Conventions of the embedding.  A `uint32_t` is a natural number below `2^32`
and every arithmetic operation of the source that can wrap is followed by
`wrap32`.  A byte buffer is a `List Nat`; pointers into a buffer are offsets
from its start.  A `while` loop is a function that recurses on a fuel argument
which the caller sets to a number of iterations the loop cannot exceed (every
iteration of the codec loops consumes at least one byte of the block).
-/

namespace Zint32

/-! ## Memory -/

/-- Arithmetic on `uint32_t` wraps modulo `2^32`. -/
def wrap32 (x : Nat) : Nat := x % 4294967296

/-- The element at index `i` of a buffer (`p[i]`); outside the list it reads 0. -/
def rd (mem : List Nat) (i : Nat) : Nat := mem.getD i 0

/-- The unaligned little-endian load `*((uint32_t*)(in))` at offset `i`. -/
def rd32 (mem : List Nat) (i : Nat) : Nat :=
  rd mem i + rd mem (i + 1) * 2 ^ 8 + rd mem (i + 2) * 2 ^ 16 + rd mem (i + 3) * 2 ^ 24

/-- Stores the values `vals` at the positions `pos`, `pos + 1`, ... of a buffer. -/
def writeAt (buf : List Nat) (pos : Nat) (vals : List Nat) : List Nat :=
  buf.take pos ++ vals ++ buf.drop (pos + vals.length)

/-- The `n` elements of a buffer starting at `pos` (the source of a `memmove`). -/
def slice (buf : List Nat) (pos n : Nat) : List Nat := (buf.drop pos).take n

/-- The table `varintgb_mask[4] = { 0xFF, 0xFFFF, 0xFFFFFF, 0xFFFFFFFF }`. -/
def varintgb_mask (i : Nat) : Nat :=
  match i with
  | 0 => 0xFF
  | 1 => 0xFFFF
  | 2 => 0xFFFFFF
  | _ => 0xFFFFFFFF

/-! ## The block index -/

/-- The class `GroupVarintIndex`: the anchor `value()` of `IndexBase` and the three
8 bit fields `m_block_size`, `m_used_size`, `m_key_count`. -/
structure GroupVarintIndex where
  value : Nat
  block_size : Nat
  used_size : Nat
  key_count : Nat
deriving DecidableEq, Repr

/-- The constant `kMaxKeysPerBlock = kMaxGroupVarintsPerBlock * 4`. -/
def kMaxKeysPerBlock : Nat := 8 * 4

/-- The setter `set_used_size`: the field is `unsigned int : 8`. -/
def GroupVarintIndex.set_used_size (index : GroupVarintIndex) (size : Nat) : GroupVarintIndex :=
  { index with used_size := size % 256 }

/-- The setter `set_key_count`: the field is `unsigned int : 8`. -/
def GroupVarintIndex.set_key_count (index : GroupVarintIndex) (n : Nat) : GroupVarintIndex :=
  { index with key_count := n % 256 }

/-- The setter `set_value` of the anchor. -/
def GroupVarintIndex.set_value (index : GroupVarintIndex) (v : Nat) : GroupVarintIndex :=
  { index with value := v }

/-! ## encodeArray -/

/-- The payload bytes that `encodeArray` appends for one delta `val`. -/
def encodeBytes (val : Nat) : List Nat :=
  if val < 2 ^ 8 then [val % 256]
  else if val < 2 ^ 16 then [val % 256, (val >>> 8) % 256]
  else if val < 2 ^ 24 then [val % 256, (val >>> 8) % 256, (val >>> 16) % 256]
  else [val % 256, (val >>> 8) % 256, (val >>> 16) % 256, (val >>> 24) % 256]

/-- The update of the selector byte `*keyp` for one delta `val` at bit offset `j`. -/
def encodeSel (keyp val j : Nat) : Nat :=
  if val < 2 ^ 8 then keyp
  else if val < 2 ^ 16 then keyp ||| ((1 <<< j) % 256)
  else if val < 2 ^ 24 then keyp ||| ((2 <<< j) % 256)
  else keyp ||| ((3 <<< j) % 256)

/-- The inner loop `for (j ...; j += 2, ++k)` of `encodeArray` over the values of one
group: from the running `initial`, the bit offset `j` and the selector so far it
gives the final selector byte and the payload bytes. -/
def encodeGroup : Nat → List Nat → Nat → Nat → Nat × List Nat
  | _, [], _, keyp => (keyp, [])
  | initial, v :: vs, j, keyp =>
    let val := wrap32 (v + 4294967296 - initial)
    let r := encodeGroup v vs (j + 2) (encodeSel keyp val j)
    (r.1, encodeBytes val ++ r.2)

/-- The function `encodeArray(initial, in, length, out)`: the list is `in[0..length)`,
the result is the bytes written to `out` (the return value is their number).
Groups of four values first (`k + 3 < length`), then the trailing group. -/
def encodeArray : Nat → List Nat → List Nat
  | initial, a :: b :: c :: d :: rest =>
    (encodeGroup initial [a, b, c, d] 0 0).1 :: (encodeGroup initial [a, b, c, d] 0 0).2
      ++ encodeArray d rest
  | _, [] => []
  | initial, [a] => (encodeGroup initial [a] 0 0).1 :: (encodeGroup initial [a] 0 0).2
  | initial, [a, b] => (encodeGroup initial [a, b] 0 0).1 :: (encodeGroup initial [a, b] 0 0).2
  | initial, [a, b, c] =>
    (encodeGroup initial [a, b, c] 0 0).1 :: (encodeGroup initial [a, b, c] 0 0).2

/-! ## The decoders -/

/-- The result of a group decoder: the new read position, the new running value and
the values written through the output pointer. -/
structure Decoded where
  inbyte : Nat
  initial : Nat
  out : List Nat
  count : Nat
deriving DecidableEq, Repr

/-- The loop of `decodeCarefully`; `n` bounds the iterations left (`k < 4`). -/
def decodeCarefullyLoop (mem : List Nat) (count : Nat) :
    Nat → Nat → Nat → Nat → Nat → List Nat → Decoded
  | 0, k, _, inbyte, initial, out => ⟨inbyte, initial, out, k⟩
  | n + 1, k, key, inbyte, initial, out =>
    if k < count ∧ k < 4 then
      let howmanybyte := key &&& 3
      let key1 := (key >>> 2) % 256
      let v0 := rd mem inbyte
      let r : Nat × Nat :=
        if howmanybyte ≥ 1 then
          if howmanybyte ≥ 2 then
            if howmanybyte ≥ 3 then
              (v0 ||| (rd mem (inbyte + 1) <<< 8) ||| (rd mem (inbyte + 2) <<< 16)
                ||| (rd mem (inbyte + 3) <<< 24), inbyte + 4)
            else (v0 ||| (rd mem (inbyte + 1) <<< 8) ||| (rd mem (inbyte + 2) <<< 16), inbyte + 3)
          else (v0 ||| (rd mem (inbyte + 1) <<< 8), inbyte + 2)
        else (v0, inbyte + 1)
      let initial1 := wrap32 (initial + r.1)
      decodeCarefullyLoop mem count n (k + 1) key1 r.2 initial1 (out ++ [initial1])
    else ⟨inbyte, initial, out, k⟩

/-- The function `decodeCarefully(inbyte, initial, out, count)`. -/
def decodeCarefully (mem : List Nat) (inbyte initial count : Nat) : Decoded :=
  decodeCarefullyLoop mem count 4 0 (rd mem inbyte) (inbyte + 1) initial []

/-- The loop of `decodeSingleVarintDelta`; `n` bounds the iterations left (`k < 4`). -/
def decodeSingleVarintDeltaLoop (mem : List Nat) (count : Nat) :
    Nat → Nat → Nat → Nat → Nat → List Nat → Decoded
  | 0, k, _, inbyte, initial, out => ⟨inbyte, initial, out, k⟩
  | n + 1, k, key, inbyte, initial, out =>
    if k < count ∧ k < 4 then
      let howmanybyte := key &&& 3
      let key1 := (key >>> 2) % 256
      let v0 := rd mem inbyte
      let r : Nat × Nat :=
        if howmanybyte ≥ 1 then
          if howmanybyte ≥ 2 then
            if howmanybyte ≥ 3 then
              (v0 ||| (rd mem (inbyte + 1) <<< 8) ||| (rd mem (inbyte + 2) <<< 16)
                ||| (rd mem (inbyte + 3) <<< 24), inbyte + 4)
            else (v0 ||| (rd mem (inbyte + 1) <<< 8) ||| (rd mem (inbyte + 2) <<< 16), inbyte + 3)
          else (v0 ||| (rd mem (inbyte + 1) <<< 8), inbyte + 2)
        else (v0, inbyte + 1)
      let initial1 := wrap32 (initial + r.1)
      decodeSingleVarintDeltaLoop mem count n (k + 1) key1 r.2 initial1 (out ++ [initial1])
    else ⟨inbyte, initial, out, k⟩

/-- The function `decodeSingleVarintDelta(inbyte, initial, out, count)`: `out` of the
result is what was written through `*out`, `count` the new `*count`. -/
def decodeSingleVarintDelta (mem : List Nat) (inbyte initial count : Nat) : Decoded :=
  decodeSingleVarintDeltaLoop mem count 4 0 (rd mem inbyte) (inbyte + 1) initial []

/-- The function `decodeGroupVarIntDelta(in, val, out)`: always four values. -/
def decodeGroupVarIntDelta (mem : List Nat) (inp val : Nat) : Decoded :=
  let sel := rd mem inp
  let in1 := inp + 1
  if sel = 0 then
    let o0 := wrap32 (val + rd mem in1)
    let o1 := wrap32 (o0 + rd mem (in1 + 1))
    let o2 := wrap32 (o1 + rd mem (in1 + 2))
    let o3 := wrap32 (o2 + rd mem (in1 + 3))
    ⟨in1 + 4, o3, [o0, o1, o2, o3], 4⟩
  else
    let sel1 := sel &&& 3
    let o0 := wrap32 (val + (rd32 mem in1 &&& varintgb_mask sel1))
    let in2 := in1 + (sel1 + 1)
    let sel2 := (sel >>> 2) &&& 3
    let o1 := wrap32 (o0 + (rd32 mem in2 &&& varintgb_mask sel2))
    let in3 := in2 + (sel2 + 1)
    let sel3 := (sel >>> 4) &&& 3
    let o2 := wrap32 (o1 + (rd32 mem in3 &&& varintgb_mask sel3))
    let in4 := in3 + (sel3 + 1)
    let sel4 := sel >>> 6
    let o3 := wrap32 (o2 + (rd32 mem in4 &&& varintgb_mask sel4))
    ⟨in4 + (sel4 + 1), o3, [o0, o1, o2, o3], 4⟩

/-- The first loop of `decodeArray`: `while (endbyte > inbyte + 1 + 4 * 4)`. -/
def decodeArrayFast (mem : List Nat) (endbyte : Nat) : Nat → Nat → Nat → List Nat → Decoded
  | 0, inbyte, initial, out => ⟨inbyte, initial, out, 0⟩
  | fuel + 1, inbyte, initial, out =>
    if endbyte > inbyte + 1 + 4 * 4 then
      let d := decodeGroupVarIntDelta mem inbyte initial
      decodeArrayFast mem endbyte fuel d.inbyte d.initial (out ++ d.out)
    else ⟨inbyte, initial, out, 0⟩

/-- The second loop of `decodeArray`: `while (endbyte > inbyte)`, with
`nvalue = endout - out` recomputed in every iteration. -/
def decodeArraySlow (mem : List Nat) (endbyte nvalue : Nat) :
    Nat → Nat → Nat → List Nat → Decoded
  | 0, inbyte, initial, out => ⟨inbyte, initial, out, 0⟩
  | fuel + 1, inbyte, initial, out =>
    if endbyte > inbyte then
      let d := decodeSingleVarintDelta mem inbyte initial
        (wrap32 (nvalue + 4294967296 - out.length))
      decodeArraySlow mem endbyte nvalue fuel d.inbyte d.initial (out ++ d.out)
    else ⟨inbyte, initial, out, 0⟩

/-- The function `decodeArray(initial, in, size, out, nvalue)`: the values written to
`out`.  Both loops consume at least one byte per iteration, so `size` iterations
are never exceeded. -/
def decodeArray (initial : Nat) (mem : List Nat) (size nvalue : Nat) : List Nat :=
  let f := decodeArrayFast mem size size 0 initial []
  (decodeArraySlow mem size nvalue size f.inbyte f.initial f.out).out

/-- The function `compress_block(index, in, out)`: the bytes written to `out`. -/
def compress_block (index : GroupVarintIndex) (inp : List Nat) : List Nat :=
  encodeArray index.value (inp.take (wrap32 (index.key_count + 4294967296 - 1)))

/-- The function `uncompress_block(index, block_data, out)`: the values written to
`out` (none when the block holds the anchor only). -/
def uncompress_block (index : GroupVarintIndex) (mem : List Nat) : List Nat :=
  let nvalue := wrap32 (index.key_count + 4294967296 - 1)
  if nvalue > 0 then decodeArray index.value mem index.used_size nvalue else []

/-! ## find_lower_bound, select -/

/-- A value of type `uint32_t` converted to `int`. -/
def int32 (x : Nat) : Int := if x < 2147483648 then (x : Int) else (x : Int) - 4294967296

/-- The local variables of `find_lower_bound` that live across iterations. -/
structure LbState where
  inbyte : Nat
  initial : Nat
  i : Nat
  out : List Nat
  nvalue : Nat
deriving DecidableEq, Repr

/-- The first loop of `find_lower_bound` (`while (endbyte > inbyte + 1 + 4 * 4)`):
`Sum.inl (slot, *presult)` is a `return`, `Sum.inr` the state at the loop exit. -/
def find_lower_bound_fast (mem : List Nat) (endbyte key : Nat) :
    Nat → LbState → Sum (Nat × Nat) LbState
  | 0, s => Sum.inr s
  | fuel + 1, s =>
    if endbyte > s.inbyte + 1 + 4 * 4 then
      let d := decodeGroupVarIntDelta mem s.inbyte s.initial
      let out := writeAt s.out 0 d.out
      if key ≤ rd out 3 then
        if key ≤ rd out 0 then Sum.inl (s.i + 0, rd out 0)
        else if key ≤ rd out 1 then Sum.inl (s.i + 1, rd out 1)
        else if key ≤ rd out 2 then Sum.inl (s.i + 2, rd out 2)
        else Sum.inl (s.i + 3, rd out 3)
      else
        find_lower_bound_fast mem endbyte key fuel
          { s with inbyte := d.inbyte, initial := d.initial, out := out, i := s.i + 4 }
    else Sum.inr s

/-- The second loop of `find_lower_bound` (`while (endbyte > inbyte && nvalue > 0)`). -/
def find_lower_bound_slow (key_count : Nat) (mem : List Nat) (endbyte key : Nat) :
    Nat → LbState → Sum (Nat × Nat) LbState
  | 0, s => Sum.inr s
  | fuel + 1, s =>
    if endbyte > s.inbyte ∧ s.nvalue > 0 then
      let d := decodeSingleVarintDelta mem s.inbyte s.initial
        (wrap32 (key_count + 8589934592 - 1 - s.i))
      let out := writeAt s.out 0 d.out
      let nvalue := d.count
      if key ≤ rd out 0 then Sum.inl (s.i + 0, rd out 0)
      else if nvalue > 0 ∧ key ≤ rd out 1 then Sum.inl (s.i + 1, rd out 1)
      else if nvalue > 1 ∧ key ≤ rd out 2 then Sum.inl (s.i + 2, rd out 2)
      else if nvalue > 2 ∧ key ≤ rd out 3 then Sum.inl (s.i + 3, rd out 3)
      else
        find_lower_bound_slow key_count mem endbyte key fuel
          { inbyte := d.inbyte, initial := d.initial, out := out, i := s.i + nvalue,
            nvalue := nvalue }
    else Sum.inr s

/-- The function `find_lower_bound(index, in, key, presult)`: the returned slot and the
value stored in `*presult`.  `scratch` is the content of the uninitialised local
array `uint32_t out[4]` on entry. -/
def find_lower_bound (scratch : List Nat) (index : GroupVarintIndex) (mem : List Nat)
    (key : Nat) : Nat × Nat :=
  let s0 : LbState :=
    { inbyte := 0, initial := index.value, i := 0, out := scratch,
      nvalue := wrap32 (index.key_count + 4294967296 - 1) }
  match find_lower_bound_fast mem index.used_size key index.used_size s0 with
  | Sum.inl r => r
  | Sum.inr s1 =>
    match find_lower_bound_slow index.key_count mem index.used_size key index.used_size s1 with
    | Sum.inl r => r
    | Sum.inr s2 => (s2.i, wrap32 (key + 1))

/-- The loop `while (true)` of `select` taken when `slot + 3 < nvalue`; it returns in
iteration `slot / 4`, so `slot + 1` iterations are never exceeded. -/
def selectLoopA (mem : List Nat) (slot : Nat) : Nat → LbState → Option Nat
  | 0, _ => none
  | fuel + 1, s =>
    let d := decodeGroupVarIntDelta mem s.inbyte s.initial
    let out := writeAt s.out 0 d.out
    let i := s.i + 4
    if i > slot then some (rd out (slot - (i - 4)))
    else selectLoopA mem slot fuel { s with inbyte := d.inbyte, initial := d.initial, out := out, i := i }

/-- The loop `while (i + 3 < slot)` of `select`. -/
def selectLoopB (mem : List Nat) (slot : Nat) : Nat → LbState → LbState
  | 0, s => s
  | fuel + 1, s =>
    if s.i + 3 < slot then
      let d := decodeGroupVarIntDelta mem s.inbyte s.initial
      selectLoopB mem slot fuel
        { s with inbyte := d.inbyte, initial := d.initial, out := writeAt s.out 0 d.out, i := s.i + 4 }
    else s

/-- The loop `while (i + 3 < (int)nvalue)` of `select`. -/
def selectLoopC (mem : List Nat) (slot : Nat) : Nat → LbState → Sum Nat LbState
  | 0, s => Sum.inr s
  | fuel + 1, s =>
    if (s.i : Int) + 3 < int32 s.nvalue then
      let d := decodeGroupVarIntDelta mem s.inbyte s.initial
      let out := writeAt s.out 0 d.out
      let i := s.i + 4
      if i > slot then Sum.inl (rd out (slot - (i - 4)))
      else selectLoopC mem slot fuel
        { s with inbyte := d.inbyte, initial := d.initial, out := out, i := i }
    else Sum.inr s

/-- The function `select(index, in, slot)` for `slot ≥ 0`; `none` is the final
`throw Exception(HAM_INTERNAL_ERROR)`.  `scratch` is the content of the
uninitialised local array `uint32_t out[4]` on entry. -/
def select (scratch : List Nat) (index : GroupVarintIndex) (mem : List Nat) (slot : Nat) :
    Option Nat :=
  let s0 : LbState :=
    { inbyte := 0, initial := index.value, i := 0, out := scratch,
      nvalue := wrap32 (index.key_count + 4294967296 - 1) }
  if (slot : Int) + 3 < int32 s0.nvalue then
    selectLoopA mem slot (slot + 1) s0
  else
    let s1 := selectLoopB mem slot slot s0
    match selectLoopC mem slot (s1.nvalue + 1) s1 with
    | Sum.inl v => some v
    | Sum.inr s2 =>
      let d := decodeCarefully mem s2.inbyte s2.initial (wrap32 (s2.nvalue + 8589934592 - s2.i))
      let out := writeAt s2.out 0 d.out
      let nvalue := d.count
      if slot = s2.i then some (rd out 0)
      else if nvalue > 1 ∧ slot = s2.i + 1 then some (rd out 1)
      else if nvalue > 2 ∧ slot = s2.i + 2 then some (rd out 2)
      else if nvalue > 3 ∧ slot = s2.i + 3 then some (rd out 3)
      else none

/-! ## insert -/

/-- The local variables of `insert` that live across the iterations of its loops;
`pslot` is the caller's `*pslot`. -/
structure InsertState where
  inbyte : Nat
  initial : Nat
  slot : Nat
  remaining : Nat
  pout : Nat
  out : List Nat
  is_inserted : Bool
  new_initial : Nat
  new_inbyte : Nat
  pslot : Nat
deriving DecidableEq, Repr

/-- The first loop of `insert` (`while (endbyte > inbyte + 1 + 4 * 4)`); `none` is
`return (false)`. -/
def insertFast (mem : List Nat) (endbyte key : Nat) : Nat → InsertState → Option InsertState
  | 0, s => some s
  | fuel + 1, s =>
    if endbyte > s.inbyte + 1 + 4 * 4 then
      let d := decodeGroupVarIntDelta mem s.inbyte s.initial
      let out := writeAt s.out s.pout d.out
      let remaining := wrap32 (s.remaining + 4294967296 - 4)
      if key > rd out 3 then
        insertFast mem endbyte key fuel
          { s with out := out, remaining := remaining, inbyte := d.inbyte,
                   initial := d.initial, slot := s.slot + 4 }
      else if s.is_inserted = false then
        if key = rd out 0 ∨ key = rd out 1 ∨ key = rd out 2 ∨ key = rd out 3 then none
        else
          let p := s.pout
          let r : List Nat × Nat :=
            if key < rd out p then
              ((writeAt out (p + 1) (slice out p 4)).set p key, s.slot + 1)
            else if key < rd out (p + 1) then
              ((writeAt out (p + 2) (slice out (p + 1) 3)).set (p + 1) key, s.slot + 2)
            else if key < rd out (p + 2) then
              ((writeAt out (p + 3) (slice out (p + 2) 2)).set (p + 2) key, s.slot + 3)
            else
              ((out.set (p + 4) (rd out (p + 3))).set (p + 3) key, s.slot + 4)
          insertFast mem endbyte key fuel
            { s with out := r.1, remaining := remaining, new_initial := s.initial,
                     new_inbyte := s.inbyte, initial := d.initial, pslot := r.2,
                     is_inserted := true, pout := p + 5, inbyte := d.inbyte }
      else
        insertFast mem endbyte key fuel
          { s with out := out, remaining := remaining, pout := s.pout + 4, slot := s.slot + 4,
                   initial := d.initial, inbyte := d.inbyte }
    else some s

/-- The second loop of `insert` (`while (endbyte > inbyte && remaining > 0)`); `none`
is `return (false)`. -/
def insertSlow (mem : List Nat) (endbyte key : Nat) : Nat → InsertState → Option InsertState
  | 0, s => some s
  | fuel + 1, s =>
    if endbyte > s.inbyte ∧ s.remaining > 0 then
      let d := decodeSingleVarintDelta mem s.inbyte s.initial s.remaining
      let ints_decoded := d.count
      let out := writeAt s.out s.pout d.out
      let p := s.pout
      let remaining := wrap32 (s.remaining + 4294967296 - ints_decoded)
      if s.is_inserted = false then
        if key = rd out p then none
        else if key < rd out p then
          insertSlow mem endbyte key fuel
            { s with out := (writeAt out (p + 1) (slice out p ints_decoded)).set p key,
                     pslot := s.slot + 1, is_inserted := true, pout := p + (ints_decoded + 1),
                     inbyte := d.inbyte, initial := d.initial, remaining := remaining }
        else if ints_decoded > 1 then
          if key = rd out (p + 1) then none
          else if key < rd out (p + 1) then
            insertSlow mem endbyte key fuel
              { s with out := (writeAt out (p + 2) (slice out (p + 1) (ints_decoded - 1))).set
                                (p + 1) key,
                       pslot := s.slot + 2, is_inserted := true, pout := p + (ints_decoded + 1),
                       inbyte := d.inbyte, initial := d.initial, remaining := remaining }
          else if ints_decoded > 2 then
            if key = rd out (p + 2) then none
            else if key < rd out (p + 2) then
              insertSlow mem endbyte key fuel
                { s with out := (writeAt out (p + 3) (slice out (p + 2) (ints_decoded - 2))).set
                                  (p + 2) key,
                         pslot := s.slot + 3, is_inserted := true,
                         pout := p + (ints_decoded + 1),
                         inbyte := d.inbyte, initial := d.initial, remaining := remaining }
            else if ints_decoded > 3 then
              if key = rd out (p + 3) then none
              else if key < rd out (p + 3) then
                insertSlow mem endbyte key fuel
                  { s with out := (out.set (p + 4) (rd out (p + 3))).set (p + 3) key,
                           pslot := s.slot + 4, is_inserted := true,
                           pout := p + (ints_decoded + 1),
                           inbyte := d.inbyte, initial := d.initial, remaining := remaining }
              else
                insertSlow mem endbyte key fuel
                  { s with out := out, pout := p + ints_decoded, slot := s.slot + ints_decoded,
                           inbyte := d.inbyte, initial := d.initial, remaining := remaining }
            else
              insertSlow mem endbyte key fuel
                { s with out := out, pout := p + ints_decoded, slot := s.slot + ints_decoded,
                         inbyte := d.inbyte, initial := d.initial, remaining := remaining }
          else
            insertSlow mem endbyte key fuel
              { s with out := out, pout := p + ints_decoded, slot := s.slot + ints_decoded,
                       inbyte := d.inbyte, initial := d.initial, remaining := remaining }
        else
          insertSlow mem endbyte key fuel
            { s with out := out, pout := p + ints_decoded, slot := s.slot + ints_decoded,
                     inbyte := d.inbyte, initial := d.initial, remaining := remaining }
      else
        insertSlow mem endbyte key fuel
          { s with out := out, pout := p + ints_decoded,
                   inbyte := d.inbyte, initial := d.initial, remaining := remaining }
    else some s

/-- What `insert` leaves behind: the return value, the block index, the block data and
the caller's `*pslot`. -/
structure InsertResult where
  ok : Bool
  index : GroupVarintIndex
  mem : List Nat
  pslot : Nat
deriving DecidableEq, Repr

/-- The function `insert(index, in, key, pslot)`.  `scratch` is the content of the
uninitialised local array `uint32_t out[kMaxKeysPerBlock]` on entry, `pslot` the
caller's value of `*pslot`. -/
def insert (scratch : List Nat) (index : GroupVarintIndex) (mem : List Nat) (key pslot : Nat) :
    InsertResult :=
  let initial := index.value
  if key < initial then
    let out1 :=
      if index.key_count > 1 then
        let o := writeAt scratch 0 (uncompress_block index mem)
        writeAt o 1 (slice o 0 (index.key_count - 1))
      else scratch
    let out2 := out1.set 0 initial
    let index1 := (index.set_value key).set_key_count (index.key_count + 1)
    let bytes := encodeArray index1.value (out2.take (wrap32 (index1.key_count + 4294967296 - 1)))
    ⟨true, index1.set_used_size bytes.length, writeAt mem 0 bytes, 1⟩
  else
    let s0 : InsertState :=
      { inbyte := 0, initial := initial, slot := 0,
        remaining := wrap32 (index.key_count + 4294967296 - 1),
        pout := 0, out := scratch, is_inserted := false,
        new_initial := index.value, new_inbyte := 0, pslot := pslot }
    match insertFast mem index.used_size key index.used_size s0 with
    | none => ⟨false, index, mem, pslot⟩
    | some s1 =>
      let s2 : InsertState :=
        if s1.is_inserted = false then
          { s1 with new_initial := s1.initial, new_inbyte := s1.inbyte }
        else s1
      match insertSlow mem index.used_size key index.used_size s2 with
      | none => ⟨false, index, mem, pslot⟩
      | some s3 =>
        let s4 : InsertState :=
          if s3.is_inserted = false then
            { s3 with pslot := 1 + s3.slot, out := s3.out.set s3.pout key, pout := s3.pout + 1 }
          else s3
        let bytes := encodeArray s4.new_initial (s4.out.take s4.pout)
        ⟨true,
         (index.set_key_count (index.key_count + 1)).set_used_size (s4.new_inbyte + bytes.length),
         writeAt mem s4.new_inbyte bytes, s4.pslot⟩

end Zint32

namespace Zint32

/-! ## The format of a block, stated on lists

These definitions describe the byte stream that `encodeArray` produces; the
theorems below relate the loops of the codec to them. -/

/-- The size code of a delta: the number of payload bytes minus one. -/
def codeOf (val : Nat) : Nat :=
  if val < 2 ^ 8 then 0 else if val < 2 ^ 16 then 1 else if val < 2 ^ 24 then 2 else 3

/-- The deltas of a sequence of values: each value minus its predecessor modulo
`2^32`, the first one minus `initial`. -/
def deltas : Nat → List Nat → List Nat
  | _, [] => []
  | initial, v :: vs => wrap32 (v + 4294967296 - initial) :: deltas v vs

/-- The running sums modulo `2^32` of a list of deltas, starting after `initial`. -/
def undelta : Nat → List Nat → List Nat
  | _, [] => []
  | initial, d :: ds => wrap32 (initial + d) :: undelta (wrap32 (initial + d)) ds

/-- The selector of a group: the size code of its `i`-th delta in bits `2i, 2i+1`. -/
def selOf : List Nat → Nat
  | [] => 0
  | d :: ds => codeOf d + 4 * selOf ds

/-- The payloads of a group, one after the other. -/
def payload : List Nat → List Nat
  | [] => []
  | d :: ds => encodeBytes d ++ payload ds

/-- The bytes of one group of values: the selector byte, then the payloads. -/
def groupBytes (initial : Nat) (g : List Nat) : List Nat :=
  selOf (deltas initial g) :: payload (deltas initial g)

/-- The decoder is at offset `p` of a block of `size` bytes, the running value is
`cur`, and the bytes from `p` to the end of the block encode the values `rest`. -/
def At (mem : List Nat) (size p cur : Nat) (rest : List Nat) : Prop :=
  p + (encodeArray cur rest).length = size ∧
  (mem.drop p).take (encodeArray cur rest).length = encodeArray cur rest ∧
  cur < 4294967296 ∧ ∀ v ∈ rest, v < 4294967296

/-- A valid block: the index describes the keys `value :: keys`, at most
`kMaxKeysPerBlock` strictly ascending 32 bit values, and the first `used_size`
bytes of the data are the encoding of `keys` after the anchor `value`. -/
def ValidBlock (index : GroupVarintIndex) (mem : List Nat) (keys : List Nat) : Prop :=
  index.key_count = keys.length + 1 ∧
  index.key_count ≤ kMaxKeysPerBlock ∧
  index.used_size = (encodeArray index.value keys).length ∧
  mem.take index.used_size = encodeArray index.value keys ∧
  (index.value :: keys).Pairwise (· < ·) ∧
  ∀ k ∈ index.value :: keys, k < 4294967296


/-! ## The states of the loops of `insert`, stated on lists -/

/-- The values of a decoded group that are smaller than `key`. -/
def below (key : Nat) (g : List Nat) : List Nat := g.takeWhile (fun v => decide (v < key))

/-- The values of a decoded group from the first one that is not smaller than `key`. -/
def notBelow (key : Nat) (g : List Nat) : List Nat := g.dropWhile (fun v => decide (v < key))

/-- The state of a loop of `insert` after an iteration that decoded the group `g` at
`pout` while the key was not yet placed: if a value of the group is greater than
the key, the key is placed before it; otherwise the state advances. -/
def placeNext (s : InsertState) (g : List Nat) (key inbyte initial remaining : Nat)
    (slow : Bool) : InsertState :=
  if notBelow key g ≠ [] then
    { s with
      out := s.out.take s.pout ++ below key g ++ key :: notBelow key g
        ++ (s.out.drop (s.pout + g.length)).drop 1,
      pslot := s.slot + (below key g).length + 1, is_inserted := true,
      pout := s.pout + (g.length + 1), inbyte := inbyte, initial := initial,
      remaining := remaining,
      new_initial := if slow then s.new_initial else s.initial,
      new_inbyte := if slow then s.new_inbyte else s.inbyte }
  else
    { s with
      out := writeAt s.out s.pout g,
      pout := if slow then s.pout + g.length else s.pout,
      slot := s.slot + g.length, inbyte := inbyte, initial := initial,
      remaining := remaining }

/-- The encoded region up to the offset `q0`: these bytes are the groups, each of four
keys, of the keys `K0`; `insert` leaves them untouched when it re-encodes from
`q0` with the running value `c0`. -/
def Kept (mem : List Nat) (anchor : Nat) (K0 : List Nat) (q0 c0 : Nat) : Prop :=
  K0.length % 4 = 0 ∧ mem.take q0 = encodeArray anchor K0 ∧
  q0 = (encodeArray anchor K0).length ∧ c0 = K0.getLastD anchor

/-- The first loop of `insert` while the key is not placed: the groups of the keys
`K0` were skipped, all of them are smaller than `key`. -/
def InsSkip (mem : List Nat) (size anchor : Nat) (keys : List Nat) (key : Nat)
    (s : InsertState) : Prop :=
  s.is_inserted = false ∧ s.pout = 0 ∧ s.out.length = 32 ∧
  ∃ K0 rest, keys = K0 ++ rest ∧ Kept mem anchor K0 s.inbyte s.initial ∧
    s.slot = K0.length ∧ At mem size s.inbyte s.initial rest ∧
    s.remaining = rest.length ∧ ∀ k ∈ K0, k < key

/-- The second loop of `insert` while the key is not placed: the scratch array holds
the keys `D` decoded since the offset where re-encoding will start, all smaller
than `key`. -/
def InsScan (mem : List Nat) (size anchor : Nat) (keys : List Nat) (key : Nat)
    (s : InsertState) : Prop :=
  s.is_inserted = false ∧ s.out.length = 32 ∧
  ∃ K0 D rest, keys = K0 ++ D ++ rest ∧ Kept mem anchor K0 s.new_inbyte s.new_initial ∧
    s.slot = K0.length + D.length ∧ s.pout = D.length ∧ s.out.take s.pout = D ∧
    At mem size s.inbyte s.initial rest ∧ s.remaining = rest.length ∧
    ∀ k ∈ K0 ++ D, k < key

/-- Either loop of `insert` once the key is placed: the scratch array holds the keys
decoded since the offset where re-encoding will start, `X` before the key and `Y`
after it. -/
def InsPlaced (mem : List Nat) (size anchor : Nat) (keys : List Nat) (key : Nat)
    (s : InsertState) : Prop :=
  s.is_inserted = true ∧ s.out.length = 32 ∧
  ∃ K0 X Y rest, keys = K0 ++ X ++ Y ++ rest ∧
    Kept mem anchor K0 s.new_inbyte s.new_initial ∧ Y ≠ [] ∧
    s.pout = X.length + Y.length + 1 ∧ s.out.take s.pout = X ++ key :: Y ∧
    s.pslot = K0.length + X.length + 1 ∧
    At mem size s.inbyte s.initial rest ∧ s.remaining = rest.length ∧
    (∀ k ∈ K0 ++ X, k < key) ∧ ∀ k ∈ Y ++ rest, key < k

end Zint32

namespace Zint32

/-! ## The accesses of `insert` to its scratch array

An access to the local array `uint32_t out[GroupVarintIndex::kMaxKeysPerBlock]` of
`insert` is written `(i, n)`: the `n` cells from the index `i` on.  The functions
here list the accesses in the order of the source; the states are those of
`insertFast` and `insertSlow`. -/

/-- The accesses to `out` in one iteration of the first loop of `insert`, from the
state `s` at the top of the iteration: `decodeGroupVarIntDelta` stores four values at
`pout`; `key > out[3]`; when the key is placed, the test for a duplicate
(`out[0]` to `out[3]`), the comparisons with `pout[0]`, `pout[1]`, `pout[2]`, and the
`memmove` (source, then destination) with the store of the key, or
`pout[4] = pout[3]; pout[3] = key`. -/
def insertFastTouch (mem : List Nat) (key : Nat) (s : InsertState) : List (Nat × Nat) :=
  let d := decodeGroupVarIntDelta mem s.inbyte s.initial
  let out := writeAt s.out s.pout d.out
  let p := s.pout
  [(p, 4), (3, 1)] ++
  (if key > rd out 3 then []
   else if s.is_inserted = false then
     [(0, 4)] ++
     (if key = rd out 0 ∨ key = rd out 1 ∨ key = rd out 2 ∨ key = rd out 3 then []
      else if key < rd out p then [(p, 1), (p, 4), (p + 1, 4), (p, 1)]
      else if key < rd out (p + 1) then [(p, 1), (p + 1, 1), (p + 1, 3), (p + 2, 3), (p + 1, 1)]
      else if key < rd out (p + 2) then
        [(p, 1), (p + 1, 1), (p + 2, 1), (p + 2, 2), (p + 3, 2), (p + 2, 1)]
      else [(p, 1), (p + 1, 1), (p + 2, 1), (p + 3, 1), (p + 4, 1), (p + 3, 1)])
   else [])

/-- The accesses to `out` in the first loop of `insert`, from the state `s` on; the
state after an iteration is that of `insertFast`, and a `return (false)` ends the
list. -/
def insertFastTrace (mem : List Nat) (endbyte key : Nat) : Nat → InsertState → List (Nat × Nat)
  | 0, _ => []
  | fuel + 1, s =>
    if endbyte > s.inbyte + 1 + 4 * 4 then
      insertFastTouch mem key s ++
        (match insertFast mem endbyte key 1 s with
         | none => []
         | some s1 => insertFastTrace mem endbyte key fuel s1)
    else []

/-- The accesses to `out` in one iteration of the second loop of `insert`:
`decodeSingleVarintDelta` stores `ints_decoded` values through `pout`; while the key
is not placed, `pout[0]` is compared, then `pout[1]` if `ints_decoded > 1`, `pout[2]`
if `ints_decoded > 2`, `pout[3]` if `ints_decoded > 3`, and the key is placed by a
`memmove` of the values from its position on (source, then destination) and the
store of the key, or by `pout[4] = pout[3]; pout[3] = key`. -/
def insertSlowTouch (mem : List Nat) (key : Nat) (s : InsertState) : List (Nat × Nat) :=
  let d := decodeSingleVarintDelta mem s.inbyte s.initial s.remaining
  let ints_decoded := d.count
  let out := writeAt s.out s.pout d.out
  let p := s.pout
  [(p, ints_decoded)] ++
  (if s.is_inserted = false then
    [(p, 1)] ++
    (if key = rd out p then []
     else if key < rd out p then [(p, ints_decoded), (p + 1, ints_decoded), (p, 1)]
     else if ints_decoded > 1 then
       [(p + 1, 1)] ++
       (if key = rd out (p + 1) then []
        else if key < rd out (p + 1) then
          [(p + 1, ints_decoded - 1), (p + 2, ints_decoded - 1), (p + 1, 1)]
        else if ints_decoded > 2 then
          [(p + 2, 1)] ++
          (if key = rd out (p + 2) then []
           else if key < rd out (p + 2) then
             [(p + 2, ints_decoded - 2), (p + 3, ints_decoded - 2), (p + 2, 1)]
           else if ints_decoded > 3 then
             [(p + 3, 1)] ++
             (if key = rd out (p + 3) then []
              else if key < rd out (p + 3) then [(p + 3, 1), (p + 4, 1), (p + 3, 1)]
              else [])
           else [])
        else [])
     else [])
   else [])

/-- The accesses to `out` in the second loop of `insert`, from the state `s` on. -/
def insertSlowTrace (mem : List Nat) (endbyte key : Nat) : Nat → InsertState → List (Nat × Nat)
  | 0, _ => []
  | fuel + 1, s =>
    if endbyte > s.inbyte ∧ s.remaining > 0 then
      insertSlowTouch mem key s ++
        (match insertSlow mem endbyte key 1 s with
         | none => []
         | some s1 => insertSlowTrace mem endbyte key fuel s1)
    else []

/-- The number of values that `insert` hands to `encodeArray`: `key_count() - 1` of the
new count on the new-anchor path, else `ints_to_write = pout - &out[0]`; 0 when the
function returns false before. -/
def insert_ints_to_write (scratch : List Nat) (index : GroupVarintIndex) (mem : List Nat)
    (key pslot : Nat) : Nat :=
  if key < index.value then
    wrap32 (((index.set_value key).set_key_count (index.key_count + 1)).key_count
      + 4294967296 - 1)
  else
    let s0 : InsertState :=
      { inbyte := 0, initial := index.value, slot := 0,
        remaining := wrap32 (index.key_count + 4294967296 - 1),
        pout := 0, out := scratch, is_inserted := false,
        new_initial := index.value, new_inbyte := 0, pslot := pslot }
    match insertFast mem index.used_size key index.used_size s0 with
    | none => 0
    | some s1 =>
      let s2 : InsertState :=
        if s1.is_inserted = false then
          { s1 with new_initial := s1.initial, new_inbyte := s1.inbyte }
        else s1
      match insertSlow mem index.used_size key index.used_size s2 with
      | none => 0
      | some s3 => if s3.is_inserted = false then s3.pout + 1 else s3.pout

/-- The accesses of `insert(index, in, key, pslot)` to `out`.  On the new-anchor path:
`uncompress_block` stores the decoded values, the `memmove` shifts them by one cell,
`out[0] = initial`, and `encodeArray` reads its input.  Otherwise the two loops, the
append `*pout = key` if the key is not placed yet, and the input of `encodeArray`. -/
def insert_touch (scratch : List Nat) (index : GroupVarintIndex) (mem : List Nat)
    (key pslot : Nat) : List (Nat × Nat) :=
  if key < index.value then
    (if index.key_count > 1 then
      [(0, (uncompress_block index mem).length), (0, index.key_count - 1),
        (1, index.key_count - 1)]
     else []) ++
    [(0, 1), (0, insert_ints_to_write scratch index mem key pslot)]
  else
    let s0 : InsertState :=
      { inbyte := 0, initial := index.value, slot := 0,
        remaining := wrap32 (index.key_count + 4294967296 - 1),
        pout := 0, out := scratch, is_inserted := false,
        new_initial := index.value, new_inbyte := 0, pslot := pslot }
    insertFastTrace mem index.used_size key index.used_size s0 ++
    (match insertFast mem index.used_size key index.used_size s0 with
     | none => []
     | some s1 =>
       let s2 : InsertState :=
         if s1.is_inserted = false then
           { s1 with new_initial := s1.initial, new_inbyte := s1.inbyte }
         else s1
       insertSlowTrace mem index.used_size key index.used_size s2 ++
       (match insertSlow mem index.used_size key index.used_size s2 with
        | none => []
        | some s3 =>
          (if s3.is_inserted = false then [(s3.pout, 1)] else []) ++
          [(0, insert_ints_to_write scratch index mem key pslot)]))

end Zint32

namespace BtreeFind

/-! ## Constants and the node proxy used by `BtreeFindAction` -/

/-- Modelled from the spec: the status code `UPS_KEY_NOT_FOUND` ("miss ⇒ NOT_FOUND");
the header that declares it is not among the sources. -/
def UPS_KEY_NOT_FOUND : Int := -11

/-- Modelled from the spec: the flag `UPS_FIND_LT_MATCH` ("LT_MATCH"); the header that
declares it is not among the sources, only that the three find flags are distinct
bits matters. -/
def UPS_FIND_LT_MATCH : Nat := 0x1000

/-- Modelled from the spec: the flag `UPS_FIND_GT_MATCH` ("GT_MATCH"). -/
def UPS_FIND_GT_MATCH : Nat := 0x2000

/-- Modelled from the spec: the flag `UPS_FIND_EQ_MATCH` (exact match allowed). -/
def UPS_FIND_EQ_MATCH : Nat := 0x4000

/-- Modelled from the spec: `BtreeKey::kLower` ("approx = Lower"), a non-zero key flag. -/
def kLower : Nat := 0x8000

/-- Modelled from the spec: `BtreeKey::kGreater` ("approx = Greater"), a non-zero key
flag different from `kLower`. -/
def kGreater : Nat := 0x4000

/-- The test `isset(f, b)`: all bits of `b` are set in `f`. -/
def isset (f b : Nat) : Bool := (f &&& b) == b

/-- A B+tree node as seen through `BtreeNodeProxy`: the keys of its slots and the
addresses of its sibling leaves (0 = none). -/
structure Node where
  keys : List Nat
  left_sibling : Nat
  right_sibling : Nat
deriving DecidableEq, Repr

/-- The accessor `node->length()`. -/
def Node.length (node : Node) : Nat := node.keys.length

/-- Modelled from the spec: `BtreeNodeProxy::find_lower_bound(context, key, 0, &cmp)` is
not among the sources.  It yields `(slot, cmp)`: the slot of the greatest stored
key that is not greater than `key`, or -1 when every stored key is greater;
`cmp` is 0 exactly when the key of that slot equals `key`, negative when the slot
is -1 and positive when the slot's key is smaller than `key`. -/
def Node.find_lower_bound (node : Node) (key : Nat) : Int × Int :=
  let c := node.keys.countP (fun k => decide (k ≤ key))
  if c = 0 then (-1, -1)
  else if node.keys.getD (c - 1) 0 = key then ((c : Int) - 1, 0)
  else ((c : Int) - 1, 1)

/-- Modelled from the spec: `BtreeNodeProxy::find(context, key)` is not among the
sources; the exact search gives the slot of `key`, or -1 on a miss. -/
def Node.find (node : Node) (key : Nat) : Int :=
  if (node.find_lower_bound key).2 = 0 then (node.find_lower_bound key).1 else -1

/-- The statistics hints `BtreeStatistics::FindHints` as far as `run` reads them. -/
structure FindHints where
  try_fast_track : Bool
  leaf_page_addr : Nat
deriving DecidableEq, Repr

/-- What `run` returns: an error status, or success (status 0) with the page and slot
the cursor is coupled to and the flags patched into the key (0 = exact match). -/
inductive RunResult where
  | error (status : Int)
  | success (page : Nat) (slot : Int) (approx : Nat)
deriving DecidableEq, Repr

/-! ## BtreeFindAction -/

/-- The method `BtreeFindAction::find(context, page, key, flags, is_approx_match)` on
the node of `page`: the returned slot and the value left in `*is_approx_match`. -/
def find (node : Node) (key flags : Nat) : Int × Nat :=
  if node.length = 0 then (-1, 0)
  else
    let slot := (node.find_lower_bound key).1
    let cmp := (node.find_lower_bound key).2
    if cmp = 0 ∧ (flags = 0 ∨ isset flags UPS_FIND_EQ_MATCH) then (slot, 0)
    else if isset flags UPS_FIND_LT_MATCH then
      if cmp = 0 ∧ isset flags UPS_FIND_GT_MATCH then (slot + 1, kLower)
      else if slot < 0 ∧ isset flags UPS_FIND_GT_MATCH then (0, kGreater)
      else (if cmp ≤ 0 then slot - 1 else slot, kLower)
    else if isset flags UPS_FIND_GT_MATCH then (slot + 1, kGreater)
    else (if cmp ≠ 0 then -1 else slot, 0)

/-- The fast track of `run` (`if (hints.try_fast_track)`): the values of `page` and
`slot` after it.  `cached a` tells whether the fetch with `kOnlyFromCache`
finds page `a`. -/
def fastTrack (pages : Nat → Node) (cached : Nat → Bool) (hints : FindHints)
    (key flags : Nat) : Nat × Int :=
  if hints.try_fast_track then
    if cached hints.leaf_page_addr then
      let node := pages hints.leaf_page_addr
      let r := find node key flags
      if r.2 ≠ 0 ∨ r.1 ≤ 0 ∨ r.1 ≥ (node.length : Int) - 1 then (hints.leaf_page_addr, -1)
      else (hints.leaf_page_addr, r.1)
    else (0, -1)
  else (0, -1)

/-- The tail of `run` from `if (unlikely(slot == -1))` on: the step to a sibling
leaf, the final check of the slot, and `return_result`. -/
def finish (pages : Nat → Node) (page : Nat) (slot : Int) (is_approx_match : Nat) : RunResult :=
  let node := pages page
  let s : Nat × Int × Nat :=
    if slot = -1 then
      if node.left_sibling > 0 then
        (node.left_sibling, ((pages node.left_sibling).length : Int) - 1, kLower)
      else (page, slot, is_approx_match)
    else if slot ≥ (node.length : Int) then
      if node.right_sibling > 0 then (node.right_sibling, 0, kGreater)
      else (page, -1, is_approx_match)
    else (page, slot, is_approx_match)
  if s.2.1 < 0 then RunResult.error UPS_KEY_NOT_FOUND
  else RunResult.success s.1 s.2.1 s.2.2

/-- The method `BtreeFindAction::run()`.  `pages` is the page manager (address to
node), `hints` what `stats->find_hints(flags)` returned, and `descent` the outcome
of the loop `while (!node->is_leaf())` over `BtreeIndex::find_lower_bound`, which
is not among the sources: the address of the leaf it reaches, or `none` when a
child page could not be fetched. -/
def run (pages : Nat → Node) (cached : Nat → Bool) (hints : FindHints) (descent : Option Nat)
    (key flags : Nat) : RunResult :=
  let ft := fastTrack pages cached hints key flags
  if ft.2 = -1 then
    match descent with
    | none => RunResult.error UPS_KEY_NOT_FOUND
    | some leaf =>
      if flags = 0 then
        let slot := (pages leaf).find key
        if slot = -1 then RunResult.error UPS_KEY_NOT_FOUND
        else RunResult.success leaf slot 0
      else
        let r := find (pages leaf) key flags
        finish pages leaf r.1 r.2
  else finish pages ft.1 ft.2 0

end BtreeFind

/-! # B-tree insert (`src/btree_insert.c`)

Pages are addressed by their id (`0` is the null page); a page's payload is its
`btree_node_t`.  Keys are natural numbers under their usual order (the comparator),
records and rids are ids.  `btree_insert` passes the cursor `0`, so cursors do not
occur; keys fit into the key size of the database, so no extended key is created.
The count of a node is the length of its entry list. -/

namespace BtreeInsert

/-- Modelled from the spec: the status `HAM_SUCCESS` (`OK`). -/
def HAM_SUCCESS : Int := 0

/-- Modelled from the spec: the status `HAM_DUPLICATE_KEY`. -/
def HAM_DUPLICATE_KEY : Int := -12

/-- Modelled from the spec: the status that `db_get_error` reports after a failed
page allocation. -/
def HAM_OUT_OF_MEMORY : Int := -6

/-- Modelled from the spec: the status that `db_get_error` reports when a child page
cannot be fetched. -/
def HAM_INTERNAL_ERROR : Int := -14

/-- The return value `SPLIT` (`#define SPLIT 1`). -/
def SPLIT : Int := 1

/-- The flag `NOFLUSH` (`#define NOFLUSH 0x1000`). -/
def NOFLUSH : Nat := 0x1000

/-- Modelled from the spec: the insert flag `overwrite`. -/
def HAM_OVERWRITE : Nat := 1

/-- Modelled from the spec: the insert flag `duplicate`. -/
def HAM_DUPLICATE : Nat := 2

/-- Modelled from the spec: the database flag of record-number indexes. -/
def HAM_RECORD_NUMBER : Nat := 0x2000

/-- An entry of a node (`int_key_t`): the key, the rid (`key_get_ptr`: the child page
in an internal node, the record in a leaf) and the further records of the duplicate
chain of the key. -/
structure int_key_t where
  key : Nat
  ptr : Nat
  dupes : List Nat
deriving DecidableEq, Inhabited

/-- The node of a page (`btree_node_t`): `ptr_left`, the sibling links `left` and
`right`, and the `count` entries. -/
structure btree_node_t where
  ptr_left : Nat
  left : Nat
  right : Nat
  entries : List int_key_t
deriving DecidableEq, Inhabited

/-- The database with its backend (`ham_db_t`, `ham_btree_t`): the pages, the id of
the page that the next allocation hands out, whether the allocation of a page id
succeeds, the root page, `maxkeys` and the runtime flags. -/
structure ham_db_t where
  pages : Nat → btree_node_t
  next : Nat
  avail : Nat → Bool
  rootpage : Nat
  maxkeys : Nat
  rt_flags : Nat

/-- The fields of `insert_scratchpad_t` that an insert without cursor uses: the flags
and the record of the call, and the key and rid that a split propagates. -/
structure insert_scratchpad_t where
  flags : Nat
  record : Nat
  key : Nat
  rid : Nat
deriving DecidableEq

/-- A store into the node of page `id`. -/
def ham_db_t.setPage (db : ham_db_t) (id : Nat) (n : btree_node_t) : ham_db_t :=
  { db with pages := fun i => if i = id then n else db.pages i }

/-- Modelled from the spec: `btree_node_is_leaf`; an internal node has a `ptr_left`,
a leaf has none. -/
def btree_node_is_leaf (n : btree_node_t) : Bool := decide (n.ptr_left = 0)

/-- Modelled from the spec: `db_alloc_page`; the page manager hands out the page
`db.next` or fails. -/
def db_alloc_page (db : ham_db_t) : Option (Nat × ham_db_t) :=
  if db.avail db.next = true then some (db.next, { db with next := db.next + 1 }) else none

/-- Modelled from the spec: `key_compare_int_to_pub`; the key of an entry compared
with a caller's key (negative, zero, positive). -/
def key_compare_int_to_pub (e : int_key_t) (key : Nat) : Int :=
  if e.key < key then -1 else if e.key = key then 0 else 1

/-- Modelled from the spec: `btree_get_slot`, the binary search for the insertion
slot; on a node with ascending keys the slot of the greatest key that is not
greater than `key` (`-1` when there is none) and the comparison of that key with
`key`. -/
def btree_get_slot (node : btree_node_t) (key : Nat) : Int × Int :=
  let n := node.entries.countP (fun e => decide (e.key ≤ key))
  if n = 0 then (-1, 1)
  else ((n : Int) - 1, key_compare_int_to_pub (node.entries.getD (n - 1) default) key)

/-- Modelled from the spec: `btree_node_search_by_key`; the slot of `key` in the
node, or `-1`. -/
def btree_node_search_by_key (node : btree_node_t) (key : Nat) : Int :=
  let r := btree_get_slot node key
  if r.1 ≥ 0 ∧ r.2 = 0 then r.1 else -1

/-- Modelled from the spec: `btree_traverse_tree`; the child page that covers `key`:
`ptr_left` for slot `-1`, else the rid of the slot. -/
def btree_traverse_tree (node : btree_node_t) (key : Nat) : Nat :=
  let r := btree_get_slot node key
  if r.1 = -1 then node.ptr_left else (node.entries.getD r.1.toNat default).ptr

/-- Modelled from the spec: `key_set_record`; a new key or `overwrite` stores the
record reference, `duplicate` appends the record to the duplicate chain. -/
def key_set_record (bte : int_key_t) (is_new : Bool) (record flags : Nat) : int_key_t :=
  if is_new = true ∨ flags &&& HAM_OVERWRITE ≠ 0 then { bte with ptr := record }
  else { bte with dupes := bte.dupes ++ [record] }

/-- Modelled from the spec: `key_set_ptr`. -/
def key_set_ptr (bte : int_key_t) (rid : Nat) : int_key_t := { bte with ptr := rid }

/-- The tail of `my_insert_nosplit` for a new key at `slot`: the entries from `slot`
on are shifted to the right, the entry is cleared, the record or the rid and the key
are stored and the count grows by one. -/
def insert_new (db : ham_db_t) (page key rid record flags slot : Nat) : Int × ham_db_t :=
  let node := db.pages page
  let bte0 : int_key_t := ⟨0, 0, []⟩
  let bte1 :=
    if btree_node_is_leaf node = true then key_set_record bte0 true record flags
    else key_set_ptr bte0 rid
  let bte2 := { bte1 with key := key }
  (0, db.setPage page
    { node with entries := node.entries.take slot ++ bte2 :: node.entries.drop slot })

/-- The function `my_insert_nosplit(page, key, rid, record, cursor, flags)` with
`cursor = 0`. -/
def my_insert_nosplit (db : ham_db_t) (page key rid record flags : Nat) : Int × ham_db_t :=
  let node := db.pages page
  if node.entries.length = 0 then insert_new db page key rid record flags 0
  else
    let r := btree_get_slot node key
    let slot := r.1
    let cmp := r.2
    if slot = -1 then insert_new db page key rid record flags 0
    else if cmp = 0 then
      if flags &&& HAM_OVERWRITE ≠ 0 ∧ btree_node_is_leaf node = false then (HAM_SUCCESS, db)
      else if flags &&& HAM_OVERWRITE = 0 ∧ flags &&& HAM_DUPLICATE = 0 then
        (HAM_DUPLICATE_KEY, db)
      else
        let bte := node.entries.getD slot.toNat default
        let bte1 :=
          if btree_node_is_leaf node = true then key_set_record bte false record flags
          else key_set_ptr bte rid
        (0, db.setPage page { node with entries := node.entries.set slot.toNat bte1 })
    else if cmp < 0 then insert_new db page key rid record flags (slot + 1).toNat
    else insert_new db page key rid record flags slot.toNat

/-- The first part of `my_insert_split` ("move half of the key/rid-tuples to the new
page", "adjust the page count", "fix the ptr_left of the new page"): the header of
the new page is cleared; a leaf moves the entries from `pivot` on, an internal node
those behind `pivot`, and its new page gets the rid of the entry at `pivot` as
`ptr_left`. -/
def move_entries (db : ham_db_t) (page newpage pivot : Nat) : ham_db_t :=
  let obtp := db.pages page
  let pivotentry := obtp.entries.getD pivot default
  let nbtp : btree_node_t :=
    { ptr_left := if btree_node_is_leaf obtp = true then 0 else pivotentry.ptr,
      left := 0, right := 0,
      entries :=
        if btree_node_is_leaf obtp = true then obtp.entries.drop pivot
        else obtp.entries.drop (pivot + 1) }
  (db.setPage newpage nbtp).setPage page { obtp with entries := obtp.entries.take pivot }

/-- The last part of `my_insert_split` ("fix the double-linked list of pages"). -/
def fix_links (db : ham_db_t) (page newpage : Nat) : ham_db_t :=
  let oldsib := (db.pages page).right
  let db4 := db.setPage newpage
    { db.pages newpage with left := page, right := (db.pages page).right }
  let db5 := db4.setPage page { db4.pages page with right := newpage }
  if oldsib ≠ 0 then db5.setPage oldsib { db5.pages oldsib with left := newpage } else db5

/-- The function `my_insert_split(page, key, rid, flags, scratchpad)`.  The entry at
`pivot` is read from the old page after its count was lowered; it still is the
entry that stood there before. -/
def my_insert_split (db : ham_db_t) (page key rid flags : Nat) (sp : insert_scratchpad_t) :
    Int × ham_db_t × insert_scratchpad_t :=
  match db_alloc_page db with
  | none => (HAM_OUT_OF_MEMORY, db, sp)
  | some (newpage, db1) =>
    let obtp := db1.pages page
    let count := obtp.entries.length
    let pivot :=
      if db1.rt_flags &&& HAM_RECORD_NUMBER ≠ 0 ∧ count > 8 then count - 4 else count / 2
    let pivotentry := obtp.entries.getD pivot default
    let db2 := move_entries db1 page newpage pivot
    let cmp := key_compare_int_to_pub pivotentry key
    let r :=
      if cmp ≤ 0 then my_insert_nosplit db2 newpage key rid sp.record (flags ||| NOFLUSH)
      else my_insert_nosplit db2 page key rid sp.record (flags ||| NOFLUSH)
    if r.1 ≠ 0 then (r.1, r.2, sp)
    else (SPLIT, fix_links r.2 page newpage, { sp with key := pivotentry.key, rid := newpage })

/-- The function `my_insert_in_page(page, key, rid, flags, scratchpad)`. -/
def my_insert_in_page (db : ham_db_t) (page key rid flags : Nat) (sp : insert_scratchpad_t) :
    Int × ham_db_t × insert_scratchpad_t :=
  let node := db.pages page
  if node.entries.length < db.maxkeys then
    let r := my_insert_nosplit db page key rid sp.record flags
    (r.1, r.2, sp)
  else if btree_node_is_leaf node = true ∧ btree_node_search_by_key node key ≥ 0 then
    if flags &&& HAM_OVERWRITE ≠ 0 ∨ flags &&& HAM_DUPLICATE ≠ 0 then
      let r := my_insert_nosplit db page key rid sp.record flags
      (r.1, r.2, sp)
    else (HAM_DUPLICATE_KEY, db, sp)
  else my_insert_split db page key rid flags sp

/-- The function `my_insert_recursive(page, key, rid, scratchpad)`.  The first argument
bounds the depth of the recursion; `btree_insert_cursor` passes the number of pages,
which no descent exceeds. -/
def my_insert_recursive : Nat → ham_db_t → Nat → Nat → Nat → insert_scratchpad_t →
    Int × ham_db_t × insert_scratchpad_t
  | 0, db, _, _, _, sp => (HAM_INTERNAL_ERROR, db, sp)
  | fuel + 1, db, page, key, rid, sp =>
    let node := db.pages page
    if btree_node_is_leaf node = true then my_insert_in_page db page key rid sp.flags sp
    else
      let child := btree_traverse_tree node key
      if child = 0 then (HAM_INTERNAL_ERROR, db, sp)
      else
        let r := my_insert_recursive fuel db child key rid sp
        if r.1 = SPLIT then
          my_insert_in_page r.2.1 page r.2.2.key r.2.2.rid (r.2.2.flags ||| HAM_OVERWRITE) r.2.2
        else r

/-- The function `btree_insert_cursor(be, key, record, cursor, flags)` with
`cursor = 0`: the status and the database afterwards. -/
def btree_insert_cursor (db : ham_db_t) (key record flags : Nat) : Int × ham_db_t :=
  let sp : insert_scratchpad_t := ⟨flags, record, 0, 0⟩
  let r := my_insert_recursive db.next db db.rootpage key 0 sp
  if r.1 = SPLIT then
    match db_alloc_page r.2.1 with
    | none => (HAM_OUT_OF_MEMORY, r.2.1)
    | some (newroot, db2) =>
      let db3 := db2.setPage newroot
        { ptr_left := db2.rootpage, left := 0, right := 0, entries := [] }
      let r2 := my_insert_nosplit db3 newroot r.2.2.key r.2.2.rid r.2.2.record
        (flags ||| NOFLUSH)
      if r2.1 ≠ 0 then r2
      else (r2.1, { r2.2 with rootpage := newroot })
  else (r.1, r.2.1)

/-- The function `btree_insert(be, key, record, flags)`. -/
def btree_insert (db : ham_db_t) (key record flags : Nat) : Int × ham_db_t :=
  btree_insert_cursor db key record flags

/-- Modelled from the spec: the empty tree; its root (page 1) is a leaf without keys,
and every allocation succeeds. -/
def empty_tree (maxkeys rt_flags : Nat) : ham_db_t :=
  { pages := fun _ => ⟨0, 0, 0, []⟩, next := 2, avail := fun _ => true, rootpage := 1,
    maxkeys := maxkeys, rt_flags := rt_flags }

/-- A sequence of calls of `btree_insert` without flags, the record of a key being the
key: the statuses and the database afterwards. -/
def insert_all (db : ham_db_t) : List Nat → List Int × ham_db_t
  | [] => ([], db)
  | k :: ks =>
    let r := btree_insert db k k 0
    let rs := insert_all r.2 ks
    (r.1 :: rs.1, rs.2)

/-- The descent from `page` along `ptr_left` to a leaf; at most `fuel` pages. -/
def leftmost_leaf (pages : Nat → btree_node_t) : Nat → Nat → Nat
  | 0, page => page
  | fuel + 1, page =>
    if (pages page).ptr_left = 0 then page else leftmost_leaf pages fuel (pages page).ptr_left

/-- The walk along `right` from the leaf `page`: the keys met; at most `fuel` leaves. -/
def walk_right (pages : Nat → btree_node_t) : Nat → Nat → List Nat
  | 0, _ => []
  | fuel + 1, page =>
    if page = 0 then []
    else (pages page).entries.map (fun e => e.key) ++ walk_right pages fuel (pages page).right

/-- The keys met by walking the leaves from the leftmost leaf along `right_sibling`
(the ordered scan).  There are fewer than `db.next` pages. -/
def leaf_walk (db : ham_db_t) : List Nat :=
  walk_right db.pages db.next (leftmost_leaf db.pages db.next db.rootpage)

/-- The counts of the leaves met on the walk from the leaf `page` along `right`. -/
def walk_counts (pages : Nat → btree_node_t) : Nat → Nat → List Nat
  | 0, _ => []
  | fuel + 1, page =>
    if page = 0 then []
    else (pages page).entries.length :: walk_counts pages fuel (pages page).right

/-- The sum of the counts of the leaves on the walk from the leftmost leaf. -/
def leaf_count_sum (db : ham_db_t) : Nat :=
  (walk_counts db.pages db.next (leftmost_leaf db.pages db.next db.rootpage)).sum

end BtreeInsert

/-! ## The invariants of the tree -/

namespace BtreeInsert

/-- The part of a node that the order of the tree rests on: `ptr_left`, and the keys
of the entries, in an internal node with their child pages. -/
def shape (n : btree_node_t) : Nat × List (Nat × Nat) :=
  (n.ptr_left, n.entries.map (fun e => (e.key, if n.ptr_left = 0 then 0 else e.ptr)))

/-- The shapes of the pages of a database. -/
def shapes (db : ham_db_t) : Nat → Nat × List (Nat × Nat) := fun q => shape (db.pages q)

/-- The children of an internal node: `ptr_left`, then the child of every entry. -/
def kids (s : Nat × List (Nat × Nat)) : List Nat := s.1 :: s.2.map Prod.snd

/-- The pages of the subtree of height `h` below page `p`. -/
def pagesOf (sh : Nat → Nat × List (Nat × Nat)) : Nat → Nat → List Nat
  | 0, p => [p]
  | h + 1, p => p :: (kids (sh p)).flatMap (pagesOf sh h)

/-- The leaves of the subtree of height `h` below page `p`, from left to right. -/
def leavesOf (sh : Nat → Nat × List (Nat × Nat)) : Nat → Nat → List Nat
  | 0, p => [p]
  | h + 1, p => (kids (sh p)).flatMap (leavesOf sh h)

/-- The keys of the leaves of the subtree of height `h` below page `p`, from left to
right (the in-order traversal). -/
def keysOf (sh : Nat → Nat × List (Nat × Nat)) : Nat → Nat → List Nat
  | 0, p => (sh p).2.map Prod.fst
  | h + 1, p => (kids (sh p)).flatMap (keysOf sh h)

/-- The left-separator convention for the child `c` that starts at the bound `lo`,
followed by the entries `es`, below the bound `hi`: every key is greater than the
bound before it, and the subtree of a child holds the keys from its bound up to,
but not including, the next key (`S c lo hi` says so of the subtree below `c`). -/
def Kids (S : Nat → Nat → Nat → Prop) : Nat → Nat → List (Nat × Nat) → Nat → Prop
  | c, lo, [], hi => lo < hi ∧ S c lo hi
  | c, lo, e :: es, hi => lo < e.1 ∧ S c lo e.1 ∧ Kids S e.2 e.1 es hi

/-- The subtree of height `h` below page `p` is ordered and holds keys from `lo` up
to, but not including, `hi`: a leaf (height 0) has no `ptr_left` and strictly
ascending keys within the bounds; an internal node has a `ptr_left`, strictly
ascending keys and obeys the left-separator convention. -/
def Sub (sh : Nat → Nat × List (Nat × Nat)) : Nat → Nat → Nat → Nat → Prop
  | 0, p, lo, hi =>
    (sh p).1 = 0 ∧ ((sh p).2.map Prod.fst).Pairwise (· < ·) ∧
      ∀ k ∈ (sh p).2.map Prod.fst, lo ≤ k ∧ k < hi
  | h + 1, p, lo, hi => (sh p).1 ≠ 0 ∧ Kids (Sub sh h) (sh p).1 lo (sh p).2 hi

/-- The pages `ls` form a doubly linked list between `prev` and `nxt`. -/
def Chain (pages : Nat → btree_node_t) : Nat → List Nat → Nat → Prop
  | _, [], _ => True
  | prev, l :: ls, nxt =>
    (pages l).left = prev ∧ (pages l).right = ls.headD nxt ∧ Chain pages l ls nxt

/-- The right link of every internal node among the pages below `next` is null or
leads to an internal node. -/
def InternalLinks (pages : Nat → btree_node_t) (next : Nat) : Prop :=
  ∀ q, q < next → (pages q).ptr_left ≠ 0 →
    (pages q).right = 0 ∨ ((pages q).right < next ∧ (pages (pages q).right).ptr_left ≠ 0)

/-- The invariants of a tree of height `h` with keys below `hi`: every node's keys
are strictly ascending and every internal node obeys the left-separator convention
(`Sub`), the leaves form a doubly linked list in the order of the tree (`Chain`),
the pages of the tree are distinct allocated pages, and no internal node links to a
leaf. -/
def TreeAt (db : ham_db_t) (h hi : Nat) : Prop :=
  Sub (shapes db) h db.rootpage 0 hi ∧
  (pagesOf (shapes db) h db.rootpage).Nodup ∧
  (∀ q ∈ pagesOf (shapes db) h db.rootpage, 0 < q ∧ q < db.next) ∧
  Chain db.pages 0 (leavesOf (shapes db) h db.rootpage) 0 ∧
  InternalLinks db.pages db.next

/-- The invariants of the tree, for some height and some bound of the keys. -/
def TreeInv (db : ham_db_t) : Prop := ∃ h hi, TreeAt db h hi

/-- The number of entries whose key is not greater than `key`. -/
def lower_count (es : List int_key_t) (key : Nat) : Nat :=
  es.countP (fun e => decide (e.key ≤ key))

/-- The entry `x` put into the entries `es` behind those whose key is not greater
(the sorted position). -/
def put (x : int_key_t) (es : List int_key_t) : List int_key_t :=
  es.take (lower_count es x.key) ++ x :: es.drop (lower_count es x.key)

/-- The entry that `my_insert_nosplit` creates for a new key: a leaf stores the
record, an internal node the rid. -/
def new_entry (leaf : Bool) (key rid record : Nat) : int_key_t :=
  ⟨key, if leaf = true then record else rid, []⟩

/-- The node `n` with the entries `es`. -/
def set_entries (n : btree_node_t) (es : List int_key_t) : btree_node_t :=
  { n with entries := es }

/-- The pivot index of `my_insert_split` for a node with `count` entries. -/
def pivot_index (rt_flags count : Nat) : Nat :=
  if rt_flags &&& HAM_RECORD_NUMBER ≠ 0 ∧ count > 8 then count - 4 else count / 2

/-- The entries that the old page keeps in `my_insert_split`: those before `pivot`,
with `x` among them when its key is smaller than the key at `pivot`. -/
def split_old (es : List int_key_t) (pivot : Nat) (x : int_key_t) : List int_key_t :=
  if (es.getD pivot default).key ≤ x.key then es.take pivot else put x (es.take pivot)

/-- The entries of the new page in `my_insert_split`: those from `pivot` on in a leaf,
those behind `pivot` in an internal node, with `x` among them when its key is not
smaller than the key at `pivot`. -/
def split_new (leaf : Bool) (es : List int_key_t) (pivot : Nat) (x : int_key_t) :
    List int_key_t :=
  if (es.getD pivot default).key ≤ x.key then
    put x (es.drop (if leaf = true then pivot else pivot + 1))
  else es.drop (if leaf = true then pivot else pivot + 1)

/-- The database after a split of page `p`: the new page `db.next` with `ptr_left`
`pl` and the entries `new` is linked behind `p`, which keeps the entries `old`. -/
def split_db (db : ham_db_t) (p pl : Nat) (old new : List int_key_t) : ham_db_t :=
  let db1 : ham_db_t := { db with next := db.next + 1 }
  let db2 := (db1.setPage db.next ⟨pl, p, (db.pages p).right, new⟩).setPage p
    ⟨(db.pages p).ptr_left, (db.pages p).left, db.next, old⟩
  if (db.pages p).right ≠ 0 then
    db2.setPage (db.pages p).right { db2.pages (db.pages p).right with left := db.next }
  else db2

/-- What an insert below a page hands to the parent: the propagated key and rid
after a split, nothing else. -/
def extra_of (st : Int) (sp : insert_scratchpad_t) : List (Nat × Nat) :=
  if st = SPLIT then [(sp.key, sp.rid)] else []

/-- The effect of an insert on the links of the leaves: either the leaves `ls` and
the links of every leaf page below `next` are unchanged, or a leaf `L` of `ls` was
split and the new leaf `next` stands behind it, between `L` and the former right
neighbour of `L`. -/
def LinkEff (pages pages1 : Nat → btree_node_t) (next : Nat) (ls ls1 : List Nat) : Prop :=
  (ls1 = ls ∧ ∀ q, q < next → (pages q).ptr_left = 0 →
      (pages1 q).left = (pages q).left ∧ (pages1 q).right = (pages q).right) ∨
  (∃ A B L, ls = A ++ L :: B ∧ ls1 = A ++ L :: next :: B ∧
      (pages1 next).ptr_left = 0 ∧ ((pages L).right ≠ next → (pages1 next).left = L) ∧
      (pages1 next).right = (pages L).right ∧
      ∀ q, q < next → (pages q).ptr_left = 0 →
        (pages1 q).right = (if q = L then next else (pages q).right) ∧
        (pages1 q).left =
          (if (pages L).right ≠ 0 ∧ q = (pages L).right then next else (pages q).left))

/-- The outcome of `my_insert_recursive` for a key that is not stored below page `p`
(a subtree of height `h` with the bounds `lo` and `hi`): with an allocator that
never fails the status is success or `SPLIT`; and then the subtree, or after a
split the two subtrees, are ordered within the bounds, hold the old keys and the
new one, consist of old pages of the subtree and of new pages, the other pages
keep their shape, and the links of the leaves change as `LinkEff` says. -/
def Outcome (db : ham_db_t) (h p lo hi key : Nat)
    (r : Int × ham_db_t × insert_scratchpad_t) : Prop :=
  ((∀ n, db.avail n = true) → r.1 = 0 ∨ r.1 = SPLIT) ∧
  (r.1 = 0 ∨ r.1 = SPLIT →
    db.next ≤ r.2.1.next ∧ r.2.1.avail = db.avail ∧ r.2.1.rootpage = db.rootpage ∧
    r.2.1.maxkeys = db.maxkeys ∧ r.2.1.rt_flags = db.rt_flags ∧
    (∀ q, q < db.next → q ∉ pagesOf (shapes db) h p → shapes r.2.1 q = shapes db q) ∧
    (∀ q, q < db.next → (r.2.1.pages q).ptr_left = (db.pages q).ptr_left) ∧
    InternalLinks r.2.1.pages r.2.1.next ∧
    Kids (Sub (shapes r.2.1) h) p lo (extra_of r.1 r.2.2) hi ∧
    ((p :: (extra_of r.1 r.2.2).map Prod.snd).flatMap (keysOf (shapes r.2.1) h)).Perm
      (key :: keysOf (shapes db) h p) ∧
    ((p :: (extra_of r.1 r.2.2).map Prod.snd).flatMap (pagesOf (shapes r.2.1) h)).Nodup ∧
    (∀ q ∈ (p :: (extra_of r.1 r.2.2).map Prod.snd).flatMap (pagesOf (shapes r.2.1) h),
      q ∈ pagesOf (shapes db) h p ∨ (db.next ≤ q ∧ q < r.2.1.next)) ∧
    LinkEff db.pages r.2.1.pages db.next (leavesOf (shapes db) h p)
      ((p :: (extra_of r.1 r.2.2).map Prod.snd).flatMap (leavesOf (shapes r.2.1) h)))

/-- The database `db1` differs from `db` at most in the records of leaf entries: the
page counter, the constants, the links and the shape of every page are the same. -/
def SameTree (db db1 : ham_db_t) : Prop :=
  db1.next = db.next ∧ db1.avail = db.avail ∧ db1.rootpage = db.rootpage ∧
  db1.maxkeys = db.maxkeys ∧ db1.rt_flags = db.rt_flags ∧
  ∀ q, (db1.pages q).left = (db.pages q).left ∧ (db1.pages q).right = (db.pages q).right ∧
    (db1.pages q).ptr_left = (db.pages q).ptr_left ∧ shape (db1.pages q) = shape (db.pages q)

/-- A tree whose root is a full leaf with the keys 10 and 20 (`maxkeys = 2`). -/
def full_leaf_tree : ham_db_t :=
  { pages := fun q => if q = 1 then ⟨0, 0, 0, [⟨10, 10, []⟩, ⟨20, 20, []⟩]⟩ else ⟨0, 0, 0, []⟩,
    next := 2, avail := fun _ => true, rootpage := 1, maxkeys := 2, rt_flags := 0 }

/-- The tree `full_leaf_tree` with a page manager that has no page left. -/
def full_leaf_tree_no_page : ham_db_t :=
  { full_leaf_tree with avail := fun _ => false }

/-- A tree of two levels with `maxkeys = 2` whose nodes are all full: the leaves 1, 2
and 3 hold the keys 10 and 20, 30 and 40, 50 and 60 and are linked in this order; the
root, page 4, has `ptr_left = 1` and the entries (30, page 2) and (50, page 3). -/
def full_two_level_tree : ham_db_t :=
  { pages := fun q =>
      if q = 1 then ⟨0, 0, 2, [⟨10, 10, []⟩, ⟨20, 20, []⟩]⟩
      else if q = 2 then ⟨0, 1, 3, [⟨30, 30, []⟩, ⟨40, 40, []⟩]⟩
      else if q = 3 then ⟨0, 2, 0, [⟨50, 50, []⟩, ⟨60, 60, []⟩]⟩
      else if q = 4 then ⟨1, 0, 0, [⟨30, 2, []⟩, ⟨50, 3, []⟩]⟩
      else ⟨0, 0, 0, []⟩,
    next := 5, avail := fun _ => true, rootpage := 4, maxkeys := 2, rt_flags := 0 }

/-- A tree whose root is a leaf with the keys 10 and 20 and room for two more
(`maxkeys = 4`). -/
def roomy_leaf_tree : ham_db_t :=
  { full_leaf_tree with maxkeys := 4 }

/-- The database `db` in which the entry of `key` in the leaf `leaf` refers to
`record`; no entry moves, and nothing else differs. -/
def overwrite_record (db : ham_db_t) (leaf key record : Nat) : ham_db_t :=
  db.setPage leaf (set_entries (db.pages leaf)
    ((db.pages leaf).entries.map (fun e => if e.key = key then { e with ptr := record } else e)))

/-- The pages that the descent of `my_insert_recursive` for `key` visits from `page`
with the depth bound `fuel`, each with the depth bound it is called with. -/
def descent (db : ham_db_t) (key : Nat) : Nat → Nat → List (Nat × Nat)
  | 0, _ => []
  | fuel + 1, page =>
    (fuel + 1, page) ::
      (if btree_node_is_leaf (db.pages page) = true then []
       else if btree_traverse_tree (db.pages page) key = 0 then []
       else descent db key fuel (btree_traverse_tree (db.pages page) key))

/-- The tree `full_two_level_tree` with a page manager that has one page left: the
allocation of page 5 succeeds, every other one fails. -/
def full_two_level_tree_one_page : ham_db_t :=
  { full_two_level_tree with avail := fun n => decide (n = 5) }

/-- The tree `full_two_level_tree` whose root, the internal node 4, has a right link
to the leaf 2.  The keys of every node ascend, the root obeys the left-separator
convention and the leaves 1, 2 and 3 are doubly linked in this order. -/
def stray_link_tree : ham_db_t :=
  { full_two_level_tree with
    pages := fun q =>
      if q = 4 then ⟨1, 0, 2, [⟨30, 2, []⟩, ⟨50, 3, []⟩]⟩ else full_two_level_tree.pages q }

/-- A record-number database whose root is a full leaf with the keys 1 to 10
(`maxkeys = 10`). -/
def recno_leaf_tree : ham_db_t :=
  { pages := fun q =>
      if q = 1 then ⟨0, 0, 0, (List.range 10).map (fun k => ⟨k + 1, k + 1, []⟩)⟩
      else ⟨0, 0, 0, []⟩,
    next := 2, avail := fun _ => true, rootpage := 1, maxkeys := 10,
    rt_flags := HAM_RECORD_NUMBER }

end BtreeInsert

namespace BtreeInsert

/-! ## Cursors

`btree_insert.c` calls `db_uncouple_all_cursors(page, start)` before it moves entries
of a page.  The cursors here are those of the database other than the cursor of the
insert itself. -/

/-- Modelled from the spec: a cursor (`ham_bt_cursor_t`, declared in a header that is
not among the sources) is nil, coupled to a slot of a page, or uncoupled and holding
a copy of its key. -/
inductive ham_bt_cursor_t where
  | nil
  | coupled (page slot : Nat)
  | uncoupled (key : Nat)
deriving DecidableEq

/-- Modelled from the spec: `db_uncouple_all_cursors(page, start)`, which is not among
the sources: "uncouple every cursor whose recorded slot lies at or beyond" `start`,
where "uncouple = copy the key bytes out of the page into cursor-owned storage and
mark the cursor as uncoupled".  The result is the state of the cursor `c` after the
call. -/
def db_uncouple_all_cursors (db : ham_db_t) (page start : Nat) (c : ham_bt_cursor_t) :
    ham_bt_cursor_t :=
  match c with
  | ham_bt_cursor_t.coupled p s =>
    if p = page ∧ start ≤ s then
      ham_bt_cursor_t.uncoupled ((db.pages p).entries.getD s default).key
    else c
  | _ => c

/-- Modelled from the spec: the key that a cursor denotes (`current_key()`): the key of
its slot when it is coupled, its copy of the key when it is uncoupled. -/
def current_key (db : ham_db_t) (c : ham_bt_cursor_t) : Option Nat :=
  match c with
  | ham_bt_cursor_t.nil => none
  | ham_bt_cursor_t.coupled p s => ((db.pages p).entries.get? s).map (fun e => e.key)
  | ham_bt_cursor_t.uncoupled k => some k

/-- A coupled cursor rests on a slot of an allocated page. -/
def cursor_on_slot (db : ham_db_t) (c : ham_bt_cursor_t) : Prop :=
  match c with
  | ham_bt_cursor_t.coupled p s => p < db.next ∧ s < (db.pages p).entries.length
  | _ => True

/-- The calls of `db_uncouple_all_cursors` in `my_insert_nosplit(page, key, ...)`: the
cursor `c` after the function.  An empty page and a key that exists already move no
entry and uncouple nothing; `slot == -1` goes to `shift_elements` with slot 0;
`cmp < 0` uncouples from `slot + 1`; otherwise `shift_elements` uncouples from
`slot`.  Each call stands before the `memmove`, so the keys are read from the page as
it is on entry. -/
def my_insert_nosplit_uncouple (db : ham_db_t) (page key : Nat) (c : ham_bt_cursor_t) :
    ham_bt_cursor_t :=
  let node := db.pages page
  if node.entries.length = 0 then c
  else
    let r := btree_get_slot node key
    let slot := r.1
    let cmp := r.2
    if slot = -1 then db_uncouple_all_cursors db page 0 c
    else if cmp = 0 then c
    else if cmp < 0 then db_uncouple_all_cursors db page (slot + 1).toNat c
    else db_uncouple_all_cursors db page slot.toNat c

/-- The calls of `db_uncouple_all_cursors` in `my_insert_split(page, key, ...)`: the
cursor `c` after the function.  The call with `pivot` stands before the `memcpy` to
the new page; then `my_insert_nosplit` runs on the new or on the old page. -/
def my_insert_split_uncouple (db : ham_db_t) (page key : Nat) (c : ham_bt_cursor_t) :
    ham_bt_cursor_t :=
  match db_alloc_page db with
  | none => c
  | some (newpage, db1) =>
    let obtp := db1.pages page
    let count := obtp.entries.length
    let pivot :=
      if db1.rt_flags &&& HAM_RECORD_NUMBER ≠ 0 ∧ count > 8 then count - 4 else count / 2
    let pivotentry := obtp.entries.getD pivot default
    let c1 := db_uncouple_all_cursors db1 page pivot c
    let db2 := move_entries db1 page newpage pivot
    let cmp := key_compare_int_to_pub pivotentry key
    if cmp ≤ 0 then my_insert_nosplit_uncouple db2 newpage key c1
    else my_insert_nosplit_uncouple db2 page key c1

end BtreeInsert
namespace BtreeInsert

/-! ## Extended keys

A key that is longer than the key size of the database keeps a prefix in the node;
`my_insert_nosplit` stores the rest in a blob. -/

/-- Modelled from the spec: `key_insert_extended`, which is not among the sources: it
allocates the blob for the key and returns the blob id, `0` when the blob cannot be
allocated.  `blob_avail` tells whether the allocation succeeds, `blob` is the id that
it hands out then. -/
def key_insert_extended (blob_avail : Bool) (blob : Nat) : Nat :=
  if blob_avail = true then blob else 0

/-- The tail of `my_insert_nosplit` for a new key at `slot`, with the size of the key:
the entries from `slot` on are shifted to the right (`memmove`), the entry is cleared
(`memset`) and the record or the rid and the key are stored.  A key with
`key_size > keysize` then asks `key_insert_extended` for a blob; when that returns `0`
the function returns `db_get_error(db)` (here `db_error`) in front of
`btree_node_set_count`, so that the node shows the first `count` of the shifted
slots.  In every other case the count grows by one. -/
def insert_new_extended (db : ham_db_t) (page key rid record flags slot : Nat)
    (key_size keysize : Nat) (blob_avail : Bool) (blob : Nat) (db_error : Int) :
    Int × ham_db_t :=
  let node := db.pages page
  let count := node.entries.length
  let bte0 : int_key_t := ⟨0, 0, []⟩
  let bte1 :=
    if btree_node_is_leaf node = true then key_set_record bte0 true record flags
    else key_set_ptr bte0 rid
  let bte2 := { bte1 with key := key }
  let slots := node.entries.take slot ++ bte2 :: node.entries.drop slot
  if key_size > keysize then
    let blobid := key_insert_extended blob_avail blob
    if blobid = 0 then (db_error, db.setPage page { node with entries := slots.take count })
    else (0, db.setPage page { node with entries := slots })
  else (0, db.setPage page { node with entries := slots })

/-- The function `my_insert_nosplit(page, key, rid, record, cursor, flags)` with
`cursor = 0`, for a key of the size `key_size` in a database with the key size
`keysize`.  A key that exists already returns in front of the part for extended
keys. -/
def my_insert_nosplit_extended (db : ham_db_t) (page key rid record flags : Nat)
    (key_size keysize : Nat) (blob_avail : Bool) (blob : Nat) (db_error : Int) :
    Int × ham_db_t :=
  let node := db.pages page
  if node.entries.length = 0 then
    insert_new_extended db page key rid record flags 0 key_size keysize blob_avail blob db_error
  else
    let r := btree_get_slot node key
    let slot := r.1
    let cmp := r.2
    if slot = -1 then
      insert_new_extended db page key rid record flags 0 key_size keysize blob_avail blob
        db_error
    else if cmp = 0 then
      if flags &&& HAM_OVERWRITE ≠ 0 ∧ btree_node_is_leaf node = false then (HAM_SUCCESS, db)
      else if flags &&& HAM_OVERWRITE = 0 ∧ flags &&& HAM_DUPLICATE = 0 then
        (HAM_DUPLICATE_KEY, db)
      else
        let bte := node.entries.getD slot.toNat default
        let bte1 :=
          if btree_node_is_leaf node = true then key_set_record bte false record flags
          else key_set_ptr bte rid
        (0, db.setPage page { node with entries := node.entries.set slot.toNat bte1 })
    else if cmp < 0 then
      insert_new_extended db page key rid record flags (slot + 1).toNat key_size keysize
        blob_avail blob db_error
    else
      insert_new_extended db page key rid record flags slot.toNat key_size keysize blob_avail
        blob db_error

/-! ## The slot of a new key

`my_insert_nosplit` moves and clears slots of `sizeof(int_key_t)-1+keysize` bytes: the
header of the key and a key area of `keysize` bytes.  The setters that it calls on the
slot of a new key are not among the sources. -/

/-- Modelled from the spec: the key flag `KEY_IS_EXTENDED` ("the `EXTENDED` flag"); only
that it is one bit matters. -/
def KEY_IS_EXTENDED : Nat := 0x08

/-- The slot of a key as far as the setters of `my_insert_nosplit` reach: the size and
the flags of the header, and the `keysize` bytes of the key area at the end of the
slot. -/
structure key_slot_t where
  size : Nat
  flags : Nat
  key : List Nat
deriving DecidableEq, Repr

/-- Modelled from the spec: `key_set_size` ("the slot records the key's full size"). -/
def key_set_size (bte : key_slot_t) (size : Nat) : key_slot_t := { bte with size := size }

/-- Modelled from the spec: `key_get_flags`. -/
def key_get_flags (bte : key_slot_t) : Nat := bte.flags

/-- Modelled from the spec: `key_set_flags`. -/
def key_set_flags (bte : key_slot_t) (flags : Nat) : key_slot_t := { bte with flags := flags }

/-- Modelled from the spec: `key_set_key(bte, ptr, len)` ("the first `keysize` bytes are
stored inline"): the first `len` bytes of the data go to the start of the key area. -/
def key_set_key (bte : key_slot_t) (data : List Nat) (len : Nat) : key_slot_t :=
  { bte with key := data.take len ++ bte.key.drop len }

/-- Modelled from the spec: the 8 bytes of a blob id in the file; the byte order is taken
as little-endian, nothing below depends on it. -/
def offset_bytes (rid : Nat) : List Nat :=
  (List.range 8).map (fun i => (rid >>> (8 * i)) % 256)

/-- Modelled from the spec: `key_set_extended_rid(db, bte, rid)` ("the blob id is stored
in the trailing 8 bytes of the slot"): the key area ends the slot, so the id takes the
last 8 of its `keysize` bytes; the call passes `db` for the key size. -/
def key_set_extended_rid (keysize : Nat) (bte : key_slot_t) (rid : Nat) : key_slot_t :=
  { bte with key := bte.key.take (keysize - 8) ++ offset_bytes rid
      ++ bte.key.drop keysize }

/-- The stores of `my_insert_nosplit` into the slot of a new key (`exists` is false),
from the `memset` to `btree_node_set_count`.  `key` holds the `key->size` bytes of
`key->data`, `rec_flags` the flags that `key_set_record` or `key_set_ptr` leaves in the
cleared slot.  The result is the status, the slot, and whether
`btree_node_set_count(node, count+1)` is reached. -/
def my_insert_nosplit_slot (keysize rec_flags : Nat) (key : List Nat) (blob_avail : Bool)
    (blob : Nat) (db_error : Int) : Int × key_slot_t × Bool :=
  let bte0 : key_slot_t := ⟨0, rec_flags, List.replicate keysize 0⟩
  let bte1 := key_set_size bte0 key.length
  let bte2 :=
    if key.length > keysize then key_set_flags bte1 (key_get_flags bte1 ||| KEY_IS_EXTENDED)
    else bte1
  let bte3 := key_set_key bte2 key (if keysize < key.length then keysize else key.length)
  if key.length > keysize then
    let bte4 := key_set_key bte3 key keysize
    let blobid := key_insert_extended blob_avail blob
    if blobid = 0 then (db_error, bte4, false)
    else (0, key_set_extended_rid keysize bte4 blobid, true)
  else (0, bte3, true)

end BtreeInsert
namespace BtreeInsert

/-! ## The cursor of the insert

`btree_insert_cursor` hands its cursor to `my_insert_recursive` in the scratchpad
(`scratchpad.cursor`); `my_insert_nosplit` couples a cursor that it is given to the
slot of the key.  The functions here follow the cursor of the insert through the
functions of `btree_insert.c`: the pair `(attached, c)` holds whether
`scratchpad->cursor` is non-null, and the state of the cursor.  The databases that
the functions work on are those of `my_insert_nosplit`, `my_insert_split`,
`my_insert_in_page` and `my_insert_recursive`. -/

/-- The end of the cursor part of `my_insert_nosplit` ("if we have a cursor: couple it
to the new key"): a cursor that was handed in is set to nil and coupled to `slot` of
`page`. -/
def couple_cursor (cursor : Bool) (c : ham_bt_cursor_t) (page slot : Nat) : ham_bt_cursor_t :=
  if cursor = true then ham_bt_cursor_t.coupled page slot else c

/-- The cursor of the insert after `my_insert_nosplit(page, key, rid, record, cursor,
flags)`; `cursor` tells whether the argument is non-null.  The calls of
`db_uncouple_all_cursors` reach every cursor of the page; an empty page gives slot 0;
the returns for a key that exists (`HAM_SUCCESS` in an internal node with
`HAM_OVERWRITE`, `HAM_DUPLICATE_KEY`) stand before the coupling. -/
def my_insert_nosplit_couple (db : ham_db_t) (page key flags : Nat) (cursor : Bool)
    (c : ham_bt_cursor_t) : ham_bt_cursor_t :=
  let node := db.pages page
  if node.entries.length = 0 then couple_cursor cursor c page 0
  else
    let r := btree_get_slot node key
    let slot := r.1
    let cmp := r.2
    if slot = -1 then couple_cursor cursor (db_uncouple_all_cursors db page 0 c) page 0
    else if cmp = 0 then
      if flags &&& HAM_OVERWRITE ≠ 0 ∧ btree_node_is_leaf node = false then c
      else if flags &&& HAM_OVERWRITE = 0 ∧ flags &&& HAM_DUPLICATE = 0 then c
      else couple_cursor cursor c page slot.toNat
    else if cmp < 0 then
      couple_cursor cursor (db_uncouple_all_cursors db page (slot + 1).toNat c) page
        (slot + 1).toNat
    else couple_cursor cursor (db_uncouple_all_cursors db page slot.toNat c) page slot.toNat

/-- The cursor of the insert after `my_insert_split(page, key, rid, flags,
scratchpad)`: `scratchpad->cursor` is cleared behind a `my_insert_nosplit` that
returned success. -/
def my_insert_split_couple (db : ham_db_t) (page key rid flags : Nat)
    (sp : insert_scratchpad_t) (sc : Bool × ham_bt_cursor_t) : Bool × ham_bt_cursor_t :=
  match db_alloc_page db with
  | none => sc
  | some (newpage, db1) =>
    let obtp := db1.pages page
    let count := obtp.entries.length
    let pivot :=
      if db1.rt_flags &&& HAM_RECORD_NUMBER ≠ 0 ∧ count > 8 then count - 4 else count / 2
    let pivotentry := obtp.entries.getD pivot default
    let c1 := db_uncouple_all_cursors db1 page pivot sc.2
    let db2 := move_entries db1 page newpage pivot
    let cmp := key_compare_int_to_pub pivotentry key
    let r :=
      if cmp ≤ 0 then my_insert_nosplit db2 newpage key rid sp.record (flags ||| NOFLUSH)
      else my_insert_nosplit db2 page key rid sp.record (flags ||| NOFLUSH)
    let c2 :=
      if cmp ≤ 0 then my_insert_nosplit_couple db2 newpage key (flags ||| NOFLUSH) sc.1 c1
      else my_insert_nosplit_couple db2 page key (flags ||| NOFLUSH) sc.1 c1
    if r.1 ≠ 0 then (sc.1, c2) else (false, c2)

/-- The cursor of the insert after `my_insert_in_page(page, key, rid, flags,
scratchpad)`: `scratchpad->cursor` is cleared behind each call of
`my_insert_nosplit`. -/
def my_insert_in_page_couple (db : ham_db_t) (page key rid flags : Nat)
    (sp : insert_scratchpad_t) (sc : Bool × ham_bt_cursor_t) : Bool × ham_bt_cursor_t :=
  let node := db.pages page
  if node.entries.length < db.maxkeys then
    (false, my_insert_nosplit_couple db page key flags sc.1 sc.2)
  else if btree_node_is_leaf node = true ∧ btree_node_search_by_key node key ≥ 0 then
    if flags &&& HAM_OVERWRITE ≠ 0 ∨ flags &&& HAM_DUPLICATE ≠ 0 then
      (false, my_insert_nosplit_couple db page key flags sc.1 sc.2)
    else sc
  else my_insert_split_couple db page key rid flags sp sc

/-- The cursor of the insert after `my_insert_recursive(page, key, rid, scratchpad)`. -/
def my_insert_recursive_couple : Nat → ham_db_t → Nat → Nat → Nat → insert_scratchpad_t →
    Bool × ham_bt_cursor_t → Bool × ham_bt_cursor_t
  | 0, _, _, _, _, _, sc => sc
  | fuel + 1, db, page, key, rid, sp, sc =>
    let node := db.pages page
    if btree_node_is_leaf node = true then
      my_insert_in_page_couple db page key rid sp.flags sp sc
    else
      let child := btree_traverse_tree node key
      if child = 0 then sc
      else
        let r := my_insert_recursive fuel db child key rid sp
        let rc := my_insert_recursive_couple fuel db child key rid sp sc
        if r.1 = SPLIT then
          my_insert_in_page_couple r.2.1 page r.2.2.key r.2.2.rid
            (r.2.2.flags ||| HAM_OVERWRITE) r.2.2 rc
        else rc

/-- The cursor `c` that is handed to `btree_insert_cursor(be, key, record, cursor,
flags)`, after the call.  The `my_insert_nosplit` for the new root gets
`scratchpad.cursor`, which the descent has cleared or left. -/
def btree_insert_cursor_couple (db : ham_db_t) (key record flags : Nat)
    (c : ham_bt_cursor_t) : ham_bt_cursor_t :=
  let sp : insert_scratchpad_t := ⟨flags, record, 0, 0⟩
  let r := my_insert_recursive db.next db db.rootpage key 0 sp
  let rc := my_insert_recursive_couple db.next db db.rootpage key 0 sp (true, c)
  if r.1 = SPLIT then
    match db_alloc_page r.2.1 with
    | none => rc.2
    | some (newroot, db2) =>
      let db3 := db2.setPage newroot
        { ptr_left := db2.rootpage, left := 0, right := 0, entries := [] }
      my_insert_nosplit_couple db3 newroot r.2.2.key (flags ||| NOFLUSH) rc.1 rc.2
  else rc.2

end BtreeInsert

/-! # The merge reader (B+tree and staged transactions) -/

namespace MergeReader

/-- Modelled from the spec: the loop of the merge reader, which is not among the sources
(only the tests of `unittests/uqi.cpp` that scan a database with staged inserts are).
The two streams hold (key, record) entries in key order: the walk along the leaves of
the B+tree and the staged entries.  "Peek both heads; emit whichever is smaller; on
equality, the staged entry wins and the B+tree entry is discarded."  The first argument
bounds the iterations. -/
def merge_loop : Nat → List (Nat × Nat) → List (Nat × Nat) → List (Nat × Nat)
  | 0, _, _ => []
  | _ + 1, [], [] => []
  | fuel + 1, a :: A, [] => a :: merge_loop fuel A []
  | fuel + 1, [], b :: B => b :: merge_loop fuel [] B
  | fuel + 1, a :: A, b :: B =>
    if a.1 < b.1 then a :: merge_loop fuel A (b :: B)
    else if b.1 < a.1 then b :: merge_loop fuel (a :: A) B
    else b :: merge_loop fuel A B

/-- Modelled from the spec: the merged scan of the B+tree stream and the staged stream;
every iteration of the loop consumes an entry. -/
def merge_scan (btree staged : List (Nat × Nat)) : List (Nat × Nat) :=
  merge_loop (btree.length + staged.length) btree staged

/-- Modelled from the spec: `COUNT($key)`, the number of rows of the merged scan. -/
def uqi_count (btree staged : List (Nat × Nat)) : Nat := (merge_scan btree staged).length

/-- Modelled from the spec: `SUM($key)`, the sum of the keys of the merged scan. -/
def uqi_sum (btree staged : List (Nat × Nat)) : Nat :=
  ((merge_scan btree staged).map Prod.fst).sum

end MergeReader

namespace Zint32

/-! ## Bytes and selectors -/

theorem or_shl (x y i : Nat) (h : x < 2 ^ i) : x ||| (y <<< i) = x + y * 2 ^ i := by
  rw [Nat.shiftLeft_eq, Nat.lor_comm, Nat.mul_comm, ← Nat.mul_add_lt_is_or h, Nat.add_comm]

theorem and_three (x : Nat) : x &&& 3 = x % 4 := Nat.and_pow_two_sub_one_eq_mod x 2

theorem and_mask (x c : Nat) (hc : c < 4) : x &&& varintgb_mask c = x % 2 ^ (8 * (c + 1)) := by
  interval_cases c
  · exact Nat.and_pow_two_sub_one_eq_mod x 8
  · exact Nat.and_pow_two_sub_one_eq_mod x 16
  · exact Nat.and_pow_two_sub_one_eq_mod x 24
  · exact Nat.and_pow_two_sub_one_eq_mod x 32

theorem codeOf_lt (d : Nat) : codeOf d < 4 := by
  unfold codeOf; split_ifs <;> omega

theorem selOf_lt (ds : List Nat) : selOf ds < 4 ^ ds.length := by
  induction ds with
  | nil => simp [selOf]
  | cons d ds ih =>
    have := codeOf_lt d
    simp only [selOf, List.length_cons, pow_succ]
    omega

theorem encodeBytes_length (d : Nat) : (encodeBytes d).length = codeOf d + 1 := by
  unfold encodeBytes codeOf; split_ifs <;> rfl

theorem rd_drop (mem l : List Nat) (q i : Nat) (h : mem.drop q = l) :
    rd mem (q + i) = l.getD i 0 := by
  subst h
  simp [rd, List.getD_eq_getElem?_getD, List.getElem?_drop]

theorem drop_append_right (mem a b : List Nat) (q : Nat) (h : mem.drop q = a ++ b) :
    mem.drop (q + a.length) = b := by
  rw [← List.drop_drop, h, List.drop_left]


theorem encodeSel_eq (keyp val j : Nat) (hk : keyp < 2 ^ j) (hj : j ≤ 6) :
    encodeSel keyp val j = keyp + codeOf val * 2 ^ j := by
  have h1 : ∀ c, c < 4 → keyp ||| ((c <<< j) % 256) = keyp + c * 2 ^ j := by
    intro c hc
    have : (c <<< j) % 256 = c <<< j := by
      apply Nat.mod_eq_of_lt
      rw [Nat.shiftLeft_eq]
      interval_cases j <;> omega
    rw [this, or_shl _ _ _ hk]
  unfold encodeSel codeOf
  split_ifs
  · simp
  · exact h1 1 (by omega)
  · exact h1 2 (by omega)
  · exact h1 3 (by omega)

theorem encodeGroup_eq (vs : List Nat) : ∀ (initial j keyp : Nat), keyp < 2 ^ j →
    j + 2 * vs.length ≤ 8 →
    encodeGroup initial vs j keyp
      = (keyp + 2 ^ j * selOf (deltas initial vs), payload (deltas initial vs)) := by
  induction vs with
  | nil => intro initial j keyp _ _; simp [encodeGroup, deltas, selOf, payload]
  | cons v vs ih =>
    intro initial j keyp hk hj
    simp only [List.length_cons] at hj
    have hc := codeOf_lt (wrap32 (v + 4294967296 - initial))
    have hlt : keyp + codeOf (wrap32 (v + 4294967296 - initial)) * 2 ^ j < 2 ^ (j + 2) := by
      rw [pow_succ, pow_succ]
      nlinarith
    simp only [encodeGroup, deltas, selOf, payload]
    rw [encodeSel_eq _ _ _ hk (by omega), ih _ _ _ hlt (by omega)]
    simp only [Prod.mk.injEq, and_true]
    rw [pow_succ, pow_succ]
    ring

theorem encodeGroup_zero (initial : Nat) (vs : List Nat) (h : vs.length ≤ 4) :
    encodeGroup initial vs 0 0 = (selOf (deltas initial vs), payload (deltas initial vs)) := by
  rw [encodeGroup_eq vs initial 0 0 (by norm_num) (by omega)]
  simp

theorem or2 (b0 b1 : Nat) (h0 : b0 < 256) : b0 ||| b1 <<< 8 = b0 + b1 * 256 := by
  rw [or_shl b0 b1 8 (by omega)]; norm_num

theorem or3 (b0 b1 b2 : Nat) (h0 : b0 < 256) (h1 : b1 < 256) :
    b0 ||| b1 <<< 8 ||| b2 <<< 16 = b0 + b1 * 256 + b2 * 65536 := by
  rw [or2 b0 b1 h0, or_shl _ b2 16 (by omega)]; norm_num

theorem or4 (b0 b1 b2 b3 : Nat) (h0 : b0 < 256) (h1 : b1 < 256) (h2 : b2 < 256) :
    b0 ||| b1 <<< 8 ||| b2 <<< 16 ||| b3 <<< 24
      = b0 + b1 * 256 + b2 * 65536 + b3 * 16777216 := by
  rw [or3 b0 b1 b2 h0 h1, or_shl _ b3 24 (by omega)]; norm_num

/-- The bytes `decodeCarefully` and `decodeSingleVarintDelta` assemble for one value
are the delta that `encodeArray` wrote. -/
theorem careful_value (mem : List Nat) (q d : Nat) (tail : List Nat) (hd : d < 4294967296)
    (h : mem.drop q = encodeBytes d ++ tail) :
    (if codeOf d ≥ 1 then
      if codeOf d ≥ 2 then
        if codeOf d ≥ 3 then
          (rd mem q ||| (rd mem (q + 1) <<< 8) ||| (rd mem (q + 2) <<< 16)
            ||| (rd mem (q + 3) <<< 24), q + 4)
        else (rd mem q ||| (rd mem (q + 1) <<< 8) ||| (rd mem (q + 2) <<< 16), q + 3)
      else (rd mem q ||| (rd mem (q + 1) <<< 8), q + 2)
    else (rd mem q, q + 1)) = (d, q + (codeOf d + 1)) := by
  have r0 := rd_drop mem _ q 0 h
  have r1 := rd_drop mem _ q 1 h
  have r2 := rd_drop mem _ q 2 h
  have r3 := rd_drop mem _ q 3 h
  rw [Nat.add_zero] at r0
  unfold encodeBytes at r0 r1 r2 r3
  unfold codeOf
  simp only [Nat.shiftRight_eq_div_pow] at r0 r1 r2 r3
  split_ifs at r0 r1 r2 r3 ⊢ with h1 h2 h3 <;> norm_num at r0 r1 r2 r3 ⊢ <;> first | omega | skip
  · rw [r0, r1, or2 _ _ (by omega)]; omega
  · rw [r0, r1, r2, or3 _ _ _ (by omega) (by omega)]; omega
  · rw [r0, r1, r2, r3, or4 _ _ _ _ (by omega) (by omega) (by omega)]; omega

/-- The masked word load of `decodeGroupVarIntDelta` is the delta that `encodeArray`
wrote. -/
theorem fast_value (mem : List Nat) (q d : Nat) (tail : List Nat) (hd : d < 4294967296)
    (h : mem.drop q = encodeBytes d ++ tail) :
    rd32 mem q &&& varintgb_mask (codeOf d) = d := by
  have r0 := rd_drop mem _ q 0 h
  have r1 := rd_drop mem _ q 1 h
  have r2 := rd_drop mem _ q 2 h
  have r3 := rd_drop mem _ q 3 h
  rw [Nat.add_zero] at r0
  rw [and_mask _ _ (codeOf_lt d)]
  unfold rd32
  unfold encodeBytes at r0 r1 r2 r3
  unfold codeOf
  simp only [Nat.shiftRight_eq_div_pow] at r0 r1 r2 r3
  split_ifs at r0 r1 r2 r3 ⊢ with h1 h2 h3 <;> norm_num at r0 r1 r2 r3 ⊢ <;> omega

theorem sel_and (d : Nat) (ds : List Nat) : selOf (d :: ds) &&& 3 = codeOf d := by
  have := codeOf_lt d
  rw [and_three, selOf]; omega

theorem sel_shift (d : Nat) (ds : List Nat) (h : ds.length ≤ 3) :
    (selOf (d :: ds) >>> 2) % 256 = selOf ds := by
  have := codeOf_lt d
  have h2 := selOf_lt ds
  have h3 : 4 ^ ds.length ≤ 4 ^ 3 := Nat.pow_le_pow_right (by omega) h
  rw [Nat.shiftRight_eq_div_pow, selOf]
  norm_num at h3 ⊢
  omega

theorem single_loop (mem : List Nat) (count : Nat) : ∀ (ds : List Nat) (n k q initial : Nat)
    (out tail : List Nat), n + k = 4 → k + ds.length = min count 4 →
    (∀ d ∈ ds, d < 4294967296) → mem.drop q = payload ds ++ tail →
    decodeSingleVarintDeltaLoop mem count n k (selOf ds) q initial out
      = ⟨q + (payload ds).length, (undelta initial ds).getLastD initial,
          out ++ undelta initial ds, k + ds.length⟩ := by
  intro ds
  induction ds with
  | nil =>
    intro n k q initial out tail hn hk _ _
    simp only [List.length_nil, Nat.add_zero] at hk
    cases n with
    | zero => simp [decodeSingleVarintDeltaLoop, payload, undelta]
    | succ n =>
      have hc : ¬ (k < count ∧ k < 4) := by omega
      simp [decodeSingleVarintDeltaLoop, hc, payload, undelta]
  | cons d ds ih =>
    intro n k q initial out tail hn hk hd hmem
    simp only [List.length_cons] at hk
    obtain ⟨n, rfl⟩ : ∃ m, n = m + 1 := ⟨n - 1, by omega⟩
    have hc : (k < count ∧ k < 4) := by omega
    have hdd : d < 4294967296 := hd d (List.mem_cons_self _ _)
    have hmem1 : mem.drop q = encodeBytes d ++ (payload ds ++ tail) := by
      rw [hmem, payload, List.append_assoc]
    have hmem2 : mem.drop (q + (codeOf d + 1)) = payload ds ++ tail := by
      rw [← encodeBytes_length]
      exact drop_append_right mem _ _ q hmem1
    rw [decodeSingleVarintDeltaLoop]
    simp only [hc, and_self, ↓reduceIte, sel_and, sel_shift d ds (by omega),
      careful_value mem q d _ hdd hmem1]
    rw [ih n (k + 1) (q + (codeOf d + 1)) _ _ tail (by omega) (by omega)
      (fun x hx => hd x (List.mem_cons_of_mem _ hx)) hmem2]
    simp only [payload, undelta, List.length_append, encodeBytes_length, List.length_cons,
      List.getLastD_cons, List.append_assoc, List.singleton_append, Decoded.mk.injEq]
    refine ⟨by omega, ?_, trivial, by omega⟩
    cases undelta (wrap32 (initial + d)) ds <;> simp [List.getLastD]


theorem careful_loop (mem : List Nat) (count : Nat) : ∀ (ds : List Nat) (n k q initial : Nat)
    (out tail : List Nat), n + k = 4 → k + ds.length = min count 4 →
    (∀ d ∈ ds, d < 4294967296) → mem.drop q = payload ds ++ tail →
    decodeCarefullyLoop mem count n k (selOf ds) q initial out
      = ⟨q + (payload ds).length, (undelta initial ds).getLastD initial,
          out ++ undelta initial ds, k + ds.length⟩ := by
  intro ds
  induction ds with
  | nil =>
    intro n k q initial out tail hn hk _ _
    simp only [List.length_nil, Nat.add_zero] at hk
    cases n with
    | zero => simp [decodeCarefullyLoop, payload, undelta]
    | succ n =>
      have hc : ¬ (k < count ∧ k < 4) := by omega
      simp [decodeCarefullyLoop, hc, payload, undelta]
  | cons d ds ih =>
    intro n k q initial out tail hn hk hd hmem
    simp only [List.length_cons] at hk
    obtain ⟨n, rfl⟩ : ∃ m, n = m + 1 := ⟨n - 1, by omega⟩
    have hc : (k < count ∧ k < 4) := by omega
    have hdd : d < 4294967296 := hd d (List.mem_cons_self _ _)
    have hmem1 : mem.drop q = encodeBytes d ++ (payload ds ++ tail) := by
      rw [hmem, payload, List.append_assoc]
    have hmem2 : mem.drop (q + (codeOf d + 1)) = payload ds ++ tail := by
      rw [← encodeBytes_length]
      exact drop_append_right mem _ _ q hmem1
    rw [decodeCarefullyLoop]
    simp only [hc, and_self, ↓reduceIte, sel_and, sel_shift d ds (by omega),
      careful_value mem q d _ hdd hmem1]
    rw [ih n (k + 1) (q + (codeOf d + 1)) _ _ tail (by omega) (by omega)
      (fun x hx => hd x (List.mem_cons_of_mem _ hx)) hmem2]
    simp only [payload, undelta, List.length_append, encodeBytes_length, List.length_cons,
      List.getLastD_cons, List.append_assoc, List.singleton_append, Decoded.mk.injEq]
    refine ⟨by omega, ?_, trivial, by omega⟩
    cases undelta (wrap32 (initial + d)) ds <;> simp [List.getLastD]

/-! ## Groups -/

theorem deltas_length (g : List Nat) : ∀ cur, (deltas cur g).length = g.length := by
  induction g with
  | nil => intro cur; rfl
  | cons v g ih => intro cur; simp [deltas, ih]

theorem deltas_lt (g : List Nat) : ∀ cur, ∀ d ∈ deltas cur g, d < 4294967296 := by
  induction g with
  | nil => intro cur d hd; simp [deltas] at hd
  | cons v g ih =>
    intro cur d hd
    simp only [deltas, List.mem_cons] at hd
    rcases hd with h | h
    · subst h; unfold wrap32; omega
    · exact ih v d h

theorem undelta_deltas (g : List Nat) : ∀ cur, cur < 4294967296 → (∀ v ∈ g, v < 4294967296) →
    undelta cur (deltas cur g) = g := by
  induction g with
  | nil => intro cur _ _; rfl
  | cons v g ih =>
    intro cur hc hg
    have hv : v < 4294967296 := hg v (List.mem_cons_self _ _)
    have e : wrap32 (cur + wrap32 (v + 4294967296 - cur)) = v := by
      unfold wrap32; omega
    simp only [deltas, undelta, e]
    rw [ih v hv (fun x hx => hg x (List.mem_cons_of_mem _ hx))]

theorem payload_length_le (ds : List Nat) :
    ds.length ≤ (payload ds).length ∧ (payload ds).length ≤ 4 * ds.length := by
  induction ds with
  | nil => simp [payload]
  | cons d ds ih =>
    have := codeOf_lt d
    simp only [payload, List.length_append, encodeBytes_length, List.length_cons]
    omega

theorem groupBytes_length (cur : Nat) (g : List Nat) :
    g.length + 1 ≤ (groupBytes cur g).length ∧ (groupBytes cur g).length ≤ 4 * g.length + 1 := by
  have := payload_length_le (deltas cur g)
  simp only [groupBytes, List.length_cons, deltas_length] at this ⊢
  omega

theorem encodeArray_nil (cur : Nat) : encodeArray cur [] = [] := by
  simp [encodeArray]

/-- The encoding of a non-empty sequence is the group of its first (up to) four
values followed by the encoding of the others. -/
theorem enc_group (cur : Nat) (rest : List Nat) (hne : rest ≠ []) :
    encodeArray cur rest = groupBytes cur (rest.take 4)
      ++ encodeArray ((rest.take 4).getLastD cur) (rest.drop 4) := by
  match rest, hne with
  | [a], _ => simp [encodeArray, groupBytes, encodeGroup_zero]
  | [a, b], _ => simp [encodeArray, groupBytes, encodeGroup_zero]
  | [a, b, c], _ => simp [encodeArray, groupBytes, encodeGroup_zero]
  | a :: b :: c :: d :: rest, _ =>
    simp [encodeArray, groupBytes, encodeGroup_zero, List.getLastD]

theorem encodeArray_length_ge_aux : ∀ (n : Nat) (rest : List Nat), rest.length ≤ n → ∀ cur,
    rest.length ≤ (encodeArray cur rest).length := by
  intro n
  induction n with
  | zero =>
    intro rest h cur
    omega
  | succ n ih =>
    intro rest h cur
    by_cases hne : rest = []
    · subst hne; simp
    · rw [enc_group cur rest hne, List.length_append]
      have h1 := (groupBytes_length cur (rest.take 4)).1
      have h0 : rest.length ≠ 0 := fun h0 => hne (List.length_eq_zero.1 h0)
      have h2 := ih (rest.drop 4) (by simp only [List.length_drop]; omega)
        ((rest.take 4).getLastD cur)
      simp only [List.length_take, List.length_drop] at h1 h2
      omega

theorem encodeArray_length_ge (cur : Nat) (rest : List Nat) :
    rest.length ≤ (encodeArray cur rest).length :=
  encodeArray_length_ge_aux rest.length rest (le_refl _) cur

theorem encodeArray_short (cur : Nat) (rest : List Nat) (h : rest.length ≤ 4) :
    (encodeArray cur rest).length ≤ 17 := by
  by_cases hne : rest = []
  · subst hne; simp [encodeArray_nil]
  · rw [enc_group cur rest hne, List.drop_eq_nil_of_le h, encodeArray_nil,
      List.append_nil]
    have := (groupBytes_length cur (rest.take 4)).2
    simp only [List.length_take] at this
    omega

/-! ## Decoding at a position of a block -/

theorem getLastD_lt (g : List Nat) (cur b : Nat) (hc : cur < b) (hg : ∀ v ∈ g, v < b) :
    g.getLastD cur < b := by
  cases g with
  | nil => simpa using hc
  | cons a g =>
    rw [List.getLastD_cons]
    rcases List.eq_nil_or_concat g with h | ⟨l, x, h⟩
    · subst h; simpa using hg a (List.mem_cons_self _ _)
    · subst h
      simp only [List.concat_eq_append, List.getLastD_concat]
      exact hg x (by simp)

theorem at_drop (mem : List Nat) (size p cur : Nat) (rest : List Nat)
    (h : At mem size p cur rest) :
    mem.drop p = encodeArray cur rest ++ (mem.drop p).drop (encodeArray cur rest).length := by
  conv_lhs => rw [← List.take_append_drop (encodeArray cur rest).length (mem.drop p)]
  rw [h.2.1]

theorem at_group_drop (mem : List Nat) (size p cur : Nat) (rest : List Nat)
    (h : At mem size p cur rest) (hne : rest ≠ []) :
    ∃ junk, mem.drop p = groupBytes cur (rest.take 4) ++
      (encodeArray ((rest.take 4).getLastD cur) (rest.drop 4) ++ junk) := by
  refine ⟨(mem.drop p).drop (encodeArray cur rest).length, ?_⟩
  rw [← List.append_assoc, ← enc_group cur rest hne]
  exact at_drop mem size p cur rest h

theorem at_pos_iff (mem : List Nat) (size p cur : Nat) (rest : List Nat)
    (h : At mem size p cur rest) : size > p ↔ rest ≠ [] := by
  have h1 := h.1
  constructor
  · intro hs hr
    subst hr
    simp [encodeArray_nil] at h1
    omega
  · intro hr
    have := encodeArray_length_ge cur rest
    have : rest.length ≠ 0 := fun h0 => hr (List.length_eq_zero.1 h0)
    omega

theorem at_next (mem : List Nat) (size p cur : Nat) (rest : List Nat)
    (h : At mem size p cur rest) (hne : rest ≠ []) :
    At mem size (p + (groupBytes cur (rest.take 4)).length) ((rest.take 4).getLastD cur)
      (rest.drop 4) := by
  obtain ⟨junk, hd⟩ := at_group_drop mem size p cur rest h hne
  have h1 := h.1
  rw [enc_group cur rest hne, List.length_append] at h1
  refine ⟨by omega, ?_, ?_, ?_⟩
  · rw [drop_append_right mem _ _ p hd, List.take_left]
  · exact getLastD_lt _ _ _ h.2.2.1 (fun v hv => h.2.2.2 v (List.mem_of_mem_take hv))
  · exact fun v hv => h.2.2.2 v (List.mem_of_mem_drop hv)

theorem at_fast (mem : List Nat) (size p cur : Nat) (rest : List Nat)
    (h : At mem size p cur rest) (hs : size > p + 1 + 4 * 4) : 5 ≤ rest.length := by
  by_contra hcon
  have := encodeArray_short cur rest (by omega)
  have := h.1
  omega

theorem single_at (mem : List Nat) (size p cur count : Nat) (rest : List Nat)
    (h : At mem size p cur rest) (hne : rest ≠ []) (hc : count = rest.length) :
    decodeSingleVarintDelta mem p cur count
      = ⟨p + (groupBytes cur (rest.take 4)).length, (rest.take 4).getLastD cur,
          rest.take 4, (rest.take 4).length⟩ := by
  obtain ⟨junk, hd⟩ := at_group_drop mem size p cur rest h hne
  have hg : ∀ v ∈ rest.take 4, v < 4294967296 :=
    fun v hv => h.2.2.2 v (List.mem_of_mem_take hv)
  have r0 := rd_drop mem _ p 0 hd
  rw [Nat.add_zero] at r0
  simp only [groupBytes, List.cons_append, List.getD_cons_zero] at r0
  have hd1 : mem.drop (p + 1) = payload (deltas cur (rest.take 4)) ++
      (encodeArray ((rest.take 4).getLastD cur) (rest.drop 4) ++ junk) :=
    drop_append_right mem [selOf (deltas cur (rest.take 4))] _ p (by rw [hd]; rfl)
  unfold decodeSingleVarintDelta
  rw [r0, single_loop mem count (deltas cur (rest.take 4)) 4 0 (p + 1) cur [] _ rfl
    (by simp only [deltas_length, List.length_take, hc]; omega) (deltas_lt _ _) hd1,
    undelta_deltas _ _ h.2.2.1 hg]
  simp only [groupBytes, List.length_cons, deltas_length, List.nil_append, Nat.zero_add,
    Decoded.mk.injEq, and_true]
  omega

theorem carefully_at (mem : List Nat) (size p cur count : Nat) (rest : List Nat)
    (h : At mem size p cur rest) (hne : rest ≠ []) (hc : count = rest.length) :
    decodeCarefully mem p cur count
      = ⟨p + (groupBytes cur (rest.take 4)).length, (rest.take 4).getLastD cur,
          rest.take 4, (rest.take 4).length⟩ := by
  obtain ⟨junk, hd⟩ := at_group_drop mem size p cur rest h hne
  have hg : ∀ v ∈ rest.take 4, v < 4294967296 :=
    fun v hv => h.2.2.2 v (List.mem_of_mem_take hv)
  have r0 := rd_drop mem _ p 0 hd
  rw [Nat.add_zero] at r0
  simp only [groupBytes, List.cons_append, List.getD_cons_zero] at r0
  have hd1 : mem.drop (p + 1) = payload (deltas cur (rest.take 4)) ++
      (encodeArray ((rest.take 4).getLastD cur) (rest.drop 4) ++ junk) :=
    drop_append_right mem [selOf (deltas cur (rest.take 4))] _ p (by rw [hd]; rfl)
  unfold decodeCarefully
  rw [r0, careful_loop mem count (deltas cur (rest.take 4)) 4 0 (p + 1) cur [] _ rfl
    (by simp only [deltas_length, List.length_take, hc]; omega) (deltas_lt _ _) hd1,
    undelta_deltas _ _ h.2.2.1 hg]
  simp only [groupBytes, List.length_cons, deltas_length, List.nil_append, Nat.zero_add,
    Decoded.mk.injEq, and_true]
  omega


theorem encodeBytes_head (d : Nat) (t : List Nat) : (encodeBytes d ++ t).getD 0 0 = d % 256 := by
  unfold encodeBytes; split_ifs <;> rfl

theorem sel_parts (c1 c2 c3 c4 : Nat) (h1 : c1 < 4) (h2 : c2 < 4) (h3 : c3 < 4) (_h4 : c4 < 4) :
    (c1 + 4 * (c2 + 4 * (c3 + 4 * (c4 + 4 * 0)))) &&& 3 = c1 ∧
    ((c1 + 4 * (c2 + 4 * (c3 + 4 * (c4 + 4 * 0)))) >>> 2) &&& 3 = c2 ∧
    ((c1 + 4 * (c2 + 4 * (c3 + 4 * (c4 + 4 * 0)))) >>> 4) &&& 3 = c3 ∧
    (c1 + 4 * (c2 + 4 * (c3 + 4 * (c4 + 4 * 0)))) >>> 6 = c4 := by
  simp only [and_three, Nat.shiftRight_eq_div_pow]
  norm_num
  omega

theorem group_at (mem : List Nat) (size p cur : Nat) (rest : List Nat)
    (h : At mem size p cur rest) (h4 : 4 ≤ rest.length) :
    decodeGroupVarIntDelta mem p cur
      = ⟨p + (groupBytes cur (rest.take 4)).length, (rest.take 4).getLastD cur,
          rest.take 4, 4⟩ := by
  have hne : rest ≠ [] := by intro h0; subst h0; simp at h4
  obtain ⟨junk, hd⟩ := at_group_drop mem size p cur rest h hne
  obtain ⟨a, b, c, d, r, rfl⟩ : ∃ a b c d r, rest = a :: b :: c :: d :: r := by
    match rest, h4 with
    | a :: b :: c :: d :: r, _ => exact ⟨a, b, c, d, r, rfl⟩
  have ha : a < 4294967296 := h.2.2.2 a (by simp)
  have hb : b < 4294967296 := h.2.2.2 b (by simp)
  have hc : c < 4294967296 := h.2.2.2 c (by simp)
  have hdd : d < 4294967296 := h.2.2.2 d (by simp)
  have hcur := h.2.2.1
  simp only [List.take_succ_cons, List.take_zero, groupBytes, deltas, selOf, payload,
    List.append_nil, List.cons_append, List.append_assoc, List.drop_succ_cons, List.drop_zero,
    List.getLastD_cons, List.getLastD_nil] at hd ⊢
  generalize hd1 : wrap32 (a + 4294967296 - cur) = d1 at hd ⊢
  generalize hd2 : wrap32 (b + 4294967296 - a) = d2 at hd ⊢
  generalize hd3 : wrap32 (c + 4294967296 - b) = d3 at hd ⊢
  generalize hd4 : wrap32 (d + 4294967296 - c) = d4 at hd ⊢
  have e1 : wrap32 (cur + d1) = a := by subst hd1; unfold wrap32; omega
  have e2 : wrap32 (a + d2) = b := by subst hd2; unfold wrap32; omega
  have e3 : wrap32 (b + d3) = c := by subst hd3; unfold wrap32; omega
  have e4 : wrap32 (c + d4) = d := by subst hd4; unfold wrap32; omega
  have l1 : d1 < 4294967296 := by subst hd1; unfold wrap32; omega
  have l2 : d2 < 4294967296 := by subst hd2; unfold wrap32; omega
  have l3 : d3 < 4294967296 := by subst hd3; unfold wrap32; omega
  have l4 : d4 < 4294967296 := by subst hd4; unfold wrap32; omega
  have r0 := rd_drop mem _ p 0 hd
  rw [Nat.add_zero, List.getD_cons_zero] at r0
  have q1 : mem.drop (p + 1) = encodeBytes d1 ++ (encodeBytes d2 ++ (encodeBytes d3 ++
      (encodeBytes d4 ++ (encodeArray d r ++ junk)))) :=
    drop_append_right mem [_] _ p hd
  have q2 := drop_append_right mem _ _ (p + 1) q1
  have q3 := drop_append_right mem _ _ _ q2
  have q4 := drop_append_right mem _ _ _ q3
  simp only [encodeBytes_length] at q2 q3 q4
  have c1 := codeOf_lt d1
  have c2 := codeOf_lt d2
  have c3 := codeOf_lt d3
  have c4 := codeOf_lt d4
  obtain ⟨s1, s2, s3, s4⟩ := sel_parts _ _ _ _ c1 c2 c3 c4
  unfold decodeGroupVarIntDelta
  simp only [r0]
  by_cases hz : codeOf d1 + 4 * (codeOf d2 + 4 * (codeOf d3 + 4 * (codeOf d4 + 4 * 0))) = 0
  · have z1 : codeOf d1 = 0 := by omega
    have z2 : codeOf d2 = 0 := by omega
    have z3 : codeOf d3 = 0 := by omega
    have z4 : codeOf d4 = 0 := by omega
    simp only [z1, z2, z3, Nat.zero_add, Nat.add_assoc, Nat.reduceAdd] at q1 q2 q3 q4
    have b1 : d1 < 256 := by unfold codeOf at z1; (split_ifs at z1; omega)
    have b2 : d2 < 256 := by unfold codeOf at z2; (split_ifs at z2; omega)
    have b3 : d3 < 256 := by unfold codeOf at z3; (split_ifs at z3; omega)
    have b4 : d4 < 256 := by unfold codeOf at z4; (split_ifs at z4; omega)
    have g1 := rd_drop mem _ _ 0 q1
    have g2 := rd_drop mem _ _ 0 q2
    have g3 := rd_drop mem _ _ 0 q3
    have g4 := rd_drop mem _ _ 0 q4
    rw [encodeBytes_head] at g1 g2 g3 g4
    simp only [Nat.add_zero] at g1 g2 g3 g4
    rw [Nat.mod_eq_of_lt b1] at g1
    rw [Nat.mod_eq_of_lt b2] at g2
    rw [Nat.mod_eq_of_lt b3] at g3
    rw [Nat.mod_eq_of_lt b4] at g4
    simp only [hz, ↓reduceIte, Nat.add_assoc, Nat.reduceAdd, g1, g2, g3, g4, e1, e2, e3, e4,
      encodeBytes_length, z1, z2, z3, z4, List.length_cons, List.length_append,
      Decoded.mk.injEq, and_true]
  · simp only [hz, ↓reduceIte, s1, s2, s3, s4, fast_value mem _ d1 _ l1 q1, e1,
      fast_value mem _ d2 _ l2 q2, e2, fast_value mem _ d3 _ l3 q3, e3,
      fast_value mem _ d4 _ l4 q4, e4, encodeBytes_length, List.length_cons,
      List.length_append, Decoded.mk.injEq, and_true]
    omega

/-! ## decodeArray undoes encodeArray -/

theorem encodeArray_length_le_aux : ∀ (n : Nat) (rest : List Nat), rest.length ≤ n → ∀ cur,
    (encodeArray cur rest).length ≤ 4 * rest.length + (rest.length + 3) / 4 := by
  intro n
  induction n with
  | zero =>
    intro rest h cur
    have : rest = [] := List.length_eq_zero.1 (by omega)
    subst this; simp [encodeArray_nil]
  | succ n ih =>
    intro rest h cur
    by_cases hne : rest = []
    · subst hne; simp [encodeArray_nil]
    · rw [enc_group cur rest hne, List.length_append]
      have h1 := (groupBytes_length cur (rest.take 4)).2
      have h0 : rest.length ≠ 0 := fun h0 => hne (List.length_eq_zero.1 h0)
      have h2 := ih (rest.drop 4) (by simp only [List.length_drop]; omega)
        ((rest.take 4).getLastD cur)
      simp only [List.length_take, List.length_drop] at h1 h2
      omega

theorem encodeArray_length_le (cur : Nat) (rest : List Nat) :
    (encodeArray cur rest).length ≤ 4 * rest.length + (rest.length + 3) / 4 :=
  encodeArray_length_le_aux rest.length rest (le_refl _) cur

theorem at_start (mem : List Nat) (a : Nat) (s : List Nat) (size : Nat)
    (hsize : size = (encodeArray a s).length) (hmem : mem.take size = encodeArray a s)
    (ha : a < 4294967296) (hs : ∀ v ∈ s, v < 4294967296) : At mem size 0 a s := by
  subst hsize
  exact ⟨by simp, by simpa using hmem, ha, hs⟩

theorem decodeArrayFast_at (mem : List Nat) (size : Nat) : ∀ (fuel : Nat) (rest : List Nat)
    (p cur : Nat) (out : List Nat), At mem size p cur rest →
    ∃ done rest1 p1 cur1, decodeArrayFast mem size fuel p cur out = ⟨p1, cur1, out ++ done, 0⟩ ∧
      done ++ rest1 = rest ∧ At mem size p1 cur1 rest1 := by
  intro fuel
  induction fuel with
  | zero =>
    intro rest p cur out h
    exact ⟨[], rest, p, cur, by simp [decodeArrayFast], rfl, h⟩
  | succ fuel ih =>
    intro rest p cur out h
    by_cases hs : size > p + 1 + 4 * 4
    · have h5 := at_fast mem size p cur rest h hs
      have hne : rest ≠ [] := by intro h0; subst h0; simp at h5
      obtain ⟨done, rest1, p1, cur1, e, hd, hat⟩ :=
        ih (rest.drop 4) _ _ (out ++ rest.take 4) (at_next mem size p cur rest h hne)
      refine ⟨rest.take 4 ++ done, rest1, p1, cur1, ?_, ?_, hat⟩
      · rw [decodeArrayFast]
        simp only [hs, ↓reduceIte, group_at mem size p cur rest h (by omega)]
        rw [e, List.append_assoc]
      · rw [List.append_assoc, hd, List.take_append_drop]
    · exact ⟨[], rest, p, cur, by simp [decodeArrayFast, hs], rfl, h⟩

theorem decodeArraySlow_at (mem : List Nat) (size nvalue : Nat) (hn : nvalue < 4294967296) :
    ∀ (fuel : Nat) (rest : List Nat) (p cur : Nat) (out : List Nat), At mem size p cur rest →
    rest.length ≤ fuel → nvalue = out.length + rest.length →
    (decodeArraySlow mem size nvalue fuel p cur out).out = out ++ rest := by
  intro fuel
  induction fuel with
  | zero =>
    intro rest p cur out _ hf _
    have : rest = [] := List.length_eq_zero.1 (by omega)
    subst this
    simp [decodeArraySlow]
  | succ fuel ih =>
    intro rest p cur out h hf hnv
    by_cases hne : rest = []
    · have hs : ¬ size > p := fun hs => (at_pos_iff mem size p cur rest h).1 hs hne
      subst hne
      simp [decodeArraySlow, hs]
    · have hs : size > p := (at_pos_iff mem size p cur rest h).2 hne
      have h0 : rest.length ≠ 0 := fun h0 => hne (List.length_eq_zero.1 h0)
      have hc : wrap32 (nvalue + 4294967296 - out.length) = rest.length := by
        unfold wrap32; omega
      rw [decodeArraySlow]
      simp only [hs, ↓reduceIte, single_at mem size p cur _ rest h hne hc]
      rw [ih (rest.drop 4) _ _ (out ++ rest.take 4) (at_next mem size p cur rest h hne)
        (by simp only [List.length_drop]; omega)
        (by simp only [List.length_append, List.length_take, List.length_drop]; omega),
        List.append_assoc, List.take_append_drop]

theorem decodeArray_at (mem : List Nat) (a : Nat) (s : List Nat) (size : Nat)
    (h : At mem size 0 a s) (hn : s.length < 4294967296) :
    decodeArray a mem size s.length = s := by
  obtain ⟨done, rest1, p1, cur1, e, hd, hat⟩ := decodeArrayFast_at mem size size s 0 a [] h
  have h1 := encodeArray_length_ge a s
  have h2 := h.1
  have h3 : rest1.length ≤ s.length := by rw [← hd]; simp
  unfold decodeArray
  simp only [e]
  rw [decodeArraySlow_at mem size s.length hn size rest1 p1 cur1 _ hat (by omega)
    (by rw [← hd]; simp)]
  simpa using hd

/-- C1 (codec round trip).  For every anchor and every sequence `s` of at most 31
values below `2^32`, `decodeArray` applied to the bytes and the size that
`encodeArray` produced (whatever follows them in memory) gives back `s`; and
`uncompress_block` undoes `compress_block` on the block index of these keys. -/
theorem decodeArray_encodeArray (a : Nat) (s junk : List Nat) (ha : a < 4294967296)
    (hs : ∀ v ∈ s, v < 4294967296) (hn : s.length ≤ 31) :
    decodeArray a (encodeArray a s ++ junk) (encodeArray a s).length s.length = s ∧
    ∀ index : GroupVarintIndex, index.value = a → index.key_count = s.length + 1 →
      uncompress_block (index.set_used_size (compress_block index s).length)
        (compress_block index s ++ junk) = s := by
  have hat : At (encodeArray a s ++ junk) (encodeArray a s).length 0 a s :=
    at_start _ a s _ rfl (by simp) ha hs
  have hmain := decodeArray_at _ a s _ hat (by omega)
  refine ⟨hmain, ?_⟩
  intro index hv hk
  have hw : wrap32 (index.key_count + 4294967296 - 1) = s.length := by
    unfold wrap32; omega
  have hc : compress_block index s = encodeArray a s := by
    unfold compress_block
    rw [hw, hv, List.take_length]
  have hlen := encodeArray_length_le a s
  have hmod : (encodeArray a s).length % 256 = (encodeArray a s).length := by
    apply Nat.mod_eq_of_lt; omega
  unfold uncompress_block
  simp only [GroupVarintIndex.set_used_size, hc, hw, hv, hmod]
  by_cases h0 : s.length > 0
  · simp only [h0, ↓reduceIte]
    exact hmain
  · have : s = [] := List.length_eq_zero.1 (by omega)
    subst this
    simp

/-- Witness for C1: anchor 100 and the keys 200, 300, 70000, 70001 and 2^32 - 1. -/
theorem decodeArray_encodeArray_witness :
    decodeArray 100 (encodeArray 100 [200, 300, 70000, 70001, 4294967295] ++ [7, 7])
      (encodeArray 100 [200, 300, 70000, 70001, 4294967295]).length 5
      = [200, 300, 70000, 70001, 4294967295] :=
  (decodeArray_encodeArray 100 [200, 300, 70000, 70001, 4294967295] [7, 7] (by decide)
    (by decide) (by decide)).1

/-! ## select -/

theorem rd_writeAt_zero (scratch g : List Nat) (j : Nat) (hj : j < g.length) :
    rd (writeAt scratch 0 g) j = g.getD j 0 := by
  unfold rd writeAt
  simp only [List.take_zero, List.nil_append, Nat.zero_add]
  rw [List.getD_append _ _ _ _ hj]

theorem getD_take_drop (keys : List Nat) (i j : Nat) (hj : j < 4) :
    ((keys.drop i).take 4).getD j 0 = keys.getD (i + j) 0 := by
  simp only [List.getD_eq_getElem?_getD, List.getElem?_take, hj, ↓reduceIte, List.getElem?_drop]

theorem valid_at (index : GroupVarintIndex) (mem keys : List Nat)
    (h : ValidBlock index mem keys) : At mem index.used_size 0 index.value keys :=
  at_start mem index.value keys index.used_size h.2.2.1 h.2.2.2.1
    (h.2.2.2.2.2 _ (List.mem_cons_self _ _))
    (fun v hv => h.2.2.2.2.2 v (List.mem_cons_of_mem _ hv))

theorem valid_nvalue (index : GroupVarintIndex) (mem keys : List Nat)
    (h : ValidBlock index mem keys) :
    wrap32 (index.key_count + 4294967296 - 1) = keys.length ∧ keys.length ≤ 31 := by
  have h1 := h.1
  have h2 := h.2.1
  unfold kMaxKeysPerBlock at h2
  unfold wrap32
  omega

theorem selectLoopA_at (mem : List Nat) (size slot : Nat) (keys : List Nat) :
    ∀ (fuel : Nat) (s : LbState), At mem size s.inbyte s.initial (keys.drop s.i) →
    s.i ≤ slot → slot + 3 < keys.length → slot < s.i + 4 * fuel →
    selectLoopA mem slot fuel s = some (keys.getD slot 0) := by
  intro fuel
  induction fuel with
  | zero => intro s _ h1 _ h3; omega
  | succ fuel ih =>
    intro s hat h1 h2 h3
    have h4 : 4 ≤ (keys.drop s.i).length := by simp only [List.length_drop]; omega
    have hne : keys.drop s.i ≠ [] := by intro h0; rw [h0] at h4; simp at h4
    rw [selectLoopA]
    simp only [group_at mem size _ _ _ hat h4]
    by_cases hgt : s.i + 4 > slot
    · simp only [hgt, ↓reduceIte, Nat.add_sub_cancel, Option.some.injEq]
      rw [rd_writeAt_zero _ _ _ (by simp only [List.length_take, List.length_drop]; omega),
        getD_take_drop _ _ _ (by omega)]
      congr 1; omega
    · simp only [hgt, ↓reduceIte]
      apply ih
      · simpa [List.drop_drop, Nat.add_comm] using at_next mem size _ _ _ hat hne
      · simp only; omega
      · exact h2
      · simp only; omega

theorem selectLoopB_at (mem : List Nat) (size slot : Nat) (keys : List Nat) :
    ∀ (fuel : Nat) (s : LbState), At mem size s.inbyte s.initial (keys.drop s.i) →
    s.i ≤ slot → slot < keys.length → slot ≤ s.i + 4 * fuel + 3 →
    At mem size (selectLoopB mem slot fuel s).inbyte (selectLoopB mem slot fuel s).initial
      (keys.drop (selectLoopB mem slot fuel s).i) ∧
    (selectLoopB mem slot fuel s).i ≤ slot ∧ slot ≤ (selectLoopB mem slot fuel s).i + 3 ∧
    (selectLoopB mem slot fuel s).nvalue = s.nvalue := by
  intro fuel
  induction fuel with
  | zero =>
    intro s hat h1 _ h3
    simp only [selectLoopB]
    exact ⟨hat, h1, by omega, trivial⟩
  | succ fuel ih =>
    intro s hat h1 h2 h3
    rw [selectLoopB]
    by_cases hlt : s.i + 3 < slot
    · have h4 : 4 ≤ (keys.drop s.i).length := by simp only [List.length_drop]; omega
      have hne : keys.drop s.i ≠ [] := by intro h0; rw [h0] at h4; simp at h4
      simp only [hlt, ↓reduceIte, group_at mem size _ _ _ hat h4]
      apply ih
      · simpa [List.drop_drop, Nat.add_comm] using at_next mem size _ _ _ hat hne
      · simp only; omega
      · exact h2
      · simp only; omega
    · simp only [hlt, ↓reduceIte]
      exact ⟨hat, h1, by omega, trivial⟩

theorem int32_small (n : Nat) (h : n < 2147483648) : int32 n = (n : Int) := by
  unfold int32; simp [h]

theorem selectLoopC_at (mem : List Nat) (size slot : Nat) (keys : List Nat) (fuel : Nat)
    (s : LbState) (hat : At mem size s.inbyte s.initial (keys.drop s.i))
    (h1 : s.i ≤ slot) (h2 : slot ≤ s.i + 3)
    (hn : s.nvalue = keys.length) (hk : keys.length ≤ 31) :
    selectLoopC mem slot (fuel + 1) s =
      if s.i + 3 < keys.length then Sum.inl (keys.getD slot 0) else Sum.inr s := by
  rw [selectLoopC, hn, int32_small _ (by omega)]
  by_cases hlt : s.i + 3 < keys.length
  · have hlt2 : (s.i : Int) + 3 < (keys.length : Int) := by omega
    have h4 : 4 ≤ (keys.drop s.i).length := by simp only [List.length_drop]; omega
    have hgt : s.i + 4 > slot := by omega
    simp only [hlt, hlt2, ↓reduceIte, group_at mem size _ _ _ hat h4, hgt, Nat.add_sub_cancel]
    rw [rd_writeAt_zero _ _ _ (by simp only [List.length_take, List.length_drop]; omega),
      getD_take_drop _ _ _ (by omega)]
    congr 2; omega
  · have hlt2 : ¬ ((s.i : Int) + 3 < (keys.length : Int)) := by omega
    simp only [hlt, hlt2, ↓reduceIte]

/-- C6 (block select).  On a valid block with the encoded keys `keys`, `select`
returns the key of every slot below `keys.length`, which is the element of that
index of `uncompress_block`, and never ends in the `throw`. -/
theorem select_valid (scratch : List Nat) (index : GroupVarintIndex) (mem keys : List Nat)
    (slot : Nat) (hv : ValidBlock index mem keys) (hslot : slot < keys.length) :
    select scratch index mem slot = some (keys.getD slot 0) ∧
    uncompress_block index mem = keys := by
  have hat := valid_at index mem keys hv
  obtain ⟨hw, hk⟩ := valid_nvalue index mem keys hv
  constructor
  · unfold select
    simp only [hw, int32_small keys.length (by omega)]
    by_cases hA : (slot : Int) + 3 < (keys.length : Int)
    · simp only [hA, ↓reduceIte]
      exact selectLoopA_at mem index.used_size slot keys (slot + 1) _ (by simpa using hat)
        (by simp) (by omega) (by simp only; omega)
    · simp only [hA, ↓reduceIte]
      obtain ⟨b1, b2, b3, b4⟩ := selectLoopB_at mem index.used_size slot keys slot
        ⟨0, index.value, 0, scratch, keys.length⟩ (by simpa using hat) (by simp) hslot
        (by simp only; omega)
      generalize selectLoopB mem slot slot ⟨0, index.value, 0, scratch, keys.length⟩ = s1
        at b1 b2 b3 b4
      simp only at b4
      rw [b4, selectLoopC_at mem index.used_size slot keys _ s1 b1 b2 b3 b4 hk]
      by_cases hlt : s1.i + 3 < keys.length
      · simp only [hlt, ↓reduceIte]
      · have hne : keys.drop s1.i ≠ [] := by
          intro h0
          have := congrArg List.length h0
          simp only [List.length_drop, List.length_nil] at this
          omega
        have hc : wrap32 (s1.nvalue + 8589934592 - s1.i) = (keys.drop s1.i).length := by
          rw [b4]; unfold wrap32; simp only [List.length_drop]; omega
        simp only [hlt, ↓reduceIte, carefully_at mem _ _ _ _ _ b1 hne hc]
        have hlen : ((keys.drop s1.i).take 4).length = keys.length - s1.i := by
          simp only [List.length_take, List.length_drop]; omega
        have hrd : ∀ j, s1.i + j = slot →
            rd (writeAt s1.out 0 ((keys.drop s1.i).take 4)) j = keys.getD slot 0 := by
          intro j hj
          rw [rd_writeAt_zero _ _ _ (by omega), getD_take_drop _ _ _ (by omega), hj]
        rw [hlen]
        by_cases e0 : slot = s1.i
        · rw [if_pos e0, hrd 0 (by omega)]
        rw [if_neg e0]
        by_cases e1 : slot = s1.i + 1
        · rw [if_pos ⟨by omega, e1⟩, hrd 1 (by omega)]
        rw [if_neg (fun h => e1 h.2)]
        by_cases e2 : slot = s1.i + 2
        · rw [if_pos ⟨by omega, e2⟩, hrd 2 (by omega)]
        · omega
  · have h1 := hv.1
    unfold uncompress_block
    rw [hw]
    by_cases h0 : keys.length > 0
    · simp only [h0, ↓reduceIte]
      exact decodeArray_at mem index.value keys index.used_size hat (by omega)
    · omega

/-- Witness for C6: the block with anchor 100 and encoded keys 200 .. 800; slot 5 lies
in the trailing group and holds 700. -/
theorem select_valid_witness :
    select [0, 0, 0, 0] ⟨100, 17, 9, 8⟩ (encodeArray 100 [200, 300, 400, 500, 600, 700, 800]) 5
      = some 700 :=
  (select_valid [0, 0, 0, 0] ⟨100, 17, 9, 8⟩
    (encodeArray 100 [200, 300, 400, 500, 600, 700, 800])
    [200, 300, 400, 500, 600, 700, 800] 5
    ⟨by decide, by decide, by decide, by decide, by decide, by decide⟩ (by decide)).1

/-! ## The scratch array of insert -/

theorem writeAt_eq (out g : List Nat) (p : Nat) :
    writeAt out p g = out.take p ++ g ++ out.drop (p + g.length) := rfl

theorem rd_append_mid (P g R : List Nat) (t : Nat) (ht : t < g.length) :
    rd (P ++ g ++ R) (P.length + t) = g.getD t 0 := by
  unfold rd
  rw [List.append_assoc, List.getD_append_right _ _ _ _ (by omega), Nat.add_sub_cancel_left,
    List.getD_append _ _ _ _ ht]

theorem rd_append_left (P Q : List Nat) (t : Nat) (ht : t < P.length) :
    rd (P ++ Q) t = rd P t := by
  unfold rd
  rw [List.getD_append _ _ _ _ ht]

theorem slice_mid (P g R : List Nat) (j : Nat) (hj : j ≤ g.length) :
    slice (P ++ g ++ R) (P.length + j) (g.length - j) = g.drop j := by
  unfold slice
  rw [List.append_assoc, List.drop_append, List.drop_append_of_le_length hj,
    List.take_left' (by simp)]

theorem set_length_append (W T : List Nat) (x key : Nat) :
    (W ++ x :: T).set W.length key = W ++ key :: T := by
  induction W with
  | nil => rfl
  | cons w W ih => simp [ih]

/-- The `memmove` by one element followed by the store of the key, as `insert` does
it at position `j` of the group just decoded into the scratch array. -/
theorem splice_eq (P g R : List Nat) (j key : Nat) (hj : j < g.length) :
    (writeAt (P ++ g ++ R) (P.length + j + 1)
        (slice (P ++ g ++ R) (P.length + j) (g.length - j))).set (P.length + j) key
      = P ++ g.take j ++ key :: g.drop j ++ R.drop 1 := by
  rw [slice_mid P g R j (by omega), writeAt_eq]
  have e1 : (P ++ g ++ R).take (P.length + j + 1) = P ++ g.take j ++ [g.getD j 0] := by
    rw [List.append_assoc, Nat.add_assoc, List.take_append,
      List.take_append_of_le_length (by omega), List.take_succ,
      List.getElem?_eq_getElem hj, List.getD_eq_getElem _ _ hj]
    simp
  have e2 : (P ++ g ++ R).drop (P.length + j + 1 + (g.drop j).length) = R.drop 1 := by
    have : P.length + j + 1 + (g.drop j).length = (P ++ g).length + 1 := by
      simp only [List.length_drop, List.length_append]; omega
    rw [this, List.drop_append]
  rw [e1, e2]
  have e3 : P ++ g.take j ++ [g.getD j 0] ++ g.drop j ++ R.drop 1
      = (P ++ g.take j) ++ g.getD j 0 :: (g.drop j ++ R.drop 1) := by simp
  have hl : P.length + j = (P ++ g.take j).length := by
    simp only [List.length_append, List.length_take]; omega
  rw [e3, hl, set_length_append]
  simp

theorem set_eq_writeAt (O : List Nat) (q : Nat) (h : q + 1 < O.length) :
    O.set (q + 1) (rd O q) = writeAt O (q + 1) (slice O q 1) := by
  rw [writeAt_eq, List.set_eq_take_append_cons_drop, if_pos h]
  unfold slice rd
  have : (O.drop q).take 1 = [O.getD q 0] := by
    rw [List.getD_eq_getElem _ _ (by omega), List.drop_eq_getElem_cons (by omega : q < O.length)]
    rfl
  rw [this]
  simp

/-- The last case of the splice (`pout[4] = pout[3]; pout[3] = key`). -/
theorem splice_last (P g R : List Nat) (key : Nat) (hg : g.length = 4) (hR : 1 ≤ R.length) :
    ((P ++ g ++ R).set (P.length + 4) (rd (P ++ g ++ R) (P.length + 3))).set (P.length + 3) key
      = P ++ g.take 3 ++ key :: g.drop 3 ++ R.drop 1 := by
  have := splice_eq P g R 3 key (by omega)
  rw [hg] at this
  rw [← this, set_eq_writeAt _ _ (by simp only [List.length_append]; omega)]

theorem splice_length (P g R : List Nat) (j key : Nat) (hj : j ≤ g.length) (hR : 1 ≤ R.length) :
    (P ++ g.take j ++ key :: g.drop j ++ R.drop 1).length = (P ++ g ++ R).length := by
  simp only [List.length_append, List.length_take, List.length_cons, List.length_drop]
  omega

theorem splice_take (P g R : List Nat) (j key : Nat) (hj : j ≤ g.length) :
    (P ++ g.take j ++ key :: g.drop j ++ R.drop 1).take (P.length + (g.length + 1))
      = P ++ (g.take j ++ key :: g.drop j) := by
  rw [List.take_left' (by
    simp only [List.length_append, List.length_take, List.length_cons, List.length_drop]
    omega), List.append_assoc]

/-! ## Encoding a sequence in two parts -/

theorem getLastD_append (B : List Nat) : ∀ (A : List Nat) (a : Nat),
    (A ++ B).getLastD a = B.getLastD (A.getLastD a) := by
  induction B with
  | nil => intro A a; simp
  | cons b B ih =>
    intro A a
    have h := ih (A ++ [b]) a
    rw [List.append_assoc, List.singleton_append] at h
    rw [h, List.getLastD_cons]
    congr 1
    exact List.getLastD_concat _ _ _

theorem enc_append_full_aux : ∀ (n : Nat) (A B : List Nat) (a : Nat), A.length ≤ n →
    A.length % 4 = 0 →
    encodeArray a (A ++ B) = encodeArray a A ++ encodeArray (A.getLastD a) B := by
  intro n
  induction n with
  | zero =>
    intro A B a h _
    have : A = [] := List.length_eq_zero.1 (by omega)
    subst this
    simp [encodeArray_nil]
  | succ n ih =>
    intro A B a h h4
    by_cases hA : A = []
    · subst hA; simp [encodeArray_nil]
    · have h0 : A.length ≠ 0 := fun h0 => hA (List.length_eq_zero.1 h0)
      have hge : 4 ≤ A.length := by omega
      rw [enc_group a (A ++ B) (by simp [hA]), enc_group a A hA,
        List.take_append_of_le_length hge, List.drop_append_of_le_length hge,
        ih (A.drop 4) B _ (by simp only [List.length_drop]; omega)
          (by simp only [List.length_drop]; omega),
        List.append_assoc, ← getLastD_append, List.take_append_drop]

theorem enc_append_full (A B : List Nat) (a : Nat) (h : A.length % 4 = 0) :
    encodeArray a (A ++ B) = encodeArray a A ++ encodeArray (A.getLastD a) B :=
  enc_append_full_aux A.length A B a (le_refl _) h

/-! ## One iteration of the loops of insert -/

theorem writeAt_append (P R0 g : List Nat) :
    writeAt (P ++ R0) P.length g = P ++ g ++ R0.drop g.length := by
  rw [writeAt_eq, List.take_left, List.drop_append]

theorem rd_mid0 (P g R : List Nat) (ht : 0 < g.length) :
    rd (P ++ g ++ R) P.length = g.getD 0 0 := by
  have := rd_append_mid P g R 0 ht
  rwa [Nat.add_zero] at this

theorem splice0 (P g R : List Nat) (key n : Nat) (hn : n = g.length) (h : 0 < g.length) :
    (writeAt (P ++ g ++ R) (P.length + 1) (slice (P ++ g ++ R) P.length n)).set P.length key
      = P ++ g.take 0 ++ key :: g.drop 0 ++ R.drop 1 := by
  subst hn
  exact splice_eq P g R 0 key h

theorem splice1 (P g R : List Nat) (key n : Nat) (hn : n = g.length - 1) (h : 1 < g.length) :
    (writeAt (P ++ g ++ R) (P.length + 2) (slice (P ++ g ++ R) (P.length + 1) n)).set
        (P.length + 1) key
      = P ++ g.take 1 ++ key :: g.drop 1 ++ R.drop 1 := by
  subst hn
  exact splice_eq P g R 1 key h

theorem splice2 (P g R : List Nat) (key n : Nat) (hn : n = g.length - 2) (h : 2 < g.length) :
    (writeAt (P ++ g ++ R) (P.length + 3) (slice (P ++ g ++ R) (P.length + 2) n)).set
        (P.length + 2) key
      = P ++ g.take 2 ++ key :: g.drop 2 ++ R.drop 1 := by
  subst hn
  exact splice_eq P g R 2 key h

theorem insertSlow_place (mem : List Nat) (endbyte key fuel : Nat) (s : InsertState)
    (g : List Nat) (di dn : Nat) (hc1 : endbyte > s.inbyte) (hc2 : s.remaining > 0)
    (hi : s.is_inserted = false)
    (hd : decodeSingleVarintDelta mem s.inbyte s.initial s.remaining = ⟨di, dn, g, g.length⟩)
    (hg1 : 1 ≤ g.length) (hg4 : g.length ≤ 4) (hso : g.Pairwise (· < ·)) (hk : key ∉ g)
    (hlen : s.pout + g.length + 1 ≤ s.out.length) :
    insertSlow mem endbyte key (fuel + 1) s = insertSlow mem endbyte key fuel
      (placeNext s g key di dn (wrap32 (s.remaining + 4294967296 - g.length)) true) := by
  obtain ⟨inbyte, initial, slot, remaining, pout, out, is_ins, ni, nb, pslot⟩ := s
  simp only at hc1 hc2 hi hd hlen
  subst hi
  obtain ⟨P, R0, rfl, rfl⟩ : ∃ P R0, out = P ++ R0 ∧ pout = P.length :=
    ⟨out.take pout, out.drop pout, (List.take_append_drop _ _).symm, by
      simp only [List.length_take]; omega⟩
  have hR : g.length + 1 ≤ R0.length := by
    simp only [List.length_append] at hlen; omega
  rw [insertSlow]
  simp only [hc1, hc2, and_self, ↓reduceIte, hd, writeAt_append, placeNext, List.take_left,
    List.drop_append]
  have hRl : 1 ≤ (R0.drop g.length).length := by simp only [List.length_drop]; omega
  generalize R0.drop g.length = R at *
  rcases g with _ | ⟨a, _ | ⟨b, _ | ⟨c, _ | ⟨d, _ | _⟩⟩⟩⟩
  · simp at hg1
  · -- a group of 1
    simp only [List.mem_cons, List.mem_singleton, List.not_mem_nil, or_false, not_or] at hk
    have sp0 := splice0 P [a] R key ([a].length) rfl (by simp)
    have r0 := rd_mid0 P [a] R (by simp)
    simp only [List.getD_cons_zero, List.getD_cons_succ] at r0
    simp only [sp0]
    simp only [r0]
    rw [if_neg hk]
    by_cases h0 : key < a
    · rw [if_pos h0]
      congr 1
      simp [below, notBelow, List.takeWhile, List.dropWhile, *, not_lt_of_gt]
    · rw [if_neg h0]
      have l0 : a < key := by omega
      rw [if_neg (by simp)]
      congr 1
      simp [below, notBelow, List.takeWhile, List.dropWhile, *]
  · -- a group of 2
    simp only [List.mem_cons, List.mem_singleton, List.not_mem_nil, or_false, not_or] at hk
    simp only [List.pairwise_cons, List.mem_cons, List.mem_singleton, List.not_mem_nil, forall_eq_or_imp, forall_eq, List.Pairwise.nil, and_true, IsEmpty.forall_iff, implies_true] at hso
    have sp0 := splice0 P [a, b] R key ([a, b].length) rfl (by simp)
    have sp1 := splice1 P [a, b] R key ([a, b].length - 1) rfl (by simp)
    have r0 := rd_mid0 P [a, b] R (by simp)
    have r1 := rd_append_mid P [a, b] R 1 (by simp)
    simp only [List.getD_cons_zero, List.getD_cons_succ] at r0 r1
    simp only [sp0, sp1]
    simp only [r0, r1]
    rw [if_neg hk.1]
    by_cases h0 : key < a
    · rw [if_pos h0]
      congr 1
      simp [below, notBelow, List.takeWhile, List.dropWhile, *, not_lt_of_gt]
    · rw [if_neg h0]
      have l0 : a < key := by omega
      rw [if_pos (by simp)]
      rw [if_neg hk.2]
      by_cases h1 : key < b
      · rw [if_pos h1]
        congr 1
        simp [below, notBelow, List.takeWhile, List.dropWhile, *, not_lt_of_gt]
      · rw [if_neg h1]
        have l1 : b < key := by omega
        rw [if_neg (by simp)]
        congr 1
        simp [below, notBelow, List.takeWhile, List.dropWhile, *]
  · -- a group of 3
    simp only [List.mem_cons, List.mem_singleton, List.not_mem_nil, or_false, not_or] at hk
    simp only [List.pairwise_cons, List.mem_cons, List.mem_singleton, List.not_mem_nil, forall_eq_or_imp, forall_eq, List.Pairwise.nil, and_true, IsEmpty.forall_iff, implies_true] at hso
    have sp0 := splice0 P [a, b, c] R key ([a, b, c].length) rfl (by simp)
    have sp1 := splice1 P [a, b, c] R key ([a, b, c].length - 1) rfl (by simp)
    have sp2 := splice2 P [a, b, c] R key ([a, b, c].length - 2) rfl (by simp)
    have r0 := rd_mid0 P [a, b, c] R (by simp)
    have r1 := rd_append_mid P [a, b, c] R 1 (by simp)
    have r2 := rd_append_mid P [a, b, c] R 2 (by simp)
    simp only [List.getD_cons_zero, List.getD_cons_succ] at r0 r1 r2
    simp only [sp0, sp1, sp2]
    simp only [r0, r1, r2]
    rw [if_neg hk.1]
    by_cases h0 : key < a
    · rw [if_pos h0]
      congr 1
      simp [below, notBelow, List.takeWhile, List.dropWhile, *, not_lt_of_gt]
    · rw [if_neg h0]
      have l0 : a < key := by omega
      rw [if_pos (by simp)]
      rw [if_neg hk.2.1]
      by_cases h1 : key < b
      · rw [if_pos h1]
        congr 1
        simp [below, notBelow, List.takeWhile, List.dropWhile, *, not_lt_of_gt]
      · rw [if_neg h1]
        have l1 : b < key := by omega
        rw [if_pos (by simp)]
        rw [if_neg hk.2.2]
        by_cases h2 : key < c
        · rw [if_pos h2]
          congr 1
          simp [below, notBelow, List.takeWhile, List.dropWhile, *, not_lt_of_gt]
        · rw [if_neg h2]
          have l2 : c < key := by omega
          rw [if_neg (by simp)]
          congr 1
          simp [below, notBelow, List.takeWhile, List.dropWhile, *]
  · -- a group of 4
    simp only [List.mem_cons, List.mem_singleton, List.not_mem_nil, or_false, not_or] at hk
    simp only [List.pairwise_cons, List.mem_cons, List.mem_singleton, List.not_mem_nil, forall_eq_or_imp, forall_eq, List.Pairwise.nil, and_true, IsEmpty.forall_iff, implies_true] at hso
    have sp0 := splice0 P [a, b, c, d] R key ([a, b, c, d].length) rfl (by simp)
    have sp1 := splice1 P [a, b, c, d] R key ([a, b, c, d].length - 1) rfl (by simp)
    have sp2 := splice2 P [a, b, c, d] R key ([a, b, c, d].length - 2) rfl (by simp)
    have sp3 := splice_last P [a, b, c, d] R key rfl hRl
    have r0 := rd_mid0 P [a, b, c, d] R (by simp)
    have r1 := rd_append_mid P [a, b, c, d] R 1 (by simp)
    have r2 := rd_append_mid P [a, b, c, d] R 2 (by simp)
    have r3 := rd_append_mid P [a, b, c, d] R 3 (by simp)
    simp only [List.getD_cons_zero, List.getD_cons_succ] at r0 r1 r2 r3
    simp only [sp0, sp1, sp2, sp3]
    simp only [r0, r1, r2, r3]
    rw [if_neg hk.1]
    by_cases h0 : key < a
    · rw [if_pos h0]
      congr 1
      simp [below, notBelow, List.takeWhile, List.dropWhile, *, not_lt_of_gt]
    · rw [if_neg h0]
      have l0 : a < key := by omega
      rw [if_pos (by simp)]
      rw [if_neg hk.2.1]
      by_cases h1 : key < b
      · rw [if_pos h1]
        congr 1
        simp [below, notBelow, List.takeWhile, List.dropWhile, *, not_lt_of_gt]
      · rw [if_neg h1]
        have l1 : b < key := by omega
        rw [if_pos (by simp)]
        rw [if_neg hk.2.2.1]
        by_cases h2 : key < c
        · rw [if_pos h2]
          congr 1
          simp [below, notBelow, List.takeWhile, List.dropWhile, *, not_lt_of_gt]
        · rw [if_neg h2]
          have l2 : c < key := by omega
          rw [if_pos (by simp)]
          rw [if_neg hk.2.2.2]
          by_cases h3 : key < d
          · rw [if_pos h3]
            congr 1
            simp [below, notBelow, List.takeWhile, List.dropWhile, *, not_lt_of_gt]
          · rw [if_neg h3]
            have l3 : d < key := by omega
            congr 1
            simp [below, notBelow, List.takeWhile, List.dropWhile, *]
  · simp at hg4

theorem insertFast_place (mem : List Nat) (endbyte key fuel : Nat) (s : InsertState)
    (g : List Nat) (di dn : Nat) (hc : endbyte > s.inbyte + 1 + 4 * 4)
    (hi : s.is_inserted = false) (hp : s.pout = 0)
    (hd : decodeGroupVarIntDelta mem s.inbyte s.initial = ⟨di, dn, g, 4⟩)
    (hg4 : g.length = 4) (hso : g.Pairwise (· < ·)) (hk : key ∉ g)
    (hlen : 5 ≤ s.out.length) :
    insertFast mem endbyte key (fuel + 1) s = insertFast mem endbyte key fuel
      (placeNext s g key di dn (wrap32 (s.remaining + 4294967296 - 4)) false) := by
  obtain ⟨inbyte, initial, slot, remaining, pout, out, is_ins, ni, nb, pslot⟩ := s
  simp only at hc hi hd hlen hp
  subst hi hp
  have hw : writeAt out 0 g = [] ++ g ++ out.drop g.length := writeAt_append [] out g
  have hRl : 1 ≤ (out.drop 4).length := by simp only [List.length_drop]; omega
  rw [insertFast]
  simp only [hc, ↓reduceIte, hd, hw, placeNext, List.take_zero, Nat.zero_add, hg4]
  generalize out.drop 4 = R at *
  rcases g with _ | ⟨a, _ | ⟨b, _ | ⟨c, _ | ⟨d, _ | _⟩⟩⟩⟩ <;> simp at hg4
  simp only [List.mem_cons, List.mem_singleton, List.not_mem_nil, or_false, not_or] at hk
  simp only [List.pairwise_cons, List.mem_cons, List.mem_singleton, List.not_mem_nil,
    forall_eq_or_imp, forall_eq, List.Pairwise.nil, and_true, IsEmpty.forall_iff,
    implies_true] at hso
  have sp0 : (writeAt ([] ++ [a, b, c, d] ++ R) 1 (slice ([] ++ [a, b, c, d] ++ R) 0 4)).set 0 key
      = [] ++ [a, b, c, d].take 0 ++ key :: [a, b, c, d].drop 0 ++ R.drop 1 :=
    splice0 [] [a, b, c, d] R key 4 rfl (by simp)
  have sp1 : (writeAt ([] ++ [a, b, c, d] ++ R) 2 (slice ([] ++ [a, b, c, d] ++ R) 1 3)).set 1 key
      = [] ++ [a, b, c, d].take 1 ++ key :: [a, b, c, d].drop 1 ++ R.drop 1 :=
    splice1 [] [a, b, c, d] R key 3 rfl (by simp)
  have sp2 : (writeAt ([] ++ [a, b, c, d] ++ R) 3 (slice ([] ++ [a, b, c, d] ++ R) 2 2)).set 2 key
      = [] ++ [a, b, c, d].take 2 ++ key :: [a, b, c, d].drop 2 ++ R.drop 1 :=
    splice2 [] [a, b, c, d] R key 2 rfl (by simp)
  have sp3 : (([] ++ [a, b, c, d] ++ R).set 4 (rd ([] ++ [a, b, c, d] ++ R) 3)).set 3 key
      = [] ++ [a, b, c, d].take 3 ++ key :: [a, b, c, d].drop 3 ++ R.drop 1 :=
    splice_last [] [a, b, c, d] R key rfl hRl
  have r0 : rd ([] ++ [a, b, c, d] ++ R) 0 = a := rfl
  have r1 : rd ([] ++ [a, b, c, d] ++ R) 1 = b := rfl
  have r2 : rd ([] ++ [a, b, c, d] ++ R) 2 = c := rfl
  have r3 : rd ([] ++ [a, b, c, d] ++ R) 3 = d := rfl
  simp only [sp0, sp1, sp2, sp3]
  simp only [r0, r1, r2, r3]
  by_cases h3 : key > d
  · rw [if_pos h3]
    congr 1
    have : a < key := by omega
    have : b < key := by omega
    have : c < key := by omega
    simp [below, notBelow, List.takeWhile, List.dropWhile, *]
  · rw [if_neg h3, if_neg (by simp [hk])]
    congr 1
    by_cases h0 : key < a
    · rw [if_pos h0]
      simp [below, notBelow, List.takeWhile, List.dropWhile, *, not_lt_of_gt]
    rw [if_neg h0]
    have l0 : a < key := by omega
    by_cases h1 : key < b
    · rw [if_pos h1]
      simp [below, notBelow, List.takeWhile, List.dropWhile, *, not_lt_of_gt]
    rw [if_neg h1]
    have l1 : b < key := by omega
    by_cases h2 : key < c
    · rw [if_pos h2]
      simp [below, notBelow, List.takeWhile, List.dropWhile, *, not_lt_of_gt]
    rw [if_neg h2]
    have l2 : c < key := by omega
    have l3 : key < d := by omega
    simp [below, notBelow, List.takeWhile, List.dropWhile, *, not_lt_of_gt]

theorem insertFast_advance (mem : List Nat) (endbyte key fuel : Nat) (s : InsertState)
    (g : List Nat) (di dn : Nat) (hc : endbyte > s.inbyte + 1 + 4 * 4)
    (hi : s.is_inserted = true) (hp : 4 ≤ s.pout) (hpl : s.pout ≤ s.out.length)
    (h3 : key ≤ rd s.out 3)
    (hd : decodeGroupVarIntDelta mem s.inbyte s.initial = ⟨di, dn, g, 4⟩) :
    insertFast mem endbyte key (fuel + 1) s = insertFast mem endbyte key fuel
      { s with out := writeAt s.out s.pout g,
               remaining := wrap32 (s.remaining + 4294967296 - 4),
               pout := s.pout + 4, slot := s.slot + 4, initial := dn, inbyte := di } := by
  have hr : rd (writeAt s.out s.pout g) 3 = rd s.out 3 := by
    rw [writeAt_eq, List.append_assoc, rd_append_left _ _ _ (by
      simp only [List.length_take]; omega)]
    unfold rd
    simp only [List.getD_eq_getElem?_getD, List.getElem?_take]
    rw [if_pos (by omega)]
  rw [insertFast]
  simp only [hc, ↓reduceIte, hd, hr, hi]
  rw [if_neg (by omega)]
  simp

theorem insertSlow_advance (mem : List Nat) (endbyte key fuel : Nat) (s : InsertState)
    (g : List Nat) (di dn : Nat) (hc1 : endbyte > s.inbyte) (hc2 : s.remaining > 0)
    (hi : s.is_inserted = true)
    (hd : decodeSingleVarintDelta mem s.inbyte s.initial s.remaining = ⟨di, dn, g, g.length⟩) :
    insertSlow mem endbyte key (fuel + 1) s = insertSlow mem endbyte key fuel
      { s with out := writeAt s.out s.pout g, pout := s.pout + g.length,
               inbyte := di, initial := dn,
               remaining := wrap32 (s.remaining + 4294967296 - g.length) } := by
  rw [insertSlow]
  simp [hc1, hc2, hd, hi]

/-! ## The loop invariants of insert -/

theorem below_append (key : Nat) (g : List Nat) : below key g ++ notBelow key g = g :=
  List.takeWhile_append_dropWhile _ _

theorem below_lt (key : Nat) (g : List Nat) : ∀ k ∈ below key g, k < key := by
  intro k hk
  have := List.mem_takeWhile_imp hk
  simpa using this

theorem notBelow_nil (key : Nat) (g : List Nat) (h : notBelow key g = []) :
    ∀ k ∈ g, k < key := by
  intro k hk
  have := List.dropWhile_eq_nil_iff.1 h k hk
  simpa using this

theorem notBelow_head (key : Nat) (g : List Nat) : ∀ (y : Nat) (Y : List Nat),
    notBelow key g = y :: Y → ¬ y < key := by
  induction g with
  | nil => intro y Y h; simp [notBelow] at h
  | cons a g ih =>
    intro y Y h
    unfold notBelow at h ih
    rw [List.dropWhile_cons] at h
    by_cases ha : a < key
    · simp only [ha, decide_True, ↓reduceIte] at h
      exact ih y Y h
    · simp only [ha, decide_False, Bool.false_eq_true, ↓reduceIte, List.cons.injEq] at h
      rw [← h.1]; exact ha

theorem notBelow_gt (key : Nat) (g rest : List Nat) (hs : (g ++ rest).Pairwise (· < ·))
    (hk : key ∉ g) (hne : notBelow key g ≠ []) : ∀ k ∈ notBelow key g ++ rest, key < k := by
  intro k hk1
  have hsplit := below_append key g
  rcases hY : notBelow key g with _ | ⟨y, Y⟩
  · exact absurd hY hne
  · rw [hY] at hk1 hsplit
    have hy : ¬ y < key := notBelow_head key g y Y hY
    have hyg : y ∈ g := by rw [← hsplit]; simp
    have hyk : key < y := by
      have : y ≠ key := fun h => hk (h ▸ hyg)
      omega
    rw [← hsplit, List.append_assoc, List.pairwise_append] at hs
    have h2 := hs.2.1
    rw [List.cons_append, List.pairwise_cons] at h2
    simp only [List.cons_append, List.mem_cons] at hk1
    rcases hk1 with h | h
    · rw [h]; exact hyk
    · have := h2.1 k h
      omega

theorem kept_next (mem : List Nat) (size anchor : Nat) (K0 rest : List Nat) (p cur : Nat)
    (hK : Kept mem anchor K0 p cur) (hat : At mem size p cur rest) (h4 : 4 ≤ rest.length) :
    Kept mem anchor (K0 ++ rest.take 4) (p + (groupBytes cur (rest.take 4)).length)
      ((rest.take 4).getLastD cur) := by
  obtain ⟨k1, k2, k3, k4⟩ := hK
  have hne : rest ≠ [] := by intro h; subst h; simp at h4
  obtain ⟨junk, hd⟩ := at_group_drop mem size p cur rest hat hne
  have hg : encodeArray cur (rest.take 4) = groupBytes cur (rest.take 4) := by
    have hne4 : rest.take 4 ≠ [] := by
      intro h
      have := congrArg List.length h
      simp only [List.length_take, List.length_nil] at this
      omega
    rw [enc_group cur _ hne4, List.take_take, List.drop_take]
    simp [encodeArray_nil]
  have henc : encodeArray anchor (K0 ++ rest.take 4)
      = encodeArray anchor K0 ++ groupBytes cur (rest.take 4) := by
    rw [enc_append_full _ _ _ k1, ← k4, hg]
  refine ⟨?_, ?_, ?_, ?_⟩
  · simp only [List.length_append, List.length_take]; omega
  · rw [henc, List.take_add, k2, hd, List.take_left]
  · rw [henc, List.length_append, ← k3]
  · rw [getLastD_append, ← k4]


theorem writeAt_length (out g : List Nat) (p : Nat) (h : p + g.length ≤ out.length) :
    (writeAt out p g).length = out.length := by
  simp only [writeAt_eq, List.length_append, List.length_take, List.length_drop]
  omega

theorem writeAt_take (out g : List Nat) (p : Nat) (h : p ≤ out.length) :
    (writeAt out p g).take (p + g.length) = out.take p ++ g := by
  rw [writeAt_eq]
  apply List.take_left'
  simp only [List.length_append, List.length_take]
  omega

theorem take4_sorted (A rest B : List Nat) (hs : (A ++ rest ++ B).Pairwise (· < ·)) :
    (rest.take 4 ++ rest.drop 4).Pairwise (· < ·) := by
  rw [List.take_append_drop]
  exact ((List.pairwise_append.1 ((List.pairwise_append.1 hs).1)).2.1)

theorem wrap_sub (r n : Nat) (h : n ≤ r) (hr : r < 4294967296) :
    wrap32 (r + 4294967296 - n) = r - n := by
  unfold wrap32; omega

theorem placed_step (mem : List Nat) (size anchor : Nat) (keys : List Nat) (key : Nat)
    (hn : keys.length ≤ 30) (s : InsertState) (h : InsPlaced mem size anchor keys key s)
    (hne : s.remaining > 0) (slot : Nat) :
    ∃ g di dn, g.length ≤ 4 ∧ 1 ≤ g.length ∧ g.length ≤ s.remaining ∧ s.remaining ≤ 30 ∧
      (4 ≤ s.remaining → g.length = 4 ∧
        decodeGroupVarIntDelta mem s.inbyte s.initial = ⟨di, dn, g, 4⟩) ∧
      decodeSingleVarintDelta mem s.inbyte s.initial s.remaining = ⟨di, dn, g, g.length⟩ ∧
      size > s.inbyte ∧ s.pout ≤ s.out.length ∧
      InsPlaced mem size anchor keys key
        { s with out := writeAt s.out s.pout g, pout := s.pout + g.length, inbyte := di,
                 initial := dn, remaining := wrap32 (s.remaining + 4294967296 - g.length),
                 slot := slot } := by
  obtain ⟨h1, h2, K0, X, Y, rest, hkeys, hK, hY, hp, hout, hps, hat, hrem, hlt, hgt⟩ := h
  have hrne : rest ≠ [] := by
    intro h0; rw [h0] at hrem; simp at hrem; omega
  have hlen : keys.length = K0.length + X.length + Y.length + rest.length := by
    rw [hkeys]; simp only [List.length_append]
  have hgl : (rest.take 4).length = min 4 rest.length := List.length_take _ _
  have hsplit : rest.take 4 ++ rest.drop 4 = rest := List.take_append_drop _ _
  refine ⟨rest.take 4, _, _, by omega, by omega, by omega, by omega, ?_,
    single_at mem size _ _ _ rest hat hrne hrem, (at_pos_iff mem size _ _ rest hat).2 hrne,
    by omega, h1, ?_, ?_⟩
  · intro h4
    exact ⟨by omega, group_at mem size _ _ rest hat (by omega)⟩
  · simp only
    rw [writeAt_length _ _ _ (by omega)]
    exact h2
  · refine ⟨K0, X, Y ++ rest.take 4, rest.drop 4, ?_, hK, by simp [hY], ?_, ?_, hps,
      at_next mem size _ _ rest hat hrne, ?_, hlt, ?_⟩
    · rw [hkeys]; simp only [List.append_assoc, hsplit]
    · simp only [List.length_append]; omega
    · simp only
      rw [writeAt_take _ _ _ (by omega), hout]
      simp
    · simp only
      rw [wrap_sub _ _ (by omega) (by omega), hrem, List.length_drop]
      omega
    · intro k hk
      rw [List.append_assoc, hsplit] at hk
      exact hgt k hk


theorem placed_out_length (out X Y : List Nat) (p n key : Nat) (hn : n = X.length + Y.length)
    (h : p + n + 1 ≤ out.length) :
    (out.take p ++ X ++ key :: Y ++ (out.drop (p + n)).drop 1).length = out.length := by
  simp only [List.length_append, List.length_take, List.length_cons, List.length_drop]
  omega

theorem placed_out_take (out X Y : List Nat) (p n key : Nat) (hn : n = X.length + Y.length)
    (h : p ≤ out.length) :
    (out.take p ++ X ++ key :: Y ++ (out.drop (p + n)).drop 1).take (p + (n + 1))
      = (out.take p ++ X) ++ key :: Y := by
  apply List.take_left'
  simp only [List.length_append, List.length_take, List.length_cons]
  omega

theorem scan_step (mem : List Nat) (size anchor : Nat) (keys : List Nat) (key : Nat)
    (hs : keys.Pairwise (· < ·)) (hk : key ∉ keys) (hn : keys.length ≤ 30)
    (s : InsertState) (h : InsScan mem size anchor keys key s) (hne : s.remaining > 0) :
    ∃ g di dn, 1 ≤ g.length ∧ g.length ≤ 4 ∧ g.Pairwise (· < ·) ∧ key ∉ g ∧
      decodeSingleVarintDelta mem s.inbyte s.initial s.remaining = ⟨di, dn, g, g.length⟩ ∧
      size > s.inbyte ∧ s.pout + g.length + 1 ≤ s.out.length ∧
      (InsScan mem size anchor keys key
          (placeNext s g key di dn (wrap32 (s.remaining + 4294967296 - g.length)) true) ∨
        InsPlaced mem size anchor keys key
          (placeNext s g key di dn (wrap32 (s.remaining + 4294967296 - g.length)) true)) ∧
      (placeNext s g key di dn (wrap32 (s.remaining + 4294967296 - g.length)) true).remaining
        < s.remaining := by
  obtain ⟨h1, h2, K0, D, rest, hkeys, hK, hslot, hp, hout, hat, hrem, hlt⟩ := h
  have hrne : rest ≠ [] := by
    intro h0; rw [h0] at hrem; simp at hrem; omega
  have hlen : keys.length = K0.length + D.length + rest.length := by
    rw [hkeys]; simp only [List.length_append]
  have hgl : (rest.take 4).length = min 4 rest.length := List.length_take _ _
  have hsplit : rest.take 4 ++ rest.drop 4 = rest := List.take_append_drop _ _
  have hsrest : (rest.take 4 ++ rest.drop 4).Pairwise (· < ·) := by
    rw [hsplit]
    have hs2 := hs
    rw [hkeys] at hs2
    exact (List.pairwise_append.1 hs2).2.1
  have hsg : (rest.take 4).Pairwise (· < ·) := (List.pairwise_append.1 hsrest).1
  have hkg : key ∉ rest.take 4 := by
    intro hmem
    apply hk
    rw [hkeys]
    exact List.mem_append_right _ (List.mem_of_mem_take hmem)
  have hba := below_append key (rest.take 4)
  have hbl : (below key (rest.take 4)).length + (notBelow key (rest.take 4)).length
      = (rest.take 4).length := by
    rw [← List.length_append, hba]
  have hw : wrap32 (s.remaining + 4294967296 - (rest.take 4).length)
      = (rest.drop 4).length := by
    rw [wrap_sub _ _ (by omega) (by omega), hrem, List.length_drop]; omega
  refine ⟨rest.take 4, _, _, by omega, by omega, hsg, hkg,
    single_at mem size _ _ _ rest hat hrne hrem, (at_pos_iff mem size _ _ rest hat).2 hrne,
    by omega, ?_, ?_⟩
  · by_cases hY : notBelow key (rest.take 4) = []
    · left
      rw [placeNext, if_neg (by simp [hY])]
      refine ⟨h1, ?_, K0, D ++ rest.take 4, rest.drop 4, ?_, hK, ?_, ?_, ?_,
        at_next mem size _ _ rest hat hrne, hw, ?_⟩
      · simp only
        rw [writeAt_length _ _ _ (by omega)]
        exact h2
      · rw [hkeys]; simp only [List.append_assoc, hsplit]
      · simp only [List.length_append]; omega
      · simp only [List.length_append, ↓reduceIte]; omega
      · simp only [↓reduceIte]
        rw [writeAt_take _ _ _ (by omega), hout]
      · intro k hk1
        rw [← List.append_assoc] at hk1
        rcases List.mem_append.1 hk1 with h | h
        · exact hlt k h
        · exact notBelow_nil key _ hY k h
    · right
      rw [placeNext, if_pos hY]
      refine ⟨rfl, ?_, K0, D ++ below key (rest.take 4), notBelow key (rest.take 4),
        rest.drop 4, ?_, hK, hY, ?_, ?_, ?_, at_next mem size _ _ rest hat hrne, hw, ?_, ?_⟩
      · simp only
        rw [placed_out_length _ _ _ _ _ _ hbl.symm (by omega)]
        exact h2
      · rw [hkeys]
        simp only [List.append_assoc]
        rw [← List.append_assoc (below key (rest.take 4)), hba, hsplit]
      · simp only [List.length_append]; omega
      · simp only
        rw [placed_out_take _ _ _ _ _ _ hbl.symm (by omega), hout]
      · simp only [List.length_append]; omega
      · intro k hk1
        rw [← List.append_assoc] at hk1
        rcases List.mem_append.1 hk1 with h | h
        · exact hlt k h
        · exact below_lt key _ k h
      · exact notBelow_gt key _ _ hsrest hkg hY
  · by_cases hY : notBelow key (rest.take 4) = []
    · rw [placeNext, if_neg (by simp [hY])]
      simp only
      rw [hw, hrem, List.length_drop]; omega
    · rw [placeNext, if_pos hY]
      simp only
      rw [hw, hrem, List.length_drop]; omega


theorem rd3_placed (X Y T : List Nat) (key : Nat) (h : X.length + Y.length = 4) (hY : Y ≠ [])
    (hgt : ∀ k ∈ Y, key < k) : key ≤ rd (X ++ key :: Y ++ T) 3 := by
  have hYl : 0 < Y.length := List.length_pos.2 hY
  unfold rd
  rw [List.append_assoc, List.getD_append_right _ _ _ _ (by omega)]
  rcases hm : 3 - X.length with _ | m
  · simp
  · rw [List.cons_append, List.getD_cons_succ, List.getD_append _ _ _ _ (by omega),
      List.getD_eq_getElem _ _ (by omega)]
    exact le_of_lt (hgt _ (List.getElem_mem _))

theorem skip_step (mem : List Nat) (size anchor : Nat) (keys : List Nat) (key : Nat)
    (hs : keys.Pairwise (· < ·)) (hk : key ∉ keys) (hn : keys.length ≤ 30)
    (s : InsertState) (h : InsSkip mem size anchor keys key s)
    (hc : size > s.inbyte + 1 + 4 * 4) :
    ∃ g di dn, g.length = 4 ∧ g.Pairwise (· < ·) ∧ key ∉ g ∧
      decodeGroupVarIntDelta mem s.inbyte s.initial = ⟨di, dn, g, 4⟩ ∧ 5 ≤ s.out.length ∧
      (InsSkip mem size anchor keys key
          (placeNext s g key di dn (wrap32 (s.remaining + 4294967296 - 4)) false) ∨
        (InsPlaced mem size anchor keys key
          (placeNext s g key di dn (wrap32 (s.remaining + 4294967296 - 4)) false) ∧
         4 ≤ (placeNext s g key di dn (wrap32 (s.remaining + 4294967296 - 4)) false).pout ∧
         key ≤ rd (placeNext s g key di dn (wrap32 (s.remaining + 4294967296 - 4)) false).out
            3)) := by
  obtain ⟨h1, hp, h2, K0, rest, hkeys, hK, hslot, hat, hrem, hlt⟩ := h
  have h5 := at_fast mem size _ _ rest hat hc
  have hrne : rest ≠ [] := by intro h0; rw [h0] at h5; simp at h5
  have hlen : keys.length = K0.length + rest.length := by
    rw [hkeys]; simp only [List.length_append]
  have hgl : (rest.take 4).length = 4 := by simp only [List.length_take]; omega
  have hsplit : rest.take 4 ++ rest.drop 4 = rest := List.take_append_drop _ _
  have hsrest : (rest.take 4 ++ rest.drop 4).Pairwise (· < ·) := by
    rw [hsplit]
    have hs2 := hs
    rw [hkeys] at hs2
    exact (List.pairwise_append.1 hs2).2
      |>.1
  have hsg : (rest.take 4).Pairwise (· < ·) := (List.pairwise_append.1 hsrest).1
  have hkg : key ∉ rest.take 4 := by
    intro hmem
    apply hk
    rw [hkeys]
    exact List.mem_append_right _ (List.mem_of_mem_take hmem)
  have hba := below_append key (rest.take 4)
  have hbl : (below key (rest.take 4)).length + (notBelow key (rest.take 4)).length = 4 := by
    rw [← List.length_append, hba, hgl]
  have hw : wrap32 (s.remaining + 4294967296 - 4) = (rest.drop 4).length := by
    rw [wrap_sub _ _ (by omega) (by omega), hrem, List.length_drop]
  refine ⟨rest.take 4, _, _, hgl, hsg, hkg, group_at mem size _ _ rest hat (by omega),
    by omega, ?_⟩
  by_cases hY : notBelow key (rest.take 4) = []
  · left
    rw [placeNext, if_neg (by simp [hY])]
    refine ⟨h1, by simpa using hp, ?_, K0 ++ rest.take 4, rest.drop 4, ?_,
      kept_next mem size anchor K0 rest _ _ hK hat (by omega), ?_,
      at_next mem size _ _ rest hat hrne, hw, ?_⟩
    · simp only
      rw [writeAt_length _ _ _ (by omega)]
      exact h2
    · rw [hkeys]; simp only [List.append_assoc, hsplit]
    · simp only [List.length_append]; omega
    · intro k hk1
      rcases List.mem_append.1 hk1 with h | h
      · exact hlt k h
      · exact notBelow_nil key _ hY k h
  · right
    have hgt := notBelow_gt key _ _ hsrest hkg hY
    rw [placeNext, if_pos hY]
    refine ⟨⟨rfl, ?_, K0, below key (rest.take 4), notBelow key (rest.take 4),
      rest.drop 4, ?_, hK, hY, ?_, ?_, ?_, at_next mem size _ _ rest hat hrne, hw, ?_, hgt⟩,
      ?_, ?_⟩
    · simp only
      rw [placed_out_length _ _ _ _ _ _ (by omega) (by omega)]
      exact h2
    · rw [hkeys]
      simp only [List.append_assoc]
      rw [← List.append_assoc (below key (rest.take 4)), hba, hsplit]
    · simp only [hgl]; omega
    · simp only
      rw [placed_out_take _ _ _ _ _ _ (by omega) (by omega), hp]
      simp
    · simp only; omega
    · intro k hk1
      rcases List.mem_append.1 hk1 with h | h
      · exact hlt k h
      · exact below_lt key _ k h
    · simp only [hgl]; omega
    · simp only [hp, List.take_zero, List.nil_append]
      exact rd3_placed _ _ _ key hbl hY
        (fun k hk1 => hgt k (List.mem_append_left _ hk1))

theorem placed_remaining (mem : List Nat) (size anchor : Nat) (keys : List Nat) (key : Nat)
    (s : InsertState) (h : InsPlaced mem size anchor keys key s)
    (hc : size > s.inbyte + 1 + 4 * 4) : 5 ≤ s.remaining := by
  obtain ⟨_, _, K0, X, Y, rest, _, _, _, _, _, _, hat, hrem, _, _⟩ := h
  rw [hrem]
  exact at_fast mem size _ _ rest hat hc

theorem insertFast_inv (mem : List Nat) (size anchor : Nat) (keys : List Nat) (key : Nat)
    (hs : keys.Pairwise (· < ·)) (hk : key ∉ keys) (hn : keys.length ≤ 30) :
    ∀ (fuel : Nat) (s : InsertState),
    (InsSkip mem size anchor keys key s ∨
      (InsPlaced mem size anchor keys key s ∧ 4 ≤ s.pout ∧ key ≤ rd s.out 3)) →
    ∃ s1, insertFast mem size key fuel s = some s1 ∧
      (InsSkip mem size anchor keys key s1 ∨ InsPlaced mem size anchor keys key s1) := by
  intro fuel
  induction fuel with
  | zero =>
    intro s h
    refine ⟨s, by simp [insertFast], ?_⟩
    rcases h with h | h
    · exact Or.inl h
    · exact Or.inr h.1
  | succ fuel ih =>
    intro s h
    by_cases hc : size > s.inbyte + 1 + 4 * 4
    · rcases h with h | ⟨h, hp4, h3⟩
      · obtain ⟨g, di, dn, hg4, hsg, hkg, hd, hlen, hinv⟩ :=
          skip_step mem size anchor keys key hs hk hn s h hc
        rw [insertFast_place mem size key fuel s g di dn hc h.1 h.2.1 hd hg4 hsg hkg hlen]
        exact ih _ hinv
      · have h5 := placed_remaining mem size anchor keys key s h hc
        obtain ⟨g, di, dn, _, _, _, _, hgroup, _, _, hpl, hinv⟩ :=
          placed_step mem size anchor keys key hn s h (by omega) (s.slot + 4)
        obtain ⟨hg4, hd⟩ := hgroup (by omega)
        rw [insertFast_advance mem size key fuel s g di dn hc h.1 hp4 hpl h3 hd]
        rw [hg4] at hinv
        apply ih
        right
        refine ⟨hinv, by simp only; omega, ?_⟩
        simp only
        rw [writeAt_eq, List.append_assoc, rd_append_left _ _ _ (by
          simp only [List.length_take]; omega)]
        unfold rd at h3 ⊢
        simp only [List.getD_eq_getElem?_getD, List.getElem?_take] at h3 ⊢
        rw [if_pos (by omega)]
        exact h3
    · refine ⟨s, by rw [insertFast]; simp [hc], ?_⟩
      rcases h with h | h
      · exact Or.inl h
      · exact Or.inr h.1

theorem insertSlow_inv (mem : List Nat) (size anchor : Nat) (keys : List Nat) (key : Nat)
    (hs : keys.Pairwise (· < ·)) (hk : key ∉ keys) (hn : keys.length ≤ 30) :
    ∀ (fuel : Nat) (s : InsertState),
    (InsScan mem size anchor keys key s ∨ InsPlaced mem size anchor keys key s) →
    s.remaining ≤ fuel →
    ∃ s1, insertSlow mem size key fuel s = some s1 ∧
      (InsScan mem size anchor keys key s1 ∨ InsPlaced mem size anchor keys key s1) ∧
      s1.remaining = 0 := by
  intro fuel
  induction fuel with
  | zero =>
    intro s h hr
    exact ⟨s, by simp [insertSlow], h, by omega⟩
  | succ fuel ih =>
    intro s h hr
    by_cases hpos : s.remaining > 0
    · rcases h with h | h
      · obtain ⟨g, di, dn, hg1, hg4, hsg, hkg, hd, hc1, hlen, hinv, hdec⟩ :=
          scan_step mem size anchor keys key hs hk hn s h hpos
        rw [insertSlow_place mem size key fuel s g di dn hc1 hpos h.1 hd hg1 hg4 hsg hkg hlen]
        exact ih _ hinv (by omega)
      · obtain ⟨g, di, dn, _, hg1, hgr, hr30, _, hd, hc1, _, hinv⟩ :=
          placed_step mem size anchor keys key hn s h hpos s.slot
        rw [insertSlow_advance mem size key fuel s g di dn hc1 hpos h.1 hd]
        have hrem : wrap32 (s.remaining + 4294967296 - g.length) < s.remaining := by
          unfold wrap32; omega
        exact ih _ (Or.inr hinv) (by simp only; omega)
    · refine ⟨s, by rw [insertSlow]; simp [hpos], h, by omega⟩

/-! ## insert places the key at its sorted position -/

theorem orderedInsert_split (key : Nat) (A B : List Nat) (hA : ∀ a ∈ A, a < key)
    (hB : ∀ b ∈ B, key < b) : List.orderedInsert (· ≤ ·) key (A ++ B) = A ++ key :: B := by
  induction A with
  | nil =>
    cases B with
    | nil => rfl
    | cons b B =>
      have := hB b (List.mem_cons_self _ _)
      simp only [List.nil_append, List.orderedInsert]
      rw [if_pos (by omega)]
  | cons a A ih =>
    have := hA a (List.mem_cons_self _ _)
    have e := ih (fun x hx => hA x (List.mem_cons_of_mem _ hx))
    simp only [List.cons_append, List.orderedInsert]
    rw [if_neg (by omega)]
    exact congrArg (List.cons a) e

theorem sorted_insert (key : Nat) (A B : List Nat) (hs : (A ++ B).Pairwise (· < ·))
    (hA : ∀ a ∈ A, a < key) (hB : ∀ b ∈ B, key < b) : (A ++ key :: B).Pairwise (· < ·) := by
  rw [List.pairwise_append] at hs ⊢
  refine ⟨hs.1, ?_, ?_⟩
  · rw [List.pairwise_cons]
    exact ⟨hB, hs.2.1⟩
  · intro a ha b hb
    rcases List.mem_cons.1 hb with h | h
    · rw [h]; exact hA a ha
    · exact hs.2.2 a ha b h

theorem set_take_succ (out : List Nat) (p key : Nat) (h : p < out.length) :
    (out.set p key).take (p + 1) = out.take p ++ [key] := by
  rw [List.set_eq_take_append_cons_drop, if_pos h]
  have e : out.take p ++ key :: out.drop (p + 1) = (out.take p ++ [key]) ++ out.drop (p + 1) := by
    simp
  rw [e]
  apply List.take_left'
  simp only [List.length_append, List.length_take, List.length_cons, List.length_nil]; omega

/-- What the loops of `insert` leave for the final `encodeArray`. -/
theorem insert_loops (scratch : List Nat) (index : GroupVarintIndex) (mem keys : List Nat)
    (key pslot : Nat) (hv : ValidBlock index mem keys) (hc : index.key_count ≤ 31)
    (hsc : scratch.length = 32) (hnot : key ∉ keys) :
    ∃ s1 s3, insertFast mem index.used_size key index.used_size
        { inbyte := 0, initial := index.value, slot := 0,
          remaining := wrap32 (index.key_count + 4294967296 - 1),
          pout := 0, out := scratch, is_inserted := false,
          new_initial := index.value, new_inbyte := 0, pslot := pslot } = some s1 ∧
      insertSlow mem index.used_size key index.used_size
        (if s1.is_inserted = false then
          { s1 with new_initial := s1.initial, new_inbyte := s1.inbyte }
         else s1) = some s3 ∧
      ∃ K0 X Y, keys = K0 ++ X ++ Y ∧
        Kept mem index.value K0
          (if s3.is_inserted = false then
            { s3 with pslot := 1 + s3.slot, out := s3.out.set s3.pout key,
                      pout := s3.pout + 1 }
           else s3).new_inbyte
          (if s3.is_inserted = false then
            { s3 with pslot := 1 + s3.slot, out := s3.out.set s3.pout key,
                      pout := s3.pout + 1 }
           else s3).new_initial ∧
        (if s3.is_inserted = false then
            { s3 with pslot := 1 + s3.slot, out := s3.out.set s3.pout key,
                      pout := s3.pout + 1 }
           else s3).out.take
          (if s3.is_inserted = false then
            { s3 with pslot := 1 + s3.slot, out := s3.out.set s3.pout key,
                      pout := s3.pout + 1 }
           else s3).pout = X ++ key :: Y ∧
        (if s3.is_inserted = false then
            { s3 with pslot := 1 + s3.slot, out := s3.out.set s3.pout key,
                      pout := s3.pout + 1 }
           else s3).pslot = K0.length + X.length + 1 ∧
        (∀ k ∈ K0 ++ X, k < key) ∧ ∀ k ∈ Y, key < k := by
  have hat := valid_at index mem keys hv
  obtain ⟨hw, hk30⟩ := valid_nvalue index mem keys hv
  have hn : keys.length ≤ 30 := by have := hv.1; omega
  have hs : keys.Pairwise (· < ·) := (List.pairwise_cons.1 hv.2.2.2.2.1).2
  have hsize := encodeArray_length_ge index.value keys
  rw [← hv.2.2.1] at hsize
  -- the first loop
  obtain ⟨s1, e1, inv1⟩ := insertFast_inv mem index.used_size index.value keys key hs hnot hn
    index.used_size
    { inbyte := 0, initial := index.value, slot := 0,
      remaining := wrap32 (index.key_count + 4294967296 - 1),
      pout := 0, out := scratch, is_inserted := false,
      new_initial := index.value, new_inbyte := 0, pslot := pslot }
    (Or.inl ⟨rfl, rfl, hsc, [], keys, rfl,
      ⟨rfl, by simp [encodeArray_nil], by simp [encodeArray_nil], rfl⟩, rfl, hat, hw,
      by simp⟩)
  -- the state between the loops
  have inv2 : (InsScan mem index.used_size index.value keys key
        (if s1.is_inserted = false then
          { s1 with new_initial := s1.initial, new_inbyte := s1.inbyte } else s1) ∨
      InsPlaced mem index.used_size index.value keys key
        (if s1.is_inserted = false then
          { s1 with new_initial := s1.initial, new_inbyte := s1.inbyte } else s1)) ∧
      (if s1.is_inserted = false then
          { s1 with new_initial := s1.initial, new_inbyte := s1.inbyte } else s1).remaining
        ≤ keys.length := by
    rcases inv1 with h | h
    · obtain ⟨h1, hp, h2, K0, rest, hkeys, hK, hslot, hat1, hrem, hlt1⟩ := h
      rw [if_pos h1]
      refine ⟨Or.inl ⟨h1, h2, K0, [], rest, by simpa using hkeys, hK, by simpa using hslot,
        hp, by simp [hp], hat1, hrem, by simpa using hlt1⟩, ?_⟩
      simp only [hrem, hkeys, List.length_append]; omega
    · have h1 := h.1
      rw [if_neg (by simp [h1])]
      refine ⟨Or.inr h, ?_⟩
      obtain ⟨_, _, K0, X, Y, rest, hkeys, _, _, _, _, _, _, hrem, _, _⟩ := h
      simp only [hrem, hkeys, List.length_append]; omega
  -- the second loop
  obtain ⟨s3, e3, inv3, hr3⟩ := insertSlow_inv mem index.used_size index.value keys key hs hnot
    hn index.used_size _ inv2.1 (by omega)
  refine ⟨s1, s3, e1, e3, ?_⟩
  rcases inv3 with h | h
  · obtain ⟨h1, h2, K0, D, rest, hkeys, hK, hslot, hp, hout, hat3, hrem, hlt3⟩ := h
    have hrest : rest = [] := List.length_eq_zero.1 (by omega)
    subst hrest
    have hDl : D.length ≤ 30 := by
      have := congrArg List.length hkeys
      simp only [List.length_append, List.length_nil] at this
      omega
    rw [if_pos h1]
    refine ⟨K0, D, [], by simpa using hkeys, hK, ?_, ?_, hlt3, by simp⟩
    · simp only
      rw [set_take_succ _ _ _ (by omega), hout]
    · simp only; omega
  · have h1 := h.1
    obtain ⟨_, h2, K0, X, Y, rest, hkeys, hK, hY, hp, hout, hps, hat3, hrem, hlt3, hgt3⟩ := h
    have hrest : rest = [] := List.length_eq_zero.1 (by omega)
    subst hrest
    rw [if_neg (by simp [h1])]
    exact ⟨K0, X, Y, by simpa using hkeys, hK, hout, hps, hlt3, by simpa using hgt3⟩

/-- Re-encoding the tail of the block from the kept prefix gives a valid block. -/
theorem insert_finish (index : GroupVarintIndex) (mem keys : List Nat) (key : Nat)
    (s4 : InsertState) (K0 X Y : List Nat) (hv : ValidBlock index mem keys)
    (hc : index.key_count ≤ 31) (hkey : key < 4294967296) (hlt : index.value < key)
    (hkeys : keys = K0 ++ X ++ Y)
    (hK : Kept mem index.value K0 s4.new_inbyte s4.new_initial)
    (hout : s4.out.take s4.pout = X ++ key :: Y)
    (hA : ∀ k ∈ K0 ++ X, k < key) (hB : ∀ k ∈ Y, key < k) :
    ValidBlock
      ((index.set_key_count (index.key_count + 1)).set_used_size
        (s4.new_inbyte + (encodeArray s4.new_initial (s4.out.take s4.pout)).length))
      (writeAt mem s4.new_inbyte (encodeArray s4.new_initial (s4.out.take s4.pout)))
      (K0 ++ X ++ key :: Y) := by
  obtain ⟨k1, k2, k3, k4⟩ := hK
  have hn : keys.length ≤ 30 := by have := hv.1; omega
  have hkc := hv.1
  have henc : encodeArray index.value (K0 ++ (X ++ key :: Y))
      = encodeArray index.value K0 ++ encodeArray (K0.getLastD index.value) (X ++ key :: Y) :=
    enc_append_full _ _ _ k1
  have hlen1 : (K0 ++ (X ++ key :: Y)).length = keys.length + 1 := by
    rw [hkeys]; simp only [List.length_append, List.length_cons]; omega
  have hbound := encodeArray_length_le index.value (K0 ++ (X ++ key :: Y))
  have hq0 : (encodeArray index.value K0).length ≤ mem.length := by
    have := congrArg List.length k2
    rw [List.length_take] at this
    omega
  rw [hout, k4, List.append_assoc]
  have hsize : (s4.new_inbyte + (encodeArray (K0.getLastD index.value) (X ++ key :: Y)).length)
      % 256 = (encodeArray index.value (K0 ++ (X ++ key :: Y))).length := by
    rw [henc, List.length_append, ← k3]
    apply Nat.mod_eq_of_lt
    rw [henc, List.length_append, ← k3] at hbound
    omega
  unfold ValidBlock kMaxKeysPerBlock
  simp only [GroupVarintIndex.set_used_size, GroupVarintIndex.set_key_count]
  refine ⟨?_, ?_, hsize, ?_, ?_, ?_⟩
  · rw [hlen1]; omega
  · omega
  · rw [hsize, henc, List.length_append, ← k3,
      writeAt_take _ _ _ (by rw [k3]; exact hq0), k2]
  · have hs0 := hv.2.2.2.2.1
    rw [hkeys, List.append_assoc, ← List.cons_append, ← List.append_assoc] at hs0
    have := sorted_insert key (index.value :: K0 ++ X) Y hs0 (by
      intro a ha
      simp only [List.cons_append, List.mem_cons] at ha
      rcases ha with h | h
      · rw [h]; exact hlt
      · exact hA a h) hB
    simpa using this
  · intro k hk
    have hb0 := hv.2.2.2.2.2
    simp only [List.mem_cons, List.mem_append] at hk
    rcases hk with h | h | h | h | h
    · exact hb0 k (by rw [h]; simp)
    · exact hb0 k (by rw [hkeys]; simp [h])
    · exact hb0 k (by rw [hkeys]; simp [h])
    · rw [h]; exact hkey
    · exact hb0 k (by rw [hkeys]; simp [h])

/-- The splice and append paths of `insert` (`key > anchor`). -/
theorem insert_after_anchor (scratch : List Nat) (index : GroupVarintIndex)
    (mem keys : List Nat) (key pslot : Nat) (hv : ValidBlock index mem keys)
    (hc : index.key_count ≤ 31) (hsc : scratch.length = 32) (hkey : key < 4294967296)
    (hlt : index.value < key) (hnot : key ∉ keys) :
    (insert scratch index mem key pslot).ok = true ∧
    (insert scratch index mem key pslot).index.value = index.value ∧
    ∃ A B, keys = A ++ B ∧ (∀ k ∈ A, k < key) ∧ (∀ k ∈ B, key < k) ∧
      ValidBlock (insert scratch index mem key pslot).index
        (insert scratch index mem key pslot).mem (A ++ key :: B) ∧
      (insert scratch index mem key pslot).pslot = A.length + 1 := by
  obtain ⟨s1, s3, e1, e3, K0, X, Y, hkeys, hK, hout, hps, hA, hB⟩ :=
    insert_loops scratch index mem keys key pslot hv hc hsc hnot
  have hfin := insert_finish index mem keys key _ K0 X Y hv hc hkey hlt hkeys hK hout hA hB
  unfold insert
  rw [if_neg (by omega)]
  simp only [e1, e3]
  exact ⟨trivial, rfl, K0 ++ X, Y, hkeys, hA, hB, hfin, by
    rw [hps]; simp only [List.length_append]⟩

theorem uncompress_valid (index : GroupVarintIndex) (mem keys : List Nat)
    (hv : ValidBlock index mem keys) : uncompress_block index mem = keys := by
  obtain ⟨h1, h2, h3, h4, h5, h6⟩ := hv
  unfold kMaxKeysPerBlock at h2
  have hw : wrap32 (index.key_count + 4294967296 - 1) = keys.length := by
    unfold wrap32; omega
  unfold uncompress_block
  simp only [hw]
  by_cases h0 : keys.length > 0
  · rw [if_pos h0]
    exact decodeArray_at mem index.value keys index.used_size
      (at_start mem _ _ _ h3 h4 (h6 _ (List.mem_cons_self _ _))
        (fun v hv => h6 v (List.mem_cons_of_mem _ hv))) (by omega)
  · rw [if_neg h0]
    have : keys.length = 0 := by omega
    exact (List.length_eq_zero.1 this).symm

theorem shift_scratch (scratch keys : List Nat) (a : Nat) (h : keys.length + 1 ≤ scratch.length) :
    ((writeAt (writeAt scratch 0 keys) 1
        (slice (writeAt scratch 0 keys) 0 keys.length)).set 0 a).take (keys.length + 1)
      = a :: keys := by
  have e1 : writeAt scratch 0 keys = keys ++ scratch.drop keys.length := by
    rw [writeAt_eq]; simp
  have e2 : slice (keys ++ scratch.drop keys.length) 0 keys.length = keys := by
    unfold slice; simp
  rw [e1, e2, writeAt_eq]
  have hne : (keys ++ scratch.drop keys.length).length ≥ 1 := by
    simp only [List.length_append, List.length_drop]; omega
  cases hk : (keys ++ scratch.drop keys.length) with
  | nil => rw [hk] at hne; simp at hne
  | cons x t =>
    simp only [List.take_succ_cons, List.take_zero, List.cons_append, List.nil_append,
      List.set_cons_zero]
    rw [List.take_left']
    rfl

/-- The new-anchor path of `insert` (`key < anchor`). -/
theorem insert_before_anchor (scratch : List Nat) (index : GroupVarintIndex)
    (mem keys : List Nat) (key pslot : Nat) (hv : ValidBlock index mem keys)
    (hc : index.key_count ≤ 31) (hsc : scratch.length = 32) (hlt : key < index.value) :
    (insert scratch index mem key pslot).ok = true ∧
    (insert scratch index mem key pslot).index.value = key ∧
    ValidBlock (insert scratch index mem key pslot).index
      (insert scratch index mem key pslot).mem (index.value :: keys) := by
  have hu := uncompress_valid index mem keys hv
  obtain ⟨h1, h2, h3, h4, h5, h6⟩ := hv
  have hw : wrap32 ((index.key_count + 1) % 256 + 4294967296 - 1) = keys.length + 1 := by
    unfold wrap32; omega
  have hout : List.take (keys.length + 1) ((if index.key_count > 1 then
        writeAt (writeAt scratch 0 (uncompress_block index mem)) 1
          (slice (writeAt scratch 0 (uncompress_block index mem)) 0 (index.key_count - 1))
      else scratch).set 0 index.value) = index.value :: keys := by
    by_cases hk : index.key_count > 1
    · rw [if_pos hk, hu]
      have : index.key_count - 1 = keys.length := by omega
      rw [this]
      exact shift_scratch scratch keys _ (by omega)
    · rw [if_neg hk]
      have : keys.length = 0 := by omega
      have hnil := List.length_eq_zero.1 this
      subst hnil
      cases scratch with
      | nil => simp at hsc
      | cons x t => rfl
  have hbound := encodeArray_length_le key (index.value :: keys)
  simp only [List.length_cons] at hbound
  unfold insert
  rw [if_pos hlt]
  simp only [GroupVarintIndex.set_used_size, GroupVarintIndex.set_key_count,
    GroupVarintIndex.set_value, hw, hout]
  refine ⟨trivial, trivial, ?_⟩
  have hm : (encodeArray key (index.value :: keys)).length % 256
      = (encodeArray key (index.value :: keys)).length := Nat.mod_eq_of_lt (by omega)
  unfold ValidBlock kMaxKeysPerBlock
  simp only [hm]
  refine ⟨by simp only [List.length_cons]; omega, by omega, trivial, ?_, ?_, ?_⟩
  · have := writeAt_take mem (encodeArray key (index.value :: keys)) 0 (Nat.zero_le _)
    simpa using this
  · rw [List.pairwise_cons]
    refine ⟨?_, h5⟩
    intro b hb
    rcases List.mem_cons.1 hb with h | h
    · rw [h]; exact hlt
    · exact lt_trans hlt ((List.pairwise_cons.1 h5).1 b h)
  · intro k hk
    rcases List.mem_cons.1 hk with h | h
    · rw [h]; exact lt_trans hlt (h6 _ (List.mem_cons_self _ _))
    · exact h6 k h

/-- C2 (block insert is a sorted insert).  For every valid block (anchor
`index.value`, strictly ascending encoded keys `keys`, data the encoding of these
keys, `key_count ≤ 31`) and every 32-bit key that is neither the anchor nor an
encoded key, `insert` returns true, and the block afterwards is again a valid block
whose anchor followed by its decoded keys (`uncompress_block`) is the old sequence
with `key` inserted at its sorted position.  When `key < anchor` the key is the new
anchor and the old anchor the first encoded key; otherwise the anchor is unchanged. -/
theorem insert_sorted (scratch : List Nat) (index : GroupVarintIndex)
    (mem keys : List Nat) (key pslot : Nat) (hv : ValidBlock index mem keys)
    (hc : index.key_count ≤ 31) (hsc : scratch.length = 32) (hkey : key < 4294967296)
    (hnot : key ∉ index.value :: keys) :
    (insert scratch index mem key pslot).ok = true ∧
    (∃ keys1, ValidBlock (insert scratch index mem key pslot).index
        (insert scratch index mem key pslot).mem keys1) ∧
    (insert scratch index mem key pslot).index.value ::
        uncompress_block (insert scratch index mem key pslot).index
          (insert scratch index mem key pslot).mem
      = List.orderedInsert (· ≤ ·) key (index.value :: keys) ∧
    (insert scratch index mem key pslot).index.key_count = index.key_count + 1 ∧
    (key < index.value →
      (insert scratch index mem key pslot).index.value = key ∧
      uncompress_block (insert scratch index mem key pslot).index
        (insert scratch index mem key pslot).mem = index.value :: keys) ∧
    (¬ key < index.value →
      (insert scratch index mem key pslot).index.value = index.value) := by
  have hne : key ≠ index.value := fun h => hnot (by rw [h]; exact List.mem_cons_self _ _)
  have hnk : key ∉ keys := fun h => hnot (List.mem_cons_of_mem _ h)
  by_cases hlt : key < index.value
  · obtain ⟨r1, r2, r3⟩ := insert_before_anchor scratch index mem keys key pslot hv hc hsc hlt
    have hu := uncompress_valid _ _ _ r3
    have hk := r3.1
    have hk0 := hv.1
    refine ⟨r1, ⟨_, r3⟩, ?_, ?_, fun _ => ⟨r2, hu⟩, fun h => absurd hlt h⟩
    · rw [r2, hu, List.orderedInsert, if_pos (le_of_lt hlt)]
    · rw [hk, hk0]; rfl
  · have hgt : index.value < key := by omega
    obtain ⟨r1, r2, A, B, hkeys, hA, hB, r3, _⟩ :=
      insert_after_anchor scratch index mem keys key pslot hv hc hsc hkey hgt hnk
    have hu := uncompress_valid _ _ _ r3
    have hk := r3.1
    have hk0 := hv.1
    refine ⟨r1, ⟨_, r3⟩, ?_, ?_, fun h => absurd h hlt, fun _ => r2⟩
    · rw [r2, hu, hkeys, ← List.cons_append, ← List.cons_append,
        orderedInsert_split key (index.value :: A) B (by
          intro a ha
          rcases List.mem_cons.1 ha with h | h
          · rw [h]; exact hgt
          · exact hA a h) hB]
    · rw [hk, hk0, hkeys]
      simp only [List.length_append, List.length_cons]
      omega

/-- Witness for C2: the block with anchor 100 and encoded keys 200, 300; inserting 50
makes 50 the anchor. -/
theorem insert_sorted_witness :
    (insert (List.replicate 32 0) ⟨100, 17, 3, 3⟩ (encodeArray 100 [200, 300]) 50 0).index.value
      :: uncompress_block
          (insert (List.replicate 32 0) ⟨100, 17, 3, 3⟩ (encodeArray 100 [200, 300]) 50 0).index
          (insert (List.replicate 32 0) ⟨100, 17, 3, 3⟩ (encodeArray 100 [200, 300]) 50 0).mem
      = List.orderedInsert (· ≤ ·) 50 [100, 200, 300] :=
  (insert_sorted (List.replicate 32 0) ⟨100, 17, 3, 3⟩ (encodeArray 100 [200, 300])
    [200, 300] 50 0 ⟨by decide, by decide, by decide, by decide, by decide, by decide⟩
    (by decide) (by decide) (by decide) (by decide)).2.2.1

/-- C5 (block lower bound), evaluation at a failing input.  The block with anchor 0 and
the single encoded key 5 is valid; the search key 10 is greater than every encoded key.
The second loop of `find_lower_bound` decodes one value into `out[0]` and then tests
`nvalue > 0 && key <= out[1]` although `out[1]` was never written: with 10 in that
cell of the local array the function returns slot 1 and stores 10, the search key
itself, in `*presult` instead of `key + 1`. -/
theorem find_lower_bound_reads_undecoded_cell :
    ValidBlock ⟨0, 17, 2, 2⟩ (encodeArray 0 [5]) [5] ∧
    find_lower_bound [0, 10, 0, 0] ⟨0, 17, 2, 2⟩ (encodeArray 0 [5]) 10 = (1, 10) ∧
    find_lower_bound [0, 0, 0, 0] ⟨0, 17, 2, 2⟩ (encodeArray 0 [5]) 10 = (1, 11) := by
  refine ⟨⟨by decide, by decide, by decide, by decide, by decide, by decide⟩, ?_, ?_⟩ <;> decide

/-- The three ways in which `insert` ends. -/
theorem insert_ends (scratch : List Nat) (index : GroupVarintIndex)
    (mem : List Nat) (key pslot : Nat) :
    (key < index.value ∧ (insert scratch index mem key pslot).ok = true ∧
      (insert scratch index mem key pslot).index.key_count = (index.key_count + 1) % 256) ∨
    (¬ key < index.value ∧ insert scratch index mem key pslot = ⟨false, index, mem, pslot⟩) ∨
    (¬ key < index.value ∧ (insert scratch index mem key pslot).ok = true ∧
      (insert scratch index mem key pslot).index.key_count = (index.key_count + 1) % 256) := by
  unfold insert
  by_cases hlt : key < index.value
  · rw [if_pos hlt]
    exact Or.inl ⟨hlt, rfl, rfl⟩
  · rw [if_neg hlt]
    right
    cases h1 : insertFast mem index.used_size key index.used_size
        { inbyte := 0, initial := index.value, slot := 0,
          remaining := wrap32 (index.key_count + 4294967296 - 1),
          pout := 0, out := scratch, is_inserted := false,
          new_initial := index.value, new_inbyte := 0, pslot := pslot } with
    | none =>
      simp only [h1]
      exact Or.inl ⟨hlt, trivial⟩
    | some s1 =>
      simp only [h1]
      cases h2 : insertSlow mem index.used_size key index.used_size
          (if s1.is_inserted = false then
            { s1 with new_initial := s1.initial, new_inbyte := s1.inbyte }
           else s1) with
      | none =>
        simp only [h2]
        exact Or.inl ⟨hlt, trivial⟩
      | some s3 =>
        simp only [h2]
        exact Or.inr ⟨hlt, trivial, rfl⟩

/-- C13 (key count of block insert).  For every valid block, every key and every content
of the local array, `insert` adds exactly one to `key_count` when it returns true, on
the new-anchor path (`key < anchor`, which always returns true) as on the splice and
append path, and leaves `key_count`, with the whole index and the block data,
unchanged when it returns false. -/
theorem insert_key_count (scratch : List Nat) (index : GroupVarintIndex)
    (mem keys : List Nat) (key pslot : Nat) (hv : ValidBlock index mem keys) :
    ((insert scratch index mem key pslot).ok = true →
      (insert scratch index mem key pslot).index.key_count = index.key_count + 1) ∧
    ((insert scratch index mem key pslot).ok = false →
      (insert scratch index mem key pslot).index.key_count = index.key_count ∧
      (insert scratch index mem key pslot).index = index ∧
      (insert scratch index mem key pslot).mem = mem) ∧
    (key < index.value → (insert scratch index mem key pslot).ok = true) := by
  have hk : index.key_count ≤ 32 := hv.2.1
  have hm : (index.key_count + 1) % 256 = index.key_count + 1 := Nat.mod_eq_of_lt (by omega)
  rcases insert_ends scratch index mem key pslot with ⟨h1, h2, h3⟩ | ⟨h1, h2⟩ | ⟨h1, h2, h3⟩
  · refine ⟨fun _ => by rw [h3, hm], fun h => ?_, fun _ => h2⟩
    rw [h2] at h
    exact absurd h (by decide)
  · rw [h2]
    exact ⟨fun h => Bool.noConfusion h, fun _ => ⟨rfl, rfl, rfl⟩, fun h => absurd h h1⟩
  · refine ⟨fun _ => by rw [h3, hm], fun h => ?_, fun _ => h2⟩
    rw [h2] at h
    exact absurd h (by decide)

/-- Witness for C13: the block with anchor 100 and the encoded keys 200, 300 holds three
keys; after the insert of 250 it holds four. -/
theorem insert_key_count_witness :
    (insert (List.replicate 32 0) ⟨100, 17, 3, 3⟩ (encodeArray 100 [200, 300]) 250 0).index.key_count
      = 4 :=
  (insert_key_count (List.replicate 32 0) ⟨100, 17, 3, 3⟩ (encodeArray 100 [200, 300])
    [200, 300] 250 0 ⟨by decide, by decide, by decide, by decide, by decide, by decide⟩).1
    (by decide)

/-- C12, evaluation at a failing input: the valid block with anchor 100 and the encoded
keys 200, 300, and the key 100, the anchor itself.  `insert` compares the key with the
anchor only by `key < initial`; the key then is smaller than the first encoded key and
is spliced in before it.  The call returns true, and the anchor followed by the
decoded keys is 100, 100, 200, 300, which is not strictly ascending. -/
theorem insert_anchor_twice :
    ValidBlock ⟨100, 17, 3, 3⟩ (encodeArray 100 [200, 300]) [200, 300] ∧
    (insert (List.replicate 32 0) ⟨100, 17, 3, 3⟩ (encodeArray 100 [200, 300]) 100 0).ok = true ∧
    (insert (List.replicate 32 0) ⟨100, 17, 3, 3⟩ (encodeArray 100 [200, 300]) 100 0).index.value
        :: uncompress_block
          (insert (List.replicate 32 0) ⟨100, 17, 3, 3⟩ (encodeArray 100 [200, 300]) 100 0).index
          (insert (List.replicate 32 0) ⟨100, 17, 3, 3⟩ (encodeArray 100 [200, 300]) 100 0).mem
      = [100, 100, 200, 300] ∧
    ¬ ([100, 100, 200, 300] : List Nat).Pairwise (· < ·) := by
  refine ⟨⟨by decide, by decide, by decide, by decide, by decide, by decide⟩, ?_, ?_, ?_⟩ <;>
    decide

/-- A full group that holds the key: the first loop of `insert` returns false. -/
theorem insertFast_dup (mem : List Nat) (endbyte key fuel : Nat) (s : InsertState)
    (g : List Nat) (di dn : Nat) (hc : endbyte > s.inbyte + 1 + 4 * 4)
    (hi : s.is_inserted = false) (hp : s.pout = 0)
    (hd : decodeGroupVarIntDelta mem s.inbyte s.initial = ⟨di, dn, g, 4⟩)
    (hg4 : g.length = 4) (hso : g.Pairwise (· < ·)) (hk : key ∈ g) :
    insertFast mem endbyte key (fuel + 1) s = none := by
  obtain ⟨inbyte, initial, slot, remaining, pout, out, is_ins, ni, nb, pslot⟩ := s
  simp only at hc hi hd hp
  subst hi hp
  have hw : writeAt out 0 g = [] ++ g ++ out.drop g.length := writeAt_append [] out g
  rw [insertFast]
  simp only [hc, ↓reduceIte, hd, hw, hg4]
  generalize out.drop 4 = R at *
  rcases g with _ | ⟨a, _ | ⟨b, _ | ⟨c, _ | ⟨d, _ | _⟩⟩⟩⟩ <;> simp at hg4
  simp only [List.mem_cons, List.mem_singleton, List.not_mem_nil, or_false] at hk
  simp only [List.pairwise_cons, List.mem_cons, List.mem_singleton, List.not_mem_nil,
    forall_eq_or_imp, forall_eq, List.Pairwise.nil, and_true, IsEmpty.forall_iff,
    implies_true] at hso
  have r0 : rd ([] ++ [a, b, c, d] ++ R) 0 = a := rfl
  have r1 : rd ([] ++ [a, b, c, d] ++ R) 1 = b := rfl
  have r2 : rd ([] ++ [a, b, c, d] ++ R) 2 = c := rfl
  have r3 : rd ([] ++ [a, b, c, d] ++ R) 3 = d := rfl
  simp only [r0, r1, r2, r3]
  rw [if_neg (by omega), if_pos hk]

/-- A group decoded by the second loop of `insert` that holds the key: `insert` returns
false. -/
theorem insertSlow_dup (mem : List Nat) (endbyte key fuel : Nat) (s : InsertState)
    (g : List Nat) (di dn : Nat) (hc1 : endbyte > s.inbyte) (hc2 : s.remaining > 0)
    (hi : s.is_inserted = false)
    (hd : decodeSingleVarintDelta mem s.inbyte s.initial s.remaining = ⟨di, dn, g, g.length⟩)
    (hg4 : g.length ≤ 4) (hso : g.Pairwise (· < ·)) (hk : key ∈ g)
    (hlen : s.pout ≤ s.out.length) :
    insertSlow mem endbyte key (fuel + 1) s = none := by
  obtain ⟨inbyte, initial, slot, remaining, pout, out, is_ins, ni, nb, pslot⟩ := s
  simp only at hc1 hc2 hi hd hlen
  subst hi
  obtain ⟨P, R0, rfl, rfl⟩ : ∃ P R0, out = P ++ R0 ∧ pout = P.length :=
    ⟨out.take pout, out.drop pout, (List.take_append_drop _ _).symm, by
      simp only [List.length_take]; omega⟩
  rw [insertSlow]
  simp only [hc1, hc2, and_self, ↓reduceIte, hd, writeAt_append]
  generalize R0.drop g.length = R at *
  rcases g with _ | ⟨a, _ | ⟨b, _ | ⟨c, _ | ⟨d, _ | _⟩⟩⟩⟩
  · simp at hk
  · simp only [List.mem_cons, List.mem_singleton, List.not_mem_nil, or_false] at hk
    have r0 := rd_mid0 P [a] R (by simp)
    simp only [List.getD_cons_zero, List.getD_cons_succ] at r0
    simp only [r0]
    rw [if_pos hk]
  · simp only [List.mem_cons, List.mem_singleton, List.not_mem_nil, or_false] at hk
    simp only [List.pairwise_cons, List.mem_cons, List.mem_singleton, List.not_mem_nil,
      forall_eq_or_imp, forall_eq, List.Pairwise.nil, and_true, IsEmpty.forall_iff,
      implies_true] at hso
    have r0 := rd_mid0 P [a, b] R (by simp)
    have r1 := rd_append_mid P [a, b] R 1 (by simp)
    simp only [List.getD_cons_zero, List.getD_cons_succ] at r0 r1
    simp only [r0, r1]
    by_cases h0 : key = a
    · rw [if_pos h0]
    · rw [if_neg h0, if_neg (by omega), if_pos (by simp), if_pos (by omega)]
  · simp only [List.mem_cons, List.mem_singleton, List.not_mem_nil, or_false] at hk
    simp only [List.pairwise_cons, List.mem_cons, List.mem_singleton, List.not_mem_nil,
      forall_eq_or_imp, forall_eq, List.Pairwise.nil, and_true, IsEmpty.forall_iff,
      implies_true] at hso
    have r0 := rd_mid0 P [a, b, c] R (by simp)
    have r1 := rd_append_mid P [a, b, c] R 1 (by simp)
    have r2 := rd_append_mid P [a, b, c] R 2 (by simp)
    simp only [List.getD_cons_zero, List.getD_cons_succ] at r0 r1 r2
    simp only [r0, r1, r2]
    by_cases h0 : key = a
    · rw [if_pos h0]
    · rw [if_neg h0, if_neg (by omega), if_pos (by simp)]
      by_cases h1 : key = b
      · rw [if_pos h1]
      · rw [if_neg h1, if_neg (by omega), if_pos (by simp), if_pos (by omega)]
  · simp only [List.mem_cons, List.mem_singleton, List.not_mem_nil, or_false] at hk
    simp only [List.pairwise_cons, List.mem_cons, List.mem_singleton, List.not_mem_nil,
      forall_eq_or_imp, forall_eq, List.Pairwise.nil, and_true, IsEmpty.forall_iff,
      implies_true] at hso
    have r0 := rd_mid0 P [a, b, c, d] R (by simp)
    have r1 := rd_append_mid P [a, b, c, d] R 1 (by simp)
    have r2 := rd_append_mid P [a, b, c, d] R 2 (by simp)
    have r3 := rd_append_mid P [a, b, c, d] R 3 (by simp)
    simp only [List.getD_cons_zero, List.getD_cons_succ] at r0 r1 r2 r3
    simp only [r0, r1, r2, r3]
    by_cases h0 : key = a
    · rw [if_pos h0]
    · rw [if_neg h0, if_neg (by omega), if_pos (by simp)]
      by_cases h1 : key = b
      · rw [if_pos h1]
      · rw [if_neg h1, if_neg (by omega), if_pos (by simp)]
        by_cases h2 : key = c
        · rw [if_pos h2]
        · rw [if_neg h2, if_neg (by omega), if_pos (by simp), if_pos (by omega)]
  · simp at hg4

theorem dup_skip_group (rest : List Nat) (key : Nat) (hs : rest.Pairwise (· < ·))
    (hk : key ∈ rest) (hng : key ∉ rest.take 4) :
    (∀ k ∈ rest.take 4, k < key) ∧ key ∈ rest.drop 4 := by
  have hsplit := List.take_append_drop 4 rest
  have hk2 : key ∈ rest.drop 4 := by
    rw [← hsplit, List.mem_append] at hk
    rcases hk with h | h
    · exact absurd h hng
    · exact h
  refine ⟨?_, hk2⟩
  intro k hkm
  rw [← hsplit, List.pairwise_append] at hs
  exact hs.2.2 k hkm key hk2

theorem notBelow_all (key : Nat) (g : List Nat) (h : ∀ k ∈ g, k < key) : notBelow key g = [] := by
  unfold notBelow
  rw [List.dropWhile_eq_nil_iff]
  intro k hk
  simpa using h k hk

/-- The state after a group whose keys are all smaller than the key. -/
theorem placeNext_adv (s : InsertState) (g : List Nat) (key inbyte initial remaining : Nat)
    (slow : Bool) (h : ∀ k ∈ g, k < key) :
    (placeNext s g key inbyte initial remaining slow).is_inserted = s.is_inserted ∧
    (placeNext s g key inbyte initial remaining slow).pout
      = (if slow then s.pout + g.length else s.pout) ∧
    (placeNext s g key inbyte initial remaining slow).out = writeAt s.out s.pout g ∧
    (placeNext s g key inbyte initial remaining slow).inbyte = inbyte ∧
    (placeNext s g key inbyte initial remaining slow).initial = initial ∧
    (placeNext s g key inbyte initial remaining slow).remaining = remaining := by
  rw [placeNext, if_neg (by simp [notBelow_all key _ h])]
  exact ⟨rfl, rfl, rfl, rfl, rfl, rfl⟩

/-- The first loop of `insert` on a block that holds the key: it returns false, or it
ends before the group of the key with the key not yet placed. -/
theorem insertFast_dup_inv (mem : List Nat) (size key : Nat) :
    ∀ (fuel : Nat) (s : InsertState) (rest : List Nat),
    s.is_inserted = false → s.pout = 0 → 5 ≤ s.out.length →
    At mem size s.inbyte s.initial rest → s.remaining = rest.length → rest.length ≤ 31 →
    rest.Pairwise (· < ·) → key ∈ rest →
    insertFast mem size key fuel s = none ∨
    ∃ s1 rest1, insertFast mem size key fuel s = some s1 ∧
      s1.is_inserted = false ∧ s1.pout = 0 ∧ s1.out.length = s.out.length ∧
      At mem size s1.inbyte s1.initial rest1 ∧ s1.remaining = rest1.length ∧
      rest1.length ≤ rest.length ∧ rest1.Pairwise (· < ·) ∧ key ∈ rest1 := by
  intro fuel
  induction fuel with
  | zero =>
    intro s rest h1 h2 h3 h4 h5 h6 h7 h8
    exact Or.inr ⟨s, rest, by simp [insertFast], h1, h2, rfl, h4, h5, le_refl _, h7, h8⟩
  | succ fuel ih =>
    intro s rest h1 h2 h3 h4 h5 h6 h7 h8
    by_cases hc : size > s.inbyte + 1 + 4 * 4
    · have hr5 := at_fast mem size _ _ rest h4 hc
      have hrne : rest ≠ [] := by intro h0; rw [h0] at hr5; simp at hr5
      have hgl : (rest.take 4).length = 4 := by simp only [List.length_take]; omega
      have hsg : (rest.take 4).Pairwise (· < ·) := by
        have := h7
        rw [← List.take_append_drop 4 rest, List.pairwise_append] at this
        exact this.1
      have hd := group_at mem size _ _ rest h4 (by omega)
      by_cases hkg : key ∈ rest.take 4
      · left
        exact insertFast_dup mem size key fuel s _ _ _ hc h1 h2 hd hgl hsg hkg
      · obtain ⟨hall, hk2⟩ := dup_skip_group rest key h7 h8 hkg
        have hw : wrap32 (s.remaining + 4294967296 - 4) = (rest.drop 4).length := by
          rw [wrap_sub _ _ (by omega) (by omega), h5, List.length_drop]
        have hol : (writeAt s.out s.pout (rest.take 4)).length = s.out.length :=
          writeAt_length _ _ _ (by omega)
        have hpn := placeNext_adv s (rest.take 4) key
          (s.inbyte + (groupBytes s.initial (rest.take 4)).length)
          ((rest.take 4).getLastD s.initial) (wrap32 (s.remaining + 4294967296 - 4)) false hall
        rw [insertFast_place mem size key fuel s _ _ _ hc h1 h2 hd hgl hsg hkg h3]
        generalize placeNext s (rest.take 4) key
          (s.inbyte + (groupBytes s.initial (rest.take 4)).length)
          ((rest.take 4).getLastD s.initial) (wrap32 (s.remaining + 4294967296 - 4)) false
          = S at hpn ⊢
        obtain ⟨p1, p2, p3, p4, p5, p6⟩ := hpn
        rcases ih S (rest.drop 4) (by rw [p1]; exact h1) (by rw [p2]; simpa using h2)
          (by rw [p3, hol]; exact h3)
          (by rw [p4, p5]; exact at_next mem size _ _ rest h4 hrne) (by rw [p6]; exact hw)
          (by simp only [List.length_drop]; omega)
          (by
            have := h7
            rw [← List.take_append_drop 4 rest, List.pairwise_append] at this
            exact this.2.1) hk2 with hnone | ⟨s1, rest1, e1, g1, g2, g3, g4, g5, g6, g7, g8⟩
        · exact Or.inl hnone
        · refine Or.inr ⟨s1, rest1, e1, g1, g2, ?_, g4, g5, ?_, g7, g8⟩
          · rw [g3, p3]; exact hol
          · simp only [List.length_drop] at g6; omega
    · refine Or.inr ⟨s, rest, by rw [insertFast]; simp [hc], h1, h2, rfl, h4, h5, le_refl _,
        h7, h8⟩

/-- The second loop of `insert` on a block that holds the key among the keys that are
still to be decoded: it returns false. -/
theorem insertSlow_dup_inv (mem : List Nat) (size key : Nat) :
    ∀ (fuel : Nat) (s : InsertState) (rest : List Nat),
    s.is_inserted = false → s.pout + rest.length ≤ s.out.length →
    At mem size s.inbyte s.initial rest → s.remaining = rest.length → rest.length ≤ 31 →
    rest.Pairwise (· < ·) → key ∈ rest → rest.length ≤ fuel →
    insertSlow mem size key fuel s = none := by
  intro fuel
  induction fuel with
  | zero =>
    intro s rest _ _ _ _ _ _ h8 h9
    have : rest = [] := List.length_eq_zero.1 (by omega)
    rw [this] at h8
    exact absurd h8 (List.not_mem_nil _)
  | succ fuel ih =>
    intro s rest h1 h3 h4 h5 h6 h7 h8 h9
    have hrne : rest ≠ [] := List.ne_nil_of_mem h8
    have hrl : 0 < rest.length := List.length_pos.2 hrne
    have hc1 : size > s.inbyte := (at_pos_iff mem size _ _ rest h4).2 hrne
    have hgl : (rest.take 4).length = min 4 rest.length := List.length_take _ _
    have hsg : (rest.take 4).Pairwise (· < ·) := by
      have := h7
      rw [← List.take_append_drop 4 rest, List.pairwise_append] at this
      exact this.1
    have hd := single_at mem size _ _ _ rest h4 hrne h5
    by_cases hkg : key ∈ rest.take 4
    · exact insertSlow_dup mem size key fuel s _ _ _ hc1 (by omega) h1 hd (by omega) hsg hkg
        (by omega)
    · obtain ⟨hall, hk2⟩ := dup_skip_group rest key h7 h8 hkg
      have hdl : 0 < (rest.drop 4).length := List.length_pos.2 (List.ne_nil_of_mem hk2)
      simp only [List.length_drop] at hdl
      have hw : wrap32 (s.remaining + 4294967296 - (rest.take 4).length)
          = (rest.drop 4).length := by
        rw [wrap_sub _ _ (by omega) (by omega), h5, List.length_drop]; omega
      have hol : (writeAt s.out s.pout (rest.take 4)).length = s.out.length :=
        writeAt_length _ _ _ (by omega)
      have hpn := placeNext_adv s (rest.take 4) key
        (s.inbyte + (groupBytes s.initial (rest.take 4)).length)
        ((rest.take 4).getLastD s.initial)
        (wrap32 (s.remaining + 4294967296 - (rest.take 4).length)) true hall
      rw [insertSlow_place mem size key fuel s _ _ _ hc1 (by omega) h1 hd (by omega) (by omega)
        hsg hkg (by omega)]
      generalize placeNext s (rest.take 4) key
        (s.inbyte + (groupBytes s.initial (rest.take 4)).length)
        ((rest.take 4).getLastD s.initial)
        (wrap32 (s.remaining + 4294967296 - (rest.take 4).length)) true = S at hpn ⊢
      obtain ⟨p1, p2, p3, p4, p5, p6⟩ := hpn
      exact ih S (rest.drop 4) (by rw [p1]; exact h1)
        (by rw [p2, p3, hol]; simp only [↓reduceIte, List.length_drop]; omega)
        (by rw [p4, p5]; exact at_next mem size _ _ rest h4 hrne) (by rw [p6]; exact hw)
        (by simp only [List.length_drop]; omega)
        (by
          have := h7
          rw [← List.take_append_drop 4 rest, List.pairwise_append] at this
          exact this.2.1) hk2 (by simp only [List.length_drop]; omega)

/-- A key that is one of the encoded keys of a valid block: `insert` returns false and
changes nothing. -/
theorem insert_dup (scratch : List Nat) (index : GroupVarintIndex) (mem keys : List Nat)
    (key pslot : Nat) (hv : ValidBlock index mem keys) (hsc : scratch.length = 32)
    (hk : key ∈ keys) :
    insert scratch index mem key pslot = ⟨false, index, mem, pslot⟩ := by
  have hat := valid_at index mem keys hv
  obtain ⟨hw, hk31⟩ := valid_nvalue index mem keys hv
  have hs : keys.Pairwise (· < ·) := (List.pairwise_cons.1 hv.2.2.2.2.1).2
  have hgt : index.value < key := (List.pairwise_cons.1 hv.2.2.2.2.1).1 key hk
  have hsize := encodeArray_length_ge index.value keys
  rw [← hv.2.2.1] at hsize
  unfold insert
  rw [if_neg (by omega)]
  rcases insertFast_dup_inv mem index.used_size key index.used_size
    { inbyte := 0, initial := index.value, slot := 0,
      remaining := wrap32 (index.key_count + 4294967296 - 1),
      pout := 0, out := scratch, is_inserted := false,
      new_initial := index.value, new_inbyte := 0, pslot := pslot } keys rfl rfl
    (by simp only [hsc]; omega) hat hw hk31 hs hk with
    hnone | ⟨s1, rest1, e1, g1, g2, g3, g4, g5, g6, g7, g8⟩
  · simp only [hnone]
  · simp only [e1]
    rw [if_pos g1]
    have e3 := insertSlow_dup_inv mem index.used_size key index.used_size
      { s1 with new_initial := s1.initial, new_inbyte := s1.inbyte } rest1 g1
      (by simp only [g2, g3, hsc]; omega) g4 g5 (by omega) g7 g8 (by omega)
    simp only [e3]

/-- C14 (duplicate rule of block insert).  For every valid block, every content of the
local array and every key that equals one of the encoded keys of the block (in a full
group or in the trailing partial group), `insert` returns false, and the anchor,
`key_count`, `used_size`, every byte of the block data and the caller's `*pslot` are
what they were before the call. -/
theorem insert_duplicate_unchanged (scratch : List Nat) (index : GroupVarintIndex)
    (mem keys : List Nat) (key pslot : Nat) (hv : ValidBlock index mem keys)
    (hsc : scratch.length = 32) (hk : key ∈ keys) :
    (insert scratch index mem key pslot).ok = false ∧
    (insert scratch index mem key pslot).index.value = index.value ∧
    (insert scratch index mem key pslot).index.key_count = index.key_count ∧
    (insert scratch index mem key pslot).index.used_size = index.used_size ∧
    (insert scratch index mem key pslot).index = index ∧
    (insert scratch index mem key pslot).mem = mem ∧
    (insert scratch index mem key pslot).pslot = pslot := by
  rw [insert_dup scratch index mem keys key pslot hv hsc hk]
  exact ⟨rfl, rfl, rfl, rfl, rfl, rfl, rfl⟩

/-- Witness for C14: the block with anchor 100 and the encoded keys 200 to 700 (a full
group and a trailing group of two); the key 600 of the trailing group is rejected. -/
theorem insert_duplicate_unchanged_witness :
    (insert (List.replicate 32 0) ⟨100, 17, 8, 7⟩
        (encodeArray 100 [200, 300, 400, 500, 600, 700]) 600 0).ok = false ∧
    (insert (List.replicate 32 0) ⟨100, 17, 8, 7⟩
        (encodeArray 100 [200, 300, 400, 500, 600, 700]) 600 0).mem
      = encodeArray 100 [200, 300, 400, 500, 600, 700] :=
  ⟨(insert_duplicate_unchanged (List.replicate 32 0) ⟨100, 17, 8, 7⟩
      (encodeArray 100 [200, 300, 400, 500, 600, 700]) [200, 300, 400, 500, 600, 700] 600 0
      ⟨by decide, by decide, by decide, by decide, by decide, by decide⟩ (by decide)
      (by decide)).1,
   (insert_duplicate_unchanged (List.replicate 32 0) ⟨100, 17, 8, 7⟩
      (encodeArray 100 [200, 300, 400, 500, 600, 700]) [200, 300, 400, 500, 600, 700] 600 0
      ⟨by decide, by decide, by decide, by decide, by decide, by decide⟩ (by decide)
      (by decide)).2.2.2.2.2.1⟩

/-- What the final `encodeArray` of `insert` stores: the block from its start up to the
new `used_size` is the encoding of the keys with the key among them, and the bytes of
the groups before the offset of the store stay. -/
theorem insert_finish_bytes (index : GroupVarintIndex) (mem keys : List Nat) (key : Nat)
    (s4 : InsertState) (K0 X Y : List Nat) (hv : ValidBlock index mem keys)
    (hc : index.key_count ≤ 31) (hkeys : keys = K0 ++ X ++ Y)
    (hK : Kept mem index.value K0 s4.new_inbyte s4.new_initial)
    (hout : s4.out.take s4.pout = X ++ key :: Y) :
    ((index.set_key_count (index.key_count + 1)).set_used_size
        (s4.new_inbyte + (encodeArray s4.new_initial (s4.out.take s4.pout)).length)).used_size
      = (encodeArray index.value (K0 ++ X ++ key :: Y)).length ∧
    (writeAt mem s4.new_inbyte (encodeArray s4.new_initial (s4.out.take s4.pout))).take
        (encodeArray index.value (K0 ++ X ++ key :: Y)).length
      = encodeArray index.value (K0 ++ X ++ key :: Y) ∧
    writeAt mem s4.new_inbyte (encodeArray s4.new_initial (s4.out.take s4.pout))
      = writeAt mem (encodeArray index.value K0).length
          (encodeArray (K0.getLastD index.value) (X ++ key :: Y)) ∧
    (writeAt mem s4.new_inbyte (encodeArray s4.new_initial (s4.out.take s4.pout))).take
        (encodeArray index.value K0).length
      = mem.take (encodeArray index.value K0).length := by
  obtain ⟨k1, k2, k3, k4⟩ := hK
  have hkc := hv.1
  have henc : encodeArray index.value (K0 ++ (X ++ key :: Y))
      = encodeArray index.value K0 ++ encodeArray (K0.getLastD index.value) (X ++ key :: Y) :=
    enc_append_full _ _ _ k1
  have hlen1 : (K0 ++ (X ++ key :: Y)).length = keys.length + 1 := by
    rw [hkeys]; simp only [List.length_append, List.length_cons]; omega
  have hbound := encodeArray_length_le index.value (K0 ++ (X ++ key :: Y))
  have hq0 : (encodeArray index.value K0).length ≤ mem.length := by
    have := congrArg List.length k2
    rw [List.length_take] at this
    omega
  rw [hout, k4, List.append_assoc]
  have hsize : (s4.new_inbyte + (encodeArray (K0.getLastD index.value) (X ++ key :: Y)).length)
      % 256 = (encodeArray index.value (K0 ++ (X ++ key :: Y))).length := by
    rw [henc, List.length_append, ← k3]
    apply Nat.mod_eq_of_lt
    rw [henc, List.length_append, ← k3] at hbound
    omega
  refine ⟨hsize, ?_, by rw [k3], ?_⟩
  · rw [henc, List.length_append, ← k3, writeAt_take _ _ _ (by rw [k3]; exact hq0), k2]
  · rw [← k3, writeAt_eq, List.append_assoc, List.take_left']
    rw [List.length_take]; omega

/-- C20 (splice insert equals decompress, insert, recompress).  For every valid block
with `key_count ≤ 31`, every content of the local array and every 32-bit key on which
`insert` returns true: the new anchor followed by the new encoded keys is the old
sequence with the key at its sorted position; `used_size` is the length of
`encodeArray` of the new encoded keys after the new anchor and the block data up to
`used_size` is that encoding, byte for byte.  When the key is not smaller than the
anchor, the encoded keys split into whole groups `K0` of keys smaller than the key
and the rest `T`: the block data is the old data with the encoding of `T` with the key
stored behind the bytes of `K0`, which are not written. -/
theorem insert_reencodes (scratch : List Nat) (index : GroupVarintIndex)
    (mem keys : List Nat) (key pslot : Nat) (hv : ValidBlock index mem keys)
    (hc : index.key_count ≤ 31) (hsc : scratch.length = 32)
    (hok : (insert scratch index mem key pslot).ok = true) :
    (∃ ks, (insert scratch index mem key pslot).index.value :: ks
        = List.orderedInsert (· ≤ ·) key (index.value :: keys) ∧
      (insert scratch index mem key pslot).index.used_size
        = (encodeArray (insert scratch index mem key pslot).index.value ks).length ∧
      (insert scratch index mem key pslot).mem.take
          (insert scratch index mem key pslot).index.used_size
        = encodeArray (insert scratch index mem key pslot).index.value ks) ∧
    (¬ key < index.value → ∃ K0 T, keys = K0 ++ T ∧ K0.length % 4 = 0 ∧ (∀ k ∈ K0, k < key) ∧
      (insert scratch index mem key pslot).mem
        = writeAt mem (encodeArray index.value K0).length
            (encodeArray (K0.getLastD index.value) (List.orderedInsert (· ≤ ·) key T)) ∧
      (insert scratch index mem key pslot).mem.take (encodeArray index.value K0).length
        = mem.take (encodeArray index.value K0).length) := by
  by_cases hlt : key < index.value
  · obtain ⟨_, r2, r3⟩ := insert_before_anchor scratch index mem keys key pslot hv hc hsc hlt
    refine ⟨⟨index.value :: keys, ?_, ?_, ?_⟩, fun h => absurd hlt h⟩
    · rw [r2, List.orderedInsert, if_pos (le_of_lt hlt)]
    · exact r3.2.2.1
    · exact r3.2.2.2.1
  · have hnot : key ∉ keys := by
      intro hk
      rw [insert_dup scratch index mem keys key pslot hv hsc hk] at hok
      exact Bool.noConfusion hok
    obtain ⟨s1, s3, e1, e3, K0, X, Y, hkeys, hK, hout, _, hA, hB⟩ :=
      insert_loops scratch index mem keys key pslot hv hc hsc hnot
    obtain ⟨f1, f2, f3, f4⟩ := insert_finish_bytes index mem keys key _ K0 X Y hv hc hkeys hK hout
    have hins : List.orderedInsert (· ≤ ·) key (X ++ Y) = X ++ key :: Y :=
      orderedInsert_split key X Y (fun a ha => hA a (List.mem_append_right _ ha)) hB
    have hall : List.orderedInsert (· ≤ ·) key (index.value :: keys)
        = index.value :: (K0 ++ X ++ key :: Y) := by
      have hle : index.value ≤ key := by omega
      by_cases heq : key = index.value
      · have hk0 : K0 ++ X = [] := by
          rcases hKX : K0 ++ X with _ | ⟨a, t⟩
          · rfl
          · exfalso
            have h1 := hA a (by rw [hKX]; exact List.mem_cons_self _ _)
            have h2 := (List.pairwise_cons.1 hv.2.2.2.2.1).1 a (by
              rw [hkeys, hKX]; simp)
            omega
        rw [hkeys, hk0, List.orderedInsert, if_pos (by omega), heq]
        rfl
      · rw [hkeys, List.append_assoc, ← List.cons_append, ← List.cons_append,
          ← List.append_assoc]
        rw [orderedInsert_split key (index.value :: K0 ++ X) Y (by
          intro a ha
          simp only [List.cons_append, List.mem_cons] at ha
          rcases ha with h | h
          · rw [h]; omega
          · exact hA a h) hB]
        simp
    unfold insert
    rw [if_neg hlt]
    simp only [e1, e3]
    refine ⟨⟨K0 ++ X ++ key :: Y, ?_, ?_, ?_⟩, fun _ => ⟨K0, X ++ Y, ?_, hK.1, ?_, ?_, ?_⟩⟩
    · exact hall.symm
    · exact f1
    · rw [f1]; exact f2
    · rw [hkeys, List.append_assoc]
    · exact fun k hk => hA k (List.mem_append_left _ hk)
    · rw [hins]; exact f3
    · exact f4

/-- Witness for C20: the block with anchor 100 and the encoded keys 200 to 700; the key
650 goes into the trailing group, the bytes of the first group are kept. -/
theorem insert_reencodes_witness :
    (insert (List.replicate 32 0) ⟨100, 17, 8, 7⟩
        (encodeArray 100 [200, 300, 400, 500, 600, 700]) 650 0).mem.take 9
      = encodeArray 100 [200, 300, 400, 500, 600, 650, 700] := by
  obtain ⟨ks, h1, h2, h3⟩ := (insert_reencodes (List.replicate 32 0) ⟨100, 17, 8, 7⟩
      (encodeArray 100 [200, 300, 400, 500, 600, 700]) [200, 300, 400, 500, 600, 700] 650 0
      ⟨by decide, by decide, by decide, by decide, by decide, by decide⟩ (by decide)
      (by decide) (by decide)).1
  have hv : (insert (List.replicate 32 0) ⟨100, 17, 8, 7⟩
      (encodeArray 100 [200, 300, 400, 500, 600, 700]) 650 0).index.value = 100 := by decide
  have hu : (insert (List.replicate 32 0) ⟨100, 17, 8, 7⟩
      (encodeArray 100 [200, 300, 400, 500, 600, 700]) 650 0).index.used_size = 9 := by decide
  rw [hv] at h1 h2 h3
  rw [hu] at h3
  have hks : ks = [200, 300, 400, 500, 600, 650, 700] := by
    have : (100 :: ks) = [100, 200, 300, 400, 500, 600, 650, 700] := by
      rw [h1]; decide
    exact List.tail_eq_of_cons_eq this
  rw [h3, hks]

/-- The post-condition of `insert` for every key but the anchor: for a valid block with
`key_count ≤ 31` and a 32-bit key that is not the anchor, whenever `insert` returns
true the anchor followed by the decoded keys is strictly ascending. -/
theorem insert_ascending_unless_anchor (scratch : List Nat) (index : GroupVarintIndex)
    (mem keys : List Nat) (key pslot : Nat) (hv : ValidBlock index mem keys)
    (hc : index.key_count ≤ 31) (hsc : scratch.length = 32) (hkey : key < 4294967296)
    (hne : key ≠ index.value) (hok : (insert scratch index mem key pslot).ok = true) :
    ((insert scratch index mem key pslot).index.value ::
      uncompress_block (insert scratch index mem key pslot).index
        (insert scratch index mem key pslot).mem).Pairwise (· < ·) := by
  have hnot : key ∉ keys := by
    intro hk
    rw [insert_dup scratch index mem keys key pslot hv hsc hk] at hok
    exact Bool.noConfusion hok
  by_cases hlt : key < index.value
  · obtain ⟨_, _, r3⟩ := insert_before_anchor scratch index mem keys key pslot hv hc hsc hlt
    rw [uncompress_valid _ _ _ r3]
    exact r3.2.2.2.2.1
  · obtain ⟨_, _, A, B, _, _, _, r3, _⟩ :=
      insert_after_anchor scratch index mem keys key pslot hv hc hsc hkey (by omega) hnot
    rw [uncompress_valid _ _ _ r3]
    exact r3.2.2.2.2.1

theorem selOf_bits : ∀ (ds : List Nat) (i : Nat), i < ds.length →
    (selOf ds >>> (2 * i)) % 4 = codeOf (ds.getD i 0) := by
  intro ds
  induction ds with
  | nil => intro i hi; simp at hi
  | cons d ds ih =>
    intro i hi
    have hc := codeOf_lt d
    cases i with
    | zero =>
      simp only [selOf, Nat.mul_zero, Nat.shiftRight_zero, List.getD_cons_zero]
      omega
    | succ i =>
      simp only [List.length_cons] at hi
      have e : (codeOf d + 4 * selOf ds) >>> (2 * (i + 1)) = selOf ds >>> (2 * i) := by
        rw [show 2 * (i + 1) = 2 + 2 * i by ring, Nat.shiftRight_add]
        congr 1
        rw [Nat.shiftRight_eq_div_pow]
        omega
      simp only [selOf, List.getD_cons_succ]
      rw [e]
      exact ih i (by omega)

theorem payload_flatMap (ds : List Nat) : payload ds = ds.flatMap encodeBytes := by
  induction ds with
  | nil => rfl
  | cons d ds ih => simp [payload, ih]

theorem deltas_getD : ∀ (g : List Nat) (initial i : Nat), i < g.length →
    (deltas initial g).getD i 0
      = wrap32 (g.getD i 0 + 4294967296 - (if i = 0 then initial else g.getD (i - 1) 0)) := by
  intro g
  induction g with
  | nil => intro initial i hi; simp at hi
  | cons v g ih =>
    intro initial i hi
    cases i with
    | zero => simp [deltas]
    | succ i =>
      simp only [List.length_cons] at hi
      simp only [deltas, List.getD_cons_succ, Nat.add_sub_cancel]
      rw [ih v i (by omega)]
      cases i with
      | zero => simp
      | succ j => simp

/-- The payload of a delta: the least number of bytes that holds it, least significant
byte first. -/
theorem encodeBytes_little_endian (d : Nat) (hd : d < 4294967296) :
    (encodeBytes d).length
      = (if d < 2 ^ 8 then 1 else if d < 2 ^ 16 then 2 else if d < 2 ^ 24 then 3 else 4) ∧
    (∀ b ∈ encodeBytes d, b < 256) ∧
    (encodeBytes d).foldr (fun b acc => b + 256 * acc) 0 = d := by
  unfold encodeBytes
  simp only [Nat.shiftRight_eq_div_pow]
  split_ifs with h1 h2 h3
  · refine ⟨rfl, ?_, ?_⟩
    · intro b hb
      simp only [List.mem_singleton] at hb
      omega
    · simp only [List.foldr]
      omega
  · refine ⟨rfl, ?_, ?_⟩
    · intro b hb
      simp only [List.mem_cons, List.mem_singleton, List.not_mem_nil, or_false] at hb
      omega
    · simp only [List.foldr]
      omega
  · refine ⟨rfl, ?_, ?_⟩
    · intro b hb
      simp only [List.mem_cons, List.mem_singleton, List.not_mem_nil, or_false] at hb
      omega
    · simp only [List.foldr]
      omega
  · refine ⟨rfl, ?_, ?_⟩
    · intro b hb
      simp only [List.mem_cons, List.mem_singleton, List.not_mem_nil, or_false] at hb
      omega
    · simp only [List.foldr]
      omega

/-- C21 (encoding format).  For every running value `initial` and every non-empty input
`vs`, `encodeArray` emits for the group `g` of the first (up to) four values one
selector byte and then the payloads of the deltas of the group, one after the other,
followed by the encoding of the other values after the last value of the group.  The
`i`-th delta is the `i`-th value minus its predecessor modulo `2^32` (the first one
minus `initial`); bits `2i, 2i+1` of the selector are the number of bytes of the
payload of the `i`-th delta minus one; the selector is below `2^(2n)` for a group of
`n` values, so in a trailing group all bits from bit `2n` upward are zero; and the
payload of a delta is its least number of bytes (1 below `2^8`, 2 below `2^16`, 3
below `2^24`, else 4) in little-endian order. -/
theorem encodeArray_format (initial : Nat) (vs : List Nat) (hne : vs ≠ []) :
    encodeArray initial vs
      = (selOf (deltas initial (vs.take 4)) ::
          (deltas initial (vs.take 4)).flatMap encodeBytes)
        ++ encodeArray ((vs.take 4).getLastD initial) (vs.drop 4) ∧
    (∀ i, i < (vs.take 4).length →
      (deltas initial (vs.take 4)).getD i 0
        = wrap32 ((vs.take 4).getD i 0 + 4294967296
            - (if i = 0 then initial else (vs.take 4).getD (i - 1) 0)) ∧
      (selOf (deltas initial (vs.take 4)) >>> (2 * i)) % 4 + 1
        = (encodeBytes ((deltas initial (vs.take 4)).getD i 0)).length) ∧
    selOf (deltas initial (vs.take 4)) < 2 ^ (2 * (vs.take 4).length) ∧
    (∀ d, d < 4294967296 →
      (encodeBytes d).length
        = (if d < 2 ^ 8 then 1 else if d < 2 ^ 16 then 2 else if d < 2 ^ 24 then 3 else 4) ∧
      (∀ b ∈ encodeBytes d, b < 256) ∧
      (encodeBytes d).foldr (fun b acc => b + 256 * acc) 0 = d) := by
  refine ⟨?_, ?_, ?_, encodeBytes_little_endian⟩
  · rw [enc_group initial vs hne, groupBytes, payload_flatMap]
  · intro i hi
    refine ⟨deltas_getD _ _ _ hi, ?_⟩
    rw [selOf_bits _ _ (by rw [deltas_length]; exact hi), encodeBytes_length]
  · have := selOf_lt (deltas initial (vs.take 4))
    rw [deltas_length] at this
    rw [pow_mul]
    exact this

/-- Witness for C21: the values 300, 301, 70000 after the anchor 100 form a trailing
group of three; the deltas 200, 1, 69699 take 1, 1 and 3 bytes, the selector is
`0b100000`. -/
theorem encodeArray_format_witness :
    encodeArray 100 [300, 301, 70000] = [32, 200, 1, 67, 16, 1] :=
  ((encodeArray_format 100 [300, 301, 70000] (by decide)).1).trans (by decide)

theorem encodeArray_length_lower_aux : ∀ (n : Nat) (rest : List Nat), rest.length ≤ n → ∀ cur,
    rest.length + (rest.length + 3) / 4 ≤ (encodeArray cur rest).length := by
  intro n
  induction n with
  | zero =>
    intro rest h cur
    have : rest = [] := List.length_eq_zero.1 (by omega)
    subst this; simp
  | succ n ih =>
    intro rest h cur
    by_cases hne : rest = []
    · subst hne; simp
    · rw [enc_group cur rest hne, List.length_append]
      have h1 := (groupBytes_length cur (rest.take 4)).1
      have h0 : rest.length ≠ 0 := fun h0 => hne (List.length_eq_zero.1 h0)
      have h2 := ih (rest.drop 4) (by simp only [List.length_drop]; omega)
        ((rest.take 4).getLastD cur)
      simp only [List.length_take, List.length_drop] at h1 h2
      omega

/-- C22 (encoded size bound).  For every `n` values `encodeArray` writes between
`n + ⌈n/4⌉` and `4n + ⌈n/4⌉` bytes.  Hence for at most 31 values, and so for
`compress_block` on every block with `1 ≤ key_count ≤ 32`, it writes at most 132
bytes, and `set_used_size` stores that number in the 8 bit field without truncation:
`used_size` is the number of bytes written and at most 255. -/
theorem encodeArray_size_bound (cur : Nat) (vs : List Nat) (index : GroupVarintIndex)
    (inp : List Nat) :
    vs.length + (vs.length + 3) / 4 ≤ (encodeArray cur vs).length ∧
    (encodeArray cur vs).length ≤ 4 * vs.length + (vs.length + 3) / 4 ∧
    (vs.length ≤ 31 →
      (encodeArray cur vs).length ≤ 132 ∧
      (index.set_used_size (encodeArray cur vs).length).used_size
        = (encodeArray cur vs).length ∧
      (index.set_used_size (encodeArray cur vs).length).used_size ≤ 255) ∧
    (1 ≤ index.key_count → index.key_count ≤ 32 →
      (compress_block index inp).length ≤ 132 ∧
      (index.set_used_size (compress_block index inp).length).used_size
        = (compress_block index inp).length) := by
  have hlo := encodeArray_length_lower_aux vs.length vs (le_refl _) cur
  have hhi := encodeArray_length_le cur vs
  refine ⟨hlo, hhi, ?_, ?_⟩
  · intro h31
    have hb : (encodeArray cur vs).length ≤ 132 := by omega
    have hm : (encodeArray cur vs).length % 256 = (encodeArray cur vs).length :=
      Nat.mod_eq_of_lt (by omega)
    refine ⟨hb, hm, ?_⟩
    show (encodeArray cur vs).length % 256 ≤ 255
    omega
  · intro h1 h32
    have hw : wrap32 (index.key_count + 4294967296 - 1) = index.key_count - 1 := by
      unfold wrap32; omega
    have hlen : (inp.take (index.key_count - 1)).length ≤ 31 := by
      rw [List.length_take]; omega
    have hhi2 := encodeArray_length_le index.value (inp.take (index.key_count - 1))
    unfold compress_block
    rw [hw]
    have hb : (encodeArray index.value (inp.take (index.key_count - 1))).length ≤ 132 := by
      omega
    exact ⟨hb, Nat.mod_eq_of_lt (by omega)⟩

/-- Witness for C22: a block of 32 keys takes at most 132 bytes; four deltas of four
bytes each take `4 * 4 + 1 = 17` bytes, the upper bound for `n = 4`. -/
theorem encodeArray_size_bound_witness :
    (compress_block ⟨0, 255, 0, 32⟩ ((List.range 31).map (fun i => (i + 1) * 16777216))).length
      ≤ 132 ∧
    (encodeArray 0 [16777216, 33554432, 50331648, 67108864]).length = 17 :=
  ⟨((encodeArray_size_bound 0 [] ⟨0, 255, 0, 32⟩
      ((List.range 31).map (fun i => (i + 1) * 16777216))).2.2.2 (by decide) (by decide)).1,
   by decide⟩

/-- C37 (slot reported by the block insert), evaluated on the new-anchor path.  The
valid block has the anchor 100 and the encoded keys 200, 300; the key 50 is smaller
than the anchor.  `insert` returns true, the key becomes the anchor, and the resulting
key sequence, anchor first, is 50, 100, 200, 300, where the key has the index 0; the
path stores the constant 1 in `*pslot`, the index of the former anchor. -/
theorem insert_new_anchor_reports_slot_one :
    ValidBlock ⟨100, 17, 3, 3⟩ (encodeArray 100 [200, 300]) [200, 300] ∧
    (insert (List.replicate 32 0) ⟨100, 17, 3, 3⟩ (encodeArray 100 [200, 300]) 50 0).ok = true ∧
    (insert (List.replicate 32 0) ⟨100, 17, 3, 3⟩ (encodeArray 100 [200, 300]) 50 0).index.value
        :: uncompress_block
          (insert (List.replicate 32 0) ⟨100, 17, 3, 3⟩ (encodeArray 100 [200, 300]) 50 0).index
          (insert (List.replicate 32 0) ⟨100, 17, 3, 3⟩ (encodeArray 100 [200, 300]) 50 0).mem
      = [50, 100, 200, 300] ∧
    ([50, 100, 200, 300] : List Nat).indexOf 50 = 0 ∧
    (insert (List.replicate 32 0) ⟨100, 17, 3, 3⟩ (encodeArray 100 [200, 300]) 50 0).pslot = 1 := by
  refine ⟨⟨by decide, by decide, by decide, by decide, by decide, by decide⟩, ?_, ?_, ?_, ?_⟩ <;>
    decide

/-- C39 (lower bound and the scratch array), evaluated.  The valid block has the anchor
0 and the single encoded key 5; the search key is 7.  In the only iteration of the
trailing loop `decodeSingleVarintDelta` decodes one value (`nvalue = 1`, `out[0] = 5`),
so only the index 0 is smaller than the number of decoded values.  The result of
`find_lower_bound` nevertheless changes with the content of `out[1]`: the guard in
front of `key <= out[1]` is `nvalue > 0`.  With 7 in that cell of the local array
the function returns slot 1 with `*presult = 7`, with 6 it returns slot 1 with
`*presult = key + 1 = 8`. -/
theorem find_lower_bound_compares_stale_cell :
    ValidBlock ⟨0, 17, 2, 2⟩ (encodeArray 0 [5]) [5] ∧
    (decodeSingleVarintDelta (encodeArray 0 [5]) 0 0 1).count = 1 ∧
    (decodeSingleVarintDelta (encodeArray 0 [5]) 0 0 1).out = [5] ∧
    find_lower_bound [0, 7, 0, 0] ⟨0, 17, 2, 2⟩ (encodeArray 0 [5]) 7 = (1, 7) ∧
    find_lower_bound [0, 6, 0, 0] ⟨0, 17, 2, 2⟩ (encodeArray 0 [5]) 7 = (1, 8) := by
  refine ⟨⟨by decide, by decide, by decide, by decide, by decide, by decide⟩, ?_, ?_, ?_, ?_⟩ <;>
    decide

/-- A read from a buffer of bytes is a byte. -/
theorem rd_byte (mem : List Nat) (hb : ∀ b ∈ mem, b < 256) (i : Nat) : rd mem i < 256 := by
  unfold rd
  by_cases h : i < mem.length
  · rw [List.getD_eq_getElem _ _ h]
    exact hb _ (List.getElem_mem _)
  · rw [List.getD_eq_default _ _ (by omega)]
    decide

/-- One value of the careful decoders and of the fast decoder: the bytes that
`howmanybyte = c` selects, put together byte by byte, are the masked word load. -/
theorem step_value (mem : List Nat) (hb : ∀ b ∈ mem, b < 256) (q c : Nat) (hc : c < 4) :
    (if c ≥ 1 then
      if c ≥ 2 then
        if c ≥ 3 then
          (rd mem q ||| (rd mem (q + 1) <<< 8) ||| (rd mem (q + 2) <<< 16)
            ||| (rd mem (q + 3) <<< 24), q + 4)
        else (rd mem q ||| (rd mem (q + 1) <<< 8) ||| (rd mem (q + 2) <<< 16), q + 3)
      else (rd mem q ||| (rd mem (q + 1) <<< 8), q + 2)
    else (rd mem q, q + 1)) = (rd32 mem q &&& varintgb_mask c, q + (c + 1)) := by
  have b0 := rd_byte mem hb q
  have b1 := rd_byte mem hb (q + 1)
  have b2 := rd_byte mem hb (q + 2)
  have b3 := rd_byte mem hb (q + 3)
  rw [and_mask _ _ hc]
  unfold rd32
  interval_cases c
  · simp only [ge_iff_le, Nat.not_succ_le_zero, ↓reduceIte, Prod.mk.injEq, and_true]
    norm_num
    omega
  · simp only [ge_iff_le, le_refl, ↓reduceIte, Nat.reduceLeDiff, Prod.mk.injEq, and_true]
    rw [or2 _ _ b0]
    norm_num
    omega
  · simp only [ge_iff_le, Nat.one_le_ofNat, ↓reduceIte, le_refl, Nat.reduceLeDiff,
      Prod.mk.injEq, and_true]
    rw [or3 _ _ _ b0 b1]
    norm_num
    omega
  · simp only [ge_iff_le, Nat.one_le_ofNat, ↓reduceIte, Nat.reduceLeDiff, le_refl,
      Prod.mk.injEq, and_true]
    rw [or4 _ _ _ _ b0 b1 b2]
    norm_num
    omega

/-- The loops of `decodeCarefully` and of `decodeSingleVarintDelta` are the same
function. -/
theorem careful_eq_single_loop (mem : List Nat) (count : Nat) :
    ∀ (n k key inbyte initial : Nat) (out : List Nat),
      decodeCarefullyLoop mem count n k key inbyte initial out
        = decodeSingleVarintDeltaLoop mem count n k key inbyte initial out := by
  intro n
  induction n with
  | zero => intro k key inbyte initial out; rfl
  | succ n ih =>
    intro k key inbyte initial out
    rw [decodeCarefullyLoop, decodeSingleVarintDeltaLoop]
    split_ifs
    · exact ih _ _ _ _ _
    · rfl

/-- The selector of a group, two bits at a time, as the careful decoders walk it
(`key = static_cast<uint8_t>(key >> 2)`) and as the fast decoder reads it. -/
theorem sel_walk (sel : Nat) (h : sel < 256) :
    sel &&& 3 < 4 ∧ (sel >>> 2) % 256 = sel >>> 2 ∧ (sel >>> 2) &&& 3 < 4 ∧
    ((sel >>> 2) >>> 2) % 256 = sel >>> 4 ∧ (sel >>> 4) &&& 3 < 4 ∧
    ((sel >>> 4) >>> 2) % 256 = sel >>> 6 ∧ (sel >>> 6) &&& 3 = sel >>> 6 ∧ sel >>> 6 < 4 := by
  simp only [and_three, Nat.shiftRight_eq_div_pow]
  norm_num
  omega

/-- One iteration of the loop of `decodeSingleVarintDelta`, on bytes: the value is the
masked word load of the fast decoder. -/
theorem single_step (mem : List Nat) (hb : ∀ b ∈ mem, b < 256)
    (count n k key inbyte initial : Nat) (out : List Nat) (hk : k < count ∧ k < 4) :
    decodeSingleVarintDeltaLoop mem count (n + 1) k key inbyte initial out
      = decodeSingleVarintDeltaLoop mem count n (k + 1) ((key >>> 2) % 256)
          (inbyte + ((key &&& 3) + 1))
          (wrap32 (initial + (rd32 mem inbyte &&& varintgb_mask (key &&& 3))))
          (out ++ [wrap32 (initial + (rd32 mem inbyte &&& varintgb_mask (key &&& 3)))]) := by
  have hlt : key &&& 3 < 4 := by rw [and_three]; omega
  rw [decodeSingleVarintDeltaLoop, if_pos hk]
  simp only
  rw [step_value mem hb inbyte (key &&& 3) hlt]

/-- The fast decoder and the loop of the careful decoders on one full group. -/
theorem fast_eq_single (mem : List Nat) (inp val : Nat) (hb : ∀ b ∈ mem, b < 256) :
    decodeGroupVarIntDelta mem inp val = decodeSingleVarintDelta mem inp val 4 := by
  have hsel := rd_byte mem hb inp
  obtain ⟨w1, w2, w3, w4, w5, w6, w7, w8⟩ := sel_walk (rd mem inp) hsel
  unfold decodeSingleVarintDelta
  rw [single_step mem hb 4 3 0 _ _ _ _ ⟨by decide, by decide⟩, w2,
    single_step mem hb 4 2 (0 + 1) _ _ _ _ ⟨by decide, by decide⟩, w4,
    single_step mem hb 4 1 (0 + 1 + 1) _ _ _ _ ⟨by decide, by decide⟩, w6,
    single_step mem hb 4 0 (0 + 1 + 1 + 1) _ _ _ _ ⟨by decide, by decide⟩, w7]
  rw [decodeSingleVarintDeltaLoop]
  unfold decodeGroupVarIntDelta
  simp only
  by_cases h0 : rd mem inp = 0
  · rw [if_pos h0]
    simp only [h0, Nat.zero_and, Nat.zero_shiftRight, varintgb_mask, List.nil_append,
      List.cons_append, Nat.zero_add, Decoded.mk.injEq]
    have e : ∀ q, rd32 mem q &&& 255 = rd mem q := by
      intro q
      have a0 := rd_byte mem hb q
      rw [show (255 : Nat) = 2 ^ 8 - 1 from rfl, Nat.and_pow_two_sub_one_eq_mod]
      unfold rd32
      omega
    simp only [e]
    exact ⟨trivial, trivial, trivial, trivial⟩
  · rw [if_neg h0]
    simp only [List.nil_append, List.cons_append, Decoded.mk.injEq]

/-- C40 (the fast and the careful group decoders agree).  For every buffer of bytes,
every offset of a group and every running value: `decodeGroupVarIntDelta` gives the
same four output values, the same final running value and the same read position
behind the group as `decodeSingleVarintDelta` and as `decodeCarefully` with a count
of 4 (or more), whatever the selector, the selector 0 of the shortcut included; and
`decodeCarefully` and `decodeSingleVarintDelta` give the same result for every
count. -/
theorem decoders_agree (mem : List Nat) (inp val : Nat) (hb : ∀ b ∈ mem, b < 256) :
    decodeGroupVarIntDelta mem inp val = decodeSingleVarintDelta mem inp val 4 ∧
    decodeGroupVarIntDelta mem inp val = decodeCarefully mem inp val 4 ∧
    (decodeGroupVarIntDelta mem inp val).out.length = 4 ∧
    (decodeGroupVarIntDelta mem inp val).initial
      = (decodeGroupVarIntDelta mem inp val).out.getLastD val ∧
    (∀ count, 4 ≤ count →
      decodeSingleVarintDelta mem inp val count = decodeGroupVarIntDelta mem inp val ∧
      decodeCarefully mem inp val count = decodeGroupVarIntDelta mem inp val) ∧
    (∀ count, decodeCarefully mem inp val count = decodeSingleVarintDelta mem inp val count) := by
  have hcs : ∀ count, decodeCarefully mem inp val count
      = decodeSingleVarintDelta mem inp val count := by
    intro count
    unfold decodeCarefully decodeSingleVarintDelta
    exact careful_eq_single_loop mem count _ _ _ _ _ _
  have hbig : ∀ count, 4 ≤ count →
      decodeSingleVarintDelta mem inp val count = decodeSingleVarintDelta mem inp val 4 := by
    intro count hc
    have hsel := rd_byte mem hb inp
    unfold decodeSingleVarintDelta
    rw [single_step mem hb count 3 0 _ _ _ _ ⟨by omega, by decide⟩,
      single_step mem hb count 2 (0 + 1) _ _ _ _ ⟨by omega, by decide⟩,
      single_step mem hb count 1 (0 + 1 + 1) _ _ _ _ ⟨by omega, by decide⟩,
      single_step mem hb count 0 (0 + 1 + 1 + 1) _ _ _ _ ⟨by omega, by decide⟩,
      single_step mem hb 4 3 0 _ _ _ _ ⟨by decide, by decide⟩,
      single_step mem hb 4 2 (0 + 1) _ _ _ _ ⟨by decide, by decide⟩,
      single_step mem hb 4 1 (0 + 1 + 1) _ _ _ _ ⟨by decide, by decide⟩,
      single_step mem hb 4 0 (0 + 1 + 1 + 1) _ _ _ _ ⟨by decide, by decide⟩]
    rfl
  have hfs := fast_eq_single mem inp val hb
  refine ⟨hfs, by rw [hcs]; exact hfs, ?_, ?_, ?_, hcs⟩
  · unfold decodeGroupVarIntDelta
    simp only
    split_ifs <;> rfl
  · unfold decodeGroupVarIntDelta
    simp only
    split_ifs <;> rfl
  · intro count hc
    exact ⟨by rw [hbig count hc, hfs], by rw [hcs, hbig count hc, hfs]⟩

/-- Witness for C40: a group with the selector 0 (the shortcut) and the group that
`encodeArray` writes for the values 200, 70000, 70001 and 5000000 after 100. -/
theorem decoders_agree_witness :
    decodeGroupVarIntDelta [0, 1, 2, 3, 4] 0 10 = decodeSingleVarintDelta [0, 1, 2, 3, 4] 0 10 4 ∧
    (decodeGroupVarIntDelta [0, 1, 2, 3, 4] 0 10).out = [11, 13, 16, 20] ∧
    decodeGroupVarIntDelta (encodeArray 100 [200, 70000, 70001, 5000000]) 0 100
      = decodeCarefully (encodeArray 100 [200, 70000, 70001, 5000000]) 0 100 4 ∧
    (decodeGroupVarIntDelta (encodeArray 100 [200, 70000, 70001, 5000000]) 0 100).out
      = [200, 70000, 70001, 5000000] :=
  ⟨(decoders_agree [0, 1, 2, 3, 4] 0 10 (by decide)).1, by decide,
   (decoders_agree (encodeArray 100 [200, 70000, 70001, 5000000]) 0 100 (by decide)).2.1,
   by decide⟩

theorem insertFast_zero (mem : List Nat) (endbyte key : Nat) (s : InsertState) :
    insertFast mem endbyte key 0 s = some s := by
  rw [insertFast]

theorem insertSlow_zero (mem : List Nat) (endbyte key : Nat) (s : InsertState) :
    insertSlow mem endbyte key 0 s = some s := by
  rw [insertSlow]

/-- One iteration of the first loop of `insert`: it returns false, or it goes on with
a state that has read the group, lowered `remaining` by 4, and left `pout`, or
advanced it by 5 (the key is placed) or by 4 (the key was placed before). -/
theorem insertFast_iter (mem : List Nat) (endbyte key : Nat) (s : InsertState)
    (hc : endbyte > s.inbyte + 1 + 4 * 4) :
    ∃ o : Option InsertState,
      (∀ fuel, insertFast mem endbyte key (fuel + 1) s
        = o.bind (insertFast mem endbyte key fuel)) ∧
      ∀ s1, o = some s1 →
        s1.inbyte = (decodeGroupVarIntDelta mem s.inbyte s.initial).inbyte ∧
        s1.initial = (decodeGroupVarIntDelta mem s.inbyte s.initial).initial ∧
        s1.remaining = wrap32 (s.remaining + 4294967296 - 4) ∧
        ((s1.pout = s.pout ∧ s1.is_inserted = s.is_inserted) ∨
         (s.is_inserted = false ∧ s1.pout = s.pout + 5 ∧ s1.is_inserted = true) ∨
         (s.is_inserted = true ∧ s1.pout = s.pout + 4 ∧ s1.is_inserted = true)) := by
  by_cases c1 : key > rd (writeAt s.out s.pout (decodeGroupVarIntDelta mem s.inbyte s.initial).out) 3
  · exact ⟨some _, fun fuel => by
        rw [insertFast, if_pos hc]
        simp only
        rw [if_pos c1]
        exact rfl,
      fun s1 h1 => by
        rw [← Option.some.inj h1]
        exact ⟨rfl, rfl, rfl, Or.inl ⟨rfl, rfl⟩⟩⟩
  · by_cases c2 : s.is_inserted = false
    · by_cases c3 : key = rd (writeAt s.out s.pout
          (decodeGroupVarIntDelta mem s.inbyte s.initial).out) 0 ∨
        key = rd (writeAt s.out s.pout (decodeGroupVarIntDelta mem s.inbyte s.initial).out) 1 ∨
        key = rd (writeAt s.out s.pout (decodeGroupVarIntDelta mem s.inbyte s.initial).out) 2 ∨
        key = rd (writeAt s.out s.pout (decodeGroupVarIntDelta mem s.inbyte s.initial).out) 3
      · refine ⟨none, fun fuel => ?_, fun s1 h1 => Option.noConfusion h1⟩
        rw [insertFast, if_pos hc]
        simp only
        rw [if_neg c1, if_pos c2, if_pos c3]
        rfl
      · exact ⟨some _, fun fuel => by
            rw [insertFast, if_pos hc]
            simp only
            rw [if_neg c1, if_pos c2, if_neg c3]
            exact rfl,
          fun s1 h1 => by
            rw [← Option.some.inj h1]
            exact ⟨rfl, rfl, rfl, Or.inr (Or.inl ⟨c2, rfl, rfl⟩)⟩⟩
    · have c2t : s.is_inserted = true := by
        cases h : s.is_inserted
        · exact absurd h c2
        · rfl
      exact ⟨some _, fun fuel => by
          rw [insertFast, if_pos hc]
          simp only
          rw [if_neg c1, if_neg c2]
          exact rfl,
        fun s1 h1 => by
          rw [← Option.some.inj h1]
          exact ⟨rfl, rfl, rfl, Or.inr (Or.inr ⟨c2t, rfl, c2t⟩)⟩⟩

/-- One iteration of the second loop of `insert`: it returns false, or it goes on with
a state that has read the values, lowered `remaining` by their number, and advanced
`pout` by their number, and by one more if it has placed the key. -/
theorem insertSlow_iter (mem : List Nat) (endbyte key : Nat) (s : InsertState)
    (hc : endbyte > s.inbyte ∧ s.remaining > 0) :
    ∃ o : Option InsertState,
      (∀ fuel, insertSlow mem endbyte key (fuel + 1) s
        = o.bind (insertSlow mem endbyte key fuel)) ∧
      ∀ s1, o = some s1 →
        s1.inbyte = (decodeSingleVarintDelta mem s.inbyte s.initial s.remaining).inbyte ∧
        s1.initial = (decodeSingleVarintDelta mem s.inbyte s.initial s.remaining).initial ∧
        s1.remaining = wrap32 (s.remaining + 4294967296
          - (decodeSingleVarintDelta mem s.inbyte s.initial s.remaining).count) ∧
        ((s.is_inserted = false ∧ s1.is_inserted = true ∧ s1.pout = s.pout
            + ((decodeSingleVarintDelta mem s.inbyte s.initial s.remaining).count + 1)) ∨
         (s1.is_inserted = s.is_inserted ∧ s1.pout = s.pout
            + (decodeSingleVarintDelta mem s.inbyte s.initial s.remaining).count)) := by
  generalize hD : decodeSingleVarintDelta mem s.inbyte s.initial s.remaining = D
  generalize hO : writeAt s.out s.pout D.out = O
  have hnone : ∀ (P : InsertState → Prop),
      (∀ fuel, insertSlow mem endbyte key (fuel + 1) s = none) →
      ∃ o : Option InsertState,
      (∀ fuel, insertSlow mem endbyte key (fuel + 1) s
        = o.bind (insertSlow mem endbyte key fuel)) ∧ ∀ s1, o = some s1 → P s1 :=
    fun P h => ⟨none, fun fuel => by rw [h fuel]; rfl, fun s1 h1 => Option.noConfusion h1⟩
  by_cases hi : s.is_inserted = false
  · by_cases a0 : key = rd O s.pout
    · apply hnone (fun s1 => _)
      intro fuel
      rw [insertSlow, if_pos hc]
      simp only [hD, hO]
      rw [if_pos hi, if_pos a0]
    by_cases b0 : key < rd O s.pout
    · exact ⟨some _, fun fuel => by
          rw [insertSlow, if_pos hc]
          simp only [hD, hO]
          rw [if_pos hi, if_neg a0, if_pos b0]
          exact rfl,
        fun s1 h1 => by
          rw [← Option.some.inj h1]
          exact ⟨rfl, rfl, rfl, Or.inl ⟨hi, rfl, rfl⟩⟩⟩
    by_cases n1 : D.count > 1
    swap
    · exact ⟨some _, fun fuel => by
          rw [insertSlow, if_pos hc]
          simp only [hD, hO]
          rw [if_pos hi, if_neg a0, if_neg b0, if_neg n1]
          exact rfl,
        fun s1 h1 => by
          rw [← Option.some.inj h1]
          exact ⟨rfl, rfl, rfl, Or.inr ⟨rfl, rfl⟩⟩⟩
    by_cases a1 : key = rd O (s.pout + 1)
    · apply hnone (fun s1 => _)
      intro fuel
      rw [insertSlow, if_pos hc]
      simp only [hD, hO]
      rw [if_pos hi, if_neg a0, if_neg b0, if_pos n1, if_pos a1]
    by_cases b1 : key < rd O (s.pout + 1)
    · exact ⟨some _, fun fuel => by
          rw [insertSlow, if_pos hc]
          simp only [hD, hO]
          rw [if_pos hi, if_neg a0, if_neg b0, if_pos n1, if_neg a1, if_pos b1]
          exact rfl,
        fun s1 h1 => by
          rw [← Option.some.inj h1]
          exact ⟨rfl, rfl, rfl, Or.inl ⟨hi, rfl, rfl⟩⟩⟩
    by_cases n2 : D.count > 2
    swap
    · exact ⟨some _, fun fuel => by
          rw [insertSlow, if_pos hc]
          simp only [hD, hO]
          rw [if_pos hi, if_neg a0, if_neg b0, if_pos n1, if_neg a1, if_neg b1, if_neg n2]
          exact rfl,
        fun s1 h1 => by
          rw [← Option.some.inj h1]
          exact ⟨rfl, rfl, rfl, Or.inr ⟨rfl, rfl⟩⟩⟩
    by_cases a2 : key = rd O (s.pout + 2)
    · apply hnone (fun s1 => _)
      intro fuel
      rw [insertSlow, if_pos hc]
      simp only [hD, hO]
      rw [if_pos hi, if_neg a0, if_neg b0, if_pos n1, if_neg a1, if_neg b1, if_pos n2, if_pos a2]
    by_cases b2 : key < rd O (s.pout + 2)
    · exact ⟨some _, fun fuel => by
          rw [insertSlow, if_pos hc]
          simp only [hD, hO]
          rw [if_pos hi, if_neg a0, if_neg b0, if_pos n1, if_neg a1, if_neg b1, if_pos n2,
            if_neg a2, if_pos b2]
          exact rfl,
        fun s1 h1 => by
          rw [← Option.some.inj h1]
          exact ⟨rfl, rfl, rfl, Or.inl ⟨hi, rfl, rfl⟩⟩⟩
    by_cases n3 : D.count > 3
    swap
    · exact ⟨some _, fun fuel => by
          rw [insertSlow, if_pos hc]
          simp only [hD, hO]
          rw [if_pos hi, if_neg a0, if_neg b0, if_pos n1, if_neg a1, if_neg b1, if_pos n2,
            if_neg a2, if_neg b2, if_neg n3]
          exact rfl,
        fun s1 h1 => by
          rw [← Option.some.inj h1]
          exact ⟨rfl, rfl, rfl, Or.inr ⟨rfl, rfl⟩⟩⟩
    by_cases a3 : key = rd O (s.pout + 3)
    · apply hnone (fun s1 => _)
      intro fuel
      rw [insertSlow, if_pos hc]
      simp only [hD, hO]
      rw [if_pos hi, if_neg a0, if_neg b0, if_pos n1, if_neg a1, if_neg b1, if_pos n2, if_neg a2,
        if_neg b2, if_pos n3, if_pos a3]
    by_cases b3 : key < rd O (s.pout + 3)
    · exact ⟨some _, fun fuel => by
          rw [insertSlow, if_pos hc]
          simp only [hD, hO]
          rw [if_pos hi, if_neg a0, if_neg b0, if_pos n1, if_neg a1, if_neg b1, if_pos n2,
            if_neg a2, if_neg b2, if_pos n3, if_neg a3, if_pos b3]
          exact rfl,
        fun s1 h1 => by
          rw [← Option.some.inj h1]
          exact ⟨rfl, rfl, rfl, Or.inl ⟨hi, rfl, rfl⟩⟩⟩
    · exact ⟨some _, fun fuel => by
          rw [insertSlow, if_pos hc]
          simp only [hD, hO]
          rw [if_pos hi, if_neg a0, if_neg b0, if_pos n1, if_neg a1, if_neg b1, if_pos n2,
            if_neg a2, if_neg b2, if_pos n3, if_neg a3, if_neg b3]
          exact rfl,
        fun s1 h1 => by
          rw [← Option.some.inj h1]
          exact ⟨rfl, rfl, rfl, Or.inr ⟨rfl, rfl⟩⟩⟩
  · exact ⟨some _, fun fuel => by
        rw [insertSlow, if_pos hc]
        simp only [hD, hO]
        rw [if_neg hi]
        exact rfl,
      fun s1 h1 => by
        rw [← Option.some.inj h1]
        exact ⟨rfl, rfl, rfl, Or.inr ⟨rfl, rfl⟩⟩⟩

/-- The accesses of one iteration of the first loop of `insert` stay below
`pout + 5`. -/
theorem fastTouch_le (mem : List Nat) (key : Nat) (s : InsertState) :
    ∀ a ∈ insertFastTouch mem key s, a.1 + a.2 ≤ s.pout + 5 := by
  intro a ha
  unfold insertFastTouch at ha
  simp only at ha
  split_ifs at ha <;>
    simp only [List.cons_append, List.nil_append, List.append_nil, List.mem_cons,
      List.mem_singleton, List.not_mem_nil, or_false] at ha <;>
    rcases ha with rfl | rfl | rfl | rfl | rfl | rfl | rfl | rfl | rfl <;> simp only <;> omega

/-- The accesses of one iteration of the second loop of `insert` stay below
`pout + ints_decoded`, plus one while the key is not placed. -/
theorem slowTouch_le (mem : List Nat) (key : Nat) (s : InsertState) :
    ∀ a ∈ insertSlowTouch mem key s,
      a.1 + a.2 ≤ s.pout + (decodeSingleVarintDelta mem s.inbyte s.initial s.remaining).count
        + (if s.is_inserted = false then 1 else 0) := by
  intro a ha
  unfold insertSlowTouch at ha
  generalize decodeSingleVarintDelta mem s.inbyte s.initial s.remaining = d at ha ⊢
  simp only at ha
  generalize writeAt s.out s.pout d.out = o at ha
  generalize d.count = n at ha ⊢
  generalize s.is_inserted = ins at ha ⊢
  generalize s.pout = p at ha ⊢
  cases ins
  · rw [if_pos rfl] at ha ⊢
    by_cases e0 : key = rd o p
    · rw [if_pos e0] at ha
      simp only [List.cons_append, List.nil_append, List.append_nil, List.mem_cons,
        List.mem_singleton, List.not_mem_nil, or_false] at ha
      rcases ha with rfl | rfl | rfl | rfl | rfl | rfl | rfl | rfl | rfl <;> simp only <;> omega
    rw [if_neg e0] at ha
    by_cases l0 : key < rd o p
    · rw [if_pos l0] at ha
      simp only [List.cons_append, List.nil_append, List.append_nil, List.mem_cons,
        List.mem_singleton, List.not_mem_nil, or_false] at ha
      rcases ha with rfl | rfl | rfl | rfl | rfl | rfl | rfl | rfl | rfl <;> simp only <;> omega
    rw [if_neg l0] at ha
    by_cases n0 : n > 1
    · rw [if_pos n0] at ha
      by_cases e1 : key = rd o (p + 1)
      · rw [if_pos e1] at ha
        simp only [List.cons_append, List.nil_append, List.append_nil, List.mem_cons,
          List.mem_singleton, List.not_mem_nil, or_false] at ha
        rcases ha with rfl | rfl | rfl | rfl | rfl | rfl | rfl | rfl | rfl <;> simp only <;> omega
      rw [if_neg e1] at ha
      by_cases l1 : key < rd o (p + 1)
      · rw [if_pos l1] at ha
        simp only [List.cons_append, List.nil_append, List.append_nil, List.mem_cons,
          List.mem_singleton, List.not_mem_nil, or_false] at ha
        rcases ha with rfl | rfl | rfl | rfl | rfl | rfl | rfl | rfl | rfl <;> simp only <;> omega
      rw [if_neg l1] at ha
      by_cases n1 : n > 2
      · rw [if_pos n1] at ha
        by_cases e2 : key = rd o (p + 2)
        · rw [if_pos e2] at ha
          simp only [List.cons_append, List.nil_append, List.append_nil, List.mem_cons,
            List.mem_singleton, List.not_mem_nil, or_false] at ha
          rcases ha with rfl | rfl | rfl | rfl | rfl | rfl | rfl | rfl | rfl <;> simp only <;> omega
        rw [if_neg e2] at ha
        by_cases l2 : key < rd o (p + 2)
        · rw [if_pos l2] at ha
          simp only [List.cons_append, List.nil_append, List.append_nil, List.mem_cons,
            List.mem_singleton, List.not_mem_nil, or_false] at ha
          rcases ha with rfl | rfl | rfl | rfl | rfl | rfl | rfl | rfl | rfl <;> simp only <;> omega
        rw [if_neg l2] at ha
        by_cases n2 : n > 3
        · rw [if_pos n2] at ha
          by_cases e3 : key = rd o (p + 3)
          · rw [if_pos e3] at ha
            simp only [List.cons_append, List.nil_append, List.append_nil, List.mem_cons,
              List.mem_singleton, List.not_mem_nil, or_false] at ha
            rcases ha with rfl | rfl | rfl | rfl | rfl | rfl | rfl | rfl | rfl <;> simp only <;> omega
          rw [if_neg e3] at ha
          by_cases l3 : key < rd o (p + 3)
          · rw [if_pos l3] at ha
            simp only [List.cons_append, List.nil_append, List.append_nil, List.mem_cons,
              List.mem_singleton, List.not_mem_nil, or_false] at ha
            rcases ha with rfl | rfl | rfl | rfl | rfl | rfl | rfl | rfl | rfl <;> simp only <;> omega
          rw [if_neg l3] at ha
          simp only [List.cons_append, List.nil_append, List.append_nil, List.mem_cons,
            List.mem_singleton, List.not_mem_nil, or_false] at ha
          rcases ha with rfl | rfl | rfl | rfl | rfl | rfl | rfl | rfl | rfl <;> simp only <;> omega
        rw [if_neg n2] at ha
        simp only [List.cons_append, List.nil_append, List.append_nil, List.mem_cons,
          List.mem_singleton, List.not_mem_nil, or_false] at ha
        rcases ha with rfl | rfl | rfl | rfl | rfl | rfl | rfl | rfl | rfl <;> simp only <;> omega
      rw [if_neg n1] at ha
      simp only [List.cons_append, List.nil_append, List.append_nil, List.mem_cons,
        List.mem_singleton, List.not_mem_nil, or_false] at ha
      rcases ha with rfl | rfl | rfl | rfl | rfl | rfl | rfl | rfl | rfl <;> simp only <;> omega
    rw [if_neg n0] at ha
    simp only [List.cons_append, List.nil_append, List.append_nil, List.mem_cons,
      List.mem_singleton, List.not_mem_nil, or_false] at ha
    rcases ha with rfl | rfl | rfl | rfl | rfl | rfl | rfl | rfl | rfl <;> simp only <;> omega
  · rw [if_neg (by decide)] at ha ⊢
    simp only [List.cons_append, List.nil_append, List.append_nil, List.mem_cons,
      List.mem_singleton, List.not_mem_nil, or_false] at ha
    rcases ha with rfl | rfl | rfl | rfl | rfl | rfl | rfl | rfl | rfl <;> simp only <;> omega

/-- The first loop of `insert` on a block: while the values still to read, the
position `pout` and the cell for the key fit into 31 cells, every access of the
loop stays in the 32 cells of `out`, and the state after the loop fits as well. -/
theorem fastTrace_le (mem : List Nat) (size key : Nat) :
    ∀ (fuel : Nat) (s : InsertState),
      (∃ rest, At mem size s.inbyte s.initial rest ∧ s.remaining = rest.length ∧
        s.pout + rest.length + (if s.is_inserted = false then 1 else 0) ≤ 31) →
      (∀ a ∈ insertFastTrace mem size key fuel s, a.1 + a.2 ≤ 32) ∧
      ∀ s1, insertFast mem size key fuel s = some s1 →
        ∃ rest, At mem size s1.inbyte s1.initial rest ∧ s1.remaining = rest.length ∧
          s1.pout + rest.length + (if s1.is_inserted = false then 1 else 0) ≤ 31 := by
  intro fuel
  induction fuel with
  | zero =>
    intro s hJ
    refine ⟨?_, ?_⟩
    · intro a ha
      rw [insertFastTrace] at ha
      exact absurd ha (List.not_mem_nil _)
    · intro s1 h1
      rw [insertFast_zero] at h1
      rw [← Option.some.inj h1]
      exact hJ
  | succ fuel ih =>
    intro s hJ
    by_cases hc : size > s.inbyte + 1 + 4 * 4
    · obtain ⟨rest, hAt, hrem, hb⟩ := hJ
      obtain ⟨o, ho, hf⟩ := insertFast_iter mem size key s hc
      have h5 := at_fast mem size s.inbyte s.initial rest hAt hc
      have hg := group_at mem size s.inbyte s.initial rest hAt (by omega)
      have hne : rest ≠ [] := by
        intro h0
        rw [h0] at h5
        simp at h5
      have hn := at_next mem size s.inbyte s.initial rest hAt hne
      have htouch := fastTouch_le mem key s
      have hp5 : s.pout + 5 ≤ 32 := by
        split_ifs at hb <;> omega
      have h1 : insertFast mem size key 1 s = o := by
        rw [ho 0]
        cases o with
        | none => rfl
        | some x => exact insertFast_zero mem size key x
      rw [insertFastTrace, if_pos hc, h1]
      cases o with
      | none =>
        refine ⟨?_, ?_⟩
        · intro a ha
          simp only [List.append_nil] at ha
          have := htouch a ha
          omega
        · intro s1 hs1
          rw [ho fuel] at hs1
          exact Option.noConfusion hs1
      | some s1 =>
        obtain ⟨e1, e2, e3, e4⟩ := hf s1 rfl
        have hJ1 : ∃ rest, At mem size s1.inbyte s1.initial rest ∧ s1.remaining = rest.length ∧
            s1.pout + rest.length + (if s1.is_inserted = false then 1 else 0) ≤ 31 := by
          refine ⟨rest.drop 4, ?_, ?_, ?_⟩
          · rw [e1, e2, hg]
            exact hn
          · rw [e3, hrem, wrap_sub _ _ (by omega) (by omega), List.length_drop]
          · rw [List.length_drop]
            rcases e4 with ⟨p1, p2⟩ | ⟨p1, p2, p3⟩ | ⟨p1, p2, p3⟩
            · rw [p1, p2]
              split_ifs at hb ⊢ <;> omega
            · rw [p2, p3]
              rw [p1, if_pos rfl] at hb
              rw [if_neg (by decide)]
              omega
            · rw [p2, p3]
              rw [p1, if_neg (by decide)] at hb
              rw [if_neg (by decide)]
              omega
        obtain ⟨t1, t2⟩ := ih s1 hJ1
        refine ⟨?_, ?_⟩
        · intro a ha
          rcases List.mem_append.1 ha with h | h
          · have := htouch a h
            omega
          · exact t1 a h
        · intro s2 hs2
          rw [ho fuel] at hs2
          exact t2 s2 hs2
    · refine ⟨?_, ?_⟩
      · intro a ha
        rw [insertFastTrace, if_neg hc] at ha
        exact absurd ha (List.not_mem_nil _)
      · intro s1 h1
        rw [insertFast, if_neg hc] at h1
        rw [← Option.some.inj h1]
        exact hJ

/-- The second loop of `insert` on a block: under the same condition every access
of the loop stays in the 32 cells of `out`, and the state after the loop fits. -/
theorem slowTrace_le (mem : List Nat) (size key : Nat) :
    ∀ (fuel : Nat) (s : InsertState),
      (∃ rest, At mem size s.inbyte s.initial rest ∧ s.remaining = rest.length ∧
        s.pout + rest.length + (if s.is_inserted = false then 1 else 0) ≤ 31) →
      (∀ a ∈ insertSlowTrace mem size key fuel s, a.1 + a.2 ≤ 32) ∧
      ∀ s1, insertSlow mem size key fuel s = some s1 →
        ∃ rest, At mem size s1.inbyte s1.initial rest ∧ s1.remaining = rest.length ∧
          s1.pout + rest.length + (if s1.is_inserted = false then 1 else 0) ≤ 31 := by
  intro fuel
  induction fuel with
  | zero =>
    intro s hJ
    refine ⟨?_, ?_⟩
    · intro a ha
      rw [insertSlowTrace] at ha
      exact absurd ha (List.not_mem_nil _)
    · intro s1 h1
      rw [insertSlow_zero] at h1
      rw [← Option.some.inj h1]
      exact hJ
  | succ fuel ih =>
    intro s hJ
    by_cases hc : size > s.inbyte ∧ s.remaining > 0
    · obtain ⟨rest, hAt, hrem, hb⟩ := hJ
      obtain ⟨o, ho, hf⟩ := insertSlow_iter mem size key s hc
      have hne : rest ≠ [] := by
        intro h0
        rw [h0] at hrem
        have := hc.2
        simp only [List.length_nil] at hrem
        omega
      have hpos : 0 < rest.length := List.length_pos.2 hne
      have hg := single_at mem size s.inbyte s.initial s.remaining rest hAt hne hrem
      have hn := at_next mem size s.inbyte s.initial rest hAt hne
      have htouch := slowTouch_le mem key s
      rw [hg] at htouch hf
      simp only [List.length_take] at htouch hf
      have h1 : insertSlow mem size key 1 s = o := by
        rw [ho 0]
        cases o with
        | none => rfl
        | some x => exact insertSlow_zero mem size key x
      have hbound : ∀ a ∈ insertSlowTouch mem key s, a.1 + a.2 ≤ 32 := by
        intro a ha
        have := htouch a ha
        split_ifs at hb this <;> omega
      rw [insertSlowTrace, if_pos hc, h1]
      cases o with
      | none =>
        refine ⟨?_, ?_⟩
        · intro a ha
          simp only [List.append_nil] at ha
          exact hbound a ha
        · intro s1 hs1
          rw [ho fuel] at hs1
          exact Option.noConfusion hs1
      | some s1 =>
        obtain ⟨e1, e2, e3, e4⟩ := hf s1 rfl
        have hJ1 : ∃ rest, At mem size s1.inbyte s1.initial rest ∧ s1.remaining = rest.length ∧
            s1.pout + rest.length + (if s1.is_inserted = false then 1 else 0) ≤ 31 := by
          refine ⟨rest.drop 4, ?_, ?_, ?_⟩
          · rw [e1, e2]
            exact hn
          · rw [e3, hrem, wrap_sub _ _ (by omega) (by omega), List.length_drop]
            omega
          · rw [List.length_drop]
            rcases e4 with ⟨p1, p2, p3⟩ | ⟨p1, p2⟩
            · rw [p2, p3]
              rw [p1, if_pos rfl] at hb
              rw [if_neg (by decide)]
              omega
            · rw [p1, p2]
              split_ifs at hb ⊢ <;> omega
        obtain ⟨t1, t2⟩ := ih s1 hJ1
        refine ⟨?_, ?_⟩
        · intro a ha
          rcases List.mem_append.1 ha with h | h
          · exact hbound a h
          · exact t1 a h
        · intro s2 hs2
          rw [ho fuel] at hs2
          exact t2 s2 hs2
    · refine ⟨?_, ?_⟩
      · intro a ha
        rw [insertSlowTrace, if_neg hc] at ha
        exact absurd ha (List.not_mem_nil _)
      · intro s1 h1
        rw [insertSlow, if_neg hc] at h1
        rw [← Option.some.inj h1]
        exact hJ

/-- The number of values that `insert` hands to `encodeArray` on a valid block with at
most 31 keys is at most 31. -/
theorem insert_ints_to_write_le (scratch : List Nat) (index : GroupVarintIndex)
    (mem keys : List Nat) (key pslot : Nat) (hv : ValidBlock index mem keys)
    (hk : index.key_count ≤ 31) :
    insert_ints_to_write scratch index mem key pslot ≤ 31 := by
  have hlen := hv.1
  have hnv := (valid_nvalue index mem keys hv).1
  unfold insert_ints_to_write
  by_cases hlt : key < index.value
  · rw [if_pos hlt]
    simp only [GroupVarintIndex.set_key_count, GroupVarintIndex.set_value]
    unfold wrap32
    omega
  · rw [if_neg hlt]
    simp only
    rw [hnv]
    have hJ0 : ∃ rest, At mem index.used_size
        (InsertState.mk 0 index.value 0 keys.length 0 scratch false index.value 0 pslot).inbyte
        (InsertState.mk 0 index.value 0 keys.length 0 scratch false index.value 0 pslot).initial
        rest ∧
        (InsertState.mk 0 index.value 0 keys.length 0 scratch false index.value 0 pslot).remaining
          = rest.length ∧
        (InsertState.mk 0 index.value 0 keys.length 0 scratch false index.value 0 pslot).pout
          + rest.length +
          (if (InsertState.mk 0 index.value 0 keys.length 0 scratch false index.value 0
            pslot).is_inserted = false then 1 else 0) ≤ 31 :=
      ⟨keys, valid_at index mem keys hv, rfl, by simp only [if_pos]; omega⟩
    have hF := (fastTrace_le mem index.used_size key index.used_size _ hJ0).2
    cases h1 : insertFast mem index.used_size key index.used_size
        (InsertState.mk 0 index.value 0 keys.length 0 scratch false index.value 0 pslot) with
    | none => exact Nat.zero_le _
    | some s1 =>
      simp only
      obtain ⟨rest1, a1, b1, c1⟩ := hF s1 h1
      have hJ2 : ∃ rest, At mem index.used_size
          (if s1.is_inserted = false then
            { s1 with new_initial := s1.initial, new_inbyte := s1.inbyte } else s1).inbyte
          (if s1.is_inserted = false then
            { s1 with new_initial := s1.initial, new_inbyte := s1.inbyte } else s1).initial
          rest ∧
          (if s1.is_inserted = false then
            { s1 with new_initial := s1.initial, new_inbyte := s1.inbyte } else s1).remaining
            = rest.length ∧
          (if s1.is_inserted = false then
            { s1 with new_initial := s1.initial, new_inbyte := s1.inbyte } else s1).pout
            + rest.length +
            (if (if s1.is_inserted = false then
              { s1 with new_initial := s1.initial, new_inbyte := s1.inbyte }
              else s1).is_inserted = false then 1 else 0) ≤ 31 := by
        by_cases hi : s1.is_inserted = false
        · rw [if_pos hi]
          exact ⟨rest1, a1, b1, c1⟩
        · rw [if_neg hi]
          exact ⟨rest1, a1, b1, c1⟩
      have hS := (slowTrace_le mem index.used_size key index.used_size _ hJ2).2
      cases h3 : insertSlow mem index.used_size key index.used_size
          (if s1.is_inserted = false then
            { s1 with new_initial := s1.initial, new_inbyte := s1.inbyte } else s1) with
      | none => exact Nat.zero_le _
      | some s3 =>
        simp only
        obtain ⟨rest3, a3, b3, c3⟩ := hS s3 h3
        split_ifs at c3 ⊢ <;> omega

/-- C38 (scratch buffer of block insert stays in bounds): on every valid block with
`key_count <= 31`, for every key and every content of the scratch array, each access
of `insert` to the 32-entry array `out` (the stores of the decoders at `pout`, the
`memmove` splices, `pout[4] = pout[3]`, the final append `*pout = key`, the input of
`encodeArray`) touches only indices below 32, and at most 32 values are handed to
`encodeArray`. -/
theorem insert_scratch_in_bounds (scratch : List Nat) (index : GroupVarintIndex)
    (mem keys : List Nat) (key pslot : Nat) (hv : ValidBlock index mem keys)
    (hk : index.key_count ≤ 31) :
    (∀ a ∈ insert_touch scratch index mem key pslot,
      ∀ i, a.1 ≤ i → i < a.1 + a.2 → i < 32) ∧
    insert_ints_to_write scratch index mem key pslot ≤ 32 := by
  have hw := insert_ints_to_write_le scratch index mem keys key pslot hv hk
  refine ⟨?_, by omega⟩
  suffices hs : ∀ a ∈ insert_touch scratch index mem key pslot, a.1 + a.2 ≤ 32 by
    intro a ha i h1 h2
    have := hs a ha
    omega
  have hlen := hv.1
  have hnv := (valid_nvalue index mem keys hv).1
  unfold insert_touch
  by_cases hlt : key < index.value
  · rw [if_pos hlt, uncompress_valid index mem keys hv]
    intro a ha
    rcases List.mem_append.1 ha with h | h
    · split_ifs at h
      · simp only [List.mem_cons, List.mem_singleton, List.not_mem_nil, or_false] at h
        rcases h with rfl | rfl | rfl <;> simp only <;> omega
      · exact absurd h (List.not_mem_nil _)
    · simp only [List.mem_cons, List.mem_singleton, List.not_mem_nil, or_false] at h
      rcases h with rfl | rfl <;> simp only <;> omega
  · rw [if_neg hlt]
    simp only
    rw [hnv]
    have hJ0 : ∃ rest, At mem index.used_size
        (InsertState.mk 0 index.value 0 keys.length 0 scratch false index.value 0 pslot).inbyte
        (InsertState.mk 0 index.value 0 keys.length 0 scratch false index.value 0 pslot).initial
        rest ∧
        (InsertState.mk 0 index.value 0 keys.length 0 scratch false index.value 0 pslot).remaining
          = rest.length ∧
        (InsertState.mk 0 index.value 0 keys.length 0 scratch false index.value 0 pslot).pout
          + rest.length +
          (if (InsertState.mk 0 index.value 0 keys.length 0 scratch false index.value 0
            pslot).is_inserted = false then 1 else 0) ≤ 31 :=
      ⟨keys, valid_at index mem keys hv, rfl, by simp only [if_pos]; omega⟩
    obtain ⟨hT, hF⟩ := fastTrace_le mem index.used_size key index.used_size _ hJ0
    intro a ha
    rcases List.mem_append.1 ha with h | h
    · exact hT a h
    · revert h
      cases h1 : insertFast mem index.used_size key index.used_size
          (InsertState.mk 0 index.value 0 keys.length 0 scratch false index.value 0 pslot) with
      | none => exact fun h => absurd h (List.not_mem_nil _)
      | some s1 =>
        simp only
        obtain ⟨rest1, a1, b1, c1⟩ := hF s1 h1
        have hJ2 : ∃ rest, At mem index.used_size
            (if s1.is_inserted = false then
              { s1 with new_initial := s1.initial, new_inbyte := s1.inbyte } else s1).inbyte
            (if s1.is_inserted = false then
              { s1 with new_initial := s1.initial, new_inbyte := s1.inbyte } else s1).initial
            rest ∧
            (if s1.is_inserted = false then
              { s1 with new_initial := s1.initial, new_inbyte := s1.inbyte } else s1).remaining
              = rest.length ∧
            (if s1.is_inserted = false then
              { s1 with new_initial := s1.initial, new_inbyte := s1.inbyte } else s1).pout
              + rest.length +
              (if (if s1.is_inserted = false then
                { s1 with new_initial := s1.initial, new_inbyte := s1.inbyte }
                else s1).is_inserted = false then 1 else 0) ≤ 31 := by
          by_cases hi : s1.is_inserted = false
          · rw [if_pos hi]
            exact ⟨rest1, a1, b1, c1⟩
          · rw [if_neg hi]
            exact ⟨rest1, a1, b1, c1⟩
        obtain ⟨hT2, hS⟩ := slowTrace_le mem index.used_size key index.used_size _ hJ2
        intro h
        rcases List.mem_append.1 h with h | h
        · exact hT2 a h
        · revert h
          cases h3 : insertSlow mem index.used_size key index.used_size
              (if s1.is_inserted = false then
                { s1 with new_initial := s1.initial, new_inbyte := s1.inbyte } else s1) with
          | none => exact fun h => absurd h (List.not_mem_nil _)
          | some s3 =>
            simp only
            obtain ⟨rest3, a3, b3, c3⟩ := hS s3 h3
            intro h
            rcases List.mem_append.1 h with h | h
            · split_ifs at h c3
              · rw [List.mem_singleton.1 h]
                simp only
                omega
              · exact absurd h (List.not_mem_nil _)
            · rw [List.mem_singleton.1 h]
              simp only
              omega

/-- The accesses of `insert` on a block of seven keys whose first group fills 17
bytes: a key spliced in by the first loop, one spliced in by the second loop after
the first has skipped a group, and a new anchor. -/
theorem insert_touch_examples :
    insert_touch [] ⟨0, 32, 26, 7⟩
        (encodeArray 0 [16777216, 33554432, 50331648, 67108864, 83886080, 100663296])
        33554437 0
      = [(0, 4), (3, 1), (0, 4), (0, 1), (1, 1), (2, 1), (2, 2), (3, 2), (2, 1), (5, 2), (0, 7)] ∧
    insert_touch [] ⟨0, 32, 26, 7⟩
        (encodeArray 0 [16777216, 33554432, 50331648, 67108864, 83886080, 100663296])
        83886085 0
      = [(0, 4), (3, 1), (0, 2), (0, 1), (1, 1), (1, 1), (2, 1), (1, 1), (0, 3)] ∧
    insert_touch [] ⟨100, 17, 8, 7⟩ (encodeArray 100 [200, 300, 400, 500, 600, 700]) 50 0
      = [(0, 6), (0, 6), (1, 6), (0, 1), (0, 7)] := by
  decide

/-- C38 at a block of seven keys whose first group fills 17 bytes, where the key is
spliced in by the first loop: the accesses stay below 32. -/
theorem insert_scratch_in_bounds_witness :
    ValidBlock ⟨0, 32, 26, 7⟩
      (encodeArray 0 [16777216, 33554432, 50331648, 67108864, 83886080, 100663296])
      [16777216, 33554432, 50331648, 67108864, 83886080, 100663296] ∧
    (⟨0, 32, 26, 7⟩ : GroupVarintIndex).key_count ≤ 31 ∧
    ((∀ a ∈ insert_touch [] ⟨0, 32, 26, 7⟩
        (encodeArray 0 [16777216, 33554432, 50331648, 67108864, 83886080, 100663296])
        33554437 0,
      ∀ i, a.1 ≤ i → i < a.1 + a.2 → i < 32) ∧
    insert_ints_to_write [] ⟨0, 32, 26, 7⟩
      (encodeArray 0 [16777216, 33554432, 50331648, 67108864, 83886080, 100663296])
      33554437 0 ≤ 32) :=
  ⟨⟨by decide, by decide, by decide, by decide, by decide, by decide⟩, by decide,
   insert_scratch_in_bounds [] ⟨0, 32, 26, 7⟩
     (encodeArray 0 [16777216, 33554432, 50331648, 67108864, 83886080, 100663296])
     [16777216, 33554432, 50331648, 67108864, 83886080, 100663296] 33554437 0
     ⟨by decide, by decide, by decide, by decide, by decide, by decide⟩ (by decide)⟩

end Zint32

namespace BtreeFind

/-! ## Properties of `BtreeFindAction` -/

theorem countP_le_eq_zero (l : List Nat) (key : Nat) (h : ∀ k ∈ l, key < k) :
    l.countP (fun k => decide (k ≤ key)) = 0 := by
  rw [List.countP_eq_zero]
  intro k hk
  have := h k hk
  simp only [decide_eq_true_eq]
  omega

theorem countP_le_sorted (l : List Nat) (key : Nat) (hs : l.Pairwise (· < ·)) :
    (∀ i, i < l.countP (fun k => decide (k ≤ key)) → l.getD i 0 ≤ key) ∧
    (∀ i, l.countP (fun k => decide (k ≤ key)) ≤ i → i < l.length → key < l.getD i 0) := by
  induction l with
  | nil => simp
  | cons a l ih =>
    rw [List.pairwise_cons] at hs
    obtain ⟨ha, hl⟩ := hs
    by_cases hak : a ≤ key
    · have hc : (a :: l).countP (fun k => decide (k ≤ key))
          = l.countP (fun k => decide (k ≤ key)) + 1 := by
        rw [List.countP_cons_of_pos]; simpa using hak
      rw [hc]
      constructor
      · intro i hi
        cases i with
        | zero => simpa using hak
        | succ i => simpa using (ih hl).1 i (by omega)
      · intro i hi hlen
        cases i with
        | zero => omega
        | succ i =>
          have := (ih hl).2 i (by omega) (by simpa using hlen)
          simpa using this
    · have hall : ∀ k ∈ a :: l, key < k := by
        intro k hk
        rcases List.mem_cons.1 hk with h | h
        · subst h; omega
        · have := ha k h; omega
      rw [countP_le_eq_zero _ _ hall]
      constructor
      · intro i hi; omega
      · intro i _ hlen
        apply hall
        rw [List.getD_eq_getElem _ _ hlen]
        exact List.getElem_mem _

theorem getD_lt_of_sorted (l : List Nat) (hs : l.Pairwise (· < ·)) (i j : Nat) (hij : i < j)
    (hj : j < l.length) : l.getD i 0 < l.getD j 0 := by
  rw [List.getD_eq_getElem _ _ hj, List.getD_eq_getElem _ _ (by omega : i < l.length)]
  exact List.pairwise_iff_getElem.1 hs i j (by omega) hj hij

/-- The lower bound search on a stored key hits its slot with `cmp = 0`. -/
theorem find_lower_bound_stored (node : Node) (key s : Nat) (hs : node.keys.Pairwise (· < ·))
    (hlen : s < node.keys.length) (hk : node.keys.getD s 0 = key) :
    node.find_lower_bound key = ((s : Int), 0) := by
  have h := countP_le_sorted node.keys key hs
  have hle := List.countP_le_length (fun k => decide (k ≤ key)) (l := node.keys)
  have hc1 : s < node.keys.countP (fun k => decide (k ≤ key)) := by
    by_contra hcon
    have := h.2 s (by omega) hlen
    omega
  have hc2 : node.keys.countP (fun k => decide (k ≤ key)) - 1 = s := by
    by_contra hcon
    have h1 := getD_lt_of_sorted node.keys hs s
      (node.keys.countP (fun k => decide (k ≤ key)) - 1) (by omega) (by omega)
    have h2 := h.1 (node.keys.countP (fun k => decide (k ≤ key)) - 1) (by omega)
    omega
  unfold Node.find_lower_bound
  simp only [hc2, hk]
  rw [if_neg (by omega)]
  simp only [↓reduceIte, Prod.mk.injEq, and_true]
  omega

/-- The lower bound search on a key that is not stored: the slot before the first
greater key, with `cmp ≠ 0`. -/
theorem find_lower_bound_missing (node : Node) (key : Nat) (hk : key ∉ node.keys) :
    node.find_lower_bound key =
      if node.keys.countP (fun k => decide (k ≤ key)) = 0 then (-1, -1)
      else ((node.keys.countP (fun k => decide (k ≤ key)) : Int) - 1, 1) := by
  have hle := List.countP_le_length (fun k => decide (k ≤ key)) (l := node.keys)
  unfold Node.find_lower_bound
  by_cases hc : node.keys.countP (fun k => decide (k ≤ key)) = 0
  · simp [hc]
  · simp only [hc, ↓reduceIte]
    rw [if_neg]
    intro heq
    apply hk
    rw [← heq, List.getD_eq_getElem _ _ (by omega)]
    exact List.getElem_mem _

theorem find_gt (node : Node) (key : Nat) (hne : node.keys ≠ []) :
    find node key UPS_FIND_GT_MATCH =
      ((node.keys.countP (fun k => decide (k ≤ key)) : Int), kGreater) := by
  have hl : node.length ≠ 0 := by
    unfold Node.length
    intro h
    exact hne (List.length_eq_zero.1 h)
  have e1 : isset UPS_FIND_GT_MATCH UPS_FIND_EQ_MATCH = false := by decide
  have e2 : isset UPS_FIND_GT_MATCH UPS_FIND_LT_MATCH = false := by decide
  have e3 : isset UPS_FIND_GT_MATCH UPS_FIND_GT_MATCH = true := by decide
  have e4 : UPS_FIND_GT_MATCH ≠ 0 := by decide
  unfold find
  simp only [hl, ↓reduceIte, e1, e2, e3, e4, false_or, and_false, Bool.false_eq_true]
  unfold Node.find_lower_bound
  by_cases hc : node.keys.countP (fun k => decide (k ≤ key)) = 0
  · simp [hc]
  · simp only [hc, ↓reduceIte]
    split_ifs <;> simp

theorem fastTrack_gt (pages : Nat → Node) (cached : Nat → Bool) (hints : FindHints) (key : Nat) :
    (fastTrack pages cached hints key UPS_FIND_GT_MATCH).2 = -1 := by
  unfold fastTrack
  by_cases h1 : hints.try_fast_track = true
  · by_cases h2 : cached hints.leaf_page_addr = true
    · simp only [h1, h2, ↓reduceIte]
      rw [if_pos]
      by_cases hne : (pages hints.leaf_page_addr).keys = []
      · right; left
        unfold find Node.length
        simp [hne]
      · left
        rw [find_gt _ _ hne]
        show kGreater ≠ 0
        decide
    · simp [h1, h2]
  · simp [h1]


theorem finish_inner (pages : Nat → Node) (page s approx : Nat)
    (h : s < (pages page).keys.length) :
    finish pages page (s : Int) approx = RunResult.success page s approx := by
  unfold finish Node.length
  have h1 : ¬ ((s : Int) = -1) := by omega
  have h2 : ¬ ((s : Int) ≥ ((pages page).keys.length : Int)) := by omega
  have h3 : ¬ ((s : Int) < 0) := by omega
  simp only [h1, h2, h3, ↓reduceIte]

theorem finish_right (pages : Nat → Node) (page s approx : Nat)
    (h : (pages page).keys.length ≤ s) :
    finish pages page (s : Int) approx =
      if (pages page).right_sibling > 0 then
        RunResult.success (pages page).right_sibling 0 kGreater
      else RunResult.error UPS_KEY_NOT_FOUND := by
  unfold finish Node.length
  have h1 : ¬ ((s : Int) = -1) := by omega
  have h2 : ((s : Int) ≥ ((pages page).keys.length : Int)) := by omega
  simp only [h1, h2, ↓reduceIte]
  split_ifs <;> simp_all

/-- C8 (GT_MATCH returns the successor).  With `flags = UPS_FIND_GT_MATCH` on a
non-empty leaf with strictly ascending keys, `run` returns the slot of the
smallest key greater than the search key with the flag `kGreater`; when no key of
the leaf is greater it returns slot 0 of the right sibling with `kGreater` if
there is one, and `UPS_KEY_NOT_FOUND` otherwise. -/
theorem run_gt_match_successor (pages : Nat → Node) (cached : Nat → Bool) (hints : FindHints)
    (leaf key : Nat) (hne : (pages leaf).keys ≠ [])
    (hs : (pages leaf).keys.Pairwise (· < ·)) :
    (∀ s, s < (pages leaf).keys.length → key < (pages leaf).keys.getD s 0 →
        (∀ j, j < (pages leaf).keys.length → key < (pages leaf).keys.getD j 0 → s ≤ j) →
        run pages cached hints (some leaf) key UPS_FIND_GT_MATCH
          = RunResult.success leaf s kGreater) ∧
    ((∀ k ∈ (pages leaf).keys, k ≤ key) → 0 < (pages leaf).right_sibling →
        run pages cached hints (some leaf) key UPS_FIND_GT_MATCH
          = RunResult.success (pages leaf).right_sibling 0 kGreater) ∧
    ((∀ k ∈ (pages leaf).keys, k ≤ key) → (pages leaf).right_sibling = 0 →
        run pages cached hints (some leaf) key UPS_FIND_GT_MATCH
          = RunResult.error UPS_KEY_NOT_FOUND) := by
  have hrun : run pages cached hints (some leaf) key UPS_FIND_GT_MATCH
      = finish pages leaf
          (((pages leaf).keys.countP (fun k => decide (k ≤ key)) : Nat) : Int) kGreater := by
    unfold run
    have e4 : UPS_FIND_GT_MATCH ≠ 0 := by decide
    simp only [fastTrack_gt, ↓reduceIte, e4, find_gt _ _ hne]
  have hc := countP_le_sorted (pages leaf).keys key hs
  have hle := List.countP_le_length (fun k => decide (k ≤ key)) (l := (pages leaf).keys)
  refine ⟨?_, ?_, ?_⟩
  · intro s hlen hgt hmin
    have hcs : (pages leaf).keys.countP (fun k => decide (k ≤ key)) = s := by
      have h1 : ¬ s < (pages leaf).keys.countP (fun k => decide (k ≤ key)) := by
        intro hlt
        have := hc.1 s hlt
        omega
      have h2 : ¬ (pages leaf).keys.countP (fun k => decide (k ≤ key)) < s := by
        intro hlt
        have := hmin _ (by omega) (hc.2 _ (le_refl _) (by omega))
        omega
      omega
    rw [hrun, hcs]
    exact finish_inner pages leaf s kGreater hlen
  · intro hall hr
    have hcl : (pages leaf).keys.length ≤ (pages leaf).keys.countP (fun k => decide (k ≤ key)) := by
      by_contra hcon
      have h1 := hc.2 _ (le_refl _) (by omega)
      have h2 := hall ((pages leaf).keys.getD
        ((pages leaf).keys.countP (fun k => decide (k ≤ key))) 0) (by
          rw [List.getD_eq_getElem _ _ (by omega)]
          exact List.getElem_mem _)
      omega
    rw [hrun, finish_right pages leaf _ kGreater hcl, if_pos hr]
  · intro hall hr
    have hcl : (pages leaf).keys.length ≤ (pages leaf).keys.countP (fun k => decide (k ≤ key)) := by
      by_contra hcon
      have h1 := hc.2 _ (le_refl _) (by omega)
      have h2 := hall ((pages leaf).keys.getD
        ((pages leaf).keys.countP (fun k => decide (k ≤ key))) 0) (by
          rw [List.getD_eq_getElem _ _ (by omega)]
          exact List.getElem_mem _)
      omega
    rw [hrun, finish_right pages leaf _ kGreater hcl, if_neg (by omega)]

/-- Witness for C8: keys {10, 20, 30}, `find(15, GT_MATCH)` returns the slot of 20. -/
theorem run_gt_match_successor_witness :
    run (fun a => if a = 1 then ⟨[10, 20, 30], 0, 0⟩ else ⟨[], 0, 0⟩) (fun _ => true) ⟨true, 1⟩
      (some 1) 15 UPS_FIND_GT_MATCH = RunResult.success 1 1 kGreater :=
  (run_gt_match_successor (fun a => if a = 1 then ⟨[10, 20, 30], 0, 0⟩ else ⟨[], 0, 0⟩)
    (fun _ => true) ⟨true, 1⟩ 1 15 (by decide) (by decide)).1 1 (by decide) (by decide)
    (by decide)

theorem find_mem (node : Node) (key : Nat) (h : node.find key ≠ -1) : key ∈ node.keys := by
  have hle := List.countP_le_length (fun k => decide (k ≤ key)) (l := node.keys)
  unfold Node.find Node.find_lower_bound at h
  by_cases hc : node.keys.countP (fun k => decide (k ≤ key)) = 0
  · simp [hc] at h
  · by_cases hk : node.keys.getD (node.keys.countP (fun k => decide (k ≤ key)) - 1) 0 = key
    · rw [← hk, List.getD_eq_getElem _ _ (by omega)]
      exact List.getElem_mem _
    · simp only [hc, hk, ↓reduceIte] at h
      simp at h

theorem find_stored (node : Node) (key s : Nat) (hs : node.keys.Pairwise (· < ·))
    (hlen : s < node.keys.length) (hk : node.keys.getD s 0 = key) : node.find key = (s : Int) := by
  unfold Node.find
  rw [find_lower_bound_stored node key s hs hlen hk]
  simp

theorem find_missing (node : Node) (key : Nat) (hk : key ∉ node.keys) : node.find key = -1 := by
  by_contra h
  exact hk (find_mem node key h)

theorem find_exact (node : Node) (key : Nat) : find node key 0 = (node.find key, 0) := by
  have e2 : isset 0 UPS_FIND_LT_MATCH = false := by decide
  have e3 : isset 0 UPS_FIND_GT_MATCH = false := by decide
  unfold find
  by_cases hl : node.length = 0
  · have : node.keys = [] := List.length_eq_zero.1 hl
    simp [hl, Node.find, Node.find_lower_bound, this]
  · simp only [hl, ↓reduceIte, e2, e3, true_or, and_true, Bool.false_eq_true, Node.find]
    split_ifs <;> simp_all

/-- C7 (exact find).  With `flags = 0`, on a leaf with strictly ascending keys reached
by the descent, `run` returns success on the slot of the search key, on that
leaf and with no approximate flag, when the key is stored in the leaf, and
`UPS_KEY_NOT_FOUND` when it is not.  The statistics hint may name any cached page
that, if it stores the key, is the leaf of the descent. -/
theorem run_exact_find (pages : Nat → Node) (cached : Nat → Bool) (hints : FindHints)
    (leaf key : Nat) (hs : (pages leaf).keys.Pairwise (· < ·))
    (hhint : hints.try_fast_track = true → cached hints.leaf_page_addr = true →
      key ∈ (pages hints.leaf_page_addr).keys → hints.leaf_page_addr = leaf) :
    (∀ s, s < (pages leaf).keys.length → (pages leaf).keys.getD s 0 = key →
        run pages cached hints (some leaf) key 0 = RunResult.success leaf s 0) ∧
    (key ∉ (pages leaf).keys →
        run pages cached hints (some leaf) key 0 = RunResult.error UPS_KEY_NOT_FOUND) := by
  have hft : (fastTrack pages cached hints key 0).2 = -1 ∨
      (hints.try_fast_track = true ∧ cached hints.leaf_page_addr = true ∧
        fastTrack pages cached hints key 0
          = (hints.leaf_page_addr, (pages hints.leaf_page_addr).find key) ∧
        (pages hints.leaf_page_addr).find key ≠ -1) := by
    unfold fastTrack
    by_cases h1 : hints.try_fast_track = true
    · by_cases h2 : cached hints.leaf_page_addr = true
      · simp only [h1, h2, ↓reduceIte, find_exact]
        split_ifs with h3
        · left; rfl
        · right
          refine ⟨trivial, trivial, rfl, ?_⟩
          intro h4
          apply h3
          right; left
          rw [h4]; decide
      · left; simp [h1, h2]
    · left; simp [h1]
  constructor
  · intro s hlen hk
    rcases hft with h | ⟨h1, h2, h3, h4⟩
    · unfold run
      simp only [h, ↓reduceIte, find_stored _ key s hs hlen hk]
      rw [if_neg (by omega)]
    · have hleaf := hhint h1 h2 (find_mem _ _ h4)
      unfold run
      rw [h3, hleaf, find_stored _ key s hs hlen hk]
      simp only []
      rw [if_neg (by omega)]
      exact finish_inner pages leaf s 0 hlen
  · intro hk
    rcases hft with h | ⟨h1, h2, _, h4⟩
    · unfold run
      simp only [h, ↓reduceIte, find_missing _ key hk]
    · have hleaf := hhint h1 h2 (find_mem _ _ h4)
      rw [hleaf] at h4
      exact absurd (find_missing _ key hk) h4

/-- Witness for C7: after inserting 0..9 into one leaf, `find(5)` succeeds on key 5. -/
theorem run_exact_find_witness :
    run (fun _ => ⟨[0, 1, 2, 3, 4, 5, 6, 7, 8, 9], 0, 0⟩) (fun _ => true) ⟨true, 1⟩ (some 1) 5 0
      = RunResult.success 1 5 0 :=
  (run_exact_find (fun _ => ⟨[0, 1, 2, 3, 4, 5, 6, 7, 8, 9], 0, 0⟩) (fun _ => true) ⟨true, 1⟩
    1 5 (by decide) (fun _ _ _ => rfl)).1 5 (by decide) (by decide)

/-- C9, evaluated where the code departs from the claim: leaf `[10, 20]` (page 1)
with the left sibling `[1, 2]` (page 2), search key 5 and `flags = UPS_FIND_LT_MATCH`.
The lower bound search yields slot -1 with `cmp < 0`, `find` returns
`slot - 1 = -2`, and `run` answers `UPS_KEY_NOT_FOUND` although the predecessor 2
is the last key of the left sibling. -/
theorem run_lt_match_below_leaf_not_found :
    find ⟨[10, 20], 2, 0⟩ 5 UPS_FIND_LT_MATCH = (-2, kLower) ∧
    run (fun a => if a = 1 then ⟨[10, 20], 2, 0⟩ else ⟨[1, 2], 0, 1⟩) (fun _ => true)
      ⟨false, 0⟩ (some 1) 5 UPS_FIND_LT_MATCH = RunResult.error UPS_KEY_NOT_FOUND := by
  constructor <;> decide


theorem countP_stored (l : List Nat) (key s : Nat) (hs : l.Pairwise (· < ·))
    (hlen : s < l.length) (hk : l.getD s 0 = key) :
    l.countP (fun k => decide (k ≤ key)) = s + 1 := by
  have h := countP_le_sorted l key hs
  have hle := List.countP_le_length (fun k => decide (k ≤ key)) (l := l)
  have hc1 : s < l.countP (fun k => decide (k ≤ key)) := by
    by_contra hcon
    have := h.2 s (by omega) hlen
    omega
  by_contra hcon
  have h1 := getD_lt_of_sorted l hs s (l.countP (fun k => decide (k ≤ key)) - 1)
    (by omega) (by omega)
  have h2 := h.1 (l.countP (fun k => decide (k ≤ key)) - 1) (by omega)
  omega

theorem find_lt_stored (node : Node) (key s : Nat) (hs : node.keys.Pairwise (· < ·))
    (hlen : s < node.keys.length) (hk : node.keys.getD s 0 = key) :
    find node key UPS_FIND_LT_MATCH = ((s : Int) - 1, kLower) := by
  have hl : node.length ≠ 0 := by unfold Node.length; omega
  have e1 : isset UPS_FIND_LT_MATCH UPS_FIND_EQ_MATCH = false := by decide
  have e2 : isset UPS_FIND_LT_MATCH UPS_FIND_LT_MATCH = true := by decide
  have e3 : isset UPS_FIND_LT_MATCH UPS_FIND_GT_MATCH = false := by decide
  have e4 : UPS_FIND_LT_MATCH ≠ 0 := by decide
  unfold find
  rw [find_lower_bound_stored node key s hs hlen hk]
  simp [hl, e1, e2, e3, e4]

theorem fastTrack_lt (pages : Nat → Node) (cached : Nat → Bool) (hints : FindHints) (key : Nat) :
    (fastTrack pages cached hints key UPS_FIND_LT_MATCH).2 = -1 := by
  have e1 : isset UPS_FIND_LT_MATCH UPS_FIND_EQ_MATCH = false := by decide
  have e2 : isset UPS_FIND_LT_MATCH UPS_FIND_LT_MATCH = true := by decide
  have e3 : isset UPS_FIND_LT_MATCH UPS_FIND_GT_MATCH = false := by decide
  have e4 : UPS_FIND_LT_MATCH ≠ 0 := by decide
  unfold fastTrack
  by_cases h1 : hints.try_fast_track = true
  · by_cases h2 : cached hints.leaf_page_addr = true
    · simp only [h1, h2, ↓reduceIte]
      rw [if_pos]
      by_cases hne : (pages hints.leaf_page_addr).length = 0
      · right; left
        unfold find
        simp [hne]
      · left
        unfold find
        simp only [hne, ↓reduceIte, e1, e2, e3, e4, false_or, and_false, Bool.false_eq_true]
        decide
    · simp [h1, h2]
  · simp [h1]

theorem finish_left (pages : Nat → Node) (page approx : Nat) :
    finish pages page (-1) approx =
      if 0 < (pages page).left_sibling ∧ 0 < (pages (pages page).left_sibling).keys.length then
        RunResult.success (pages page).left_sibling
          (((pages (pages page).left_sibling).keys.length : Int) - 1) kLower
      else RunResult.error UPS_KEY_NOT_FOUND := by
  unfold finish Node.length
  by_cases h1 : 0 < (pages page).left_sibling
  · by_cases h2 : 0 < (pages (pages page).left_sibling).keys.length
    · have h3 : ¬ (((pages (pages page).left_sibling).keys.length : Int) - 1 < 0) := by omega
      simp [h1, h2, h3]
    · have h3 : (((pages (pages page).left_sibling).keys.length : Int) - 1 < 0) := by omega
      simp [h1, h2, h3]
  · simp [h1]

/-- C10 (strict approximate match never returns the exact key).  The search key is
stored in slot `s` of the leaf (strictly ascending keys) and is not stored in the
sibling leaves.  With `flags` exactly `LT_MATCH` the result is slot `s - 1`, or
the last slot of the left sibling when `s = 0`; with exactly `GT_MATCH` it is slot
`s + 1`, or slot 0 of the right sibling when `s` is the last slot; otherwise
`UPS_KEY_NOT_FOUND`.  Every success carries an approximate flag and a slot whose
key is not the search key. -/
theorem run_strict_match_neighbour (pages : Nat → Node) (cached : Nat → Bool)
    (hints : FindHints) (leaf key s : Nat) (hs : (pages leaf).keys.Pairwise (· < ·))
    (hlen : s < (pages leaf).keys.length) (hk : (pages leaf).keys.getD s 0 = key)
    (hl : 0 < (pages leaf).left_sibling → key ∉ (pages (pages leaf).left_sibling).keys)
    (hr : 0 < (pages leaf).right_sibling → key ∉ (pages (pages leaf).right_sibling).keys) :
    (run pages cached hints (some leaf) key UPS_FIND_LT_MATCH =
      if 0 < s then RunResult.success leaf ((s : Int) - 1) kLower
      else if 0 < (pages leaf).left_sibling ∧
          0 < (pages (pages leaf).left_sibling).keys.length then
        RunResult.success (pages leaf).left_sibling
          (((pages (pages leaf).left_sibling).keys.length : Int) - 1) kLower
      else RunResult.error UPS_KEY_NOT_FOUND) ∧
    (run pages cached hints (some leaf) key UPS_FIND_GT_MATCH =
      if s + 1 < (pages leaf).keys.length then RunResult.success leaf ((s : Int) + 1) kGreater
      else if 0 < (pages leaf).right_sibling then
        RunResult.success (pages leaf).right_sibling 0 kGreater
      else RunResult.error UPS_KEY_NOT_FOUND) ∧
    (∀ flags p t a, flags = UPS_FIND_LT_MATCH ∨ flags = UPS_FIND_GT_MATCH →
      run pages cached hints (some leaf) key flags = RunResult.success p t a →
      a ≠ 0 ∧ (pages p).keys[t.toNat]? ≠ some key) := by
  have hne : (pages leaf).keys ≠ [] := by
    intro h; rw [h] at hlen; simp at hlen
  have hLT : run pages cached hints (some leaf) key UPS_FIND_LT_MATCH =
      if 0 < s then RunResult.success leaf ((s : Int) - 1) kLower
      else if 0 < (pages leaf).left_sibling ∧
          0 < (pages (pages leaf).left_sibling).keys.length then
        RunResult.success (pages leaf).left_sibling
          (((pages (pages leaf).left_sibling).keys.length : Int) - 1) kLower
      else RunResult.error UPS_KEY_NOT_FOUND := by
    have e4 : UPS_FIND_LT_MATCH ≠ 0 := by decide
    unfold run
    simp only [fastTrack_lt, ↓reduceIte, e4, find_lt_stored _ key s hs hlen hk]
    by_cases h0 : 0 < s
    · rw [if_pos h0]
      have := finish_inner pages leaf (s - 1) kLower (by omega)
      have hc : ((s - 1 : Nat) : Int) = (s : Int) - 1 := by omega
      rw [hc] at this
      exact this
    · have hs0 : s = 0 := by omega
      subst hs0
      simp only [Nat.lt_irrefl, ↓reduceIte]
      exact finish_left pages leaf kLower
  have hGT : run pages cached hints (some leaf) key UPS_FIND_GT_MATCH =
      if s + 1 < (pages leaf).keys.length then RunResult.success leaf ((s : Int) + 1) kGreater
      else if 0 < (pages leaf).right_sibling then
        RunResult.success (pages leaf).right_sibling 0 kGreater
      else RunResult.error UPS_KEY_NOT_FOUND := by
    have e4 : UPS_FIND_GT_MATCH ≠ 0 := by decide
    unfold run
    simp only [fastTrack_gt, ↓reduceIte, e4, find_gt _ _ hne,
      countP_stored _ key s hs hlen hk]
    by_cases h0 : s + 1 < (pages leaf).keys.length
    · rw [if_pos h0]
      exact finish_inner pages leaf (s + 1) kGreater h0
    · rw [if_neg h0]
      exact finish_right pages leaf (s + 1) kGreater (by omega)
  refine ⟨hLT, hGT, ?_⟩
  intro flags p t a hf hrun
  rcases hf with hf | hf
  · subst hf
    rw [hLT] at hrun
    split_ifs at hrun with h0 h1
    · injection hrun with e1 e2 e3
      subst e1 e2 e3
      refine ⟨by decide, ?_⟩
      have ht : ((s : Int) - 1).toNat = s - 1 := by omega
      rw [ht, List.getElem?_eq_getElem (by omega)]
      intro h
      injection h with h
      have h1 := getD_lt_of_sorted _ hs (s - 1) s (by omega) hlen
      rw [List.getD_eq_getElem _ _ (by omega)] at h1
      omega
    · injection hrun with e1 e2 e3
      subst e1 e2 e3
      refine ⟨by decide, ?_⟩
      intro h
      exact hl h1.1 (List.getElem?_mem h)
  · subst hf
    rw [hGT] at hrun
    split_ifs at hrun with h0 h1
    · injection hrun with e1 e2 e3
      subst e1 e2 e3
      refine ⟨by decide, ?_⟩
      have ht : ((s : Int) + 1).toNat = s + 1 := by omega
      rw [ht, List.getElem?_eq_getElem (by omega)]
      intro h
      injection h with h
      have h1 := getD_lt_of_sorted _ hs s (s + 1) (by omega) h0
      rw [List.getD_eq_getElem _ _ h0] at h1
      omega
    · injection hrun with e1 e2 e3
      subst e1 e2 e3
      refine ⟨by decide, ?_⟩
      intro h
      exact hr h1 (List.getElem?_mem h)

/-- Witness for C10: leaf `[10, 20, 30]`, search key 20: `LT_MATCH` gives the slot of
10 and `GT_MATCH` the slot of 30. -/
theorem run_strict_match_neighbour_witness :
    run (fun _ => ⟨[10, 20, 30], 0, 0⟩) (fun _ => false) ⟨false, 0⟩ (some 1) 20
        UPS_FIND_LT_MATCH = RunResult.success 1 0 kLower ∧
    run (fun _ => ⟨[10, 20, 30], 0, 0⟩) (fun _ => false) ⟨false, 0⟩ (some 1) 20
        UPS_FIND_GT_MATCH = RunResult.success 1 2 kGreater :=
  ⟨(run_strict_match_neighbour (fun _ => ⟨[10, 20, 30], 0, 0⟩) (fun _ => false) ⟨false, 0⟩
      1 20 1 (by decide) (by decide) (by decide) (by decide) (by decide)).1,
   (run_strict_match_neighbour (fun _ => ⟨[10, 20, 30], 0, 0⟩) (fun _ => false) ⟨false, 0⟩
      1 20 1 (by decide) (by decide) (by decide) (by decide) (by decide)).2.1⟩

theorem isset_ne_zero (flags b : Nat) (hb : b ≠ 0) (h : isset flags b = true) : flags ≠ 0 := by
  intro h0
  subst h0
  unfold isset at h
  simp only [Nat.zero_and, beq_iff_eq] at h
  exact hb h.symm

/-- C11 (both approximate flags and an exact hit), as amended.  The search key is
stored in slot `s` of a leaf with strictly ascending keys and the flags contain both
`UPS_FIND_LT_MATCH` and `UPS_FIND_GT_MATCH`.  When the flags also contain
`UPS_FIND_EQ_MATCH`, `find` returns slot `s` with the approximate-match flag clear;
when they do not, `find` does not return the slot of the key but slot `s + 1`. -/
theorem find_near_match_exact (node : Node) (key s flags : Nat)
    (hs : node.keys.Pairwise (· < ·)) (hlen : s < node.keys.length)
    (hk : node.keys.getD s 0 = key)
    (hlt : isset flags UPS_FIND_LT_MATCH = true) (hgt : isset flags UPS_FIND_GT_MATCH = true) :
    (isset flags UPS_FIND_EQ_MATCH = true → find node key flags = ((s : Int), 0)) ∧
    (isset flags UPS_FIND_EQ_MATCH = false → (find node key flags).1 = (s : Int) + 1) := by
  have hl : node.length ≠ 0 := by unfold Node.length; omega
  have h0 : flags ≠ 0 := isset_ne_zero flags UPS_FIND_LT_MATCH (by decide) hlt
  constructor
  · intro heq
    unfold find
    rw [find_lower_bound_stored node key s hs hlen hk]
    simp [hl, heq]
  · intro heq
    unfold find
    rw [find_lower_bound_stored node key s hs hlen hk]
    simp [hl, heq, hlt, hgt, h0]

/-- Witness for C11: leaf `[10, 20, 30]`, search key 20, all three match flags. -/
theorem find_near_match_exact_witness :
    find ⟨[10, 20, 30], 0, 0⟩ 20
      (UPS_FIND_LT_MATCH ||| UPS_FIND_GT_MATCH ||| UPS_FIND_EQ_MATCH) = (1, 0) :=
  (find_near_match_exact ⟨[10, 20, 30], 0, 0⟩ 20 1
    (UPS_FIND_LT_MATCH ||| UPS_FIND_GT_MATCH ||| UPS_FIND_EQ_MATCH)
    (by decide) (by decide) (by decide) (by decide) (by decide)).1 (by decide)

/-- C11 as stated fails: leaf `[10, 20, 30]`, search key 20 (stored in slot 1) and the
flags `UPS_FIND_LT_MATCH | UPS_FIND_GT_MATCH`.  The test for an exact match asks for
`flags == 0` or `UPS_FIND_EQ_MATCH`, so `find` goes on to the branch of `LT_MATCH`
and returns slot 2 with an approximate-match flag. -/
theorem find_lt_gt_without_eq_counterexample :
    isset (UPS_FIND_LT_MATCH ||| UPS_FIND_GT_MATCH) UPS_FIND_LT_MATCH = true ∧
    isset (UPS_FIND_LT_MATCH ||| UPS_FIND_GT_MATCH) UPS_FIND_GT_MATCH = true ∧
    (⟨[10, 20, 30], 0, 0⟩ : Node).keys.getD 1 0 = 20 ∧
    find ⟨[10, 20, 30], 0, 0⟩ 20 (UPS_FIND_LT_MATCH ||| UPS_FIND_GT_MATCH) ≠ (1, 0) ∧
    (find ⟨[10, 20, 30], 0, 0⟩ 20 (UPS_FIND_LT_MATCH ||| UPS_FIND_GT_MATCH)).1 = 2 ∧
    (find ⟨[10, 20, 30], 0, 0⟩ 20 (UPS_FIND_LT_MATCH ||| UPS_FIND_GT_MATCH)).2 ≠ 0 := by
  decide

/-- The result of `run` when the fast track is not taken or its result is discarded:
the full descent from the root. -/
theorem run_descent (pages : Nat → Node) (cached : Nat → Bool) (hints : FindHints)
    (descent : Option Nat) (key flags : Nat)
    (h : (fastTrack pages cached hints key flags).2 = -1) :
    run pages cached hints descent key flags =
      match descent with
      | none => RunResult.error UPS_KEY_NOT_FOUND
      | some leaf =>
        if flags = 0 then
          if (pages leaf).find key = -1 then RunResult.error UPS_KEY_NOT_FOUND
          else RunResult.success leaf ((pages leaf).find key) 0
        else finish pages leaf (find (pages leaf) key flags).1 (find (pages leaf) key flags).2 := by
  unfold run
  simp only [h, ↓reduceIte]

/-- C23 (fast-track acceptance).  When the statistics hint names a cached leaf and
`find` on that leaf gives an exact match at a slot with `0 < slot < length - 1`, `run`
returns that page and slot with no approximate flag.  In every other case (no hint,
page not in the cache, approximate match, `slot ≤ 0`, `slot ≥ length - 1`) the result
of `run`, its status, page, slot and approximate flag, is that of `run` without a
hint: the full descent from the root. -/
theorem fast_track_acceptance (pages : Nat → Node) (cached : Nat → Bool) (hints : FindHints)
    (descent : Option Nat) (key flags : Nat) :
    (hints.try_fast_track = true ∧ cached hints.leaf_page_addr = true ∧
        (find (pages hints.leaf_page_addr) key flags).2 = 0 ∧
        0 < (find (pages hints.leaf_page_addr) key flags).1 ∧
        (find (pages hints.leaf_page_addr) key flags).1
          < ((pages hints.leaf_page_addr).length : Int) - 1 →
      run pages cached hints descent key flags
        = RunResult.success hints.leaf_page_addr
            (find (pages hints.leaf_page_addr) key flags).1 0) ∧
    (¬ (hints.try_fast_track = true ∧ cached hints.leaf_page_addr = true ∧
        (find (pages hints.leaf_page_addr) key flags).2 = 0 ∧
        0 < (find (pages hints.leaf_page_addr) key flags).1 ∧
        (find (pages hints.leaf_page_addr) key flags).1
          < ((pages hints.leaf_page_addr).length : Int) - 1) →
      run pages cached hints descent key flags
        = run pages cached ⟨false, hints.leaf_page_addr⟩ descent key flags) := by
  constructor
  · rintro ⟨h1, h2, h3, h4, h5⟩
    have hft : fastTrack pages cached hints key flags
        = (hints.leaf_page_addr, (find (pages hints.leaf_page_addr) key flags).1) := by
      unfold fastTrack
      simp only [h1, h2, ↓reduceIte]
      rw [if_neg]
      intro h
      rcases h with h | h | h
      · exact h h3
      · omega
      · omega
    unfold run
    rw [hft]
    simp only
    rw [if_neg (by omega)]
    unfold finish
    have e1 : ¬ (find (pages hints.leaf_page_addr) key flags).1 = -1 := by omega
    have e2 : ¬ (find (pages hints.leaf_page_addr) key flags).1
        ≥ ((pages hints.leaf_page_addr).length : Int) := by omega
    have e3 : ¬ (find (pages hints.leaf_page_addr) key flags).1 < 0 := by omega
    simp only [e1, e2, e3, ↓reduceIte]
  · intro hn
    have hft : (fastTrack pages cached hints key flags).2 = -1 := by
      unfold fastTrack
      by_cases h1 : hints.try_fast_track = true
      · by_cases h2 : cached hints.leaf_page_addr = true
        · simp only [h1, h2, ↓reduceIte]
          rw [if_pos]
          by_contra hcon
          simp only [not_or, not_not, not_le] at hcon
          obtain ⟨c1, c2, c3⟩ := hcon
          exact hn ⟨h1, h2, c1, by omega, by omega⟩
        · simp [h1, h2]
      · simp [h1]
    have hft2 : (fastTrack pages cached ⟨false, hints.leaf_page_addr⟩ key flags).2 = -1 := by
      unfold fastTrack
      simp
    rw [run_descent _ _ _ _ _ _ hft, run_descent _ _ _ _ _ _ hft2]

/-- Witness for C23: the hinted leaf `[10, 20, 30]` is in the cache and holds the key 20
in the interior slot 1; `run` returns it although the descent leads elsewhere. -/
theorem fast_track_acceptance_witness :
    run (fun a => if a = 1 then ⟨[10, 20, 30], 0, 0⟩ else ⟨[], 0, 0⟩) (fun _ => true) ⟨true, 1⟩
      (some 2) 20 0 = RunResult.success 1 1 0 :=
  (fast_track_acceptance (fun a => if a = 1 then ⟨[10, 20, 30], 0, 0⟩ else ⟨[], 0, 0⟩)
    (fun _ => true) ⟨true, 1⟩ (some 2) 20 0).1 (by decide)

/-- C35 (approximate labels), evaluated.  The leaf holds the keys 10, 20 and 30 and
has no siblings; the search key 20 is stored, the flags are
`UPS_FIND_LT_MATCH | UPS_FIND_GT_MATCH` without `UPS_FIND_EQ_MATCH`.  The claim calls
for a key smaller than 20 under the label `kLower`.  `find` does not accept the exact
hit, and its branch `cmp == 0 && isset(flags, UPS_FIND_GT_MATCH)` returns `slot + 1`
with `*is_approx_match = BtreeKey::kLower`: `run` returns success on slot 2, whose key
30 is greater than the search key, labelled `kLower`. -/
theorem run_lt_gt_labels_successor_lower :
    run (fun _ => ⟨[10, 20, 30], 0, 0⟩) (fun _ => false) ⟨false, 0⟩ (some 1) 20
        (UPS_FIND_LT_MATCH ||| UPS_FIND_GT_MATCH)
      = RunResult.success 1 2 kLower ∧
    (⟨[10, 20, 30], 0, 0⟩ : Node).keys.getD 2 0 = 30 ∧
    ¬ ((⟨[10, 20, 30], 0, 0⟩ : Node).keys.getD 2 0 < 20) ∧
    find ⟨[10, 20, 30], 0, 0⟩ 20 (UPS_FIND_LT_MATCH ||| UPS_FIND_GT_MATCH) = (2, kLower) := by
  decide

/-- C36 (no approximate result without an approximate flag), evaluated.  The leaf 2
holds the keys 30 and 40 and has the left sibling 1 with the keys 10 and 20; the
search key 35 is not stored and the flags are `UPS_FIND_EQ_MATCH` alone.  The claim
calls for `UPS_KEY_NOT_FOUND`.  The flags are not 0, so `run` takes the long path;
`find` returns -1 for the miss with no approximate flag, and `run` treats the slot -1
as "before the first key": it steps to the left sibling and returns success on its
last slot (page 1, slot 1, key 20) with the label `kLower`. -/
theorem run_eq_match_miss_steps_left :
    isset UPS_FIND_EQ_MATCH UPS_FIND_LT_MATCH = false ∧
    isset UPS_FIND_EQ_MATCH UPS_FIND_GT_MATCH = false ∧
    find ⟨[30, 40], 1, 0⟩ 35 UPS_FIND_EQ_MATCH = (-1, 0) ∧
    run (fun a => if a = 1 then ⟨[10, 20], 0, 2⟩ else ⟨[30, 40], 1, 0⟩) (fun _ => false)
        ⟨false, 0⟩ (some 2) 35 UPS_FIND_EQ_MATCH
      = RunResult.success 1 1 kLower ∧
    run (fun a => if a = 1 then ⟨[10, 20], 0, 2⟩ else ⟨[30, 40], 1, 0⟩) (fun _ => false)
        ⟨false, 0⟩ (some 2) 35 UPS_FIND_EQ_MATCH
      ≠ RunResult.error UPS_KEY_NOT_FOUND := by
  decide

end BtreeFind

/-! ## B-tree insert: nodes -/

namespace BtreeInsert

theorem lower_count_append (A B : List int_key_t) (key : Nat) :
    lower_count (A ++ B) key = lower_count A key + lower_count B key := by
  unfold lower_count
  exact List.countP_append _ _ _

theorem lower_count_all (A : List int_key_t) (key : Nat) (h : ∀ e ∈ A, e.key ≤ key) :
    lower_count A key = A.length := by
  unfold lower_count
  rw [List.countP_eq_length]
  intro e he
  simpa using h e he

theorem lower_count_none (A : List int_key_t) (key : Nat) (h : ∀ e ∈ A, key < e.key) :
    lower_count A key = 0 := by
  unfold lower_count
  rw [List.countP_eq_zero]
  intro e he
  have := h e he
  simp only [decide_eq_true_eq]
  omega

/-- In a node with ascending keys the entries whose key is not greater than `key` come
first. -/
theorem sorted_split (es : List int_key_t) (key : Nat)
    (hs : (es.map (fun e => e.key)).Pairwise (· < ·)) :
    (∀ e ∈ es.take (lower_count es key), e.key ≤ key) ∧
    (∀ e ∈ es.drop (lower_count es key), key < e.key) := by
  induction es with
  | nil => simp
  | cons a t ih =>
    rw [List.map_cons, List.pairwise_cons] at hs
    have iht := ih hs.2
    by_cases ha : a.key ≤ key
    · have hc : lower_count (a :: t) key = lower_count t key + 1 := by
        unfold lower_count
        rw [List.countP_cons_of_pos]
        simpa using ha
      rw [hc, List.take_succ_cons, List.drop_succ_cons]
      refine ⟨?_, iht.2⟩
      intro e he
      rcases List.mem_cons.1 he with h | h
      · rw [h]; exact ha
      · exact iht.1 e h
    · have hall : ∀ e ∈ t, key < e.key := by
        intro e he
        have := hs.1 e.key (List.mem_map_of_mem _ he)
        omega
      have hc : lower_count (a :: t) key = 0 := by
        apply lower_count_none
        intro e he
        rcases List.mem_cons.1 he with h | h
        · rw [h]; omega
        · exact hall e h
      rw [hc]
      refine ⟨by simp, ?_⟩
      intro e he
      rw [List.drop_zero] at he
      rcases List.mem_cons.1 he with h | h
      · rw [h]; omega
      · exact hall e h

theorem put_append_left (x : int_key_t) (A C : List int_key_t) (h : ∀ e ∈ A, e.key ≤ x.key) :
    put x (A ++ C) = A ++ put x C := by
  unfold put
  rw [lower_count_append, lower_count_all A _ h, List.take_append, List.drop_append,
    List.append_assoc]

theorem put_append_right (x : int_key_t) (A C : List int_key_t)
    (h : ∀ e ∈ C, x.key < e.key) :
    put x (A ++ C) = put x A ++ C := by
  unfold put
  have hle : lower_count A x.key ≤ A.length := List.countP_le_length _
  rw [lower_count_append, lower_count_none C _ h, Nat.add_zero,
    List.take_append_of_le_length hle, List.drop_append_of_le_length hle]
  simp

theorem put_keys_perm (x : int_key_t) (es : List int_key_t) :
    ((put x es).map (fun e => e.key)).Perm (x.key :: es.map (fun e => e.key)) := by
  unfold put
  rw [List.map_append, List.map_cons]
  refine List.perm_middle.trans ?_
  rw [← List.map_append, List.take_append_drop]

theorem put_sorted (x : int_key_t) (es : List int_key_t)
    (hs : (es.map (fun e => e.key)).Pairwise (· < ·))
    (hx : x.key ∉ es.map (fun e => e.key)) :
    ((put x es).map (fun e => e.key)).Pairwise (· < ·) := by
  obtain ⟨h1, h2⟩ := sorted_split es x.key hs
  unfold put
  rw [List.map_append, List.map_cons]
  have hs2 := hs
  rw [← List.take_append_drop (lower_count es x.key) es, List.map_append,
    List.pairwise_append] at hs2
  rw [List.pairwise_append]
  refine ⟨hs2.1, ?_, ?_⟩
  · rw [List.pairwise_cons]
    refine ⟨?_, hs2.2.1⟩
    intro b hb
    obtain ⟨e, he, rfl⟩ := List.mem_map.1 hb
    exact h2 e he
  · intro a ha b hb
    obtain ⟨e, he, rfl⟩ := List.mem_map.1 ha
    have hle := h1 e he
    have hne : e.key ≠ x.key := by
      intro hh
      apply hx
      rw [← hh]
      exact List.mem_map_of_mem _ (List.mem_of_mem_take he)
    rcases List.mem_cons.1 hb with h | h
    · rw [h]; omega
    · obtain ⟨e2, he2, rfl⟩ := List.mem_map.1 h
      have := h2 e2 he2
      omega

theorem insert_new_eq (db : ham_db_t) (page key rid record flags slot : Nat) :
    insert_new db page key rid record flags slot = (0, db.setPage page
      (set_entries (db.pages page) ((db.pages page).entries.take slot ++
          new_entry (btree_node_is_leaf (db.pages page)) key rid record ::
          (db.pages page).entries.drop slot))) := by
  unfold insert_new new_entry key_set_record key_set_ptr set_entries
  by_cases hl : btree_node_is_leaf (db.pages page) = true
  · simp [hl]
  · simp [hl]

/-- A key that is not in the node is put at its sorted position by
`my_insert_nosplit`. -/
theorem nosplit_new (db : ham_db_t) (page key rid record flags : Nat)
    (hs : ((db.pages page).entries.map (fun e => e.key)).Pairwise (· < ·))
    (hx : key ∉ (db.pages page).entries.map (fun e => e.key)) :
    my_insert_nosplit db page key rid record flags = (0, db.setPage page
      (set_entries (db.pages page)
          (put (new_entry (btree_node_is_leaf (db.pages page)) key rid record)
            (db.pages page).entries))) := by
  obtain ⟨h1, h2⟩ := sorted_split _ key hs
  have hput : ∀ lf, put (new_entry lf key rid record) (db.pages page).entries
      = (db.pages page).entries.take (lower_count (db.pages page).entries key) ++
        new_entry lf key rid record ::
        (db.pages page).entries.drop (lower_count (db.pages page).entries key) := by
    intro lf; rfl
  rw [hput]
  unfold my_insert_nosplit
  simp only
  by_cases hlen : (db.pages page).entries.length = 0
  · rw [if_pos hlen, insert_new_eq]
    have : lower_count (db.pages page).entries key = 0 := by
      unfold lower_count
      have := List.countP_le_length (fun e => decide (e.key ≤ key)) (l := (db.pages page).entries)
      omega
    rw [this]
  · rw [if_neg hlen]
    unfold btree_get_slot
    simp only
    have hlc : (db.pages page).entries.countP (fun e => decide (e.key ≤ key))
        = lower_count (db.pages page).entries key := rfl
    rw [hlc]
    by_cases hn : lower_count (db.pages page).entries key = 0
    · simp only [hn, ↓reduceIte, insert_new_eq]
    · have hle : lower_count (db.pages page).entries key ≤ (db.pages page).entries.length :=
        List.countP_le_length _
      have hmem : (db.pages page).entries.getD (lower_count (db.pages page).entries key - 1)
          default ∈ (db.pages page).entries.take (lower_count (db.pages page).entries key) := by
        rw [List.getD_eq_getElem _ _ (by omega)]
        rw [List.mem_take_iff_getElem]
        exact ⟨lower_count (db.pages page).entries key - 1,
          by rw [Nat.min_eq_left hle]; omega, rfl⟩
      have hk := h1 _ hmem
      have hne : ((db.pages page).entries.getD (lower_count (db.pages page).entries key - 1)
          default).key ≠ key := by
        intro hh
        apply hx
        rw [← hh]
        exact List.mem_map_of_mem _ (List.mem_of_mem_take hmem)
      have hcmp : key_compare_int_to_pub ((db.pages page).entries.getD
          (lower_count (db.pages page).entries key - 1) default) key = -1 := by
        unfold key_compare_int_to_pub
        rw [if_pos (by omega)]
      simp only [hn, ↓reduceIte, hcmp]
      have h3 : ¬ ((lower_count (db.pages page).entries key : Int) - 1 = -1) := by omega
      rw [if_neg h3, if_neg (by decide), if_pos (by decide), insert_new_eq]
      have h4 : ((lower_count (db.pages page).entries key : Int) - 1 + 1).toNat
          = lower_count (db.pages page).entries key := by omega
      rw [h4]

theorem setPage_pages (db : ham_db_t) (id : Nat) (n : btree_node_t) (i : Nat) :
    (db.setPage id n).pages i = if i = id then n else db.pages i := rfl

theorem setPage_same (db : ham_db_t) (id : Nat) (n : btree_node_t) :
    (db.setPage id n).pages id = n := by
  rw [setPage_pages, if_pos rfl]

theorem setPage_other (db : ham_db_t) (id : Nat) (n : btree_node_t) (i : Nat) (h : i ≠ id) :
    (db.setPage id n).pages i = db.pages i := by
  rw [setPage_pages, if_neg h]

theorem sorted_take (es : List int_key_t) (n : Nat)
    (hs : (es.map (fun e => e.key)).Pairwise (· < ·)) :
    ((es.take n).map (fun e => e.key)).Pairwise (· < ·) := by
  rw [← List.take_append_drop n es, List.map_append, List.pairwise_append] at hs
  exact hs.1

theorem sorted_drop (es : List int_key_t) (n : Nat)
    (hs : (es.map (fun e => e.key)).Pairwise (· < ·)) :
    ((es.drop n).map (fun e => e.key)).Pairwise (· < ·) := by
  rw [← List.take_append_drop n es, List.map_append, List.pairwise_append] at hs
  exact hs.2.1

theorem compare_le (e : int_key_t) (key : Nat) :
    key_compare_int_to_pub e key ≤ 0 ↔ e.key ≤ key := by
  unfold key_compare_int_to_pub
  by_cases h1 : e.key < key
  · rw [if_pos h1]; constructor
    · intro _; omega
    · intro _; decide
  · rw [if_neg h1]
    by_cases h2 : e.key = key
    · rw [if_pos h2]; constructor
      · intro _; omega
      · intro _; decide
    · rw [if_neg h2]; constructor
      · intro h; exact absurd h (by decide)
      · intro h; omega

theorem db_ext (a b : ham_db_t) (h1 : a.pages = b.pages) (h2 : a.next = b.next)
    (h3 : a.avail = b.avail) (h4 : a.rootpage = b.rootpage) (h5 : a.maxkeys = b.maxkeys)
    (h6 : a.rt_flags = b.rt_flags) : a = b := by
  cases a; cases b; simp only [ham_db_t.mk.injEq]; exact ⟨h1, h2, h3, h4, h5, h6⟩

theorem setPage_next (db : ham_db_t) (id : Nat) (n : btree_node_t) :
    (db.setPage id n).next = db.next := rfl

theorem setPage_avail (db : ham_db_t) (id : Nat) (n : btree_node_t) :
    (db.setPage id n).avail = db.avail := rfl

theorem setPage_rootpage (db : ham_db_t) (id : Nat) (n : btree_node_t) :
    (db.setPage id n).rootpage = db.rootpage := rfl

theorem setPage_maxkeys (db : ham_db_t) (id : Nat) (n : btree_node_t) :
    (db.setPage id n).maxkeys = db.maxkeys := rfl

theorem setPage_rt_flags (db : ham_db_t) (id : Nat) (n : btree_node_t) :
    (db.setPage id n).rt_flags = db.rt_flags := rfl

theorem fix_links_fields (db : ham_db_t) (page newpage : Nat) :
    (fix_links db page newpage).next = db.next ∧
    (fix_links db page newpage).avail = db.avail ∧
    (fix_links db page newpage).rootpage = db.rootpage ∧
    (fix_links db page newpage).maxkeys = db.maxkeys ∧
    (fix_links db page newpage).rt_flags = db.rt_flags := by
  unfold fix_links
  by_cases hR : (db.pages page).right = 0
  · simp only [hR, ne_eq, not_true_eq_false, if_false]
    exact ⟨rfl, rfl, rfl, rfl, rfl⟩
  · simp only [hR, ne_eq, not_false_eq_true, if_true]
    exact ⟨rfl, rfl, rfl, rfl, rfl⟩

theorem split_db_fields (db : ham_db_t) (p pl : Nat) (old new : List int_key_t) :
    (split_db db p pl old new).next = db.next + 1 ∧
    (split_db db p pl old new).avail = db.avail ∧
    (split_db db p pl old new).rootpage = db.rootpage ∧
    (split_db db p pl old new).maxkeys = db.maxkeys ∧
    (split_db db p pl old new).rt_flags = db.rt_flags := by
  unfold split_db
  by_cases hR : (db.pages p).right = 0
  · simp only [hR, ne_eq, not_true_eq_false, if_false]
    exact ⟨rfl, rfl, rfl, rfl, rfl⟩
  · simp only [hR, ne_eq, not_false_eq_true, if_true]
    exact ⟨rfl, rfl, rfl, rfl, rfl⟩

theorem fix_links_pages (db : ham_db_t) (page newpage : Nat) (hne : page ≠ newpage) (i : Nat) :
    (fix_links db page newpage).pages i =
      if (db.pages page).right ≠ 0 ∧ i = (db.pages page).right then
        ⟨(if i = page then (db.pages page).ptr_left else (db.pages i).ptr_left),
          newpage,
          (if i = page then newpage else if i = newpage then (db.pages page).right
            else (db.pages i).right),
          (if i = page then (db.pages page).entries else (db.pages i).entries)⟩
      else if i = page then
        ⟨(db.pages page).ptr_left, (db.pages page).left, newpage, (db.pages page).entries⟩
      else if i = newpage then
        ⟨(db.pages newpage).ptr_left, page, (db.pages page).right, (db.pages newpage).entries⟩
      else db.pages i := by
  have hne2 : newpage ≠ page := Ne.symm hne
  unfold fix_links
  by_cases hR : (db.pages page).right = 0
  · simp only [hR, ne_eq, not_true_eq_false, if_false, false_and, setPage_pages, if_true,
      if_neg hne]
  · simp only [hR, ne_eq, not_false_eq_true, if_true, true_and, setPage_pages, if_neg hne]
    by_cases hi0 : i = (db.pages page).right
    · rw [if_pos hi0, if_pos hi0]
      by_cases hi : i = page
      · simp only [← hi0, hi, if_true]
      · by_cases hi2 : i = newpage
        · simp only [← hi0, hi2, if_true, if_neg hne2]
        · simp only [← hi0, hi, hi2, if_false]
    · rw [if_neg hi0, if_neg hi0]

theorem split_db_pages (db : ham_db_t) (p pl : Nat) (old new : List int_key_t)
    (hne : p ≠ db.next) (i : Nat) :
    (split_db db p pl old new).pages i =
      if (db.pages p).right ≠ 0 ∧ i = (db.pages p).right then
        ⟨(if i = p then (db.pages p).ptr_left else if i = db.next then pl
            else (db.pages i).ptr_left),
          db.next,
          (if i = p then db.next else if i = db.next then (db.pages p).right
            else (db.pages i).right),
          (if i = p then old else if i = db.next then new else (db.pages i).entries)⟩
      else if i = p then ⟨(db.pages p).ptr_left, (db.pages p).left, db.next, old⟩
      else if i = db.next then ⟨pl, p, (db.pages p).right, new⟩
      else db.pages i := by
  have hne2 : db.next ≠ p := Ne.symm hne
  unfold split_db
  by_cases hR : (db.pages p).right = 0
  · simp only [hR, ne_eq, not_true_eq_false, if_false, false_and, setPage_pages]
  · simp only [hR, ne_eq, not_false_eq_true, if_true, true_and, setPage_pages]
    by_cases hi0 : i = (db.pages p).right
    · rw [if_pos hi0, if_pos hi0]
      by_cases hi : i = p
      · simp only [← hi0, hi, if_true]
      · by_cases hi2 : i = db.next
        · simp only [← hi0, hi2, if_true, if_neg hne2]
        · simp only [← hi0, hi, hi2, if_false]
    · rw [if_neg hi0, if_neg hi0]

/-- The links after a split: `fix_links` behind the move of the entries and the store
of the new entry gives `split_db`. -/
theorem fix_links_eq (db db3 : ham_db_t) (page pl : Nat) (old new : List int_key_t)
    (hne : page ≠ db.next)
    (h1 : db3.pages page = ⟨(db.pages page).ptr_left, (db.pages page).left,
      (db.pages page).right, old⟩)
    (h2 : db3.pages db.next = ⟨pl, 0, 0, new⟩)
    (h3 : ∀ i, i ≠ page → i ≠ db.next → db3.pages i = db.pages i)
    (h4 : db3.next = db.next + 1) (h5 : db3.avail = db.avail)
    (h6 : db3.rootpage = db.rootpage) (h7 : db3.maxkeys = db.maxkeys)
    (h8 : db3.rt_flags = db.rt_flags) :
    fix_links db3 page db.next = split_db db page pl old new := by
  have hne2 : db.next ≠ page := Ne.symm hne
  apply db_ext
  · funext i
    rw [fix_links_pages _ _ _ hne, split_db_pages _ _ _ _ _ hne, h1, h2]
    simp only
    by_cases hi : i = page
    · simp only [hi, if_true]
    · by_cases hi2 : i = db.next
      · simp only [hi2, if_true, if_neg hne2, h2]
      · simp only [hi, hi2, if_false, h3 i hi hi2]
  · rw [(fix_links_fields _ _ _).1, (split_db_fields _ _ _ _ _).1, h4]
  · rw [(fix_links_fields _ _ _).2.1, (split_db_fields _ _ _ _ _).2.1, h5]
  · rw [(fix_links_fields _ _ _).2.2.1, (split_db_fields _ _ _ _ _).2.2.1, h6]
  · rw [(fix_links_fields _ _ _).2.2.2.1, (split_db_fields _ _ _ _ _).2.2.2.1, h7]
  · rw [(fix_links_fields _ _ _).2.2.2.2, (split_db_fields _ _ _ _ _).2.2.2.2, h8]

theorem move_entries_pages (db : ham_db_t) (page newpage pivot : Nat) (hne : page ≠ newpage) :
    (move_entries db page newpage pivot).pages page =
      ⟨(db.pages page).ptr_left, (db.pages page).left, (db.pages page).right,
        (db.pages page).entries.take pivot⟩ ∧
    (move_entries db page newpage pivot).pages newpage =
      ⟨if btree_node_is_leaf (db.pages page) = true then 0
        else ((db.pages page).entries.getD pivot default).ptr, 0, 0,
        if btree_node_is_leaf (db.pages page) = true then (db.pages page).entries.drop pivot
        else (db.pages page).entries.drop (pivot + 1)⟩ ∧
    (∀ i, i ≠ page → i ≠ newpage → (move_entries db page newpage pivot).pages i = db.pages i) := by
  unfold move_entries
  refine ⟨?_, ?_, ?_⟩
  · simp only [setPage_pages, if_true]
  · simp only [setPage_pages, if_true, if_neg (Ne.symm hne)]
  · intro i h1 h2
    simp only [setPage_pages, if_neg h1, if_neg h2]

/-- The result of `my_insert_split` for a key that is not in the node, when the new
page can be allocated. -/
theorem split_eq (db : ham_db_t) (page key rid flags : Nat) (sp : insert_scratchpad_t)
    (hav : db.avail db.next = true) (hne : page ≠ db.next)
    (hs : ((db.pages page).entries.map (fun e => e.key)).Pairwise (· < ·))
    (hx : key ∉ (db.pages page).entries.map (fun e => e.key))
    (hp : btree_node_is_leaf (db.pages page) = false → ((db.pages page).entries.getD
      (pivot_index db.rt_flags (db.pages page).entries.length) default).ptr ≠ 0) :
    my_insert_split db page key rid flags sp =
      (SPLIT,
       split_db db page
         (if btree_node_is_leaf (db.pages page) = true then 0
          else ((db.pages page).entries.getD
            (pivot_index db.rt_flags (db.pages page).entries.length) default).ptr)
         (split_old (db.pages page).entries
           (pivot_index db.rt_flags (db.pages page).entries.length)
           (new_entry (btree_node_is_leaf (db.pages page)) key rid sp.record))
         (split_new (btree_node_is_leaf (db.pages page)) (db.pages page).entries
           (pivot_index db.rt_flags (db.pages page).entries.length)
           (new_entry (btree_node_is_leaf (db.pages page)) key rid sp.record)),
       ⟨sp.flags, sp.record, ((db.pages page).entries.getD
          (pivot_index db.rt_flags (db.pages page).entries.length) default).key, db.next⟩) := by
  obtain ⟨m1, m2, m3⟩ := move_entries_pages { db with next := db.next + 1 } page db.next
    (pivot_index db.rt_flags (db.pages page).entries.length) hne
  have mf : (move_entries { db with next := db.next + 1 } page db.next
      (pivot_index db.rt_flags (db.pages page).entries.length)).next = db.next + 1 ∧
      (move_entries { db with next := db.next + 1 } page db.next
      (pivot_index db.rt_flags (db.pages page).entries.length)).avail = db.avail ∧
      (move_entries { db with next := db.next + 1 } page db.next
      (pivot_index db.rt_flags (db.pages page).entries.length)).rootpage = db.rootpage ∧
      (move_entries { db with next := db.next + 1 } page db.next
      (pivot_index db.rt_flags (db.pages page).entries.length)).maxkeys = db.maxkeys ∧
      (move_entries { db with next := db.next + 1 } page db.next
      (pivot_index db.rt_flags (db.pages page).entries.length)).rt_flags = db.rt_flags :=
    ⟨rfl, rfl, rfl, rfl, rfl⟩
  unfold my_insert_split db_alloc_page
  rw [if_pos hav]
  simp only
  have hpv2 : (if db.rt_flags &&& HAM_RECORD_NUMBER ≠ 0 ∧ (db.pages page).entries.length > 8
      then (db.pages page).entries.length - 4
      else (db.pages page).entries.length / 2)
      = pivot_index db.rt_flags (db.pages page).entries.length := rfl
  rw [hpv2]
  generalize hdb2 : move_entries { db with next := db.next + 1 } page db.next
      (pivot_index db.rt_flags (db.pages page).entries.length) = db2 at *
  simp only at m1 m2 m3
  generalize hE : (db.pages page).entries = E at *
  generalize hpv : pivot_index db.rt_flags E.length = pv at *
  generalize hlf : btree_node_is_leaf (db.pages page) = lf at *
  generalize he : E.getD pv default = e at *
  have hnl : btree_node_is_leaf (db2.pages db.next) = lf := by
    rw [m2]
    unfold btree_node_is_leaf
    cases lf with
    | true => simp
    | false => simpa using hp rfl
  have hxt : key ∉ (E.take pv).map (fun e => e.key) := by
    intro h
    obtain ⟨a, ha, hk⟩ := List.mem_map.1 h
    exact hx (List.mem_map.2 ⟨a, List.mem_of_mem_take ha, hk⟩)
  have hxd : ∀ n, key ∉ (E.drop n).map (fun e => e.key) := by
    intro n h
    obtain ⟨a, ha, hk⟩ := List.mem_map.1 h
    exact hx (List.mem_map.2 ⟨a, List.mem_of_mem_drop ha, hk⟩)
  have hlf2 : btree_node_is_leaf (db2.pages page) = lf := by
    rw [m1, ← hlf]; rfl
  by_cases hc : e.key ≤ key
  · have hc2 : key_compare_int_to_pub e key ≤ 0 := (compare_le e key).2 hc
    rw [if_pos hc2]
    rw [nosplit_new db2 db.next key rid sp.record _ (by
        rw [m2]
        cases lf with
        | true => simpa using sorted_drop E pv hs
        | false => simpa using sorted_drop E (pv + 1) hs) (by
        rw [m2]
        cases lf with
        | true => simpa using hxd pv
        | false => simpa using hxd (pv + 1))]
    simp only [ne_eq, not_true_eq_false, if_false]
    congr 2
    apply fix_links_eq db _ page _ _ _ hne
    · rw [setPage_other _ _ _ _ hne, m1]
      unfold split_old
      have hk : (new_entry lf key rid sp.record).key = key := rfl
      rw [he, hk, if_pos hc]
    · rw [setPage_same, hnl, m2]
      unfold split_new set_entries
      have hk : (new_entry lf key rid sp.record).key = key := rfl
      rw [he, hk]
      cases lf <;> simp [hc]
    · intro i h1 h2
      rw [setPage_other _ _ _ _ h2, m3 i h1 h2]
    · rw [setPage_next]; exact mf.1
    · rw [setPage_avail]; exact mf.2.1
    · rw [setPage_rootpage]; exact mf.2.2.1
    · rw [setPage_maxkeys]; exact mf.2.2.2.1
    · rw [setPage_rt_flags]; exact mf.2.2.2.2
  · have hc2 : ¬ key_compare_int_to_pub e key ≤ 0 := fun h => hc ((compare_le e key).1 h)
    rw [if_neg hc2]
    rw [nosplit_new db2 page key rid sp.record _ (by
        rw [m1]; exact sorted_take E pv hs) (by rw [m1]; exact hxt)]
    simp only [ne_eq, not_true_eq_false, if_false]
    congr 2
    apply fix_links_eq db _ page _ _ _ hne
    · rw [setPage_same, hlf2, m1]
      unfold split_old set_entries
      have hk : (new_entry lf key rid sp.record).key = key := rfl
      rw [he, hk, if_neg hc]
    · rw [setPage_other _ _ _ _ (Ne.symm hne), m2]
      unfold split_new
      have hk : (new_entry lf key rid sp.record).key = key := rfl
      rw [he, hk]
      cases lf <;> simp [hc]
    · intro i h1 h2
      rw [setPage_other _ _ _ _ h1, m3 i h1 h2]
    · rw [setPage_next]; exact mf.1
    · rw [setPage_avail]; exact mf.2.1
    · rw [setPage_rootpage]; exact mf.2.2.1
    · rw [setPage_maxkeys]; exact mf.2.2.2.1
    · rw [setPage_rt_flags]; exact mf.2.2.2.2

theorem split_fail (db : ham_db_t) (page key rid flags : Nat) (sp : insert_scratchpad_t)
    (hav : db.avail db.next = false) :
    my_insert_split db page key rid flags sp = (HAM_OUT_OF_MEMORY, db, sp) := by
  unfold my_insert_split db_alloc_page
  simp [hav]

theorem search_missing (node : btree_node_t) (key : Nat)
    (hx : key ∉ node.entries.map (fun e => e.key)) :
    btree_node_search_by_key node key = -1 := by
  unfold btree_node_search_by_key btree_get_slot
  simp only
  by_cases hn : node.entries.countP (fun e => decide (e.key ≤ key)) = 0
  · simp [hn]
  · have hle : node.entries.countP (fun e => decide (e.key ≤ key)) ≤ node.entries.length :=
      List.countP_le_length _
    have hmem : node.entries.getD (node.entries.countP (fun e => decide (e.key ≤ key)) - 1)
        default ∈ node.entries := by
      rw [List.getD_eq_getElem _ _ (by omega)]
      exact List.getElem_mem _
    have hne : (node.entries.getD (node.entries.countP (fun e => decide (e.key ≤ key)) - 1)
        default).key ≠ key := by
      intro hh
      apply hx
      rw [← hh]
      exact List.mem_map_of_mem _ hmem
    have hcmp : key_compare_int_to_pub (node.entries.getD
        (node.entries.countP (fun e => decide (e.key ≤ key)) - 1) default) key ≠ 0 := by
      unfold key_compare_int_to_pub
      split_ifs <;> simp_all
    simp only [hn, ↓reduceIte]
    rw [if_neg]
    intro h
    exact hcmp h.2

/-- A key that is not in the node: `my_insert_in_page` stores it at its sorted position
when the node has room. -/
theorem in_page_room (db : ham_db_t) (page key rid flags : Nat) (sp : insert_scratchpad_t)
    (hs : ((db.pages page).entries.map (fun e => e.key)).Pairwise (· < ·))
    (hx : key ∉ (db.pages page).entries.map (fun e => e.key))
    (hroom : (db.pages page).entries.length < db.maxkeys) :
    my_insert_in_page db page key rid flags sp = (0, db.setPage page
      (set_entries (db.pages page)
        (put (new_entry (btree_node_is_leaf (db.pages page)) key rid sp.record)
          (db.pages page).entries)), sp) := by
  unfold my_insert_in_page
  simp only [hroom, ↓reduceIte]
  rw [nosplit_new db page key rid sp.record flags hs hx]

/-- A key that is not in the node: `my_insert_in_page` splits a full node. -/
theorem in_page_full (db : ham_db_t) (page key rid flags : Nat) (sp : insert_scratchpad_t)
    (hx : key ∉ (db.pages page).entries.map (fun e => e.key))
    (hfull : ¬ (db.pages page).entries.length < db.maxkeys) :
    my_insert_in_page db page key rid flags sp = my_insert_split db page key rid flags sp := by
  unfold my_insert_in_page
  simp only [hfull, ↓reduceIte, search_missing _ _ hx]
  rw [if_neg]
  intro h
  exact absurd h.2 (by decide)

theorem getD_split (E : List int_key_t) (pv : Nat) (h : pv < E.length) :
    E = E.take pv ++ E.getD pv default :: E.drop (pv + 1) := by
  rw [List.getD_eq_getElem _ _ h]
  conv_lhs => rw [← List.take_append_drop pv E]
  rw [List.drop_eq_getElem_cons h]

/-- The two halves of a split leaf make up the entries with the new one put in; the
new page starts with the entry at the pivot. -/
theorem split_leaf_lists (E : List int_key_t) (pv : Nat) (x : int_key_t) (h : pv < E.length)
    (hs : (E.map (fun e => e.key)).Pairwise (· < ·)) :
    split_old E pv x ++ split_new true E pv x = put x E ∧
    ∃ t, split_new true E pv x = E.getD pv default :: t := by
  have hE := getD_split E pv h
  generalize he : E.getD pv default = e at hE
  generalize hA : E.take pv = A at hE
  generalize hB : E.drop (pv + 1) = B at hE
  have hd : E.drop pv = e :: B := by
    have h1 : A.length = pv := by rw [← hA, List.length_take]; omega
    rw [hE, ← h1, List.drop_left]
  have hs2 := hs
  rw [hE, List.map_append, List.map_cons, List.pairwise_append, List.pairwise_cons] at hs2
  obtain ⟨sA, ⟨sB1, sB2⟩, sAB⟩ := hs2
  unfold split_old split_new
  simp only [↓reduceIte, hd, hA, he]
  by_cases hc : e.key ≤ x.key
  · simp only [hc, ↓reduceIte]
    have hput : put x (e :: B) = e :: put x B := put_append_left x [e] B (by
      intro a ha
      rw [List.mem_singleton.1 ha]; exact hc)
    rw [hput]
    refine ⟨?_, put x B, rfl⟩
    have hre : A ++ e :: B = (A ++ [e]) ++ B := by simp
    rw [hE, hre, put_append_left x (A ++ [e]) B]
    · simp
    · intro a ha
      rcases List.mem_append.1 ha with h1 | h1
      · have := sAB a.key (List.mem_map_of_mem _ h1) e.key (List.mem_cons_self _ _)
        omega
      · rw [List.mem_singleton.1 h1]; exact hc
  · simp only [hc, ↓reduceIte]
    refine ⟨?_, B, rfl⟩
    rw [hE, put_append_right x A (e :: B)]
    intro a ha
    rcases List.mem_cons.1 ha with h1 | h1
    · rw [h1]; omega
    · have := sB1 a.key (List.mem_map_of_mem _ h1)
      omega

/-- The two halves of a split internal node and the entry at the pivot between them
make up the entries with the new one put in. -/
theorem split_internal_lists (E : List int_key_t) (pv : Nat) (x : int_key_t)
    (h : pv < E.length) (hs : (E.map (fun e => e.key)).Pairwise (· < ·))
    (hx : x.key ∉ E.map (fun e => e.key)) :
    split_old E pv x ++ E.getD pv default :: split_new false E pv x = put x E := by
  have hE := getD_split E pv h
  have hmem : E.getD pv default ∈ E := by
    rw [List.getD_eq_getElem _ _ h]; exact List.getElem_mem _
  generalize he : E.getD pv default = e at hE hmem
  generalize hA : E.take pv = A at hE
  generalize hB : E.drop (pv + 1) = B at hE
  have hs2 := hs
  rw [hE, List.map_append, List.map_cons, List.pairwise_append, List.pairwise_cons] at hs2
  obtain ⟨sA, ⟨sB1, sB2⟩, sAB⟩ := hs2
  have hne : e.key ≠ x.key := by
    intro hh
    apply hx
    rw [← hh]
    exact List.mem_map_of_mem _ hmem
  unfold split_old split_new
  simp only [Bool.false_eq_true, ↓reduceIte, hA, hB, he]
  by_cases hc : e.key ≤ x.key
  · simp only [hc, ↓reduceIte]
    have hre : A ++ e :: B = (A ++ [e]) ++ B := by simp
    rw [hE, hre, put_append_left x (A ++ [e]) B]
    · simp
    · intro a ha
      rcases List.mem_append.1 ha with h1 | h1
      · have := sAB a.key (List.mem_map_of_mem _ h1) e.key (List.mem_cons_self _ _)
        omega
      · rw [List.mem_singleton.1 h1]; exact hc
  · simp only [hc, ↓reduceIte]
    rw [hE, put_append_right x A (e :: B)]
    intro a ha
    rcases List.mem_cons.1 ha with h1 | h1
    · rw [h1]; omega
    · have := sB1 a.key (List.mem_map_of_mem _ h1)
      omega

theorem Kids_lt (S : Nat → Nat → Nat → Prop) : ∀ (es : List (Nat × Nat)) (c lo hi : Nat),
    Kids S c lo es hi → lo < hi := by
  intro es
  induction es with
  | nil => intro c lo hi h; exact h.1
  | cons e es ih =>
    intro c lo hi h
    exact lt_trans h.1 (ih _ _ _ h.2.2)

theorem Kids_append (S : Nat → Nat → Nat → Prop) : ∀ (A : List (Nat × Nat)) (e : Nat × Nat)
    (B : List (Nat × Nat)) (c lo hi : Nat),
    Kids S c lo (A ++ e :: B) hi ↔ Kids S c lo A e.1 ∧ Kids S e.2 e.1 B hi := by
  intro A
  induction A with
  | nil =>
    intro e B c lo hi
    simp only [List.nil_append, Kids]
    constructor
    · intro h; exact ⟨⟨h.1, h.2.1⟩, h.2.2⟩
    · intro h; exact ⟨h.1.1, h.1.2, h.2⟩
  | cons a A ih =>
    intro e B c lo hi
    constructor
    · intro h
      have h1 : lo < a.1 ∧ S c lo a.1 ∧ Kids S a.2 a.1 (A ++ e :: B) hi := h
      have h2 := (ih e B a.2 a.1 hi).1 h1.2.2
      exact ⟨⟨h1.1, h1.2.1, h2.1⟩, h2.2⟩
    · intro h
      have h1 : lo < a.1 ∧ S c lo a.1 ∧ Kids S a.2 a.1 A e.1 := h.1
      exact ⟨h1.1, h1.2.1, (ih e B a.2 a.1 hi).2 ⟨h1.2.2, h.2⟩⟩

theorem Kids_congr (S T : Nat → Nat → Nat → Prop) : ∀ (es : List (Nat × Nat)) (c lo hi : Nat),
    (∀ d ∈ c :: es.map Prod.snd, ∀ a b, S d a b → T d a b) →
    Kids S c lo es hi → Kids T c lo es hi := by
  intro es
  induction es with
  | nil =>
    intro c lo hi hc h
    exact ⟨h.1, hc c (List.mem_cons_self _ _) _ _ h.2⟩
  | cons e es ih =>
    intro c lo hi hc h
    refine ⟨h.1, hc c (List.mem_cons_self _ _) _ _ h.2.1, ih _ _ _ ?_ h.2.2⟩
    intro d hd
    exact hc d (List.mem_cons_of_mem _ (by simpa using hd))

/-- The keys of a node that obeys the convention are strictly ascending and lie
strictly between the bounds. -/
theorem Kids_sorted (S : Nat → Nat → Nat → Prop) : ∀ (es : List (Nat × Nat)) (c lo hi : Nat),
    Kids S c lo es hi →
    (es.map Prod.fst).Pairwise (· < ·) ∧ ∀ k ∈ es.map Prod.fst, lo < k ∧ k < hi := by
  intro es
  induction es with
  | nil => intro c lo hi _; simp
  | cons e es ih =>
    intro c lo hi h
    obtain ⟨i1, i2⟩ := ih _ _ _ h.2.2
    have hlt := Kids_lt S _ _ _ _ h.2.2
    constructor
    · rw [List.map_cons, List.pairwise_cons]
      exact ⟨fun k hk => (i2 k hk).1, i1⟩
    · intro k hk
      rw [List.map_cons] at hk
      rcases List.mem_cons.1 hk with h1 | h1
      · rw [h1]; exact ⟨h.1, hlt⟩
      · exact ⟨lt_trans h.1 (i2 k h1).1, (i2 k h1).2⟩

theorem flatMap_eq_of_mem {α β : Type} (l : List α) (f g : α → List β)
    (h : ∀ d ∈ l, f d = g d) : l.flatMap f = l.flatMap g := by
  induction l with
  | nil => rfl
  | cons a l ih =>
    rw [List.flatMap_cons, List.flatMap_cons, h a (List.mem_cons_self _ _),
      ih (fun d hd => h d (List.mem_cons_of_mem _ hd))]

theorem pagesOf_succ (sh : Nat → Nat × List (Nat × Nat)) (h p : Nat) :
    pagesOf sh (h + 1) p = p :: (kids (sh p)).flatMap (pagesOf sh h) := rfl

theorem leavesOf_succ (sh : Nat → Nat × List (Nat × Nat)) (h p : Nat) :
    leavesOf sh (h + 1) p = (kids (sh p)).flatMap (leavesOf sh h) := rfl

theorem keysOf_succ (sh : Nat → Nat × List (Nat × Nat)) (h p : Nat) :
    keysOf sh (h + 1) p = (kids (sh p)).flatMap (keysOf sh h) := rfl

theorem Sub_succ (sh : Nat → Nat × List (Nat × Nat)) (h p lo hi : Nat) :
    Sub sh (h + 1) p lo hi ↔ (sh p).1 ≠ 0 ∧ Kids (Sub sh h) (sh p).1 lo (sh p).2 hi := Iff.rfl

theorem Sub_zero (sh : Nat → Nat × List (Nat × Nat)) (p lo hi : Nat) :
    Sub sh 0 p lo hi ↔ (sh p).1 = 0 ∧ ((sh p).2.map Prod.fst).Pairwise (· < ·) ∧
      ∀ k ∈ (sh p).2.map Prod.fst, lo ≤ k ∧ k < hi := Iff.rfl

theorem mem_pagesOf_self (sh : Nat → Nat × List (Nat × Nat)) (h p : Nat) :
    p ∈ pagesOf sh h p := by
  cases h with
  | zero => exact List.mem_singleton.2 rfl
  | succ h => exact List.mem_cons_self _ _

theorem mem_pagesOf_kid (sh : Nat → Nat × List (Nat × Nat)) (h p d q : Nat)
    (hd : d ∈ kids (sh p)) (hq : q ∈ pagesOf sh h d) : q ∈ pagesOf sh (h + 1) p := by
  rw [pagesOf_succ]
  exact List.mem_cons_of_mem _ (List.mem_flatMap.2 ⟨d, hd, hq⟩)

/-- The subtree below `p` reads the same in two heaps of shapes that agree on its
pages. -/
theorem tree_congr (sh sh' : Nat → Nat × List (Nat × Nat)) : ∀ (h p : Nat),
    (∀ q ∈ pagesOf sh h p, sh' q = sh q) →
    pagesOf sh' h p = pagesOf sh h p ∧ leavesOf sh' h p = leavesOf sh h p ∧
    keysOf sh' h p = keysOf sh h p ∧ ∀ lo hi, Sub sh h p lo hi → Sub sh' h p lo hi := by
  intro h
  induction h with
  | zero =>
    intro p hq
    have hp := hq p (mem_pagesOf_self sh 0 p)
    refine ⟨rfl, rfl, ?_, ?_⟩
    · show (sh' p).2.map Prod.fst = (sh p).2.map Prod.fst
      rw [hp]
    · intro lo hi hs
      rw [Sub_zero] at hs ⊢
      rw [hp]; exact hs
  | succ h ih =>
    intro p hq
    have hp := hq p (mem_pagesOf_self sh (h + 1) p)
    have hk : ∀ d ∈ kids (sh p), ∀ q ∈ pagesOf sh h d, sh' q = sh q :=
      fun d hd q hqd => hq q (mem_pagesOf_kid sh h p d q hd hqd)
    refine ⟨?_, ?_, ?_, ?_⟩
    · rw [pagesOf_succ, pagesOf_succ, hp]
      rw [flatMap_eq_of_mem _ _ _ (fun d hd => (ih d (hk d hd)).1)]
    · rw [leavesOf_succ, leavesOf_succ, hp]
      rw [flatMap_eq_of_mem _ _ _ (fun d hd => (ih d (hk d hd)).2.1)]
    · rw [keysOf_succ, keysOf_succ, hp]
      rw [flatMap_eq_of_mem _ _ _ (fun d hd => (ih d (hk d hd)).2.2.1)]
    · intro lo hi hs
      rw [Sub_succ] at hs ⊢
      rw [hp]
      refine ⟨hs.1, Kids_congr _ _ _ _ _ _ ?_ hs.2⟩
      intro d hd a b hab
      exact (ih d (hk d hd)).2.2.2 a b hab

/-- The leaves of an ordered subtree are leaves, and its other pages are internal
nodes. -/
theorem Sub_leaves (sh : Nat → Nat × List (Nat × Nat)) : ∀ (h p lo hi : Nat),
    Sub sh h p lo hi → ∀ q ∈ leavesOf sh h p, (sh q).1 = 0 := by
  intro h
  induction h with
  | zero =>
    intro p lo hi hs q hq
    rw [List.mem_singleton.1 hq]
    exact hs.1
  | succ h ih =>
    intro p lo hi hs q hq
    rw [leavesOf_succ, List.mem_flatMap] at hq
    obtain ⟨d, hd, hqd⟩ := hq
    rw [Sub_succ] at hs
    -- every kid is an ordered subtree for some bounds
    have : ∀ (es : List (Nat × Nat)) (c lo hi : Nat), Kids (Sub sh h) c lo es hi →
        ∀ d ∈ c :: es.map Prod.snd, ∃ a b, Sub sh h d a b := by
      intro es
      induction es with
      | nil =>
        intro c lo hi hk d hd
        rw [List.map_nil, List.mem_singleton] at hd
        rw [hd]; exact ⟨_, _, hk.2⟩
      | cons e es ihe =>
        intro c lo hi hk d hd
        rcases List.mem_cons.1 hd with h1 | h1
        · rw [h1]; exact ⟨_, _, hk.2.1⟩
        · exact ihe _ _ _ hk.2.2 d (by simpa using h1)
    obtain ⟨a, b, hab⟩ := this _ _ _ _ hs.2 d hd
    exact ih d a b hab q hqd

theorem leavesOf_sublist (sh : Nat → Nat × List (Nat × Nat)) : ∀ (h p : Nat),
    (leavesOf sh h p).Sublist (pagesOf sh h p) := by
  intro h
  induction h with
  | zero => intro p; exact List.Sublist.refl _
  | succ h ih =>
    intro p
    rw [leavesOf_succ, pagesOf_succ]
    apply List.Sublist.cons
    generalize kids (sh p) = l
    induction l with
    | nil => exact List.Sublist.refl _
    | cons a l ihl =>
      rw [List.flatMap_cons, List.flatMap_cons]
      exact List.Sublist.append (ih a) ihl

theorem height_lt_pages (sh : Nat → Nat × List (Nat × Nat)) : ∀ (h p : Nat),
    h + 1 ≤ (pagesOf sh h p).length := by
  intro h
  induction h with
  | zero => intro p; simp [pagesOf]
  | succ h ih =>
    intro p
    rw [pagesOf_succ, List.length_cons]
    have : kids (sh p) = (sh p).1 :: (sh p).2.map Prod.snd := rfl
    rw [this, List.flatMap_cons, List.length_append]
    have := ih (sh p).1
    omega

theorem shapes_setPage (db : ham_db_t) (p : Nat) (n : btree_node_t) (q : Nat) :
    shapes (db.setPage p n) q = if q = p then shape n else shapes db q := by
  unfold shapes
  rw [setPage_pages]
  split_ifs <;> rfl

theorem shape_fst (n : btree_node_t) : (shape n).1 = n.ptr_left := rfl

theorem shape_keys (n : btree_node_t) :
    (shape n).2.map Prod.fst = n.entries.map (fun e => e.key) := by
  unfold shape
  simp only [List.map_map]
  rfl

theorem shape_kids (n : btree_node_t) (h : n.ptr_left ≠ 0) :
    (shape n).2.map Prod.snd = n.entries.map (fun e => e.ptr) := by
  unfold shape
  simp only [List.map_map, if_neg h]
  rfl

theorem shapes_split_db (db : ham_db_t) (p pl : Nat) (old new : List int_key_t)
    (hne : p ≠ db.next) (q : Nat) :
    shapes (split_db db p pl old new) q =
      if q = p then shape ⟨(db.pages p).ptr_left, 0, 0, old⟩
      else if q = db.next then shape ⟨pl, 0, 0, new⟩
      else shapes db q := by
  unfold shapes
  rw [split_db_pages _ _ _ _ _ hne]
  by_cases h0 : (db.pages p).right ≠ 0 ∧ q = (db.pages p).right
  · rw [if_pos h0]
    by_cases h1 : q = p
    · simp only [h1, if_true]; rfl
    · by_cases h2 : q = db.next
      · simp only [h2, if_true, if_neg (Ne.symm hne)]; rfl
      · simp only [h1, h2, if_false]; rfl
  · rw [if_neg h0]
    by_cases h1 : q = p
    · simp only [h1, if_true]; rfl
    · by_cases h2 : q = db.next
      · simp only [h2, if_true, if_neg (Ne.symm hne)]; rfl
      · simp only [h1, h2, if_false]

theorem split_db_ptr_left (db : ham_db_t) (p pl : Nat) (old new : List int_key_t)
    (hne : p ≠ db.next) (q : Nat) (hq : q ≠ db.next) :
    ((split_db db p pl old new).pages q).ptr_left = (db.pages q).ptr_left := by
  have := congrArg Prod.fst (shapes_split_db db p pl old new hne q)
  unfold shapes at this
  rw [shape_fst] at this
  rw [this]
  by_cases h1 : q = p
  · rw [if_pos h1, h1]; rfl
  · rw [if_neg h1, if_neg hq]; rfl

/-- A split keeps the right links of the internal nodes among internal nodes. -/
theorem ilinks_split (db : ham_db_t) (p pl : Nat) (old new : List int_key_t)
    (hp : p < db.next) (hil : InternalLinks db.pages db.next)
    (hpl : pl = 0 ↔ (db.pages p).ptr_left = 0) :
    InternalLinks (split_db db p pl old new).pages (db.next + 1) := by
  have hne : p ≠ db.next := by omega
  intro q hq hint
  by_cases hqn : q = db.next
  · -- the new page
    have hpn : ((split_db db p pl old new).pages db.next).ptr_left = pl := by
      have := congrArg Prod.fst (shapes_split_db db p pl old new hne db.next)
      unfold shapes at this
      rw [shape_fst, if_neg (Ne.symm hne), if_pos rfl] at this
      exact this
    rw [hqn, hpn] at hint
    have hpi : (db.pages p).ptr_left ≠ 0 := fun h => hint (hpl.2 h)
    have hright : ((split_db db p pl old new).pages db.next).right = (db.pages p).right := by
      rw [split_db_pages _ _ _ _ _ hne]
      by_cases h0 : (db.pages p).right ≠ 0 ∧ db.next = (db.pages p).right
      · rw [if_pos h0]
        simp only [if_neg (Ne.symm hne), if_true]
      · rw [if_neg h0, if_neg (Ne.symm hne), if_pos rfl]
    rw [hqn, hright]
    rcases hil p hp hpi with h | ⟨h1, h2⟩
    · left; exact h
    · right
      refine ⟨by omega, ?_⟩
      rw [split_db_ptr_left _ _ _ _ _ hne _ (by omega)]
      exact h2
  · have hq2 : q < db.next := by omega
    rw [split_db_ptr_left _ _ _ _ _ hne _ hqn] at hint
    by_cases hqp : q = p
    · -- the old page links to the new one
      have hright : ((split_db db p pl old new).pages q).right = db.next := by
        rw [split_db_pages _ _ _ _ _ hne]
        by_cases h0 : (db.pages p).right ≠ 0 ∧ q = (db.pages p).right
        · rw [if_pos h0]
          simp only [hqp, if_true]
        · rw [if_neg h0, if_pos hqp]
      have hpn : ((split_db db p pl old new).pages db.next).ptr_left = pl := by
        have := congrArg Prod.fst (shapes_split_db db p pl old new hne db.next)
        unfold shapes at this
        rw [shape_fst, if_neg (Ne.symm hne), if_pos rfl] at this
        exact this
      right
      rw [hright, hpn]
      refine ⟨by omega, ?_⟩
      intro h
      rw [hqp] at hint
      exact hint (hpl.1 h)
    · have hright : ((split_db db p pl old new).pages q).right = (db.pages q).right := by
        rw [split_db_pages _ _ _ _ _ hne]
        by_cases h0 : (db.pages p).right ≠ 0 ∧ q = (db.pages p).right
        · rw [if_pos h0]
          simp only [if_neg hqp, if_neg hqn]
        · rw [if_neg h0, if_neg hqp, if_neg hqn]
      rw [hright]
      rcases hil q hq2 hint with h | ⟨h1, h2⟩
      · left; exact h
      · right
        refine ⟨by omega, ?_⟩
        rw [split_db_ptr_left _ _ _ _ _ hne _ (by omega)]
        exact h2

/-- A store of entries into a page keeps the links. -/
theorem ilinks_entries (db : ham_db_t) (p : Nat) (es : List int_key_t)
    (hil : InternalLinks db.pages db.next) :
    InternalLinks (db.setPage p (set_entries (db.pages p) es)).pages db.next := by
  have hpl : ∀ q, ((db.setPage p (set_entries (db.pages p) es)).pages q).ptr_left
      = (db.pages q).ptr_left := by
    intro q
    rw [setPage_pages]
    split_ifs with h
    · rw [h]; rfl
    · rfl
  have hr : ∀ q, ((db.setPage p (set_entries (db.pages p) es)).pages q).right
      = (db.pages q).right := by
    intro q
    rw [setPage_pages]
    split_ifs with h
    · rw [h]; rfl
    · rfl
  intro q hq hint
  rw [hpl] at hint
  rw [hr, hpl]
  exact hil q hq hint

/-- The links of the leaves after the split of the leaf `p`. -/
theorem linkeff_split_leaf (db : ham_db_t) (p : Nat) (old new : List int_key_t)
    (hp : p < db.next) :
    LinkEff db.pages (split_db db p 0 old new).pages db.next [p] [p, db.next] := by
  have hne : p ≠ db.next := by omega
  right
  refine ⟨[], [], p, rfl, rfl, ?_, ?_, ?_, ?_⟩
  · have := congrArg Prod.fst (shapes_split_db db p 0 old new hne db.next)
    unfold shapes at this
    rw [shape_fst, if_neg (Ne.symm hne), if_pos rfl] at this
    exact this
  · intro hR
    rw [split_db_pages _ _ _ _ _ hne]
    rw [if_neg (fun h0 => hR h0.2.symm), if_neg (Ne.symm hne), if_pos rfl]
  · rw [split_db_pages _ _ _ _ _ hne]
    by_cases h0 : (db.pages p).right ≠ 0 ∧ db.next = (db.pages p).right
    · rw [if_pos h0]
      simp only [if_neg (Ne.symm hne), if_true]
    · rw [if_neg h0, if_neg (Ne.symm hne), if_pos rfl]
  · intro q hq _
    have hqn : q ≠ db.next := by omega
    rw [split_db_pages _ _ _ _ _ hne]
    by_cases h0 : (db.pages p).right ≠ 0 ∧ q = (db.pages p).right
    · rw [if_pos h0, if_pos h0]
      by_cases hqp : q = p
      · simp [hqp]
      · simp [hqp, hqn]
    · rw [if_neg h0, if_neg h0]
      by_cases hqp : q = p
      · simp [hqp]
      · simp [hqp, hqn]

theorem pivot_bounds (f count : Nat) (h : 2 ≤ count) :
    1 ≤ pivot_index f count ∧ pivot_index f count < count := by
  unfold pivot_index
  split_ifs with h1
  · omega
  · omega

theorem split_old_ne_nil (E : List int_key_t) (pv : Nat) (x : int_key_t) (h1 : 1 ≤ pv)
    (h2 : pv < E.length) : split_old E pv x ≠ [] := by
  unfold split_old
  split_ifs
  · intro h
    have := congrArg List.length h
    rw [List.length_take] at this
    simp only [List.length_nil] at this
    omega
  · unfold put
    simp

theorem extra_of_zero (sp : insert_scratchpad_t) : extra_of 0 sp = [] := by
  unfold extra_of SPLIT
  rw [if_neg (by decide)]

theorem extra_of_split (sp : insert_scratchpad_t) : extra_of SPLIT sp = [(sp.key, sp.rid)] := by
  unfold extra_of
  rw [if_pos rfl]

theorem keysOf_zero (sh : Nat → Nat × List (Nat × Nat)) (p : Nat) :
    keysOf sh 0 p = (sh p).2.map Prod.fst := rfl

theorem pagesOf_zero (sh : Nat → Nat × List (Nat × Nat)) (p : Nat) : pagesOf sh 0 p = [p] := rfl

theorem leavesOf_zero (sh : Nat → Nat × List (Nat × Nat)) (p : Nat) : leavesOf sh 0 p = [p] := rfl

/-- The leaf case of `my_insert_recursive`: the outcome of `my_insert_in_page` on a leaf
that does not hold the key. -/
theorem leaf_outcome (db : ham_db_t) (p key rid flags : Nat) (sp : insert_scratchpad_t)
    (lo hi : Nat) (hmax : 2 ≤ db.maxkeys) (hs : Sub (shapes db) 0 p lo hi)
    (hp : p < db.next) (hil : InternalLinks db.pages db.next)
    (hlo : lo ≤ key) (hhi : key < hi) (hx : key ∉ keysOf (shapes db) 0 p) :
    Outcome db 0 p lo hi key (my_insert_in_page db p key rid flags sp) := by
  rw [Sub_zero] at hs
  obtain ⟨hleaf, hsorted, hbound⟩ := hs
  rw [keysOf_zero] at hx
  have hsh : shapes db p = shape (db.pages p) := rfl
  rw [hsh] at hleaf hsorted hbound hx
  rw [shape_fst] at hleaf
  rw [shape_keys] at hsorted hbound hx
  have hlf : btree_node_is_leaf (db.pages p) = true := by
    unfold btree_node_is_leaf; simpa using hleaf
  have hne : p ≠ db.next := by omega
  -- the keys with the new one
  have hVs := put_sorted (new_entry true key rid sp.record) (db.pages p).entries hsorted hx
  have hVp := put_keys_perm (new_entry true key rid sp.record) (db.pages p).entries
  have hVb : ∀ k ∈ (put (new_entry true key rid sp.record) (db.pages p).entries).map
      (fun e => e.key), lo ≤ k ∧ k < hi := by
    intro k hk
    rcases List.mem_cons.1 (hVp.mem_iff.1 hk) with h | h
    · rw [h]; exact ⟨hlo, hhi⟩
    · exact hbound k h
  by_cases hroom : (db.pages p).entries.length < db.maxkeys
  · rw [in_page_room db p key rid flags sp hsorted hx hroom, hlf]
    unfold Outcome
    simp only [extra_of_zero, List.map_nil, List.flatMap_cons, List.flatMap_nil,
      List.append_nil, keysOf_zero, pagesOf_zero, leavesOf_zero]
    have hshp : shapes (db.setPage p (set_entries (db.pages p)
        (put (new_entry true key rid sp.record) (db.pages p).entries))) p
        = shape (set_entries (db.pages p)
          (put (new_entry true key rid sp.record) (db.pages p).entries)) := by
      rw [shapes_setPage, if_pos rfl]
    refine ⟨fun _ => Or.inl trivial, fun _ => ⟨le_refl _, rfl, rfl, rfl, rfl, ?_, ?_,
      ilinks_entries db p _ hil, ?_, ?_, List.nodup_singleton _, ?_, ?_⟩⟩
    · intro q _ hq
      rw [shapes_setPage, if_neg (by simpa using hq)]
    · intro q _
      rw [setPage_pages]
      split_ifs with h
      · rw [h]; rfl
      · rfl
    · refine ⟨by omega, ?_⟩
      rw [Sub_zero, hshp, shape_fst, shape_keys]
      exact ⟨hleaf, hVs, hVb⟩
    · rw [hshp, shape_keys, hsh, shape_keys]
      exact hVp
    · intro q hq
      left; exact hq
    · left
      refine ⟨rfl, ?_⟩
      intro q _ _
      rw [setPage_pages]
      split_ifs with h
      · rw [h]; exact ⟨rfl, rfl⟩
      · exact ⟨rfl, rfl⟩
  · rw [in_page_full db p key rid flags sp hx hroom]
    by_cases hav : db.avail db.next = true
    · rw [split_eq db p key rid flags sp hav hne hsorted hx (by
        intro h; rw [hlf] at h; exact absurd h (by decide)), hlf]
      simp only [↓reduceIte]
      obtain ⟨hpv1, hpv2⟩ := pivot_bounds db.rt_flags (db.pages p).entries.length (by omega)
      generalize hpv : pivot_index db.rt_flags (db.pages p).entries.length = pv at *
      obtain ⟨hsplit, t, ht⟩ := split_leaf_lists (db.pages p).entries pv
        (new_entry true key rid sp.record) hpv2 hsorted
      have hold := split_old_ne_nil (db.pages p).entries pv
        (new_entry true key rid sp.record) hpv1 hpv2
      generalize hO : split_old (db.pages p).entries pv (new_entry true key rid sp.record)
        = old at *
      generalize hN : split_new true (db.pages p).entries pv
        (new_entry true key rid sp.record) = new at *
      generalize he : (db.pages p).entries.getD pv default = e at *
      rw [← hsplit, ht] at hVs hVp hVb
      rw [List.map_append, List.map_cons] at hVs hVp hVb
      rw [List.pairwise_append, List.pairwise_cons] at hVs
      obtain ⟨so, ⟨st1, st2⟩, sot⟩ := hVs
      have hlt : lo < e.key ∧ e.key < hi := by
        obtain ⟨a, ha⟩ := List.exists_mem_of_ne_nil old hold
        have h1 := hVb a.key (List.mem_append_left _ (List.mem_map_of_mem _ ha))
        have h2 := sot a.key (List.mem_map_of_mem _ ha) e.key (List.mem_cons_self _ _)
        have h3 := hVb e.key (List.mem_append_right _ (List.mem_cons_self _ _))
        omega
      have hshp : shapes (split_db db p 0 old new) p = shape ⟨(db.pages p).ptr_left, 0, 0, old⟩ := by
        rw [shapes_split_db _ _ _ _ _ hne, if_pos rfl]
      have hshn : shapes (split_db db p 0 old new) db.next = shape ⟨0, 0, 0, new⟩ := by
        rw [shapes_split_db _ _ _ _ _ hne, if_neg (Ne.symm hne), if_pos rfl]
      unfold Outcome
      simp only [extra_of_split, List.map_cons, List.map_nil, List.flatMap_cons,
        List.flatMap_nil, List.append_nil, keysOf_zero, pagesOf_zero, leavesOf_zero,
        (split_db_fields db p 0 old new).1, List.singleton_append]
      refine ⟨fun _ => Or.inr trivial, fun _ => ⟨by omega, (split_db_fields db p 0 old new).2.1,
        (split_db_fields db p 0 old new).2.2.1, (split_db_fields db p 0 old new).2.2.2.1,
        (split_db_fields db p 0 old new).2.2.2.2, ?_, ?_, ?_, ?_, ?_, ?_, ?_,
        linkeff_split_leaf db p old new hp⟩⟩
      · intro q hq1 hq2
        rw [shapes_split_db _ _ _ _ _ hne, if_neg (by simpa using hq2), if_neg (by omega)]
      · intro q hq
        exact split_db_ptr_left _ _ _ _ _ hne _ (by omega)
      · exact ilinks_split db p 0 old new hp hil (by simp [hleaf])
      · refine ⟨hlt.1, ?_, hlt.2, ?_⟩
        · rw [Sub_zero, hshp, shape_fst, shape_keys]
          refine ⟨hleaf, so, ?_⟩
          intro k hk
          have h1 := hVb k (List.mem_append_left _ hk)
          have h2 := sot k hk e.key (List.mem_cons_self _ _)
          exact ⟨h1.1, h2⟩
        · rw [Sub_zero, hshn, shape_fst, shape_keys, ht, List.map_cons, List.pairwise_cons]
          refine ⟨rfl, ⟨st1, st2⟩, ?_⟩
          intro k hk
          have h1 := hVb k (List.mem_append_right _ hk)
          refine ⟨?_, h1.2⟩
          rcases List.mem_cons.1 hk with h | h
          · omega
          · have := st1 k h; omega
      · rw [hshp, hshn, shape_keys, shape_keys, hsh, shape_keys, ht, List.map_cons]
        exact hVp
      · rw [List.nodup_cons]
        exact ⟨by simpa using hne, List.nodup_singleton _⟩
      · intro q hq
        rcases List.mem_cons.1 hq with h | h
        · left; rw [h]; exact List.mem_singleton.2 rfl
        · right
          rw [List.mem_singleton.1 h]
          omega
    · have hav2 : db.avail db.next = false := by simpa using hav
      rw [split_fail db p key rid flags sp hav2]
      unfold Outcome HAM_OUT_OF_MEMORY SPLIT
      refine ⟨fun h => ?_, fun h => ?_⟩
      · rw [h db.next] at hav2
        exact absurd hav2 (by decide)
      · simp only at h
        rcases h with h | h
        · exact absurd h (by decide)
        · exact absurd h (by decide)

/-- The kids of a node read the same in a heap of shapes that agrees with the old
one on their subtrees. -/
theorem kids_congr (sh sh2 : Nat → Nat × List (Nat × Nat)) (h : Nat) (ks : List Nat)
    (hag : ∀ d ∈ ks, ∀ q ∈ pagesOf sh h d, sh2 q = sh q) :
    ks.flatMap (pagesOf sh2 h) = ks.flatMap (pagesOf sh h) ∧
    ks.flatMap (leavesOf sh2 h) = ks.flatMap (leavesOf sh h) ∧
    ks.flatMap (keysOf sh2 h) = ks.flatMap (keysOf sh h) ∧
    ∀ d ∈ ks, ∀ a b, Sub sh h d a b → Sub sh2 h d a b :=
  ⟨flatMap_eq_of_mem _ _ _ (fun d hd => (tree_congr sh sh2 h d (hag d hd)).1),
   flatMap_eq_of_mem _ _ _ (fun d hd => (tree_congr sh sh2 h d (hag d hd)).2.1),
   flatMap_eq_of_mem _ _ _ (fun d hd => (tree_congr sh sh2 h d (hag d hd)).2.2.1),
   fun d hd => (tree_congr sh sh2 h d (hag d hd)).2.2.2⟩

/-- A node that takes the items `V`: its subtree is ordered and consists of the
subtrees of its kids. -/
theorem node_room (sh sh2 : Nat → Nat × List (Nat × Nat)) (h p c0 lo hi : Nat)
    (V : List (Nat × Nat)) (hc0 : c0 ≠ 0)
    (hk : Kids (Sub sh h) c0 lo V hi) (hp : sh2 p = (c0, V))
    (hag : ∀ d ∈ c0 :: V.map Prod.snd, ∀ q ∈ pagesOf sh h d, sh2 q = sh q) :
    Sub sh2 (h + 1) p lo hi ∧
    keysOf sh2 (h + 1) p = (c0 :: V.map Prod.snd).flatMap (keysOf sh h) ∧
    pagesOf sh2 (h + 1) p = p :: (c0 :: V.map Prod.snd).flatMap (pagesOf sh h) ∧
    leavesOf sh2 (h + 1) p = (c0 :: V.map Prod.snd).flatMap (leavesOf sh h) := by
  obtain ⟨c1, c2, c3, c4⟩ := kids_congr sh sh2 h _ hag
  have hkids : kids (sh2 p) = c0 :: V.map Prod.snd := by rw [hp]; rfl
  refine ⟨?_, ?_, ?_, ?_⟩
  · rw [Sub_succ, hp]
    exact ⟨hc0, Kids_congr _ _ _ _ _ _ c4 hk⟩
  · rw [keysOf_succ, hkids, c3]
  · rw [pagesOf_succ, hkids, c1]
  · rw [leavesOf_succ, hkids, c2]

/-- A node that is split while it takes the items `old ++ e :: new`: the old page with
`old` and the new page `n1` with the child of `e` as `ptr_left` and `new` are ordered
subtrees on both sides of the key of `e`. -/
theorem node_split (sh sh2 : Nat → Nat × List (Nat × Nat)) (h p n1 c0 lo hi : Nat)
    (old new : List (Nat × Nat)) (e : Nat × Nat) (hc0 : c0 ≠ 0) (he : e.2 ≠ 0)
    (hk : Kids (Sub sh h) c0 lo (old ++ e :: new) hi)
    (hp : sh2 p = (c0, old)) (hn : sh2 n1 = (e.2, new))
    (hag : ∀ d ∈ c0 :: (old ++ e :: new).map Prod.snd, ∀ q ∈ pagesOf sh h d, sh2 q = sh q) :
    Kids (Sub sh2 (h + 1)) p lo [(e.1, n1)] hi ∧
    keysOf sh2 (h + 1) p ++ keysOf sh2 (h + 1) n1
      = (c0 :: (old ++ e :: new).map Prod.snd).flatMap (keysOf sh h) ∧
    pagesOf sh2 (h + 1) p ++ pagesOf sh2 (h + 1) n1
      = p :: ((c0 :: old.map Prod.snd).flatMap (pagesOf sh h) ++
          n1 :: (e.2 :: new.map Prod.snd).flatMap (pagesOf sh h)) ∧
    leavesOf sh2 (h + 1) p ++ leavesOf sh2 (h + 1) n1
      = (c0 :: (old ++ e :: new).map Prod.snd).flatMap (leavesOf sh h) := by
  have hsplit : c0 :: (old ++ e :: new).map Prod.snd
      = (c0 :: old.map Prod.snd) ++ (e.2 :: new.map Prod.snd) := by simp
  have hk2 := (Kids_append _ old e new c0 lo hi).1 hk
  obtain ⟨a1, a2, a3, a4⟩ := node_room sh sh2 h p c0 lo e.1 old hc0 hk2.1 hp (by
    intro d hd
    apply hag d
    rw [hsplit]
    exact List.mem_append_left _ hd)
  obtain ⟨b1, b2, b3, b4⟩ := node_room sh sh2 h n1 e.2 e.1 hi new he hk2.2 hn (by
    intro d hd
    apply hag d
    rw [hsplit]
    exact List.mem_append_right _ hd)
  refine ⟨⟨Kids_lt _ _ _ _ _ hk2.1, a1, Kids_lt _ _ _ _ _ hk2.2, b1⟩, ?_, ?_, ?_⟩
  · rw [a2, b2, hsplit, List.flatMap_append]
  · rw [a3, b3]; rfl
  · rw [a4, b4, hsplit, List.flatMap_append]

/-- The child in front of the entries `B`: it is ordered up to the first key of `B`
(or the upper bound), and entries that divide its range can be put behind it. -/
theorem Kids_first (S : Nat → Nat → Nat → Prop) (B : List (Nat × Nat)) (c lo hi : Nat)
    (h : Kids S c lo B hi) :
    lo < (B.map Prod.fst).headD hi ∧ S c lo ((B.map Prod.fst).headD hi) ∧
    ∀ (T : Nat → Nat → Nat → Prop) (extra : List (Nat × Nat)),
      (∀ d ∈ B.map Prod.snd, ∀ a b, S d a b → T d a b) →
      Kids T c lo extra ((B.map Prod.fst).headD hi) → Kids T c lo (extra ++ B) hi := by
  cases B with
  | nil =>
    refine ⟨h.1, h.2, ?_⟩
    intro T extra _ hx
    rw [List.append_nil]
    exact hx
  | cons b B =>
    refine ⟨h.1, h.2.1, ?_⟩
    intro T extra hB hx
    exact (Kids_append T extra b B c lo hi).2 ⟨hx, Kids_congr S T B b.2 b.1 hi hB h.2.2⟩

/-- The child that the descent for `key` takes in a node whose entries `A` have keys
up to `key` and whose entries `B` have greater keys. -/
theorem Kids_focus (S : Nat → Nat → Nat → Prop) (A B : List (Nat × Nat))
    (c0 lo hi key : Nat) (hk : Kids S c0 lo (A ++ B) hi)
    (hA : ∀ k ∈ A.map Prod.fst, k ≤ key) (hlo : lo ≤ key) :
    ∃ K1 c lo_c, c0 :: A.map Prod.snd = K1 ++ [c] ∧ lo ≤ lo_c ∧ lo_c ≤ key ∧
      (∀ k ∈ A.map Prod.fst, k ≤ lo_c) ∧
      c = (A.getLast?.map Prod.snd).getD c0 ∧
      lo_c < (B.map Prod.fst).headD hi ∧ S c lo_c ((B.map Prod.fst).headD hi) ∧
      ∀ (T : Nat → Nat → Nat → Prop) (extra : List (Nat × Nat)),
        (∀ d ∈ K1 ++ B.map Prod.snd, ∀ a b, S d a b → T d a b) →
        Kids T c lo_c extra ((B.map Prod.fst).headD hi) →
        Kids T c0 lo (A ++ extra ++ B) hi := by
  rcases List.eq_nil_or_concat A with hnil | ⟨A1, a, hcons⟩
  · subst hnil
    obtain ⟨f1, f2, f3⟩ := Kids_first S B c0 lo hi (by simpa using hk)
    refine ⟨[], c0, lo, rfl, le_refl _, hlo, by simp, rfl, f1, f2, ?_⟩
    intro T extra hT hx
    simpa using f3 T extra (fun d hd => hT d (by simpa using hd)) hx
  · rw [List.concat_eq_append] at hcons
    subst hcons
    have hk1 : Kids S c0 lo (A1 ++ a :: B) hi := by simpa using hk
    obtain ⟨g1, g2⟩ := (Kids_append S A1 a B c0 lo hi).1 hk1
    obtain ⟨f1, f2, f3⟩ := Kids_first S B a.2 a.1 hi g2
    obtain ⟨s1, s2⟩ := Kids_sorted S _ _ _ _ hk1
    have hlast : ∀ k ∈ (A1 ++ [a]).map Prod.fst, k ≤ a.1 := by
      intro k hkm
      rw [List.map_append, List.map_cons, List.map_nil, List.mem_append] at hkm
      rcases hkm with h1 | h1
      · rw [List.map_append, List.map_cons, List.pairwise_append] at s1
        exact le_of_lt (s1.2.2 k h1 a.1 (List.mem_cons_self _ _))
      · rw [List.mem_singleton.1 h1]
    refine ⟨c0 :: A1.map Prod.snd, a.2, a.1, by simp,
      le_of_lt (Kids_lt S _ _ _ _ g1), hA a.1 (by simp), hlast, by simp, f1, f2, ?_⟩
    intro T extra hT hx
    have h3 := f3 T extra (fun d hd => hT d (List.mem_append_right _ hd)) hx
    have h4 : Kids T c0 lo A1 a.1 := Kids_congr S T A1 c0 lo a.1 (fun d hd =>
      hT d (List.mem_append_left _ hd)) g1
    have := (Kids_append T A1 a (extra ++ B) c0 lo hi).2 ⟨h4, h3⟩
    simpa using this

theorem nodup_replace (X P P1 Y : List Nat) (F : Nat → Prop)
    (h : (X ++ P ++ Y).Nodup) (h1 : P1.Nodup) (hm : ∀ q ∈ P1, q ∈ P ∨ F q)
    (hf : ∀ q ∈ X ++ Y, ¬ F q) : (X ++ P1 ++ Y).Nodup := by
  rw [List.append_assoc, List.nodup_append] at h ⊢
  obtain ⟨hX, hPY, hd⟩ := h
  rw [List.nodup_append] at hPY ⊢
  obtain ⟨hP, hY, hd2⟩ := hPY
  refine ⟨hX, ⟨h1, hY, ?_⟩, ?_⟩
  · intro q hq1 hq2
    rcases hm q hq1 with h3 | h3
    · exact hd2 h3 hq2
    · exact hf q (List.mem_append_right _ hq2) h3
  · intro q hq1 hq2
    rcases List.mem_append.1 hq2 with h3 | h3
    · rcases hm q h3 with h4 | h4
      · exact hd hq1 (List.mem_append_left _ h4)
      · exact hf q (List.mem_append_left _ hq1) h4
    · exact hd hq1 (List.mem_append_right _ h3)

theorem linkeff_frame (pages pages1 : Nat → btree_node_t) (next : Nat)
    (ls ls1 X Y : List Nat) (h : LinkEff pages pages1 next ls ls1) :
    LinkEff pages pages1 next (X ++ ls ++ Y) (X ++ ls1 ++ Y) := by
  rcases h with ⟨h1, h2⟩ | ⟨A, B, L, h1, h2, h3⟩
  · left
    exact ⟨by rw [h1], h2⟩
  · right
    refine ⟨X ++ A, B ++ Y, L, ?_, ?_, h3⟩
    · rw [h1]; simp
    · rw [h2]; simp

/-- The node above a child after the insert below the child: the entries `extra`
that the child hands up are put behind it. -/
theorem merge_child (db db1 : ham_db_t) (h p c c0 lo hi lo_c ub key : Nat) (K1 : List Nat)
    (A B extra : List (Nat × Nat))
    (hshp : shapes db p = (c0, A ++ B))
    (hK1 : c0 :: A.map Prod.snd = K1 ++ [c])
    (hnd : (pagesOf (shapes db) (h + 1) p).Nodup)
    (hrange : ∀ q ∈ pagesOf (shapes db) (h + 1) p, 0 < q ∧ q < db.next)
    (hfocus : ∀ (T : Nat → Nat → Nat → Prop) (extra : List (Nat × Nat)),
      (∀ d ∈ K1 ++ B.map Prod.snd, ∀ a b, Sub (shapes db) h d a b → T d a b) →
      Kids T c lo_c extra ub → Kids T c0 lo (A ++ extra ++ B) hi)
    (hframe : ∀ q, q < db.next → q ∉ pagesOf (shapes db) h c → shapes db1 q = shapes db q)
    (hkids : Kids (Sub (shapes db1) h) c lo_c extra ub)
    (hperm : ((c :: extra.map Prod.snd).flatMap (keysOf (shapes db1) h)).Perm
      (key :: keysOf (shapes db) h c))
    (hnd1 : ((c :: extra.map Prod.snd).flatMap (pagesOf (shapes db1) h)).Nodup)
    (hmem : ∀ q ∈ (c :: extra.map Prod.snd).flatMap (pagesOf (shapes db1) h),
      q ∈ pagesOf (shapes db) h c ∨ (db.next ≤ q ∧ q < db1.next))
    (hlink : LinkEff db.pages db1.pages db.next (leavesOf (shapes db) h c)
      ((c :: extra.map Prod.snd).flatMap (leavesOf (shapes db1) h))) :
    shapes db1 p = shapes db p ∧
    Kids (Sub (shapes db1) h) c0 lo (A ++ extra ++ B) hi ∧
    ((c0 :: (A ++ extra ++ B).map Prod.snd).flatMap (keysOf (shapes db1) h)).Perm
      (key :: keysOf (shapes db) (h + 1) p) ∧
    (p :: (c0 :: (A ++ extra ++ B).map Prod.snd).flatMap (pagesOf (shapes db1) h)).Nodup ∧
    (∀ q ∈ (c0 :: (A ++ extra ++ B).map Prod.snd).flatMap (pagesOf (shapes db1) h),
      q ∈ pagesOf (shapes db) (h + 1) p ∨ (db.next ≤ q ∧ q < db1.next)) ∧
    LinkEff db.pages db1.pages db.next (leavesOf (shapes db) (h + 1) p)
      ((c0 :: (A ++ extra ++ B).map Prod.snd).flatMap (leavesOf (shapes db1) h)) := by
  have hkidsP : kids (shapes db p) = K1 ++ [c] ++ B.map Prod.snd := by
    rw [hshp]
    show c0 :: (A ++ B).map Prod.snd = _
    rw [List.map_append, ← List.cons_append, hK1]
  have hkidsV : c0 :: (A ++ extra ++ B).map Prod.snd
      = K1 ++ (c :: extra.map Prod.snd) ++ B.map Prod.snd := by
    rw [List.map_append, List.map_append, ← List.cons_append, ← List.cons_append, hK1]
    simp
  have hpages : pagesOf (shapes db) (h + 1) p = p :: (K1.flatMap (pagesOf (shapes db) h) ++
      pagesOf (shapes db) h c ++ (B.map Prod.snd).flatMap (pagesOf (shapes db) h)) := by
    rw [pagesOf_succ, hkidsP]
    simp
  have hkeys : keysOf (shapes db) (h + 1) p = K1.flatMap (keysOf (shapes db) h) ++
      keysOf (shapes db) h c ++ (B.map Prod.snd).flatMap (keysOf (shapes db) h) := by
    rw [keysOf_succ, hkidsP]
    simp
  have hleaves : leavesOf (shapes db) (h + 1) p = K1.flatMap (leavesOf (shapes db) h) ++
      leavesOf (shapes db) h c ++ (B.map Prod.snd).flatMap (leavesOf (shapes db) h) := by
    rw [leavesOf_succ, hkidsP]
    simp
  rw [hpages] at hnd hrange
  rw [List.nodup_cons] at hnd
  obtain ⟨hpn, hnd2⟩ := hnd
  -- the subtrees of the other kids are untouched
  have hother : ∀ d ∈ K1 ++ B.map Prod.snd, ∀ q ∈ pagesOf (shapes db) h d,
      shapes db1 q = shapes db q := by
    intro d hd q hq
    have hd2 := hnd2
    rw [List.append_assoc, List.nodup_append] at hd2
    obtain ⟨_, hcy, hdis⟩ := hd2
    rw [List.nodup_append] at hcy
    have hq1 : q ∈ K1.flatMap (pagesOf (shapes db) h) ++
        pagesOf (shapes db) h c ++ (B.map Prod.snd).flatMap (pagesOf (shapes db) h) := by
      rcases List.mem_append.1 hd with h1 | h1
      · exact List.mem_append_left _ (List.mem_append_left _ (List.mem_flatMap.2 ⟨d, h1, hq⟩))
      · exact List.mem_append_right _ (List.mem_flatMap.2 ⟨d, h1, hq⟩)
    apply hframe q (hrange q (List.mem_cons_of_mem _ hq1)).2
    intro hqc
    rcases List.mem_append.1 hd with h1 | h1
    · exact hdis (List.mem_flatMap.2 ⟨d, h1, hq⟩) (List.mem_append_left _ hqc)
    · exact hcy.2.2 hqc (List.mem_flatMap.2 ⟨d, h1, hq⟩)
  obtain ⟨x1, x2, x3, _⟩ := kids_congr (shapes db) (shapes db1) h K1
    (fun d hd => hother d (List.mem_append_left _ hd))
  obtain ⟨y1, y2, y3, _⟩ := kids_congr (shapes db) (shapes db1) h (B.map Prod.snd)
    (fun d hd => hother d (List.mem_append_right _ hd))
  have hsub : ∀ d ∈ K1 ++ B.map Prod.snd, ∀ a b, Sub (shapes db) h d a b →
      Sub (shapes db1) h d a b :=
    fun d hd => (tree_congr (shapes db) (shapes db1) h d (hother d hd)).2.2.2
  have hfresh : ∀ q ∈ K1.flatMap (pagesOf (shapes db) h) ++
      (B.map Prod.snd).flatMap (pagesOf (shapes db) h), ¬ (db.next ≤ q ∧ q < db1.next) := by
    intro q hq hf
    have : q ∈ K1.flatMap (pagesOf (shapes db) h) ++
        pagesOf (shapes db) h c ++ (B.map Prod.snd).flatMap (pagesOf (shapes db) h) := by
      rcases List.mem_append.1 hq with h1 | h1
      · exact List.mem_append_left _ (List.mem_append_left _ h1)
      · exact List.mem_append_right _ h1
    have := (hrange q (List.mem_cons_of_mem _ this)).2
    omega
  refine ⟨?_, hfocus _ extra hsub hkids, ?_, ?_, ?_, ?_⟩
  · apply hframe p (hrange p (List.mem_cons_self _ _)).2
    intro hpc
    exact hpn (List.mem_append_left _ (List.mem_append_right _ hpc))
  · rw [hkidsV, List.flatMap_append, List.flatMap_append, x3, y3, hkeys]
    have h1 : (key :: (K1.flatMap (keysOf (shapes db) h) ++ keysOf (shapes db) h c ++
        (B.map Prod.snd).flatMap (keysOf (shapes db) h))).Perm
        (K1.flatMap (keysOf (shapes db) h) ++ (key :: keysOf (shapes db) h c) ++
        (B.map Prod.snd).flatMap (keysOf (shapes db) h)) := by
      rw [List.append_assoc, List.append_assoc]
      exact List.perm_middle.symm
    refine List.Perm.trans ?_ h1.symm
    exact List.Perm.append_right _ (List.Perm.append_left _ hperm)
  · rw [hkidsV, List.flatMap_append, List.flatMap_append, x1, y1, List.nodup_cons]
    refine ⟨?_, nodup_replace _ _ _ _ (fun q => db.next ≤ q ∧ q < db1.next) hnd2 hnd1 hmem
      hfresh⟩
    intro hp
    rcases List.mem_append.1 hp with h1 | h1
    · rcases List.mem_append.1 h1 with h2 | h2
      · exact hpn (List.mem_append_left _ (List.mem_append_left _ h2))
      · rcases hmem p h2 with h3 | h3
        · exact hpn (List.mem_append_left _ (List.mem_append_right _ h3))
        · have := (hrange p (List.mem_cons_self _ _)).2
          omega
    · exact hpn (List.mem_append_right _ h1)
  · intro q hq
    rw [hkidsV, List.flatMap_append, List.flatMap_append, x1, y1] at hq
    rw [hpages]
    rcases List.mem_append.1 hq with h1 | h1
    · rcases List.mem_append.1 h1 with h2 | h2
      · left
        exact List.mem_cons_of_mem _ (List.mem_append_left _ (List.mem_append_left _ h2))
      · rcases hmem q h2 with h3 | h3
        · left
          exact List.mem_cons_of_mem _ (List.mem_append_left _ (List.mem_append_right _ h3))
        · right; exact h3
    · left
      exact List.mem_cons_of_mem _ (List.mem_append_right _ h1)
  · rw [hkidsV, List.flatMap_append, List.flatMap_append, x2, y2, hleaves]
    exact linkeff_frame _ _ _ _ _ _ _ hlink

/-- The effect on the links of the leaves is kept by later steps that do not touch
the links of leaves. -/
theorem linkeff_trans (pages pages1 pages2 : Nat → btree_node_t) (next next1 : Nat)
    (ls ls1 : List Nat) (h : LinkEff pages pages1 next ls ls1) (hn : next ≤ next1)
    (hpl : ∀ q, q < next → (pages1 q).ptr_left = (pages q).ptr_left)
    (hkeep : ∀ q, q < next1 → (pages1 q).ptr_left = 0 →
      (pages2 q).ptr_left = 0 ∧ (pages2 q).left = (pages1 q).left ∧
      (pages2 q).right = (pages1 q).right)
    (hlt : ∀ q ∈ ls1, q < next1) : LinkEff pages pages2 next ls ls1 := by
  rcases h with ⟨h1, h2⟩ | ⟨A, B, L, h1, h2, h3, h4, h5, h6⟩
  · left
    refine ⟨h1, ?_⟩
    intro q hq hl
    have hk := hkeep q (by omega) (by rw [hpl q hq]; exact hl)
    have := h2 q hq hl
    rw [hk.2.1, hk.2.2]
    exact this
  · right
    have hnn : next < next1 := hlt next (by rw [h2]; simp)
    have hk := hkeep next hnn h3
    refine ⟨A, B, L, h1, h2, hk.1, ?_, ?_, ?_⟩
    · intro hR
      rw [hk.2.1]; exact h4 hR
    · rw [hk.2.2]; exact h5
    · intro q hq hl
      have hk2 := hkeep q (by omega) (by rw [hpl q hq]; exact hl)
      rw [hk2.2.1, hk2.2.2]
      exact h6 q hq hl

theorem shape_items (n : btree_node_t) (h : n.ptr_left ≠ 0) :
    (shape n).2 = n.entries.map (fun e => (e.key, e.ptr)) := by
  unfold shape
  simp only [if_neg h]

/-- The child that `btree_traverse_tree` takes in an internal node: the child of the
last entry whose key is not greater than `key`, or `ptr_left`. -/
theorem traverse_eq (n : btree_node_t) (key : Nat) :
    btree_traverse_tree n key =
      (((n.entries.take (lower_count n.entries key)).map
        (fun e => (e.key, e.ptr))).getLast?.map Prod.snd).getD n.ptr_left := by
  unfold btree_traverse_tree btree_get_slot
  have hlc : n.entries.countP (fun e => decide (e.key ≤ key)) = lower_count n.entries key := rfl
  simp only [hlc]
  have hle : lower_count n.entries key ≤ n.entries.length := List.countP_le_length _
  by_cases h0 : lower_count n.entries key = 0
  · simp [h0]
  · have h3 : ¬ ((lower_count n.entries key : Int) - 1 = -1) := by omega
    simp only [h0, ↓reduceIte, h3]
    have h4 : ((lower_count n.entries key : Int) - 1).toNat = lower_count n.entries key - 1 := by
      omega
    rw [h4, List.getLast?_eq_getElem?, List.length_map, List.length_take,
      Nat.min_eq_left hle, List.getElem?_map, List.getElem?_take_of_lt (by omega),
      List.getD_eq_getElem _ _ (by omega), List.getElem?_eq_getElem (by omega)]
    rfl

/-- The items of an internal node after an entry was put between the entries `A` with
smaller keys and the entries `B` with greater keys. -/
theorem put_shape (E : List int_key_t) (x : int_key_t) (A B : List (Nat × Nat))
    (hsh : E.map (fun e => (e.key, e.ptr)) = A ++ B)
    (hA : ∀ k ∈ A.map Prod.fst, k < x.key) (hB : ∀ k ∈ B.map Prod.fst, x.key < k) :
    (put x E).map (fun e => (e.key, e.ptr)) = A ++ (x.key, x.ptr) :: B := by
  have hlen : A.length ≤ E.length := by
    have := congrArg List.length hsh
    rw [List.length_map, List.length_append] at this
    omega
  have hEA : (E.take A.length).map (fun e => (e.key, e.ptr)) = A := by
    rw [List.map_take, hsh, List.take_left]
  have hEB : (E.drop A.length).map (fun e => (e.key, e.ptr)) = B := by
    rw [List.map_drop, hsh, List.drop_left]
  have hE : E = E.take A.length ++ E.drop A.length := (List.take_append_drop _ _).symm
  have h1 : ∀ e ∈ E.take A.length, e.key ≤ x.key := by
    intro e he
    have : e.key ∈ A.map Prod.fst := by
      rw [← hEA, List.map_map]
      exact List.mem_map_of_mem _ he
    exact le_of_lt (hA _ this)
  have h2 : ∀ e ∈ E.drop A.length, x.key < e.key := by
    intro e he
    have : e.key ∈ B.map Prod.fst := by
      rw [← hEB, List.map_map]
      exact List.mem_map_of_mem _ he
    exact hB _ this
  rw [hE, put_append_left x _ _ h1]
  have h3 : put x (E.drop A.length) = x :: E.drop A.length := by
    unfold put
    rw [lower_count_none _ _ h2]
    rfl
  rw [h3, List.map_append, List.map_cons, hEA, hEB]

theorem sublist_flatMap_of_mem (l : List Nat) (f : Nat → List Nat) (c : Nat) (h : c ∈ l) :
    (f c).Sublist (l.flatMap f) := by
  induction l with
  | nil => exact absurd h (List.not_mem_nil _)
  | cons a l ih =>
    rw [List.flatMap_cons]
    rcases List.mem_cons.1 h with h1 | h1
    · rw [h1]; exact List.sublist_append_left _ _
    · exact (ih h1).trans (List.sublist_append_right _ _)

/-- A kid of a node inherits the invariants of the node's subtree. -/
theorem kid_facts (sh : Nat → Nat × List (Nat × Nat)) (h p c next key : Nat)
    (hc : c ∈ kids (sh p)) (hnd : (pagesOf sh (h + 1) p).Nodup)
    (hrange : ∀ q ∈ pagesOf sh (h + 1) p, 0 < q ∧ q < next)
    (hx : key ∉ keysOf sh (h + 1) p) :
    (pagesOf sh h c).Nodup ∧ (∀ q ∈ pagesOf sh h c, 0 < q ∧ q < next) ∧
    key ∉ keysOf sh h c ∧ 0 < c := by
  have hsub : (pagesOf sh h c).Sublist (pagesOf sh (h + 1) p) := by
    rw [pagesOf_succ]
    exact (sublist_flatMap_of_mem _ _ c hc).trans (List.sublist_cons_self _ _)
  refine ⟨hnd.sublist hsub, fun q hq => hrange q (hsub.subset hq), ?_, ?_⟩
  · intro hk
    apply hx
    rw [keysOf_succ]
    exact List.mem_flatMap.2 ⟨c, hc, hk⟩
  · exact (hrange c (hsub.subset (mem_pagesOf_self sh h c))).1

/-- The entries of an internal node in front of and behind the child that the descent
for `key` takes. -/
theorem descent_split (n : btree_node_t) (key : Nat) (hpl : n.ptr_left ≠ 0)
    (hs : ((shape n).2.map Prod.fst).Pairwise (· < ·)) :
    ∃ A B, (shape n).2 = A ++ B ∧ (∀ k ∈ A.map Prod.fst, k ≤ key) ∧
      (∀ k ∈ B.map Prod.fst, key < k) ∧
      btree_traverse_tree n key = (A.getLast?.map Prod.snd).getD n.ptr_left := by
  rw [shape_keys] at hs
  obtain ⟨h1, h2⟩ := sorted_split n.entries key hs
  refine ⟨(n.entries.take (lower_count n.entries key)).map (fun e => (e.key, e.ptr)),
    (n.entries.drop (lower_count n.entries key)).map (fun e => (e.key, e.ptr)), ?_, ?_, ?_,
    traverse_eq n key⟩
  · rw [shape_items n hpl, ← List.map_append, List.take_append_drop]
  · intro k hk
    rw [List.map_map] at hk
    obtain ⟨e, he, rfl⟩ := List.mem_map.1 hk
    exact h1 e he
  · intro k hk
    rw [List.map_map] at hk
    obtain ⟨e, he, rfl⟩ := List.mem_map.1 hk
    exact h2 e he

/-- The outcome for a node that takes the items `V` handed up to it without being
split (or that is left as it is). -/
theorem parent_room (db db1 : ham_db_t) (h p lo hi key c0 : Nat) (V : List (Nat × Nat))
    (es : List int_key_t) (sp : insert_scratchpad_t) (hc0 : c0 ≠ 0)
    (hpl : (db1.pages p).ptr_left = c0)
    (hV : es.map (fun e => (e.key, e.ptr)) = V)
    (hrange : ∀ q ∈ pagesOf (shapes db) (h + 1) p, 0 < q ∧ q < db.next)
    (hn : db.next ≤ db1.next) (f1 : db1.avail = db.avail) (f2 : db1.rootpage = db.rootpage)
    (f3 : db1.maxkeys = db.maxkeys) (f4 : db1.rt_flags = db.rt_flags)
    (fr : ∀ q, q < db.next → q ∉ pagesOf (shapes db) (h + 1) p → shapes db1 q = shapes db q)
    (pl1 : ∀ q, q < db.next → (db1.pages q).ptr_left = (db.pages q).ptr_left)
    (il1 : InternalLinks db1.pages db1.next)
    (M2 : Kids (Sub (shapes db1) h) c0 lo V hi)
    (M3 : ((c0 :: V.map Prod.snd).flatMap (keysOf (shapes db1) h)).Perm
      (key :: keysOf (shapes db) (h + 1) p))
    (M4 : (p :: (c0 :: V.map Prod.snd).flatMap (pagesOf (shapes db1) h)).Nodup)
    (M5 : ∀ q ∈ (c0 :: V.map Prod.snd).flatMap (pagesOf (shapes db1) h),
      q ∈ pagesOf (shapes db) (h + 1) p ∨ (db.next ≤ q ∧ q < db1.next))
    (M6 : LinkEff db.pages db1.pages db.next (leavesOf (shapes db) (h + 1) p)
      ((c0 :: V.map Prod.snd).flatMap (leavesOf (shapes db1) h))) :
    Outcome db (h + 1) p lo hi key
      (0, db1.setPage p (set_entries (db1.pages p) es), sp) := by
  have hshp : shapes (db1.setPage p (set_entries (db1.pages p) es)) p = (c0, V) := by
    rw [shapes_setPage, if_pos rfl]
    have : (set_entries (db1.pages p) es).ptr_left ≠ 0 := by
      show (db1.pages p).ptr_left ≠ 0
      rw [hpl]; exact hc0
    apply Prod.ext
    · show (db1.pages p).ptr_left = c0
      exact hpl
    · rw [shape_items _ this]
      exact hV
  rw [List.nodup_cons] at M4
  have hag : ∀ d ∈ c0 :: V.map Prod.snd, ∀ q ∈ pagesOf (shapes db1) h d,
      shapes (db1.setPage p (set_entries (db1.pages p) es)) q = shapes db1 q := by
    intro d hd q hq
    rw [shapes_setPage, if_neg]
    intro hqp
    rw [hqp] at hq
    exact M4.1 (List.mem_flatMap.2 ⟨d, hd, hq⟩)
  obtain ⟨n1, n2, n3, n4⟩ := node_room (shapes db1) _ h p c0 lo hi V hc0 M2 hshp hag
  unfold Outcome
  simp only [extra_of_zero, List.map_nil, List.flatMap_cons, List.flatMap_nil, List.append_nil]
  refine ⟨fun _ => Or.inl trivial, fun _ => ⟨hn, f1, f2, f3, f4, ?_, ?_,
    ilinks_entries db1 p es il1, ⟨Kids_lt _ _ _ _ _ M2, n1⟩, ?_, ?_, ?_, ?_⟩⟩
  · intro q hq1 hq2
    rw [shapes_setPage, if_neg, fr q hq1 hq2]
    intro hqp
    exact hq2 (by rw [hqp]; exact mem_pagesOf_self _ _ _)
  · intro q hq
    rw [← pl1 q hq, setPage_pages]
    split_ifs with hqp
    · rw [hqp]; rfl
    · rfl
  · rw [n2]; exact M3
  · rw [n3, List.nodup_cons]; exact M4
  · intro q hq
    rw [n3] at hq
    rcases List.mem_cons.1 hq with h1 | h1
    · left; rw [h1]; exact mem_pagesOf_self _ _ _
    · exact M5 q h1
  · rw [n4]
    refine linkeff_trans _ _ _ _ db1.next _ _ M6 hn pl1 ?_ ?_
    · intro q _ hl
      rw [setPage_pages]
      split_ifs with hqp
      · rw [hqp] at hl ⊢
        exact ⟨hl, rfl, rfl⟩
      · exact ⟨hl, rfl, rfl⟩
    · intro q hq
      obtain ⟨d, hd, hqd⟩ := List.mem_flatMap.1 hq
      have hqp : q ∈ (c0 :: V.map Prod.snd).flatMap (pagesOf (shapes db1) h) :=
        List.mem_flatMap.2 ⟨d, hd, (leavesOf_sublist _ h d).subset hqd⟩
      rcases M5 q hqp with h1 | h1
      · have := (hrange q h1).2
        omega
      · exact h1.2

/-- The outcome for a node that is split while it takes the items `V` handed up to
it. -/
theorem parent_split (db db1 : ham_db_t) (h p lo hi key c0 : Nat) (V : List (Nat × Nat))
    (old new : List int_key_t) (e : int_key_t) (sp : insert_scratchpad_t) (hc0 : c0 ≠ 0)
    (hpl : (db1.pages p).ptr_left = c0) (he : e.ptr ≠ 0)
    (hV : old.map (fun e => (e.key, e.ptr)) ++ (e.key, e.ptr) ::
      new.map (fun e => (e.key, e.ptr)) = V)
    (hrange : ∀ q ∈ pagesOf (shapes db) (h + 1) p, 0 < q ∧ q < db.next)
    (hn : db.next ≤ db1.next) (f1 : db1.avail = db.avail) (f2 : db1.rootpage = db.rootpage)
    (f3 : db1.maxkeys = db.maxkeys) (f4 : db1.rt_flags = db.rt_flags)
    (fr : ∀ q, q < db.next → q ∉ pagesOf (shapes db) (h + 1) p → shapes db1 q = shapes db q)
    (pl1 : ∀ q, q < db.next → (db1.pages q).ptr_left = (db.pages q).ptr_left)
    (il1 : InternalLinks db1.pages db1.next)
    (M2 : Kids (Sub (shapes db1) h) c0 lo V hi)
    (M3 : ((c0 :: V.map Prod.snd).flatMap (keysOf (shapes db1) h)).Perm
      (key :: keysOf (shapes db) (h + 1) p))
    (M4 : (p :: (c0 :: V.map Prod.snd).flatMap (pagesOf (shapes db1) h)).Nodup)
    (M5 : ∀ q ∈ (c0 :: V.map Prod.snd).flatMap (pagesOf (shapes db1) h),
      q ∈ pagesOf (shapes db) (h + 1) p ∨ (db.next ≤ q ∧ q < db1.next))
    (M6 : LinkEff db.pages db1.pages db.next (leavesOf (shapes db) (h + 1) p)
      ((c0 :: V.map Prod.snd).flatMap (leavesOf (shapes db1) h))) :
    Outcome db (h + 1) p lo hi key
      (SPLIT, split_db db1 p e.ptr old new, ⟨sp.flags, sp.record, e.key, db1.next⟩) := by
  have hp := (hrange p (mem_pagesOf_self _ _ _)).2
  have hp1 : p < db1.next := by omega
  have hne : p ≠ db1.next := by omega
  have hlt5 : ∀ q ∈ (c0 :: V.map Prod.snd).flatMap (pagesOf (shapes db1) h), q < db1.next := by
    intro q hq
    rcases M5 q hq with h1 | h1
    · have := (hrange q h1).2
      omega
    · exact h1.2
  have hshp : shapes (split_db db1 p e.ptr old new) p
      = (c0, old.map (fun e => (e.key, e.ptr))) := by
    rw [shapes_split_db _ _ _ _ _ hne, if_pos rfl]
    apply Prod.ext
    · exact hpl
    · rw [shape_items _ (by show (db1.pages p).ptr_left ≠ 0; rw [hpl]; exact hc0)]
  have hshn : shapes (split_db db1 p e.ptr old new) db1.next
      = (e.ptr, new.map (fun e => (e.key, e.ptr))) := by
    rw [shapes_split_db _ _ _ _ _ hne, if_neg (Ne.symm hne), if_pos rfl]
    apply Prod.ext
    · rfl
    · rw [shape_items _ (by exact he)]
  rw [List.nodup_cons] at M4
  have hag : ∀ d ∈ c0 :: V.map Prod.snd, ∀ q ∈ pagesOf (shapes db1) h d,
      shapes (split_db db1 p e.ptr old new) q = shapes db1 q := by
    intro d hd q hq
    have hq2 : q ∈ (c0 :: V.map Prod.snd).flatMap (pagesOf (shapes db1) h) :=
      List.mem_flatMap.2 ⟨d, hd, hq⟩
    have := hlt5 q hq2
    rw [shapes_split_db _ _ _ _ _ hne, if_neg, if_neg (by omega)]
    intro hqp
    rw [hqp] at hq2
    exact M4.1 hq2
  subst hV
  obtain ⟨n1, n2, n3, n4⟩ := node_split (shapes db1) _ h p db1.next c0 lo hi
    (old.map (fun e => (e.key, e.ptr))) (new.map (fun e => (e.key, e.ptr))) (e.key, e.ptr)
    hc0 he M2 hshp hshn hag
  have hFP : (c0 :: (old.map (fun e => (e.key, e.ptr)) ++ (e.key, e.ptr) ::
      new.map (fun e => (e.key, e.ptr))).map Prod.snd).flatMap (pagesOf (shapes db1) h)
      = (c0 :: (old.map (fun e => (e.key, e.ptr))).map Prod.snd).flatMap
          (pagesOf (shapes db1) h) ++
        (e.ptr :: (new.map (fun e => (e.key, e.ptr))).map Prod.snd).flatMap
          (pagesOf (shapes db1) h) := by
    rw [← List.flatMap_append]
    simp
  unfold Outcome
  simp only [extra_of_split, List.map_cons, List.map_nil, List.flatMap_cons, List.flatMap_nil,
    List.append_nil, (split_db_fields db1 p e.ptr old new).1]
  refine ⟨fun _ => Or.inr trivial, fun _ => ⟨by omega,
    (split_db_fields db1 p e.ptr old new).2.1.trans f1,
    (split_db_fields db1 p e.ptr old new).2.2.1.trans f2,
    (split_db_fields db1 p e.ptr old new).2.2.2.1.trans f3,
    (split_db_fields db1 p e.ptr old new).2.2.2.2.trans f4, ?_, ?_,
    ilinks_split db1 p e.ptr old new hp1 il1 (by
      rw [hpl]
      exact ⟨fun h => absurd h he, fun h => absurd h hc0⟩), n1, ?_, ?_, ?_, ?_⟩⟩
  · intro q hq1 hq2
    rw [shapes_split_db _ _ _ _ _ hne, if_neg, if_neg (by omega), fr q hq1 hq2]
    intro hqp
    exact hq2 (by rw [hqp]; exact mem_pagesOf_self _ _ _)
  · intro q hq
    rw [split_db_ptr_left _ _ _ _ _ hne _ (by omega), pl1 q hq]
  · rw [n2]; exact M3
  · rw [n3, List.nodup_cons]
    rw [hFP, List.nodup_append] at M4
    rw [hFP] at hlt5
    obtain ⟨m1, m2, m3, m4⟩ := M4
    refine ⟨?_, ?_⟩
    · intro hq
      rcases List.mem_append.1 hq with h1 | h1
      · exact m1 (List.mem_append_left _ h1)
      · rcases List.mem_cons.1 h1 with h2 | h2
        · exact hne h2
        · exact m1 (List.mem_append_right _ h2)
    · rw [List.nodup_append]
      refine ⟨m2, ?_, ?_⟩
      · rw [List.nodup_cons]
        refine ⟨?_, m3⟩
        intro hq
        have := hlt5 _ (List.mem_append_right _ hq)
        omega
      · intro q hq1 hq2
        rcases List.mem_cons.1 hq2 with h2 | h2
        · have := hlt5 _ (List.mem_append_left _ hq1)
          omega
        · exact m4 hq1 h2
  · intro q hq
    rw [n3] at hq
    rw [hFP] at M5
    rcases List.mem_cons.1 hq with h1 | h1
    · left; rw [h1]; exact mem_pagesOf_self _ _ _
    · rcases List.mem_append.1 h1 with h2 | h2
      · rcases M5 q (List.mem_append_left _ h2) with h3 | h3
        · left; exact h3
        · right; omega
      · rcases List.mem_cons.1 h2 with h3 | h3
        · right; omega
        · rcases M5 q (List.mem_append_right _ h3) with h4 | h4
          · left; exact h4
          · right; omega
  · rw [n4]
    refine linkeff_trans _ _ _ _ db1.next _ _ M6 hn pl1 ?_ ?_
    · intro q hq hl
      have hqp : q ≠ p := by
        intro hqp
        rw [hqp, hpl] at hl
        exact hc0 hl
      have hR : ¬ ((db1.pages p).right ≠ 0 ∧ q = (db1.pages p).right) := by
        intro hR
        rcases il1 p hp1 (by rw [hpl]; exact hc0) with h1 | h1
        · exact hR.1 h1
        · rw [← hR.2] at h1
          exact h1.2 hl
      rw [split_db_pages _ _ _ _ _ hne, if_neg hR, if_neg hqp, if_neg (by omega)]
      exact ⟨hl, rfl, rfl⟩
    · intro q hq
      obtain ⟨d, hd, hqd⟩ := List.mem_flatMap.1 hq
      exact hlt5 q (List.mem_flatMap.2 ⟨d, hd, (leavesOf_sublist _ h d).subset hqd⟩)

theorem setPage_self (db : ham_db_t) (p : Nat) :
    db.setPage p (set_entries (db.pages p) (db.pages p).entries) = db := by
  apply db_ext <;> try rfl
  funext i
  rw [setPage_pages]
  split_ifs with h
  · rw [h]; rfl
  · rfl

/-- The step of `my_insert_recursive` at an internal node, given the outcome of the
recursive call for the child. -/
theorem internal_step (db : ham_db_t) (h p key lo hi flags : Nat)
    (r1 : Int × ham_db_t × insert_scratchpad_t) (hmax : 2 ≤ db.maxkeys)
    (hs : Sub (shapes db) (h + 1) p lo hi)
    (hnd : (pagesOf (shapes db) (h + 1) p).Nodup)
    (hrange : ∀ q ∈ pagesOf (shapes db) (h + 1) p, 0 < q ∧ q < db.next)
    (hlo : lo ≤ key) (hhi : key < hi) (hx : key ∉ keysOf (shapes db) (h + 1) p)
    (ih : ∀ lo_c ub, Sub (shapes db) h (btree_traverse_tree (db.pages p) key) lo_c ub →
      lo_c ≤ key → key < ub →
      (pagesOf (shapes db) h (btree_traverse_tree (db.pages p) key)).Nodup →
      (∀ q ∈ pagesOf (shapes db) h (btree_traverse_tree (db.pages p) key),
        0 < q ∧ q < db.next) →
      key ∉ keysOf (shapes db) h (btree_traverse_tree (db.pages p) key) →
      Outcome db h (btree_traverse_tree (db.pages p) key) lo_c ub key r1) :
    btree_traverse_tree (db.pages p) key ≠ 0 ∧
    Outcome db (h + 1) p lo hi key
      (if r1.1 = SPLIT then
        my_insert_in_page r1.2.1 p r1.2.2.key r1.2.2.rid flags r1.2.2
       else r1) := by
  obtain ⟨hc0, hkids⟩ := (Sub_succ _ _ _ _ _).1 hs
  have hshp : shapes db p = shape (db.pages p) := rfl
  have hsorted := (Kids_sorted _ _ _ _ _ hkids).1
  rw [hshp] at hc0 hkids hsorted
  rw [shape_fst] at hc0
  obtain ⟨A, B, hAB, hA, hB, htr⟩ := descent_split (db.pages p) key hc0 hsorted
  rw [hAB] at hkids hsorted
  rw [shape_fst] at hkids
  obtain ⟨K1, c, lo_c, hK1, g1, g2, g3, hc, g5, g6, hfocus⟩ :=
    Kids_focus _ A B _ lo hi key hkids hA hlo
  rw [← htr] at hc
  rw [← hc] at ih ⊢
  have hshp2 : shapes db p = ((db.pages p).ptr_left, A ++ B) := by
    rw [hshp]
    exact Prod.ext rfl hAB
  have hckid : c ∈ kids (shapes db p) := by
    rw [hshp2]
    show c ∈ (db.pages p).ptr_left :: (A ++ B).map Prod.snd
    rw [List.map_append, ← List.cons_append, hK1]
    simp
  obtain ⟨k1, k2, k3, k4⟩ := kid_facts (shapes db) h p c db.next key hckid hnd hrange hx
  have hub : key < (B.map Prod.fst).headD hi := by
    cases B with
    | nil => exact hhi
    | cons b B => exact hB b.1 (by simp)
  have O1 := ih lo_c _ g6 g2 hub k1 k2 k3
  refine ⟨by omega, ?_⟩
  have hp := (hrange p (mem_pagesOf_self _ _ _)).2
  by_cases hst : r1.1 = SPLIT
  · rw [if_pos hst]
    obtain ⟨n1, f1, f2, f3, f4, fr, pl1, il1, kd1, pm1, nd1, mb1, le1⟩ := O1.2 (Or.inr hst)
    rw [hst, extra_of_split] at kd1 pm1 nd1 mb1 le1
    obtain ⟨M1, M2, M3, M4, M5, M6⟩ := merge_child db r1.2.1 h p c (db.pages p).ptr_left
      lo hi lo_c _ key K1 A B _ hshp2 hK1 hnd hrange hfocus fr kd1 pm1 nd1 mb1 le1
    have frp : ∀ q, q < db.next → q ∉ pagesOf (shapes db) (h + 1) p →
        shapes r1.2.1 q = shapes db q := by
      intro q hq1 hq2
      apply fr q hq1
      intro hqc
      exact hq2 (mem_pagesOf_kid _ _ _ _ _ hckid hqc)
    have hsh1 : shape (r1.2.1.pages p) = ((db.pages p).ptr_left, A ++ B) := by
      have : shapes r1.2.1 p = shape (r1.2.1.pages p) := rfl
      rw [← this, M1, hshp2]
    have hpl1 : (r1.2.1.pages p).ptr_left = (db.pages p).ptr_left := congrArg Prod.fst hsh1
    have hpl1n : (r1.2.1.pages p).ptr_left ≠ 0 := by rw [hpl1]; exact hc0
    have hit1 : (r1.2.1.pages p).entries.map (fun e => (e.key, e.ptr)) = A ++ B := by
      rw [← shape_items _ hpl1n]
      exact congrArg Prod.snd hsh1
    have hlf1 : btree_node_is_leaf (r1.2.1.pages p) = false := by
      unfold btree_node_is_leaf
      simpa using hpl1n
    have hVs := (Kids_sorted _ _ _ _ _ M2).1
    rw [List.map_append, List.map_append, List.map_cons, List.map_nil, List.append_assoc,
      List.pairwise_append] at hVs
    have hA1 : ∀ k ∈ A.map Prod.fst, k < r1.2.2.key := fun k hk =>
      hVs.2.2 k hk _ (by simp)
    have hB1 : ∀ k ∈ B.map Prod.fst, r1.2.2.key < k := by
      intro k hk
      have := hVs.2.1
      rw [List.singleton_append, List.pairwise_cons] at this
      exact this.1 k hk
    have hkeys1 : (r1.2.1.pages p).entries.map (fun e => e.key) = (A ++ B).map Prod.fst := by
      rw [← hit1, List.map_map]
      rfl
    have hsorted1 : ((r1.2.1.pages p).entries.map (fun e => e.key)).Pairwise (· < ·) := by
      rw [hkeys1]; exact hsorted
    have hx1 : r1.2.2.key ∉ (r1.2.1.pages p).entries.map (fun e => e.key) := by
      rw [hkeys1, List.map_append]
      intro hm
      rcases List.mem_append.1 hm with h1 | h1
      · exact absurd (hA1 _ h1) (lt_irrefl _)
      · exact absurd (hB1 _ h1) (lt_irrefl _)
    have hVput := put_shape (r1.2.1.pages p).entries
      (new_entry false r1.2.2.key r1.2.2.rid r1.2.2.record) A B hit1 hA1 hB1
    have hVeq : A ++ [(r1.2.2.key, r1.2.2.rid)] ++ B = A ++ (r1.2.2.key, r1.2.2.rid) :: B := by
      simp
    rw [hVeq] at M2 M3 M4 M5 M6
    by_cases hroom : (r1.2.1.pages p).entries.length < r1.2.1.maxkeys
    · rw [in_page_room _ _ _ _ _ _ hsorted1 hx1 hroom, hlf1]
      exact parent_room db r1.2.1 h p lo hi key _ _ _ _ hc0 hpl1 hVput hrange n1 f1 f2 f3 f4
        frp pl1 il1 M2 M3 M4 M5 M6
    · rw [in_page_full _ _ _ _ _ _ hx1 hroom]
      by_cases hav : r1.2.1.avail r1.2.1.next = true
      · obtain ⟨hpv1, hpv2⟩ := pivot_bounds r1.2.1.rt_flags (r1.2.1.pages p).entries.length
          (by rw [f3] at hroom; omega)
        have hmem : (r1.2.1.pages p).entries.getD
            (pivot_index r1.2.1.rt_flags (r1.2.1.pages p).entries.length) default
            ∈ (r1.2.1.pages p).entries := by
          rw [List.getD_eq_getElem _ _ hpv2]; exact List.getElem_mem _
        have hptr : ((r1.2.1.pages p).entries.getD
            (pivot_index r1.2.1.rt_flags (r1.2.1.pages p).entries.length) default).ptr ≠ 0 := by
          have h1 : ((r1.2.1.pages p).entries.getD
              (pivot_index r1.2.1.rt_flags (r1.2.1.pages p).entries.length) default).ptr
              ∈ kids (shapes db p) := by
            rw [hshp2]
            show _ ∈ (db.pages p).ptr_left :: (A ++ B).map Prod.snd
            rw [← hit1, List.map_map]
            exact List.mem_cons_of_mem _ (List.mem_map_of_mem _ hmem)
          have h2 := (hrange _ (mem_pagesOf_kid _ h p _ _ h1 (mem_pagesOf_self _ _ _))).1
          omega
        rw [split_eq _ _ _ _ _ _ hav (by omega) hsorted1 hx1 (fun _ => hptr), hlf1]
        simp only [Bool.false_eq_true, ↓reduceIte]
        have hlists := split_internal_lists (r1.2.1.pages p).entries
          (pivot_index r1.2.1.rt_flags (r1.2.1.pages p).entries.length)
          (new_entry false r1.2.2.key r1.2.2.rid r1.2.2.record) hpv2 hsorted1 hx1
        have hV2 := congrArg (List.map (fun e : int_key_t => (e.key, e.ptr))) hlists
        rw [hVput, List.map_append, List.map_cons] at hV2
        exact parent_split db r1.2.1 h p lo hi key _ _ _ _ _ r1.2.2 hc0 hpl1 hptr hV2 hrange
          n1 f1 f2 f3 f4 frp pl1 il1 M2 M3 M4 M5 M6
      · have hav2 : r1.2.1.avail r1.2.1.next = false := by simpa using hav
        rw [split_fail _ _ _ _ _ _ hav2]
        unfold Outcome HAM_OUT_OF_MEMORY SPLIT
        refine ⟨fun h => ?_, fun h => ?_⟩
        · rw [f1, h r1.2.1.next] at hav2
          exact absurd hav2 (by decide)
        · simp only at h
          rcases h with h | h
          · exact absurd h (by decide)
          · exact absurd h (by decide)
  · rw [if_neg hst]
    refine ⟨O1.1, ?_⟩
    intro hst2
    have hst0 : r1.1 = 0 := by
      rcases hst2 with h1 | h1
      · exact h1
      · exact absurd h1 hst
    obtain ⟨n1, f1, f2, f3, f4, fr, pl1, il1, kd1, pm1, nd1, mb1, le1⟩ := O1.2 hst2
    rw [hst0, extra_of_zero] at kd1 pm1 nd1 mb1 le1
    obtain ⟨M1, M2, M3, M4, M5, M6⟩ := merge_child db r1.2.1 h p c (db.pages p).ptr_left
      lo hi lo_c _ key K1 A B _ hshp2 hK1 hnd hrange hfocus fr kd1 pm1 nd1 mb1 le1
    have frp : ∀ q, q < db.next → q ∉ pagesOf (shapes db) (h + 1) p →
        shapes r1.2.1 q = shapes db q := by
      intro q hq1 hq2
      apply fr q hq1
      intro hqc
      exact hq2 (mem_pagesOf_kid _ _ _ _ _ hckid hqc)
    have hsh1 : shape (r1.2.1.pages p) = ((db.pages p).ptr_left, A ++ B) := by
      have : shapes r1.2.1 p = shape (r1.2.1.pages p) := rfl
      rw [← this, M1, hshp2]
    have hpl1 : (r1.2.1.pages p).ptr_left = (db.pages p).ptr_left := congrArg Prod.fst hsh1
    have hpl1n : (r1.2.1.pages p).ptr_left ≠ 0 := by rw [hpl1]; exact hc0
    have hit1 : (r1.2.1.pages p).entries.map (fun e => (e.key, e.ptr)) = A ++ B := by
      rw [← shape_items _ hpl1n]
      exact congrArg Prod.snd hsh1
    have hVeq : A ++ [] ++ B = A ++ B := by simp
    rw [hVeq] at M2 M3 M4 M5 M6
    have hO := parent_room db r1.2.1 h p lo hi key _ _ _ r1.2.2 hc0 hpl1 hit1 hrange
      n1 f1 f2 f3 f4 frp pl1 il1 M2 M3 M4 M5 M6
    rw [setPage_self] at hO
    have hr : r1 = (0, r1.2.1, r1.2.2) := by
      rw [← hst0]
    rw [hr]
    exact hO.2 (Or.inl rfl)

/-- The outcome of `my_insert_recursive` on an ordered subtree that does not hold the
key, for every height. -/
theorem insert_outcome : ∀ (h fuel : Nat) (db : ham_db_t) (p key rid : Nat)
    (sp : insert_scratchpad_t) (lo hi : Nat), h < fuel → 2 ≤ db.maxkeys →
    Sub (shapes db) h p lo hi → (pagesOf (shapes db) h p).Nodup →
    (∀ q ∈ pagesOf (shapes db) h p, 0 < q ∧ q < db.next) →
    InternalLinks db.pages db.next → lo ≤ key → key < hi →
    key ∉ keysOf (shapes db) h p →
    Outcome db h p lo hi key (my_insert_recursive fuel db p key rid sp) := by
  intro h
  induction h with
  | zero =>
    intro fuel db p key rid sp lo hi hf hmax hs hnd hrange hil hlo hhi hx
    obtain ⟨f, rfl⟩ : ∃ f, fuel = f + 1 := ⟨fuel - 1, by omega⟩
    have hleaf : btree_node_is_leaf (db.pages p) = true := by
      unfold btree_node_is_leaf
      have := hs.1
      simpa using this
    unfold my_insert_recursive
    simp only [hleaf, ↓reduceIte]
    exact leaf_outcome db p key rid sp.flags sp lo hi hmax hs
      (hrange p (mem_pagesOf_self _ _ _)).2 hil hlo hhi hx
  | succ h ih =>
    intro fuel db p key rid sp lo hi hf hmax hs hnd hrange hil hlo hhi hx
    obtain ⟨f, rfl⟩ : ∃ f, fuel = f + 1 := ⟨fuel - 1, by omega⟩
    have hint : btree_node_is_leaf (db.pages p) = false := by
      unfold btree_node_is_leaf
      have := ((Sub_succ _ _ _ _ _).1 hs).1
      simpa using this
    obtain ⟨hc, hO⟩ := internal_step db h p key lo hi
      ((my_insert_recursive f db (btree_traverse_tree (db.pages p) key) key rid sp).2.2.flags
        ||| HAM_OVERWRITE)
      (my_insert_recursive f db (btree_traverse_tree (db.pages p) key) key rid sp)
      hmax hs hnd hrange hlo hhi hx (by
        intro lo_c ub a1 a2 a3 a4 a5 a6
        exact ih f db _ key rid sp lo_c ub (by omega) hmax a1 a4 a5 hil a2 a3 a6)
    unfold my_insert_recursive
    simp only [hint, Bool.false_eq_true, ↓reduceIte, hc]
    exact hO

theorem Kids_mono (S : Nat → Nat → Nat → Prop)
    (hS : ∀ d a b b1, S d a b → b ≤ b1 → S d a b1) :
    ∀ (es : List (Nat × Nat)) (c lo hi hi1 : Nat), Kids S c lo es hi → hi ≤ hi1 →
      Kids S c lo es hi1 := by
  intro es
  induction es with
  | nil =>
    intro c lo hi hi1 h hle
    exact ⟨lt_of_lt_of_le h.1 hle, hS _ _ _ _ h.2 hle⟩
  | cons e es ih =>
    intro c lo hi hi1 h hle
    exact ⟨h.1, h.2.1, ih _ _ _ _ h.2.2 hle⟩

/-- An ordered subtree stays ordered under a greater upper bound. -/
theorem Sub_mono (sh : Nat → Nat × List (Nat × Nat)) : ∀ (h p lo hi hi1 : Nat),
    Sub sh h p lo hi → hi ≤ hi1 → Sub sh h p lo hi1 := by
  intro h
  induction h with
  | zero =>
    intro p lo hi hi1 hs hle
    rw [Sub_zero] at hs ⊢
    refine ⟨hs.1, hs.2.1, ?_⟩
    intro k hk
    have := hs.2.2 k hk
    omega
  | succ h ih =>
    intro p lo hi hi1 hs hle
    rw [Sub_succ] at hs ⊢
    exact ⟨hs.1, Kids_mono _ (fun d a b b1 => ih d a b b1) _ _ _ _ _ hs.2 hle⟩

theorem Kids_keys (S : Nat → Nat → Nat → Prop) (f : Nat → List Nat)
    (hS : ∀ d a b, S d a b → (f d).Pairwise (· < ·) ∧ ∀ k ∈ f d, a ≤ k ∧ k < b) :
    ∀ (es : List (Nat × Nat)) (c lo hi : Nat), Kids S c lo es hi →
      ((c :: es.map Prod.snd).flatMap f).Pairwise (· < ·) ∧
      ∀ k ∈ (c :: es.map Prod.snd).flatMap f, lo ≤ k ∧ k < hi := by
  intro es
  induction es with
  | nil =>
    intro c lo hi h
    simp only [List.map_nil, List.flatMap_cons, List.flatMap_nil, List.append_nil]
    exact hS _ _ _ h.2
  | cons e es ih =>
    intro c lo hi h
    obtain ⟨i1, i2⟩ := ih _ _ _ h.2.2
    obtain ⟨j1, j2⟩ := hS _ _ _ h.2.1
    have hlt := Kids_lt S _ _ _ _ h.2.2
    rw [List.map_cons, List.flatMap_cons]
    constructor
    · rw [List.pairwise_append]
      refine ⟨j1, i1, ?_⟩
      intro a ha b hb
      have := j2 a ha
      have := i2 b hb
      omega
    · intro k hk
      rcases List.mem_append.1 hk with h1 | h1
      · have := j2 k h1
        omega
      · have := i2 k h1
        have := h.1
        omega

/-- The keys of an ordered subtree, read from left to right, are strictly ascending
and lie within the bounds. -/
theorem Sub_keys (sh : Nat → Nat × List (Nat × Nat)) : ∀ (h p lo hi : Nat),
    Sub sh h p lo hi →
    (keysOf sh h p).Pairwise (· < ·) ∧ ∀ k ∈ keysOf sh h p, lo ≤ k ∧ k < hi := by
  intro h
  induction h with
  | zero =>
    intro p lo hi hs
    exact ⟨hs.2.1, hs.2.2⟩
  | succ h ih =>
    intro p lo hi hs
    rw [Sub_succ] at hs
    rw [keysOf_succ]
    exact Kids_keys _ _ (fun d a b => ih d a b) _ _ _ _ hs.2

theorem length_lt_of_nodup (l : List Nat) (n : Nat) (hnd : l.Nodup)
    (hr : ∀ q ∈ l, 0 < q ∧ q < n) : l.length + 1 ≤ n ∨ l = [] := by
  by_cases hl : l = []
  · right; exact hl
  · left
    have hsub : l.toFinset ⊆ Finset.Ico 1 n := by
      intro q hq
      rw [List.mem_toFinset] at hq
      rw [Finset.mem_Ico]
      have := hr q hq
      omega
    have hcard := Finset.card_le_card hsub
    rw [List.toFinset_card_of_nodup hnd, Nat.card_Ico] at hcard
    obtain ⟨q, hq⟩ := List.exists_mem_of_ne_nil l hl
    have := hr q hq
    omega

theorem chain_keep (pages pages1 : Nat → btree_node_t) : ∀ (ls : List Nat) (prev nxt : Nat),
    (∀ q ∈ ls, (pages1 q).left = (pages q).left ∧ (pages1 q).right = (pages q).right) →
    Chain pages prev ls nxt → Chain pages1 prev ls nxt := by
  intro ls
  induction ls with
  | nil => intro prev nxt _ _; trivial
  | cons l ls ih =>
    intro prev nxt hq hc
    have h1 := hq l (List.mem_cons_self _ _)
    refine ⟨by rw [h1.1]; exact hc.1, by rw [h1.2]; exact hc.2.1, ?_⟩
    exact ih l nxt (fun q hq2 => hq q (List.mem_cons_of_mem _ hq2)) hc.2.2

/-- The doubly linked list of the leaves after a leaf `L` was split and the new leaf
`N` was linked behind it. -/
theorem chain_split (pages pages1 : Nat → btree_node_t) (N L : Nat) (B : List Nat) :
    ∀ (A : List Nat) (prev : Nat), Chain pages prev (A ++ L :: B) 0 →
    (A ++ L :: B).Nodup → (∀ q ∈ A ++ L :: B, 0 < q) →
    (pages1 N).left = L → (pages1 N).right = (pages L).right →
    (∀ q ∈ A ++ L :: B,
      (pages1 q).right = (if q = L then N else (pages q).right) ∧
      (pages1 q).left =
        (if (pages L).right ≠ 0 ∧ q = (pages L).right then N else (pages q).left)) →
    Chain pages1 prev (A ++ L :: N :: B) 0 := by
  intro A
  induction A with
  | nil =>
    intro prev hc hnd hpos hNl hNr hq
    simp only [List.nil_append] at hc hnd hpos hq ⊢
    obtain ⟨c1, c2, c3⟩ := hc
    have hL := hq L (List.mem_cons_self _ _)
    rw [List.nodup_cons] at hnd
    have hLR : ¬ ((pages L).right ≠ 0 ∧ L = (pages L).right) := by
      intro h
      cases B with
      | nil => exact h.1 c2
      | cons b B =>
        simp only [List.headD_cons] at c2
        apply hnd.1
        rw [h.2, c2]
        exact List.mem_cons_self _ _
    rw [if_pos rfl, if_neg hLR] at hL
    refine ⟨by rw [hL.2]; exact c1, hL.1, hNl, ?_, ?_⟩
    · rw [hNr]; exact c2
    · cases B with
      | nil => trivial
      | cons b B =>
        simp only [List.headD_cons] at c2
        obtain ⟨d1, d2, d3⟩ := c3
        have hb := hq b (List.mem_cons_of_mem _ (List.mem_cons_self _ _))
        have hbpos := hpos b (List.mem_cons_of_mem _ (List.mem_cons_self _ _))
        have hbL : b ≠ L := by
          intro h
          apply hnd.1
          rw [← h]
          exact List.mem_cons_self _ _
        rw [if_neg hbL, if_pos ⟨by rw [c2]; omega, c2.symm⟩] at hb
        refine ⟨hb.2, by rw [hb.1]; exact d2, ?_⟩
        apply chain_keep pages pages1 B b 0 _ d3
        intro q hqB
        have h1 := hq q (List.mem_cons_of_mem _ (List.mem_cons_of_mem _ hqB))
        have hqL : q ≠ L := by
          intro h
          apply hnd.1
          rw [← h]
          exact List.mem_cons_of_mem _ hqB
        have hqb : q ≠ b := by
          intro h
          have := hnd.2
          rw [List.nodup_cons] at this
          apply this.1
          rw [← h]
          exact hqB
        rw [if_neg hqL, if_neg (by rw [c2]; exact fun h => hqb h.2)] at h1
        exact ⟨h1.2, h1.1⟩
  | cons a A ih =>
    intro prev hc hnd hpos hNl hNr hq
    simp only [List.cons_append] at hc hnd hpos hq ⊢
    obtain ⟨c1, c2, c3⟩ := hc
    rw [List.nodup_cons] at hnd
    have ha := hq a (List.mem_cons_self _ _)
    have haL : a ≠ L := by
      intro h
      apply hnd.1
      rw [h]
      exact List.mem_append_right _ (List.mem_cons_self _ _)
    -- the right neighbour of L is the head of B
    have hLr : (pages L).right = B.headD 0 := by
      have : ∀ (A : List Nat) (prev : Nat), Chain pages prev (A ++ L :: B) 0 →
          (pages L).right = B.headD 0 := by
        intro A
        induction A with
        | nil => intro prev h; exact h.2.1
        | cons x A ihA => intro prev h; exact ihA x h.2.2
      exact this A a c3
    have haR : ¬ ((pages L).right ≠ 0 ∧ a = (pages L).right) := by
      intro h
      cases B with
      | nil => exact h.1 hLr
      | cons b B =>
        simp only [List.headD_cons] at hLr
        apply hnd.1
        rw [h.2, hLr]
        exact List.mem_append_right _ (List.mem_cons_of_mem _ (List.mem_cons_self _ _))
    rw [if_neg haL, if_neg haR] at ha
    refine ⟨by rw [ha.2]; exact c1, ?_, ?_⟩
    · rw [ha.1, c2]
      cases A <;> rfl
    · exact ih a c3 hnd.2 (fun q hq2 => hpos q (List.mem_cons_of_mem _ hq2)) hNl hNr
        (fun q hq2 => hq q (List.mem_cons_of_mem _ hq2))

/-- The leaves form a doubly linked list after an insert whose effect on the links is
`LinkEff`. -/
theorem chain_after (pages pages1 : Nat → btree_node_t) (next : Nat) (ls ls1 : List Nat)
    (hc : Chain pages 0 ls 0) (hnd : ls.Nodup)
    (hr : ∀ q ∈ ls, 0 < q ∧ q < next ∧ (pages q).ptr_left = 0)
    (he : LinkEff pages pages1 next ls ls1) : Chain pages1 0 ls1 0 := by
  rcases he with ⟨h1, h2⟩ | ⟨A, B, L, h1, h2, h3, h4, h5, h6⟩
  · rw [h1]
    exact chain_keep pages pages1 ls 0 0 (fun q hq => h2 q (hr q hq).2.1 (hr q hq).2.2) hc
  · subst h1
    rw [h2]
    have hLr : (pages L).right = B.headD 0 := by
      have : ∀ (A : List Nat) (prev : Nat), Chain pages prev (A ++ L :: B) 0 →
          (pages L).right = B.headD 0 := by
        intro A
        induction A with
        | nil => intro prev h; exact h.2.1
        | cons x A ihA => intro prev h; exact ihA x h.2.2
      exact this A 0 hc
    have hRn : (pages L).right ≠ next := by
      rw [hLr]
      cases B with
      | nil =>
        have := (hr L (by simp)).2.1
        simp only [List.headD_nil]
        omega
      | cons b B =>
        have := (hr b (by simp)).2.1
        simp only [List.headD_cons]
        omega
    exact chain_split pages pages1 next L B A 0 hc hnd (fun q hq => (hr q hq).1) (h4 hRn) h5
      (fun q hq => h6 q (hr q hq).2.1 (hr q hq).2.2)

theorem tree_height_lt (db : ham_db_t) (h hi : Nat) (ht : TreeAt db h hi) : h < db.next := by
  obtain ⟨_, hnd, hr, _, _⟩ := ht
  have h1 := height_lt_pages (shapes db) h db.rootpage
  rcases length_lt_of_nodup _ db.next hnd hr with h2 | h2
  · omega
  · rw [h2] at h1
    simp at h1

theorem tree_leaves (db : ham_db_t) (h hi : Nat) (ht : TreeAt db h hi) :
    (leavesOf (shapes db) h db.rootpage).Nodup ∧
    ∀ q ∈ leavesOf (shapes db) h db.rootpage,
      0 < q ∧ q < db.next ∧ (db.pages q).ptr_left = 0 := by
  obtain ⟨hs, hnd, hr, _, _⟩ := ht
  refine ⟨hnd.sublist (leavesOf_sublist _ _ _), ?_⟩
  intro q hq
  have h1 := hr q ((leavesOf_sublist _ _ _).subset hq)
  exact ⟨h1.1, h1.2, Sub_leaves _ _ _ _ _ hs q hq⟩

theorem root_nosplit (D : ham_db_t) (n root k N record fl : Nat) (hroot : root ≠ 0) :
    my_insert_nosplit (D.setPage n ⟨root, 0, 0, []⟩) n k N record fl
      = (0, D.setPage n ⟨root, 0, 0, [⟨k, N, []⟩]⟩) := by
  rw [nosplit_new _ _ _ _ _ _ (by rw [setPage_same]; simp) (by rw [setPage_same]; simp)]
  rw [setPage_same]
  have hlf : btree_node_is_leaf ⟨root, 0, 0, []⟩ = false := by
    unfold btree_node_is_leaf
    simpa using hroot
  rw [hlf]
  congr 1
  apply db_ext <;> try rfl
  funext i
  simp only [setPage_pages]
  split_ifs
  · rfl
  · rfl

/-- The tree with a new root above the old root and the page `N` that a split of the
old root created. -/
theorem new_root_tree (db1 db4 : ham_db_t) (h k N hi : Nat) (ks : List Nat) (key : Nat)
    (hroot : 0 < db1.rootpage ∧ db1.rootpage < db1.next)
    (hp : ∀ q, db4.pages q = if q = db1.next then ⟨db1.rootpage, 0, 0, [⟨k, N, []⟩]⟩
      else db1.pages q)
    (hn : db4.next = db1.next + 1) (hr : db4.rootpage = db1.next)
    (il1 : InternalLinks db1.pages db1.next)
    (kd1 : Kids (Sub (shapes db1) h) db1.rootpage 0 [(k, N)] hi)
    (pm1 : (([db1.rootpage, N]).flatMap (keysOf (shapes db1) h)).Perm (key :: ks))
    (nd1 : (([db1.rootpage, N]).flatMap (pagesOf (shapes db1) h)).Nodup)
    (mb1 : ∀ q ∈ ([db1.rootpage, N]).flatMap (pagesOf (shapes db1) h), 0 < q ∧ q < db1.next)
    (ch1 : Chain db1.pages 0 (([db1.rootpage, N]).flatMap (leavesOf (shapes db1) h)) 0) :
    TreeAt db4 (h + 1) hi ∧
    (keysOf (shapes db4) (h + 1) db4.rootpage).Perm (key :: ks) := by
  have hshn : shapes db4 db1.next = (db1.rootpage, [(k, N)]) := by
    show shape (db4.pages db1.next) = _
    rw [hp, if_pos rfl]
    apply Prod.ext
    · rfl
    · rw [shape_items _ (by show db1.rootpage ≠ 0; omega)]
      rfl
  have hsho : ∀ q, q ≠ db1.next → shapes db4 q = shapes db1 q := by
    intro q hq
    show shape (db4.pages q) = shape (db1.pages q)
    rw [hp, if_neg hq]
  have hag : ∀ d ∈ db1.rootpage :: [(k, N)].map Prod.snd, ∀ q ∈ pagesOf (shapes db1) h d,
      shapes db4 q = shapes db1 q := by
    intro d hd q hq
    apply hsho
    have := (mb1 q (List.mem_flatMap.2 ⟨d, by simpa using hd, hq⟩)).2
    omega
  obtain ⟨n1, n2, n3, n4⟩ := node_room (shapes db1) (shapes db4) h db1.next db1.rootpage 0 hi
    [(k, N)] (by omega) kd1 hshn hag
  simp only [List.map_cons, List.map_nil] at n2 n3 n4
  unfold TreeAt
  rw [hr]
  refine ⟨⟨n1, ?_, ?_, ?_, ?_⟩, ?_⟩
  · rw [n3, List.nodup_cons]
    refine ⟨?_, nd1⟩
    intro hq
    have := (mb1 _ hq).2
    omega
  · intro q hq
    rw [n3] at hq
    rw [hn]
    rcases List.mem_cons.1 hq with h1 | h1
    · rw [h1]; omega
    · have := mb1 q h1
      omega
  · rw [n4]
    apply chain_keep db1.pages db4.pages _ 0 0 _ ch1
    intro q hq
    obtain ⟨d, hd, hqd⟩ := List.mem_flatMap.1 hq
    have := (mb1 q (List.mem_flatMap.2 ⟨d, hd, (leavesOf_sublist _ h d).subset hqd⟩)).2
    rw [hp, if_neg (by omega)]
    exact ⟨rfl, rfl⟩
  · intro q hq hint
    rw [hn] at hq ⊢
    by_cases hqn : q = db1.next
    · left
      rw [hp, if_pos hqn]
    · rw [hp, if_neg hqn] at hint ⊢
      rcases il1 q (by omega) hint with h1 | h1
      · left; exact h1
      · right
        refine ⟨by omega, ?_⟩
        rw [hp, if_neg (by omega)]
        exact h1.2
  · rw [n2]; exact pm1

/-- The insert of a key that is not in the tree: with an allocator that never fails
it succeeds, and after a success the tree obeys the invariants and holds the old
keys and the new one. -/
theorem insert_absent (db : ham_db_t) (key record flags h hi : Nat) (ht : TreeAt db h hi)
    (hmax : 2 ≤ db.maxkeys) (hx : key ∉ keysOf (shapes db) h db.rootpage) :
    ((∀ n, db.avail n = true) → (btree_insert_cursor db key record flags).1 = 0) ∧
    ((btree_insert_cursor db key record flags).1 = 0 →
      ∃ h1 hi1, TreeAt (btree_insert_cursor db key record flags).2 h1 hi1 ∧
        (keysOf (shapes (btree_insert_cursor db key record flags).2) h1
          (btree_insert_cursor db key record flags).2.rootpage).Perm
          (key :: keysOf (shapes db) h db.rootpage) ∧
        (btree_insert_cursor db key record flags).2.avail = db.avail ∧
        (btree_insert_cursor db key record flags).2.maxkeys = db.maxkeys ∧
        (btree_insert_cursor db key record flags).2.rt_flags = db.rt_flags) := by
  have hfuel := tree_height_lt db h hi ht
  obtain ⟨hlnd, hlr⟩ := tree_leaves db h hi ht
  obtain ⟨hs, hnd, hr, hch, hil⟩ := ht
  have hs2 := Sub_mono _ _ _ _ _ (max hi (key + 1)) hs (le_max_left _ _)
  have O := insert_outcome h db.next db db.rootpage key 0 ⟨flags, record, 0, 0⟩ 0
    (max hi (key + 1)) hfuel hmax hs2 hnd hr hil (Nat.zero_le _)
    (lt_of_lt_of_le (Nat.lt_succ_self key) (le_max_right _ _)) hx
  have hroot := hr _ (mem_pagesOf_self _ _ _)
  unfold btree_insert_cursor
  simp only
  generalize my_insert_recursive db.next db db.rootpage key 0 ⟨flags, record, 0, 0⟩ = r at O
  by_cases hst : r.1 = SPLIT
  · rw [if_pos hst]
    obtain ⟨n1, f1, f2, f3, f4, fr, pl1, il1, kd1, pm1, nd1, mb1, le1⟩ := O.2 (Or.inr hst)
    rw [hst, extra_of_split] at kd1 pm1 nd1 mb1 le1
    unfold db_alloc_page
    by_cases hav : r.2.1.avail r.2.1.next = true
    · rw [if_pos hav]
      simp only
      have hroot1 : r.2.1.rootpage ≠ 0 := by rw [f2]; omega
      rw [root_nosplit _ _ _ _ _ _ _ hroot1]
      simp only [ne_eq, not_true_eq_false, ↓reduceIte, true_implies, forall_const]
      refine ⟨fun _ => trivial, ?_⟩
      have hmb : ∀ q ∈ ([r.2.1.rootpage, r.2.2.rid]).flatMap (pagesOf (shapes r.2.1) h),
          0 < q ∧ q < r.2.1.next := by
        intro q hq
        rw [f2] at hq
        rcases mb1 q hq with h1 | h1
        · have := hr q h1
          omega
        · omega
      have hch := chain_after db.pages r.2.1.pages db.next _ _ hch hlnd hlr le1
      obtain ⟨t1, t2⟩ := new_root_tree r.2.1
        { pages := ((({ r.2.1 with next := r.2.1.next + 1 } : ham_db_t).setPage r.2.1.next
            ⟨r.2.1.rootpage, 0, 0, [⟨r.2.2.key, r.2.2.rid, []⟩]⟩)).pages,
          next := r.2.1.next + 1, avail := r.2.1.avail, rootpage := r.2.1.next,
          maxkeys := r.2.1.maxkeys, rt_flags := r.2.1.rt_flags }
        h r.2.2.key r.2.2.rid (max hi (key + 1)) (keysOf (shapes db) h db.rootpage) key
        (by rw [f2]; omega) (fun q => by rw [setPage_pages]) rfl rfl il1
        (by rw [f2]; exact kd1) (by rw [f2]; exact pm1) (by rw [f2]; exact nd1) hmb
        (by rw [f2]; exact hch)
      exact ⟨h + 1, max hi (key + 1), t1, t2, f1, f3, f4⟩
    · rw [if_neg hav]
      simp only
      refine ⟨fun h => ?_, fun h => ?_⟩
      · rw [f1, h] at hav
        exact absurd rfl hav
      · exact absurd h (by unfold HAM_OUT_OF_MEMORY; decide)
  · rw [if_neg hst]
    simp only
    refine ⟨fun h => ?_, fun h0 => ?_⟩
    · rcases O.1 h with h1 | h1
      · exact h1
      · exact absurd h1 hst
    · obtain ⟨n1, f1, f2, f3, f4, fr, pl1, il1, kd1, pm1, nd1, mb1, le1⟩ := O.2 (Or.inl h0)
      rw [h0, extra_of_zero] at kd1 pm1 nd1 mb1 le1
      simp only [List.map_nil, List.flatMap_cons, List.flatMap_nil, List.append_nil]
        at pm1 nd1 mb1 le1
      refine ⟨h, max hi (key + 1), ⟨?_, ?_, ?_, ?_, il1⟩, ?_, f1, f3, f4⟩
      · rw [f2]; exact kd1.2
      · rw [f2]; exact nd1
      · rw [f2]
        intro q hq
        rcases mb1 q hq with h1 | h1
        · have := hr q h1
          omega
        · omega
      · rw [f2]
        exact chain_after db.pages r.2.1.pages db.next _ _ hch hlnd hlr le1
      · rw [f2]; exact pm1

theorem Kids_first_sub (S : Nat → Nat → Nat → Prop) (es : List (Nat × Nat)) (c lo hi : Nat)
    (h : Kids S c lo es hi) : ∃ u, S c lo u := by
  cases es with
  | nil => exact ⟨hi, h.2⟩
  | cons e es => exact ⟨e.1, h.2.1⟩

/-- The descent along `ptr_left` ends in the first leaf of the subtree. -/
theorem leftmost_first (db : ham_db_t) : ∀ (h p lo hi fuel : Nat),
    Sub (shapes db) h p lo hi → h ≤ fuel →
    ∃ rest, leavesOf (shapes db) h p = leftmost_leaf db.pages fuel p :: rest := by
  intro h
  induction h with
  | zero =>
    intro p lo hi fuel hs _
    have hl : (db.pages p).ptr_left = 0 := hs.1
    refine ⟨[], ?_⟩
    cases fuel with
    | zero => rfl
    | succ f =>
      unfold leftmost_leaf
      rw [if_pos hl]
      rfl
  | succ h ih =>
    intro p lo hi fuel hs hf
    obtain ⟨f, rfl⟩ : ∃ f, fuel = f + 1 := ⟨fuel - 1, by omega⟩
    rw [Sub_succ] at hs
    have hl : (db.pages p).ptr_left ≠ 0 := hs.1
    obtain ⟨u, hu⟩ := Kids_first_sub _ _ _ _ _ hs.2
    obtain ⟨rest, hrest⟩ := ih _ _ _ f hu (by omega)
    unfold leftmost_leaf
    rw [if_neg hl, leavesOf_succ]
    have hk : kids (shapes db p) = (db.pages p).ptr_left :: (shapes db p).2.map Prod.snd := rfl
    have hsh : (shapes db p).1 = (db.pages p).ptr_left := rfl
    rw [hsh] at hrest
    rw [hk, List.flatMap_cons, hrest]
    exact ⟨_, rfl⟩

/-- The walk along `right` over a doubly linked list of pages meets the keys of these
pages in turn. -/
theorem walk_chain (pages : Nat → btree_node_t) : ∀ (ls : List Nat) (prev fuel : Nat),
    Chain pages prev ls 0 → (∀ q ∈ ls, 0 < q) → ls.length ≤ fuel →
    walk_right pages fuel (ls.headD 0)
      = ls.flatMap (fun q => (pages q).entries.map (fun e => e.key)) ∧
    walk_counts pages fuel (ls.headD 0) = ls.map (fun q => (pages q).entries.length) := by
  intro ls
  induction ls with
  | nil =>
    intro prev fuel _ _ _
    cases fuel with
    | zero => exact ⟨rfl, rfl⟩
    | succ f =>
      unfold walk_right walk_counts
      simp
  | cons l ls ih =>
    intro prev fuel hc hpos hf
    obtain ⟨f, rfl⟩ : ∃ f, fuel = f + 1 := ⟨fuel - 1, by
      simp only [List.length_cons] at hf; omega⟩
    have hl := hpos l (List.mem_cons_self _ _)
    obtain ⟨i1, i2⟩ := ih l f hc.2.2 (fun q hq => hpos q (List.mem_cons_of_mem _ hq)) (by
      simp only [List.length_cons] at hf; omega)
    unfold walk_right walk_counts
    simp only [List.headD_cons]
    rw [if_neg (by omega), if_neg (by omega), hc.2.1, i1, i2]
    exact ⟨rfl, rfl⟩

theorem keysOf_leaves (sh : Nat → Nat × List (Nat × Nat)) : ∀ (h p : Nat),
    keysOf sh h p = (leavesOf sh h p).flatMap (fun q => (sh q).2.map Prod.fst) := by
  intro h
  induction h with
  | zero => intro p; simp [keysOf, leavesOf]
  | succ h ih =>
    intro p
    rw [keysOf_succ, leavesOf_succ]
    generalize kids (sh p) = l
    induction l with
    | nil => rfl
    | cons a l ihl =>
      rw [List.flatMap_cons, List.flatMap_cons, List.flatMap_append, ih a, ihl]

/-- The ordered scan of a tree that obeys the invariants gives the keys of the tree in
the order of the tree; the counts of the leaves add up to their number. -/
theorem walk_eq (db : ham_db_t) (h hi : Nat) (ht : TreeAt db h hi) :
    leaf_walk db = keysOf (shapes db) h db.rootpage ∧
    leaf_count_sum db = (keysOf (shapes db) h db.rootpage).length := by
  have hfuel := tree_height_lt db h hi ht
  obtain ⟨hlnd, hlr⟩ := tree_leaves db h hi ht
  obtain ⟨hs, hnd, hr, hch, hil⟩ := ht
  obtain ⟨rest, hrest⟩ := leftmost_first db h db.rootpage 0 hi db.next hs (by omega)
  have hlen : (leavesOf (shapes db) h db.rootpage).length ≤ db.next := by
    rcases length_lt_of_nodup _ db.next hlnd (fun q hq => ⟨(hlr q hq).1, (hlr q hq).2.1⟩)
      with h1 | h1
    · omega
    · rw [h1]; simp
  obtain ⟨w1, w2⟩ := walk_chain db.pages _ 0 db.next hch (fun q hq => (hlr q hq).1) hlen
  have hhead : (leavesOf (shapes db) h db.rootpage).headD 0
      = leftmost_leaf db.pages db.next db.rootpage := by
    rw [hrest]; rfl
  rw [hhead] at w1 w2
  have hk : keysOf (shapes db) h db.rootpage
      = (leavesOf (shapes db) h db.rootpage).flatMap
          (fun q => (db.pages q).entries.map (fun e => e.key)) := by
    rw [keysOf_leaves]
    apply flatMap_eq_of_mem
    intro q _
    exact shape_keys (db.pages q)
  unfold leaf_walk leaf_count_sum
  rw [w1, w2, hk]
  refine ⟨rfl, ?_⟩
  generalize leavesOf (shapes db) h db.rootpage = l
  induction l with
  | nil => rfl
  | cons a l ihl =>
    rw [List.map_cons, List.sum_cons, List.flatMap_cons, List.length_append, ihl,
      List.length_map]

theorem empty_tree_inv (maxkeys rt_flags : Nat) : TreeAt (empty_tree maxkeys rt_flags) 0 1 := by
  refine ⟨?_, ?_, ?_, ?_, ?_⟩
  · rw [Sub_zero]
    refine ⟨rfl, ?_, ?_⟩
    · exact List.Pairwise.nil
    · intro k hk
      exact absurd hk (List.not_mem_nil _)
  · exact List.nodup_singleton _
  · intro q hq
    rw [pagesOf_zero, List.mem_singleton] at hq
    rw [hq]
    exact ⟨Nat.one_pos, Nat.lt_succ_self 1⟩
  · exact ⟨rfl, rfl, trivial⟩
  · intro q _ hq
    exact absurd rfl hq

/-- A sequence of inserts of distinct new keys into a tree that obeys the invariants:
every insert succeeds, and the tree obeys the invariants and holds the old keys and
the new ones. -/
theorem insert_all_spec : ∀ (keys : List Nat) (db : ham_db_t) (h hi : Nat),
    TreeAt db h hi → 2 ≤ db.maxkeys → (∀ n, db.avail n = true) → keys.Nodup →
    (∀ k ∈ keys, k ∉ keysOf (shapes db) h db.rootpage) →
    (∀ st ∈ (insert_all db keys).1, st = 0) ∧
    ∃ h1 hi1, TreeAt (insert_all db keys).2 h1 hi1 ∧
      (keysOf (shapes (insert_all db keys).2) h1 (insert_all db keys).2.rootpage).Perm
        (keys ++ keysOf (shapes db) h db.rootpage) := by
  intro keys
  induction keys with
  | nil =>
    intro db h hi ht _ _ _ _
    exact ⟨fun st hst => absurd hst (List.not_mem_nil _), h, hi, ht, List.Perm.refl _⟩
  | cons k ks ih =>
    intro db h hi ht hmax hav hnd hx
    rw [List.nodup_cons] at hnd
    obtain ⟨a1, a2⟩ := insert_absent db k k 0 h hi ht hmax (hx k (List.mem_cons_self _ _))
    have hst := a1 hav
    obtain ⟨h1, hi1, t1, p1, f1, f3, _⟩ := a2 hst
    have hx2 : ∀ k2 ∈ ks, k2 ∉ keysOf (shapes (btree_insert_cursor db k k 0).2) h1
        (btree_insert_cursor db k k 0).2.rootpage := by
      intro k2 hk2 hmem
      rcases List.mem_cons.1 (p1.mem_iff.1 hmem) with h2 | h2
      · rw [h2] at hk2
        exact hnd.1 hk2
      · exact hx k2 (List.mem_cons_of_mem _ hk2) h2
    obtain ⟨b1, h2, hi2, t2, p2⟩ := ih (btree_insert_cursor db k k 0).2 h1 hi1 t1
      (by rw [f3]; exact hmax) (by rw [f1]; exact hav) hnd.2 hx2
    show (∀ st ∈ (btree_insert db k k 0).1 :: (insert_all (btree_insert db k k 0).2 ks).1,
        st = 0) ∧ ∃ h1 hi1, TreeAt (insert_all (btree_insert db k k 0).2 ks).2 h1 hi1 ∧
        (keysOf (shapes (insert_all (btree_insert db k k 0).2 ks).2) h1
          (insert_all (btree_insert db k k 0).2 ks).2.rootpage).Perm
          (k :: ks ++ keysOf (shapes db) h db.rootpage)
    refine ⟨?_, h2, hi2, t2, ?_⟩
    · intro st hs
      rcases List.mem_cons.1 hs with h3 | h3
      · rw [h3]; exact hst
      · exact b1 st h3
    · refine p2.trans ?_
      refine (List.Perm.append_left ks p1).trans ?_
      rw [List.cons_append]
      exact List.perm_middle

/-- C3 (insert round trip on the tree).  Distinct keys inserted one at a time, in any
order, with `btree_insert` without flags into an empty tree with `maxkeys ≥ 2` (and
an allocator that never fails): every insert returns success, the walk over the
leaves from the leftmost leaf along `right` gives exactly the inserted keys in
strictly ascending order, and the counts of the leaves add up to the number of
inserts (so that the sum of the keys met equals the sum of the keys inserted). -/
theorem insert_round_trip (maxkeys rt_flags : Nat) (keys : List Nat) (hmax : 2 ≤ maxkeys)
    (hnd : keys.Nodup) :
    (∀ st ∈ (insert_all (empty_tree maxkeys rt_flags) keys).1, st = 0) ∧
    (leaf_walk (insert_all (empty_tree maxkeys rt_flags) keys).2).Pairwise (· < ·) ∧
    (leaf_walk (insert_all (empty_tree maxkeys rt_flags) keys).2).Perm keys ∧
    leaf_count_sum (insert_all (empty_tree maxkeys rt_flags) keys).2 = keys.length ∧
    (leaf_walk (insert_all (empty_tree maxkeys rt_flags) keys).2).sum = keys.sum := by
  obtain ⟨b1, h1, hi1, t1, p1⟩ := insert_all_spec keys (empty_tree maxkeys rt_flags) 0 1
    (empty_tree_inv maxkeys rt_flags) hmax (fun _ => rfl) hnd (by
      intro k _ hk
      exact absurd hk (List.not_mem_nil _))
  obtain ⟨w1, w2⟩ := walk_eq _ h1 hi1 t1
  have hk0 : keysOf (shapes (empty_tree maxkeys rt_flags)) 0 (empty_tree maxkeys rt_flags).rootpage
      = [] := rfl
  rw [hk0, List.append_nil] at p1
  refine ⟨b1, ?_, ?_, ?_, ?_⟩
  · rw [w1]
    exact (Sub_keys _ _ _ _ _ t1.1).1
  · rw [w1]; exact p1
  · rw [w2]; exact p1.length_eq
  · rw [w1]; exact p1.sum_eq

/-- Witness for C3: the keys 0 .. 9 inserted in a mixed order into an empty tree with
`maxkeys = 2`; the leaves hold 10 keys whose sum is 45. -/
theorem insert_round_trip_witness :
    leaf_count_sum (insert_all (empty_tree 2 0) [5, 3, 8, 1, 9, 2, 7, 0, 4, 6]).2 = 10 ∧
    (leaf_walk (insert_all (empty_tree 2 0) [5, 3, 8, 1, 9, 2, 7, 0, 4, 6]).2).sum = 45 :=
  ⟨(insert_round_trip 2 0 [5, 3, 8, 1, 9, 2, 7, 0, 4, 6] (by decide) (by decide)).2.2.2.1,
   (insert_round_trip 2 0 [5, 3, 8, 1, 9, 2, 7, 0, 4, 6] (by decide) (by decide)).2.2.2.2⟩

theorem sameTree_refl (db : ham_db_t) : SameTree db db :=
  ⟨rfl, rfl, rfl, rfl, rfl, fun _ => ⟨rfl, rfl, rfl, rfl⟩⟩

/-- The slot of a key that is stored in a node with ascending keys. -/
theorem get_slot_stored (node : btree_node_t) (key : Nat)
    (hs : (node.entries.map (fun e => e.key)).Pairwise (· < ·))
    (hx : key ∈ node.entries.map (fun e => e.key)) :
    1 ≤ lower_count node.entries key ∧
    lower_count node.entries key ≤ node.entries.length ∧
    btree_get_slot node key = ((lower_count node.entries key : Int) - 1, 0) ∧
    (node.entries.getD (lower_count node.entries key - 1) default).key = key := by
  obtain ⟨h1, h2⟩ := sorted_split node.entries key hs
  have hle : lower_count node.entries key ≤ node.entries.length := List.countP_le_length _
  obtain ⟨e, he, hek⟩ := List.mem_map.1 hx
  -- the entry of the key is among the first ones
  have het : e ∈ node.entries.take (lower_count node.entries key) := by
    have := he
    rw [← List.take_append_drop (lower_count node.entries key) node.entries,
      List.mem_append] at this
    rcases this with h3 | h3
    · exact h3
    · have := h2 e h3
      omega
  have hpos : 1 ≤ lower_count node.entries key := by
    by_contra hc
    have h0 : lower_count node.entries key = 0 := by omega
    rw [h0, List.take_zero] at het
    exact absurd het (List.not_mem_nil _)
  have hlastmem : node.entries.getD (lower_count node.entries key - 1) default
      ∈ node.entries.take (lower_count node.entries key) := by
    rw [List.getD_eq_getElem _ _ (by omega), List.mem_take_iff_getElem]
    exact ⟨lower_count node.entries key - 1, by rw [Nat.min_eq_left hle]; omega, rfl⟩
  have hlastle := h1 _ hlastmem
  -- the last of the first entries has the greatest key among them
  have hmax : e.key ≤ (node.entries.getD (lower_count node.entries key - 1) default).key := by
    have hsplit : node.entries.take (lower_count node.entries key)
        = node.entries.take (lower_count node.entries key - 1) ++
          [node.entries.getD (lower_count node.entries key - 1) default] := by
      rw [List.getD_eq_getElem _ _ (by omega)]
      have := List.take_succ (l := node.entries) (n := lower_count node.entries key - 1)
      rw [show lower_count node.entries key - 1 + 1 = lower_count node.entries key by omega]
        at this
      rw [this, List.getElem?_eq_getElem (by omega)]
      rfl
    have hst := sorted_take node.entries (lower_count node.entries key) hs
    rw [hsplit, List.map_append, List.pairwise_append] at hst
    rw [hsplit, List.mem_append] at het
    rcases het with h3 | h3
    · exact le_of_lt (hst.2.2 e.key (List.mem_map_of_mem _ h3) _ (by simp))
    · rw [List.mem_singleton.1 h3]
  have hkeq : (node.entries.getD (lower_count node.entries key - 1) default).key = key := by
    omega
  refine ⟨hpos, hle, ?_, hkeq⟩
  unfold btree_get_slot
  have hlc : node.entries.countP (fun e => decide (e.key ≤ key))
      = lower_count node.entries key := rfl
  simp only [hlc]
  rw [if_neg (by omega)]
  unfold key_compare_int_to_pub
  rw [hkeq]
  simp

theorem key_set_record_key (b : int_key_t) (n : Bool) (r f : Nat) :
    (key_set_record b n r f).key = b.key := by
  unfold key_set_record
  split_ifs <;> rfl

/-- A key that is stored in a leaf: `my_insert_nosplit` changes at most the record of
its entry. -/
theorem nosplit_stored (db : ham_db_t) (page key rid record flags : Nat)
    (hleaf : (db.pages page).ptr_left = 0)
    (hs : ((db.pages page).entries.map (fun e => e.key)).Pairwise (· < ·))
    (hx : key ∈ (db.pages page).entries.map (fun e => e.key)) :
    (my_insert_nosplit db page key rid record flags).1 ≠ SPLIT ∧
    SameTree db (my_insert_nosplit db page key rid record flags).2 := by
  obtain ⟨g1, g2, g3, g4⟩ := get_slot_stored (db.pages page) key hs hx
  have hlf : btree_node_is_leaf (db.pages page) = true := by
    unfold btree_node_is_leaf; simpa using hleaf
  unfold my_insert_nosplit
  simp only [g3, hlf]
  rw [if_neg (by omega), if_neg (by omega)]
  simp only [↓reduceIte, Bool.true_eq_false, and_false]
  by_cases hfl : flags &&& HAM_OVERWRITE = 0 ∧ flags &&& HAM_DUPLICATE = 0
  · rw [if_pos hfl]
    exact ⟨fun h => absurd (show (-12 : Int) = 1 from h) (by decide), sameTree_refl db⟩
  · rw [if_neg hfl]
    refine ⟨fun h => absurd (show (0 : Int) = 1 from h) (by decide), rfl, rfl, rfl, rfl, rfl, ?_⟩
    intro q
    simp only [setPage_pages]
    by_cases hq : q = page
    · rw [if_pos hq, hq]
      refine ⟨rfl, rfl, rfl, ?_⟩
      have h4 : ((lower_count (db.pages page).entries key : Int) - 1).toNat
          = lower_count (db.pages page).entries key - 1 := by omega
      rw [h4]
      unfold shape
      simp only [hleaf, ↓reduceIte, Prod.mk.injEq, true_and]
      rw [List.map_set]
      apply List.ext_getElem
      · simp
      · intro i hi1 hi2
        rw [List.getElem_set]
        split_ifs with h5
        · rw [List.length_map] at hi2
          rw [List.getElem_map, key_set_record_key]
          subst h5
          rw [List.getD_eq_getElem _ _ hi2]
        · rfl
    · rw [if_neg hq]
      exact ⟨rfl, rfl, rfl, rfl⟩

/-- A key that is stored in a leaf: `my_insert_in_page` changes at most the record. -/
theorem in_page_stored (db : ham_db_t) (page key rid flags : Nat) (sp : insert_scratchpad_t)
    (hleaf : (db.pages page).ptr_left = 0)
    (hs : ((db.pages page).entries.map (fun e => e.key)).Pairwise (· < ·))
    (hx : key ∈ (db.pages page).entries.map (fun e => e.key)) :
    (my_insert_in_page db page key rid flags sp).1 ≠ SPLIT ∧
    SameTree db (my_insert_in_page db page key rid flags sp).2.1 := by
  obtain ⟨g1, g2, g3, g4⟩ := get_slot_stored (db.pages page) key hs hx
  have hlf : btree_node_is_leaf (db.pages page) = true := by
    unfold btree_node_is_leaf; simpa using hleaf
  have hsearch : btree_node_search_by_key (db.pages page) key ≥ 0 := by
    unfold btree_node_search_by_key
    simp only [g3]
    rw [if_pos ⟨by omega, trivial⟩]
    omega
  unfold my_insert_in_page
  simp only
  by_cases hroom : (db.pages page).entries.length < db.maxkeys
  · rw [if_pos hroom]
    exact nosplit_stored db page key rid sp.record flags hleaf hs hx
  · rw [if_neg hroom, if_pos ⟨hlf, hsearch⟩]
    by_cases hfl : flags &&& HAM_OVERWRITE ≠ 0 ∨ flags &&& HAM_DUPLICATE ≠ 0
    · rw [if_pos hfl]
      exact nosplit_stored db page key rid sp.record flags hleaf hs hx
    · rw [if_neg hfl]
      exact ⟨fun h => absurd (show (-12 : Int) = 1 from h) (by decide), sameTree_refl db⟩

theorem head_keys (S : Nat → Nat → Nat → Prop) (f : Nat → List Nat)
    (hS : ∀ d a b, S d a b → (f d).Pairwise (· < ·) ∧ ∀ k ∈ f d, a ≤ k ∧ k < b)
    (B : List (Nat × Nat)) (c lo hi key : Nat) (hk : Kids S c lo B hi)
    (hB : ∀ k ∈ B.map Prod.fst, key < k)
    (hx : key ∈ (c :: B.map Prod.snd).flatMap f) : key ∈ f c := by
  rw [List.flatMap_cons, List.mem_append] at hx
  rcases hx with h1 | h1
  · exact h1
  · cases B with
    | nil => simp at h1
    | cons b B =>
      have h2 := (Kids_keys S f hS B b.2 b.1 hi hk.2.2).2 key (by simpa using h1)
      have h3 := hB b.1 (by simp)
      omega

/-- A key that is stored below an internal node is stored below the child that the
descent for the key takes. -/
theorem focus_keys (S : Nat → Nat → Nat → Prop) (f : Nat → List Nat)
    (hS : ∀ d a b, S d a b → (f d).Pairwise (· < ·) ∧ ∀ k ∈ f d, a ≤ k ∧ k < b)
    (A B : List (Nat × Nat)) (c0 lo hi key : Nat) (hk : Kids S c0 lo (A ++ B) hi)
    (hA : ∀ k ∈ A.map Prod.fst, k ≤ key) (hB : ∀ k ∈ B.map Prod.fst, key < k)
    (hx : key ∈ (c0 :: (A ++ B).map Prod.snd).flatMap f) :
    key ∈ f ((A.getLast?.map Prod.snd).getD c0) ∧
    ∃ a b, S ((A.getLast?.map Prod.snd).getD c0) a b := by
  rcases List.eq_nil_or_concat A with hnil | ⟨A1, a, hcons⟩
  · subst hnil
    simp only [List.nil_append] at hk hx
    exact ⟨head_keys S f hS B c0 lo hi key hk hB hx, lo, _, (Kids_first S B c0 lo hi hk).2.1⟩
  · rw [List.concat_eq_append] at hcons
    subst hcons
    have hk1 : Kids S c0 lo (A1 ++ a :: B) hi := by simpa using hk
    obtain ⟨g1, g2⟩ := (Kids_append S A1 a B c0 lo hi).1 hk1
    have hx1 : key ∈ (c0 :: A1.map Prod.snd).flatMap f ++ (a.2 :: B.map Prod.snd).flatMap f := by
      rw [← List.flatMap_append]
      simpa using hx
    have hlast : ((A1 ++ [a]).getLast?.map Prod.snd).getD c0 = a.2 := by simp
    rw [hlast]
    refine ⟨?_, a.1, _, (Kids_first S B a.2 a.1 hi g2).2.1⟩
    rcases List.mem_append.1 hx1 with h1 | h1
    · have h2 := (Kids_keys S f hS A1 c0 lo a.1 g1).2 key h1
      have h3 := hA a.1 (by simp)
      omega
    · exact head_keys S f hS B a.2 a.1 hi key g2 hB h1

/-- The outcome of `my_insert_recursive` for a key that is stored below the page: no
split, and at most the record of the key has changed. -/
theorem insert_stored : ∀ (h fuel : Nat) (db : ham_db_t) (p key rid : Nat)
    (sp : insert_scratchpad_t) (lo hi : Nat),
    Sub (shapes db) h p lo hi → key ∈ keysOf (shapes db) h p →
    (my_insert_recursive fuel db p key rid sp).1 ≠ SPLIT ∧
    SameTree db (my_insert_recursive fuel db p key rid sp).2.1 := by
  intro h
  induction h with
  | zero =>
    intro fuel db p key rid sp lo hi hs hx
    cases fuel with
    | zero =>
      exact ⟨fun h => absurd (show (-14 : Int) = 1 from h) (by decide), sameTree_refl db⟩
    | succ f =>
      have hleaf : (db.pages p).ptr_left = 0 := hs.1
      have hlf : btree_node_is_leaf (db.pages p) = true := by
        unfold btree_node_is_leaf; simpa using hleaf
      unfold my_insert_recursive
      simp only [hlf, ↓reduceIte]
      have hsorted := hs.2.1
      rw [keysOf_zero] at hx
      have hsh : shapes db p = shape (db.pages p) := rfl
      rw [hsh, shape_keys] at hsorted hx
      exact in_page_stored db p key rid sp.flags sp hleaf hsorted hx
  | succ h ih =>
    intro fuel db p key rid sp lo hi hs hx
    cases fuel with
    | zero =>
      exact ⟨fun h => absurd (show (-14 : Int) = 1 from h) (by decide), sameTree_refl db⟩
    | succ f =>
      obtain ⟨hc0, hkids⟩ := (Sub_succ _ _ _ _ _).1 hs
      have hshp : shapes db p = shape (db.pages p) := rfl
      have hsorted := (Kids_sorted _ _ _ _ _ hkids).1
      rw [hshp] at hc0 hkids hsorted
      rw [shape_fst] at hc0 hkids
      obtain ⟨A, B, hAB, hA, hB, htr⟩ := descent_split (db.pages p) key hc0 hsorted
      rw [hAB] at hkids
      have hx2 : key ∈ ((db.pages p).ptr_left :: (A ++ B).map Prod.snd).flatMap
          (keysOf (shapes db) h) := by
        rw [keysOf_succ] at hx
        have : kids (shapes db p) = (db.pages p).ptr_left :: (A ++ B).map Prod.snd := by
          rw [hshp]
          show (shape (db.pages p)).1 :: (shape (db.pages p)).2.map Prod.snd = _
          rw [hAB]; rfl
        rw [this] at hx
        exact hx
      obtain ⟨k1, a, b, k2⟩ := focus_keys _ _ (fun d a b => Sub_keys (shapes db) h d a b)
        A B _ lo hi key hkids hA hB hx2
      rw [← htr] at k1 k2
      have hint : btree_node_is_leaf (db.pages p) = false := by
        unfold btree_node_is_leaf; simpa using hc0
      obtain ⟨i1, i2⟩ := ih f db _ key rid sp a b k2 k1
      unfold my_insert_recursive
      simp only [hint, Bool.false_eq_true, ↓reduceIte]
      by_cases hch : btree_traverse_tree (db.pages p) key = 0
      · rw [if_pos hch]
        exact ⟨fun h => absurd (show (-14 : Int) = 1 from h) (by decide), sameTree_refl db⟩
      · rw [if_neg hch, if_neg i1]
        exact ⟨i1, i2⟩

/-- The invariants of a tree carry over to a database that differs at most in the
records of leaf entries. -/
theorem sameTree_inv (db db1 : ham_db_t) (h hi : Nat) (hsame : SameTree db db1)
    (ht : TreeAt db h hi) : TreeAt db1 h hi := by
  obtain ⟨e1, e2, e3, e4, e5, e6⟩ := hsame
  have hsh : shapes db1 = shapes db := by
    funext q
    exact (e6 q).2.2.2
  obtain ⟨hs, hnd, hr, hch, hil⟩ := ht
  unfold TreeAt
  rw [hsh, e3, e1]
  refine ⟨hs, hnd, hr, ?_, ?_⟩
  · exact chain_keep db.pages db1.pages _ 0 0 (fun q _ => ⟨(e6 q).1, (e6 q).2.1⟩) hch
  · intro q hq hint
    rw [(e6 q).2.2.1] at hint
    rw [(e6 q).2.1, (e6 _).2.2.1]
    exact hil q hq hint

/-- C4, as amended (tree invariants are preserved by insert).  If the tree obeys the
invariants (`TreeInv`: every node's keys are strictly ascending, every internal node
obeys the left-separator convention, the leaves form a doubly linked list in the order
of the tree; its pages are distinct allocated pages, and the right link of an internal
node is null or leads to an internal node) and `maxkeys ≥ 2`, then after every
successful `btree_insert`, with whatever flags, the tree obeys the invariants again.
Every tree built by inserts of distinct keys into an empty tree obeys them. -/
theorem insert_preserves_invariants (db : ham_db_t) (key record flags : Nat)
    (hinv : TreeInv db) (hmax : 2 ≤ db.maxkeys)
    (hst : (btree_insert db key record flags).1 = 0) :
    TreeInv (btree_insert db key record flags).2 ∧
    ∀ (rt_flags : Nat) (keys : List Nat), keys.Nodup →
      TreeInv (insert_all (empty_tree db.maxkeys rt_flags) keys).2 := by
  refine ⟨?_, fun rt_flags keys hnd => ?_⟩
  · obtain ⟨h, hi, ht⟩ := hinv
    by_cases hx : key ∈ keysOf (shapes db) h db.rootpage
    · obtain ⟨i1, i2⟩ := insert_stored h db.next db db.rootpage key 0 ⟨flags, record, 0, 0⟩ 0 hi
        ht.1 hx
      have hr : btree_insert db key record flags
          = ((my_insert_recursive db.next db db.rootpage key 0 ⟨flags, record, 0, 0⟩).1,
             (my_insert_recursive db.next db db.rootpage key 0 ⟨flags, record, 0, 0⟩).2.1) := by
        unfold btree_insert btree_insert_cursor
        simp only
        rw [if_neg i1]
      rw [hr]
      exact ⟨h, hi, sameTree_inv db _ h hi i2 ht⟩
    · obtain ⟨h1, hi1, t1, _⟩ := (insert_absent db key record flags h hi ht hmax hx).2 hst
      exact ⟨h1, hi1, t1⟩
  · obtain ⟨_, h1, hi1, t1, _⟩ := insert_all_spec keys (empty_tree db.maxkeys rt_flags) 0 1
      (empty_tree_inv db.maxkeys rt_flags) hmax (fun _ => rfl) hnd (by
        intro k _ hk
        exact absurd hk (List.not_mem_nil _))
    exact ⟨h1, hi1, t1⟩

theorem full_leaf_tree_inv : TreeAt full_leaf_tree 0 21 := by
  refine ⟨?_, ?_, ?_, ?_, ?_⟩
  · rw [Sub_zero]
    refine ⟨rfl, ?_, ?_⟩
    · show List.Pairwise (· < ·) [10, 20]
      decide
    · show ∀ k ∈ [10, 20], 0 ≤ k ∧ k < 21
      decide
  · exact List.nodup_singleton _
  · intro q hq
    rw [pagesOf_zero, List.mem_singleton] at hq
    rw [hq]
    exact ⟨Nat.one_pos, Nat.lt_succ_self 1⟩
  · exact ⟨rfl, rfl, trivial⟩
  · intro q _ hq
    exfalso
    apply hq
    show (if q = 1 then (⟨0, 0, 0, [⟨10, 10, []⟩, ⟨20, 20, []⟩]⟩ : btree_node_t)
      else ⟨0, 0, 0, []⟩).ptr_left = 0
    split_ifs <;> rfl

/-- C4, as amended, on the tree whose root is the full leaf with the keys 10 and 20: the
insert of 15 splits the root, and the tree obeys the invariants again. -/
theorem insert_preserves_invariants_witness :
    (TreeInv full_leaf_tree ∧ 2 ≤ full_leaf_tree.maxkeys ∧
      (btree_insert full_leaf_tree 15 15 0).1 = 0) ∧
    TreeInv (btree_insert full_leaf_tree 15 15 0).2 :=
  ⟨⟨⟨0, 21, full_leaf_tree_inv⟩, by decide, by decide⟩,
   (insert_preserves_invariants full_leaf_tree 15 15 0 ⟨0, 21, full_leaf_tree_inv⟩
    (by decide) (by decide)).1⟩

/-- A key that is stored in a leaf, inserted with neither `HAM_OVERWRITE` nor
`HAM_DUPLICATE`: `my_insert_nosplit` returns `HAM_DUPLICATE_KEY` and stores nothing. -/
theorem nosplit_dup (db : ham_db_t) (page key rid record flags : Nat)
    (hs : ((db.pages page).entries.map (fun e => e.key)).Pairwise (· < ·))
    (hx : key ∈ (db.pages page).entries.map (fun e => e.key))
    (hfl : flags &&& HAM_OVERWRITE = 0 ∧ flags &&& HAM_DUPLICATE = 0) :
    my_insert_nosplit db page key rid record flags = (HAM_DUPLICATE_KEY, db) := by
  obtain ⟨g1, g2, g3, g4⟩ := get_slot_stored (db.pages page) key hs hx
  unfold my_insert_nosplit
  simp only [g3]
  rw [if_neg (by omega), if_neg (by omega)]
  simp only [↓reduceIte]
  rw [if_neg (fun h => h.1 hfl.1), if_pos hfl]

/-- The same for `my_insert_in_page`, whether the leaf has room or is full. -/
theorem in_page_dup (db : ham_db_t) (page key rid flags : Nat) (sp : insert_scratchpad_t)
    (hleaf : (db.pages page).ptr_left = 0)
    (hs : ((db.pages page).entries.map (fun e => e.key)).Pairwise (· < ·))
    (hx : key ∈ (db.pages page).entries.map (fun e => e.key))
    (hfl : flags &&& HAM_OVERWRITE = 0 ∧ flags &&& HAM_DUPLICATE = 0) :
    my_insert_in_page db page key rid flags sp = (HAM_DUPLICATE_KEY, db, sp) := by
  obtain ⟨g1, g2, g3, g4⟩ := get_slot_stored (db.pages page) key hs hx
  have hlf : btree_node_is_leaf (db.pages page) = true := by
    unfold btree_node_is_leaf; simpa using hleaf
  have hsearch : btree_node_search_by_key (db.pages page) key ≥ 0 := by
    unfold btree_node_search_by_key
    simp only [g3]
    rw [if_pos ⟨by omega, trivial⟩]
    omega
  unfold my_insert_in_page
  simp only
  by_cases hroom : (db.pages page).entries.length < db.maxkeys
  · rw [if_pos hroom, nosplit_dup db page key rid sp.record flags hs hx hfl]
  · rw [if_neg hroom, if_pos ⟨hlf, hsearch⟩, if_neg (by
      intro h
      rcases h with h | h
      · exact h hfl.1
      · exact h hfl.2)]

theorem descent_kid (A B : List (Nat × Nat)) (c : Nat) :
    (A.getLast?.map Prod.snd).getD c ∈ c :: (A ++ B).map Prod.snd := by
  rcases List.eq_nil_or_concat A with hnil | ⟨A1, a, hcons⟩
  · subst hnil
    simp
  · rw [List.concat_eq_append] at hcons
    subst hcons
    simp

/-- The descent for a key that is stored below the page, with neither `HAM_OVERWRITE`
nor `HAM_DUPLICATE`: `my_insert_recursive` returns `HAM_DUPLICATE_KEY` and leaves the
database and the scratchpad as they are. -/
theorem recursive_dup : ∀ (h fuel : Nat) (db : ham_db_t) (p key rid : Nat)
    (sp : insert_scratchpad_t) (lo hi : Nat), h < fuel →
    Sub (shapes db) h p lo hi → (∀ q ∈ pagesOf (shapes db) h p, 0 < q) →
    key ∈ keysOf (shapes db) h p →
    sp.flags &&& HAM_OVERWRITE = 0 ∧ sp.flags &&& HAM_DUPLICATE = 0 →
    my_insert_recursive fuel db p key rid sp = (HAM_DUPLICATE_KEY, db, sp) := by
  intro h
  induction h with
  | zero =>
    intro fuel db p key rid sp lo hi hf hs _ hx hfl
    obtain ⟨f, rfl⟩ : ∃ f, fuel = f + 1 := ⟨fuel - 1, by omega⟩
    have hleaf : (db.pages p).ptr_left = 0 := hs.1
    have hlf : btree_node_is_leaf (db.pages p) = true := by
      unfold btree_node_is_leaf; simpa using hleaf
    unfold my_insert_recursive
    simp only [hlf, ↓reduceIte]
    have hsorted := hs.2.1
    rw [keysOf_zero] at hx
    have hsh : shapes db p = shape (db.pages p) := rfl
    rw [hsh, shape_keys] at hsorted hx
    exact in_page_dup db p key rid sp.flags sp hleaf hsorted hx hfl
  | succ h ih =>
    intro fuel db p key rid sp lo hi hf hs hpos hx hfl
    obtain ⟨f, rfl⟩ : ∃ f, fuel = f + 1 := ⟨fuel - 1, by omega⟩
    obtain ⟨hc0, hkids⟩ := (Sub_succ _ _ _ _ _).1 hs
    have hshp : shapes db p = shape (db.pages p) := rfl
    have hsorted := (Kids_sorted _ _ _ _ _ hkids).1
    rw [hshp] at hc0 hkids hsorted
    rw [shape_fst] at hc0 hkids
    obtain ⟨A, B, hAB, hA, hB, htr⟩ := descent_split (db.pages p) key hc0 hsorted
    rw [hAB] at hkids
    have hkidseq : kids (shapes db p) = (db.pages p).ptr_left :: (A ++ B).map Prod.snd := by
      rw [hshp]
      show (shape (db.pages p)).1 :: (shape (db.pages p)).2.map Prod.snd = _
      rw [hAB]; rfl
    have hx2 : key ∈ ((db.pages p).ptr_left :: (A ++ B).map Prod.snd).flatMap
        (keysOf (shapes db) h) := by
      rw [keysOf_succ, hkidseq] at hx
      exact hx
    obtain ⟨k1, a, b, k2⟩ := focus_keys _ _ (fun d a b => Sub_keys (shapes db) h d a b)
      A B _ lo hi key hkids hA hB hx2
    rw [← htr] at k1 k2
    have hkid : btree_traverse_tree (db.pages p) key ∈ kids (shapes db p) := by
      rw [hkidseq, htr]
      exact descent_kid A B _
    have hchild : btree_traverse_tree (db.pages p) key ≠ 0 := by
      have := hpos _ (mem_pagesOf_kid _ h p _ _ hkid (mem_pagesOf_self _ _ _))
      omega
    have hint : btree_node_is_leaf (db.pages p) = false := by
      unfold btree_node_is_leaf; simpa using hc0
    have hrec := ih f db _ key rid sp a b (by omega) k2
      (fun q hq => hpos q (mem_pagesOf_kid _ h p _ q hkid hq)) k1 hfl
    unfold my_insert_recursive
    simp only [hint, Bool.false_eq_true, ↓reduceIte]
    rw [if_neg hchild, hrec]
    simp only
    rw [if_neg (by decide)]

/-- C15 (duplicate without flag).  For every tree that obeys the invariants (of any
height `h`) and every key that is stored in one of its leaves, `btree_insert` with
neither `HAM_OVERWRITE` nor `HAM_DUPLICATE` among the flags returns
`HAM_DUPLICATE_KEY`, and the database afterwards is the database before the call:
every page with its keys, records, count and sibling links, the root pointer and the
page counter.  The leaf that holds the key may have free slots or be full. -/
theorem insert_duplicate_key (db : ham_db_t) (key record flags h hi : Nat)
    (ht : TreeAt db h hi) (hx : key ∈ keysOf (shapes db) h db.rootpage)
    (hfl : flags &&& HAM_OVERWRITE = 0 ∧ flags &&& HAM_DUPLICATE = 0) :
    btree_insert db key record flags = (HAM_DUPLICATE_KEY, db) := by
  have hrec := recursive_dup h db.next db db.rootpage key 0 ⟨flags, record, 0, 0⟩ 0 hi
    (tree_height_lt db h hi ht) ht.1 (fun q hq => (ht.2.2.1 q hq).1) hx hfl
  unfold btree_insert btree_insert_cursor
  simp only [hrec]
  rw [if_neg (by decide)]

/-- Witness for C15: the tree whose root is a full leaf with the keys 10 and 20; the
key 20 is rejected and the tree stays as it is. -/
theorem insert_duplicate_key_witness :
    btree_insert full_leaf_tree 20 7 0 = (HAM_DUPLICATE_KEY, full_leaf_tree) :=
  insert_duplicate_key full_leaf_tree 20 7 0 0 21 full_leaf_tree_inv (by
    show 20 ∈ [10, 20]
    decide) (by decide)

/-- The keys of a node after `put`: the key at its sorted position. -/
theorem put_keys_ordered (x : int_key_t) (es : List int_key_t)
    (hs : (es.map (fun e => e.key)).Pairwise (· < ·))
    (hx : x.key ∉ es.map (fun e => e.key)) :
    (put x es).map (fun e => e.key)
      = List.orderedInsert (· ≤ ·) x.key (es.map (fun e => e.key)) := by
  obtain ⟨h1, h2⟩ := sorted_split es x.key hs
  have hsplit : es.map (fun e => e.key)
      = (es.take (lower_count es x.key)).map (fun e => e.key) ++
        (es.drop (lower_count es x.key)).map (fun e => e.key) := by
    rw [← List.map_append, List.take_append_drop]
  unfold put
  rw [List.map_append, List.map_cons]
  conv_rhs => rw [hsplit]
  rw [Zint32.orderedInsert_split]
  · intro a ha
    obtain ⟨e, he, rfl⟩ := List.mem_map.1 ha
    have hle := h1 e he
    have hne : e.key ≠ x.key := by
      intro hh
      apply hx
      rw [← hh]
      exact List.mem_map_of_mem _ (List.mem_of_mem_take he)
    omega
  · intro b hb
    obtain ⟨e, he, rfl⟩ := List.mem_map.1 hb
    exact h2 e he

/-- The entries of the page `p` and of the new page in the database after a split. -/
theorem split_db_entries (db : ham_db_t) (p pl : Nat) (old new : List int_key_t)
    (hne : p ≠ db.next) :
    ((split_db db p pl old new).pages p).entries = old ∧
    ((split_db db p pl old new).pages db.next).entries = new := by
  have hne2 : db.next ≠ p := Ne.symm hne
  rw [split_db_pages _ _ _ _ _ hne, split_db_pages _ _ _ _ _ hne]
  constructor
  · by_cases h : (db.pages p).right ≠ 0 ∧ p = (db.pages p).right
    · rw [if_pos h]
      simp only [if_true]
    · rw [if_neg h, if_pos rfl]
  · by_cases h : (db.pages p).right ≠ 0 ∧ db.next = (db.pages p).right
    · rw [if_pos h]
      simp only [if_neg hne2, if_true]
    · rw [if_neg h, if_neg hne2, if_pos rfl]

/-- C16 (split preserves contents).  For every full leaf (`count = maxkeys ≥ 2`, keys
strictly ascending) and every key that is not stored in it, when the new page can be
allocated `my_insert_split` returns `SPLIT`, and the keys of the old page followed by
the keys of the new page `db.next` are the keys that the leaf held before with the key
inserted at its sorted position.  Both pages hold at least one key, and the key and
rid handed to the parent are the first key of the new page and the new page. -/
theorem split_preserves_contents (db : ham_db_t) (page key rid flags : Nat)
    (sp : insert_scratchpad_t) (hav : db.avail db.next = true) (hlt : page < db.next)
    (hleaf : (db.pages page).ptr_left = 0)
    (hs : ((db.pages page).entries.map (fun e => e.key)).Pairwise (· < ·))
    (hx : key ∉ (db.pages page).entries.map (fun e => e.key))
    (hfull : (db.pages page).entries.length = db.maxkeys) (hmax : 2 ≤ db.maxkeys) :
    (my_insert_split db page key rid flags sp).1 = SPLIT ∧
    ((my_insert_split db page key rid flags sp).2.1.pages page).entries.map (fun e => e.key) ++
      ((my_insert_split db page key rid flags sp).2.1.pages db.next).entries.map (fun e => e.key)
      = List.orderedInsert (· ≤ ·) key ((db.pages page).entries.map (fun e => e.key)) ∧
    ((my_insert_split db page key rid flags sp).2.1.pages page).entries ≠ [] ∧
    (((my_insert_split db page key rid flags sp).2.1.pages db.next).entries.map
        (fun e => e.key)).head? = some (my_insert_split db page key rid flags sp).2.2.key ∧
    (my_insert_split db page key rid flags sp).2.2.rid = db.next := by
  have hne : page ≠ db.next := by omega
  have hlf : btree_node_is_leaf (db.pages page) = true := by
    unfold btree_node_is_leaf; simpa using hleaf
  obtain ⟨hp1, hp2⟩ := pivot_bounds db.rt_flags (db.pages page).entries.length (by omega)
  rw [split_eq db page key rid flags sp hav hne hs hx (by
    intro h; rw [hlf] at h; exact Bool.noConfusion h)]
  simp only [hlf, ↓reduceIte]
  obtain ⟨e1, e2⟩ := split_db_entries db page 0
    (split_old (db.pages page).entries (pivot_index db.rt_flags (db.pages page).entries.length)
      (new_entry true key rid sp.record))
    (split_new true (db.pages page).entries
      (pivot_index db.rt_flags (db.pages page).entries.length)
      (new_entry true key rid sp.record)) hne
  obtain ⟨l1, t, l2⟩ := split_leaf_lists (db.pages page).entries
    (pivot_index db.rt_flags (db.pages page).entries.length) (new_entry true key rid sp.record)
    hp2 hs
  rw [e1, e2]
  refine ⟨trivial, ?_, split_old_ne_nil _ _ _ hp1 hp2, ?_, trivial⟩
  · rw [← List.map_append, l1]
    exact put_keys_ordered (new_entry true key rid sp.record) _ hs hx
  · rw [l2]
    rfl

/-- Witness for C16: the full leaf with the keys 10 and 20 (`maxkeys = 2`) and the key
15: the old page then holds 10 and 15, the new page holds 20. -/
theorem split_preserves_contents_witness :
    ((my_insert_split full_leaf_tree 1 15 0 0 ⟨0, 15, 0, 0⟩).2.1.pages 1).entries.map
        (fun e => e.key) ++
      ((my_insert_split full_leaf_tree 1 15 0 0 ⟨0, 15, 0, 0⟩).2.1.pages 2).entries.map
        (fun e => e.key)
      = [10, 15, 20] :=
  (split_preserves_contents full_leaf_tree 1 15 0 0 ⟨0, 15, 0, 0⟩ (by decide) (by decide)
    (by decide) (by decide) (by decide) (by decide) (by decide)).2.1

/-- The status of `my_insert_nosplit` is success or `HAM_DUPLICATE_KEY`, and the latter
leaves the database as it is. -/
theorem nosplit_status (db : ham_db_t) (page key rid record flags : Nat) :
    (my_insert_nosplit db page key rid record flags).1 = 0 ∨
    my_insert_nosplit db page key rid record flags = (HAM_DUPLICATE_KEY, db) := by
  unfold my_insert_nosplit
  simp only [insert_new_eq]
  split_ifs <;> first | exact Or.inl rfl | exact Or.inr rfl

/-- The key that `my_insert_split` hands to the parent is the key of the entry at the
pivot index. -/
theorem split_pivot_key (db : ham_db_t) (page key rid flags : Nat) (sp : insert_scratchpad_t)
    (h : (my_insert_split db page key rid flags sp).1 = SPLIT) :
    (my_insert_split db page key rid flags sp).2.2.key
      = ((db.pages page).entries.getD
          (pivot_index db.rt_flags (db.pages page).entries.length) default).key ∧
    (my_insert_split db page key rid flags sp).2.2.rid = db.next := by
  have hgen : ∀ (r : Int × ham_db_t) (k : Nat),
      (if r.1 ≠ 0 then (r.1, r.2, sp)
        else (SPLIT, fix_links r.2 page db.next,
          ({ sp with key := k, rid := db.next } : insert_scratchpad_t))).1 = SPLIT →
      (r.1 = 0 ∨ r.1 = HAM_DUPLICATE_KEY) →
      (if r.1 ≠ 0 then (r.1, r.2, sp)
        else (SPLIT, fix_links r.2 page db.next,
          ({ sp with key := k, rid := db.next } : insert_scratchpad_t))).2.2.key = k ∧
      (if r.1 ≠ 0 then (r.1, r.2, sp)
        else (SPLIT, fix_links r.2 page db.next,
          ({ sp with key := k, rid := db.next } : insert_scratchpad_t))).2.2.rid = db.next := by
    intro r k hr hs
    by_cases h0 : r.1 = 0
    · rw [if_neg (by simp [h0])]
      exact ⟨rfl, rfl⟩
    · rw [if_pos h0] at hr
      rcases hs with h1 | h1
      · exact absurd h1 h0
      · simp only at hr
        rw [h1] at hr
        exact absurd hr (by decide)
  have hst : ∀ (D : ham_db_t) (t : Nat),
      (my_insert_nosplit D t key rid sp.record (flags ||| NOFLUSH)).1 = 0 ∨
      (my_insert_nosplit D t key rid sp.record (flags ||| NOFLUSH)).1 = HAM_DUPLICATE_KEY := by
    intro D t
    rcases nosplit_status D t key rid sp.record (flags ||| NOFLUSH) with h1 | h1
    · exact Or.inl h1
    · exact Or.inr (by rw [h1])
  unfold my_insert_split db_alloc_page at h ⊢
  by_cases hav : db.avail db.next = true
  · rw [if_pos hav] at h ⊢
    simp only at h ⊢
    have hpv2 : (if db.rt_flags &&& HAM_RECORD_NUMBER ≠ 0 ∧ (db.pages page).entries.length > 8
        then (db.pages page).entries.length - 4
        else (db.pages page).entries.length / 2)
        = pivot_index db.rt_flags (db.pages page).entries.length := rfl
    rw [hpv2] at h ⊢
    by_cases hc : key_compare_int_to_pub ((db.pages page).entries.getD
        (pivot_index db.rt_flags (db.pages page).entries.length) default) key ≤ 0
    · simp only [if_pos hc] at h ⊢
      exact hgen _ _ h (hst _ _)
    · simp only [if_neg hc] at h ⊢
      exact hgen _ _ h (hst _ _)
  · have hav2 : db.avail db.next = false := by simpa using hav
    simp only [hav2, Bool.false_eq_true, ↓reduceIte] at h
    exact absurd h (by decide)

theorem mem_put_keys (x : int_key_t) (es : List int_key_t) (k : Nat) :
    k ∈ (put x es).map (fun e => e.key) ↔ k = x.key ∨ k ∈ es.map (fun e => e.key) := by
  rw [(put_keys_perm x es).mem_iff, List.mem_cons]

/-- The keys before the pivot are smaller than the key at the pivot, the keys from the
pivot on are not. -/
theorem pivot_keys (E : List int_key_t) (pv : Nat) (h : pv < E.length)
    (hs : (E.map (fun e => e.key)).Pairwise (· < ·)) :
    (∀ k ∈ (E.take pv).map (fun e => e.key), k < (E.getD pv default).key) ∧
    (∀ k ∈ (E.drop pv).map (fun e => e.key), (E.getD pv default).key ≤ k) ∧
    (∀ k ∈ (E.drop (pv + 1)).map (fun e => e.key), (E.getD pv default).key < k) := by
  have hE := getD_split E pv h
  have hd : E.drop pv = E.getD pv default :: E.drop (pv + 1) := by
    rw [List.getD_eq_getElem _ _ h]
    exact List.drop_eq_getElem_cons h
  generalize E.getD pv default = e at hE hd
  have hs2 := hs
  rw [hE, List.map_append, List.map_cons, List.pairwise_append, List.pairwise_cons] at hs2
  obtain ⟨_, ⟨sB1, _⟩, sAB⟩ := hs2
  refine ⟨fun k hk => sAB k hk e.key (List.mem_cons_self _ _), ?_, sB1⟩
  intro k hk
  rw [hd, List.map_cons, List.mem_cons] at hk
  rcases hk with h1 | h1
  · omega
  · exact le_of_lt (sB1 k h1)

/-- C25 (leaf split layout).  A full leaf with strictly ascending keys (`count ≥ 2`
entries `E`, pivot `p`) and a key that is not stored in it, when the new page can be
allocated: after `my_insert_split` the old page holds the entries `E[0, p)` and the new
page the entries `E[p, count)`, and the new entry is put at its sorted position into
the new page if the key is not smaller than the key of `E[p]`, into the old page
otherwise.  The key handed to the parent is the key of `E[p]`, which is the first key
of the new page after the insert; it is greater than every key of the old page and
not greater than any key of the new page; the rid handed to the parent is the new
page. -/
theorem leaf_split_layout (db : ham_db_t) (page key rid flags : Nat)
    (sp : insert_scratchpad_t) (hav : db.avail db.next = true) (hlt : page < db.next)
    (hleaf : (db.pages page).ptr_left = 0)
    (hs : ((db.pages page).entries.map (fun e => e.key)).Pairwise (· < ·))
    (hx : key ∉ (db.pages page).entries.map (fun e => e.key))
    (hcount : 2 ≤ (db.pages page).entries.length) :
    (my_insert_split db page key rid flags sp).1 = SPLIT ∧
    (((db.pages page).entries.getD
          (pivot_index db.rt_flags (db.pages page).entries.length) default).key ≤ key →
      ((my_insert_split db page key rid flags sp).2.1.pages page).entries
        = (db.pages page).entries.take (pivot_index db.rt_flags (db.pages page).entries.length) ∧
      ((my_insert_split db page key rid flags sp).2.1.pages db.next).entries
        = put ⟨key, sp.record, []⟩ ((db.pages page).entries.drop
            (pivot_index db.rt_flags (db.pages page).entries.length))) ∧
    (key < ((db.pages page).entries.getD
          (pivot_index db.rt_flags (db.pages page).entries.length) default).key →
      ((my_insert_split db page key rid flags sp).2.1.pages page).entries
        = put ⟨key, sp.record, []⟩ ((db.pages page).entries.take
            (pivot_index db.rt_flags (db.pages page).entries.length)) ∧
      ((my_insert_split db page key rid flags sp).2.1.pages db.next).entries
        = (db.pages page).entries.drop
            (pivot_index db.rt_flags (db.pages page).entries.length)) ∧
    (key ∈ ((my_insert_split db page key rid flags sp).2.1.pages db.next).entries.map
        (fun e => e.key) ↔
      ((db.pages page).entries.getD
          (pivot_index db.rt_flags (db.pages page).entries.length) default).key ≤ key) ∧
    (my_insert_split db page key rid flags sp).2.2.key
      = ((db.pages page).entries.getD
          (pivot_index db.rt_flags (db.pages page).entries.length) default).key ∧
    (((my_insert_split db page key rid flags sp).2.1.pages db.next).entries.map
        (fun e => e.key)).head? = some (my_insert_split db page key rid flags sp).2.2.key ∧
    (my_insert_split db page key rid flags sp).2.2.rid = db.next ∧
    (∀ k ∈ ((my_insert_split db page key rid flags sp).2.1.pages page).entries.map
        (fun e => e.key), k < (my_insert_split db page key rid flags sp).2.2.key) ∧
    (∀ k ∈ ((my_insert_split db page key rid flags sp).2.1.pages db.next).entries.map
        (fun e => e.key), (my_insert_split db page key rid flags sp).2.2.key ≤ k) := by
  have hne : page ≠ db.next := by omega
  have hlf : btree_node_is_leaf (db.pages page) = true := by
    unfold btree_node_is_leaf; simpa using hleaf
  obtain ⟨hp1, hp2⟩ := pivot_bounds db.rt_flags (db.pages page).entries.length hcount
  rw [split_eq db page key rid flags sp hav hne hs hx (by
    intro h; rw [hlf] at h; exact Bool.noConfusion h)]
  simp only [hlf, ↓reduceIte]
  obtain ⟨e1, e2⟩ := split_db_entries db page 0
    (split_old (db.pages page).entries (pivot_index db.rt_flags (db.pages page).entries.length)
      (new_entry true key rid sp.record))
    (split_new true (db.pages page).entries
      (pivot_index db.rt_flags (db.pages page).entries.length)
      (new_entry true key rid sp.record)) hne
  obtain ⟨_, t, l2⟩ := split_leaf_lists (db.pages page).entries
    (pivot_index db.rt_flags (db.pages page).entries.length) (new_entry true key rid sp.record)
    hp2 hs
  obtain ⟨q1, q2, _⟩ := pivot_keys (db.pages page).entries
    (pivot_index db.rt_flags (db.pages page).entries.length) hp2 hs
  rw [e1, e2]
  have hnew : new_entry true key rid sp.record = ⟨key, sp.record, []⟩ := rfl
  rw [hnew] at l2 ⊢
  generalize (db.pages page).entries = E at *
  generalize pivot_index db.rt_flags E.length = pv at *
  have hxd : key ∉ (E.drop pv).map (fun e => e.key) := by
    intro h
    obtain ⟨a, ha, hk⟩ := List.mem_map.1 h
    exact hx (List.mem_map.2 ⟨a, List.mem_of_mem_drop ha, hk⟩)
  unfold split_old split_new at *
  simp only [↓reduceIte] at *
  by_cases hc : (E.getD pv default).key ≤ key
  · simp only [hc, ↓reduceIte] at l2 ⊢
    refine ⟨trivial, fun _ => ⟨trivial, trivial⟩, fun h => absurd hc (by omega), ?_, trivial,
      ?_, trivial, q1, ?_⟩
    · rw [mem_put_keys]
      simp
    · rw [l2]; rfl
    · intro k hk
      rw [mem_put_keys] at hk
      rcases hk with h | h
      · rw [h]; exact hc
      · exact q2 k h
  · simp only [hc, ↓reduceIte] at l2 ⊢
    refine ⟨trivial, fun h => h.elim, fun _ => ⟨trivial, trivial⟩, ?_, trivial, ?_,
      trivial, ?_, q2⟩
    · simp only [hxd]
    · rw [l2]; rfl
    · intro k hk
      rw [mem_put_keys] at hk
      rcases hk with h | h
      · rw [h]; show key < _; omega
      · exact q1 k h

/-- Witness for C25: the full leaf with the keys 10 and 20 (pivot 1) and the key 25:
the old page keeps 10, the new page holds 20 and 25, and 20 goes to the parent. -/
theorem leaf_split_layout_witness :
    ((my_insert_split full_leaf_tree 1 25 0 0 ⟨0, 25, 0, 0⟩).2.1.pages 1).entries
      = [⟨10, 10, []⟩] ∧
    ((my_insert_split full_leaf_tree 1 25 0 0 ⟨0, 25, 0, 0⟩).2.1.pages 2).entries
      = [⟨20, 20, []⟩, ⟨25, 25, []⟩] ∧
    (my_insert_split full_leaf_tree 1 25 0 0 ⟨0, 25, 0, 0⟩).2.2.key = 20 :=
  ⟨((leaf_split_layout full_leaf_tree 1 25 0 0 ⟨0, 25, 0, 0⟩ (by decide) (by decide)
      (by decide) (by decide) (by decide) (by decide)).2.1 (by decide)).1,
   ((leaf_split_layout full_leaf_tree 1 25 0 0 ⟨0, 25, 0, 0⟩ (by decide) (by decide)
      (by decide) (by decide) (by decide) (by decide)).2.1 (by decide)).2,
   (leaf_split_layout full_leaf_tree 1 25 0 0 ⟨0, 25, 0, 0⟩ (by decide) (by decide)
      (by decide) (by decide) (by decide) (by decide)).2.2.2.2.1⟩

/-- What `my_insert_nosplit` leaves as it is: the constants of the database, every
other page, and the links and `ptr_left` of the page itself. -/
theorem nosplit_frame (db : ham_db_t) (page key rid record flags : Nat) :
    (my_insert_nosplit db page key rid record flags).2.next = db.next ∧
    (my_insert_nosplit db page key rid record flags).2.avail = db.avail ∧
    (my_insert_nosplit db page key rid record flags).2.rootpage = db.rootpage ∧
    (my_insert_nosplit db page key rid record flags).2.maxkeys = db.maxkeys ∧
    (my_insert_nosplit db page key rid record flags).2.rt_flags = db.rt_flags ∧
    (∀ q, q ≠ page →
      (my_insert_nosplit db page key rid record flags).2.pages q = db.pages q) ∧
    (∀ q, ((my_insert_nosplit db page key rid record flags).2.pages q).ptr_left
        = (db.pages q).ptr_left ∧
      ((my_insert_nosplit db page key rid record flags).2.pages q).left = (db.pages q).left ∧
      ((my_insert_nosplit db page key rid record flags).2.pages q).right
        = (db.pages q).right) := by
  have hset : ∀ es : List int_key_t,
      (db.setPage page { db.pages page with entries := es }).next = db.next ∧
      (db.setPage page { db.pages page with entries := es }).avail = db.avail ∧
      (db.setPage page { db.pages page with entries := es }).rootpage = db.rootpage ∧
      (db.setPage page { db.pages page with entries := es }).maxkeys = db.maxkeys ∧
      (db.setPage page { db.pages page with entries := es }).rt_flags = db.rt_flags ∧
      (∀ q, q ≠ page →
        (db.setPage page { db.pages page with entries := es }).pages q = db.pages q) ∧
      (∀ q, ((db.setPage page { db.pages page with entries := es }).pages q).ptr_left
          = (db.pages q).ptr_left ∧
        ((db.setPage page { db.pages page with entries := es }).pages q).left
          = (db.pages q).left ∧
        ((db.setPage page { db.pages page with entries := es }).pages q).right
          = (db.pages q).right) := by
    intro es
    refine ⟨rfl, rfl, rfl, rfl, rfl, fun q hq => setPage_other _ _ _ _ hq, fun q => ?_⟩
    rw [setPage_pages]
    by_cases hq : q = page
    · rw [if_pos hq, hq]; exact ⟨rfl, rfl, rfl⟩
    · rw [if_neg hq]; exact ⟨rfl, rfl, rfl⟩
  have hself : (db.next = db.next ∧ db.avail = db.avail ∧ db.rootpage = db.rootpage ∧
      db.maxkeys = db.maxkeys ∧ db.rt_flags = db.rt_flags ∧
      (∀ q, q ≠ page → db.pages q = db.pages q) ∧
      (∀ q, (db.pages q).ptr_left = (db.pages q).ptr_left ∧
        (db.pages q).left = (db.pages q).left ∧ (db.pages q).right = (db.pages q).right)) :=
    ⟨rfl, rfl, rfl, rfl, rfl, fun _ _ => rfl, fun _ => ⟨rfl, rfl, rfl⟩⟩
  unfold my_insert_nosplit
  simp only [insert_new_eq, set_entries]
  split_ifs <;> first | exact hset _ | exact hself

/-- A store into a page that keeps its entries and `ptr_left` (a store of links)
keeps those of every page. -/
theorem setPage_keep (db : ham_db_t) (id : Nat) (n : btree_node_t)
    (h1 : n.entries = (db.pages id).entries) (h2 : n.ptr_left = (db.pages id).ptr_left)
    (q : Nat) :
    ((db.setPage id n).pages q).entries = (db.pages q).entries ∧
    ((db.setPage id n).pages q).ptr_left = (db.pages q).ptr_left := by
  rw [setPage_pages]
  by_cases hq : q = id
  · rw [if_pos hq, hq]; exact ⟨h1, h2⟩
  · rw [if_neg hq]; exact ⟨rfl, rfl⟩

/-- What `fix_links` leaves as it is: the entries and `ptr_left` of every page. -/
theorem fix_links_keep (db : ham_db_t) (page newpage : Nat) (q : Nat) :
    ((fix_links db page newpage).pages q).entries = (db.pages q).entries ∧
    ((fix_links db page newpage).pages q).ptr_left = (db.pages q).ptr_left := by
  have k1 := setPage_keep db newpage
    { db.pages newpage with left := page, right := (db.pages page).right } rfl rfl
  generalize hdb4 : db.setPage newpage
    { db.pages newpage with left := page, right := (db.pages page).right } = db4 at k1
  have k2 := setPage_keep db4 page { db4.pages page with right := newpage } rfl rfl
  generalize hdb5 : db4.setPage page { db4.pages page with right := newpage } = db5 at k2
  have k3 := setPage_keep db5 (db.pages page).right
    { db5.pages (db.pages page).right with left := newpage } rfl rfl
  have hf : fix_links db page newpage =
      if (db.pages page).right ≠ 0 then
        db5.setPage (db.pages page).right
          { db5.pages (db.pages page).right with left := newpage }
      else db5 := by
    rw [← hdb5, ← hdb4]; rfl
  rw [hf]
  split_ifs
  · exact ⟨(k3 q).1.trans ((k2 q).1.trans (k1 q).1), (k3 q).2.trans ((k2 q).2.trans (k1 q).2)⟩
  · exact ⟨(k2 q).1.trans (k1 q).1, (k2 q).2.trans (k1 q).2⟩

/-- The page that `fix_links` links behind `page`. -/
theorem fix_links_right (db : ham_db_t) (page newpage : Nat) :
    ((fix_links db page newpage).pages page).right = newpage := by
  unfold fix_links
  simp only
  split_ifs with h
  · simp only [setPage_pages]
    split_ifs <;> first | rfl | (exfalso; omega)
  · simp only [setPage_pages, if_true]

/-- The steps of `my_insert_split` when the new page can be allocated: the move of the
entries, `my_insert_nosplit` on the new page (pivot key not greater than the key) or
on the old page, and, unless that fails, the links and the propagated key and rid. -/
theorem split_unfold (db : ham_db_t) (page key rid flags : Nat) (sp : insert_scratchpad_t)
    (hav : db.avail db.next = true) :
    my_insert_split db page key rid flags sp =
      if (my_insert_nosplit
          (move_entries { db with next := db.next + 1 } page db.next
            (pivot_index db.rt_flags (db.pages page).entries.length))
          (if ((db.pages page).entries.getD
              (pivot_index db.rt_flags (db.pages page).entries.length) default).key ≤ key
            then db.next else page) key rid sp.record (flags ||| NOFLUSH)).1 ≠ 0 then
        ((my_insert_nosplit
          (move_entries { db with next := db.next + 1 } page db.next
            (pivot_index db.rt_flags (db.pages page).entries.length))
          (if ((db.pages page).entries.getD
              (pivot_index db.rt_flags (db.pages page).entries.length) default).key ≤ key
            then db.next else page) key rid sp.record (flags ||| NOFLUSH)).1,
         (my_insert_nosplit
          (move_entries { db with next := db.next + 1 } page db.next
            (pivot_index db.rt_flags (db.pages page).entries.length))
          (if ((db.pages page).entries.getD
              (pivot_index db.rt_flags (db.pages page).entries.length) default).key ≤ key
            then db.next else page) key rid sp.record (flags ||| NOFLUSH)).2, sp)
      else
        (SPLIT,
         fix_links (my_insert_nosplit
          (move_entries { db with next := db.next + 1 } page db.next
            (pivot_index db.rt_flags (db.pages page).entries.length))
          (if ((db.pages page).entries.getD
              (pivot_index db.rt_flags (db.pages page).entries.length) default).key ≤ key
            then db.next else page) key rid sp.record (flags ||| NOFLUSH)).2 page db.next,
         ⟨sp.flags, sp.record, ((db.pages page).entries.getD
            (pivot_index db.rt_flags (db.pages page).entries.length) default).key, db.next⟩) := by
  unfold my_insert_split db_alloc_page
  rw [if_pos hav]
  simp only
  have hpv2 : (if db.rt_flags &&& HAM_RECORD_NUMBER ≠ 0 ∧ (db.pages page).entries.length > 8
      then (db.pages page).entries.length - 4
      else (db.pages page).entries.length / 2)
      = pivot_index db.rt_flags (db.pages page).entries.length := rfl
  rw [hpv2]
  by_cases hc : ((db.pages page).entries.getD
      (pivot_index db.rt_flags (db.pages page).entries.length) default).key ≤ key
  · rw [if_pos ((compare_le _ key).2 hc), if_pos hc]
  · rw [if_neg (fun h => hc ((compare_le _ key).1 h)), if_neg hc]

/-- The links of the pages after the move of the entries to the new page. -/
theorem move_entries_links (db : ham_db_t) (page newpage pivot : Nat) (q : Nat) :
    ((move_entries db page newpage pivot).pages q).left
      = (if q = page then (db.pages page).left else if q = newpage then 0
          else (db.pages q).left) ∧
    ((move_entries db page newpage pivot).pages q).right
      = (if q = page then (db.pages page).right else if q = newpage then 0
          else (db.pages q).right) := by
  unfold move_entries
  simp only [setPage_pages]
  split_ifs <;> exact ⟨rfl, rfl⟩

/-- What `my_insert_split` does to the database, whatever the node and the key: the
constants stay, the page counter does not fall, the status is never success, and the
pages other than the split one and the new one keep their entries and `ptr_left`.
When the status is `SPLIT`, the page was allocated, the scratchpad holds the key at
the pivot and the id of the new page, and the sibling links are those of every page
before the call but for the new page, which stands between the split page and its
former right neighbour. -/
theorem split_facts (db : ham_db_t) (page key rid flags : Nat) (sp : insert_scratchpad_t)
    (hne : page ≠ db.next) :
    (my_insert_split db page key rid flags sp).2.1.avail = db.avail ∧
    (my_insert_split db page key rid flags sp).2.1.rootpage = db.rootpage ∧
    (my_insert_split db page key rid flags sp).2.1.maxkeys = db.maxkeys ∧
    (my_insert_split db page key rid flags sp).2.1.rt_flags = db.rt_flags ∧
    db.next ≤ (my_insert_split db page key rid flags sp).2.1.next ∧
    (my_insert_split db page key rid flags sp).1 ≠ 0 ∧
    (∀ q, q ≠ page → q ≠ db.next →
      ((my_insert_split db page key rid flags sp).2.1.pages q).entries = (db.pages q).entries ∧
      ((my_insert_split db page key rid flags sp).2.1.pages q).ptr_left
        = (db.pages q).ptr_left) ∧
    ((my_insert_split db page key rid flags sp).1 = SPLIT →
      db.avail db.next = true ∧
      (my_insert_split db page key rid flags sp).2.1.next = db.next + 1 ∧
      (my_insert_split db page key rid flags sp).2.2 = ⟨sp.flags, sp.record,
        ((db.pages page).entries.getD
          (pivot_index db.rt_flags (db.pages page).entries.length) default).key, db.next⟩ ∧
      ∀ q,
        ((my_insert_split db page key rid flags sp).2.1.pages q).left
          = (if (db.pages page).right ≠ 0 ∧ q = (db.pages page).right then db.next
              else if q = page then (db.pages page).left else if q = db.next then page
              else (db.pages q).left) ∧
        ((my_insert_split db page key rid flags sp).2.1.pages q).right
          = (if q = page then db.next else if q = db.next then (db.pages page).right
              else (db.pages q).right)) := by
  by_cases hav : db.avail db.next = true
  · rw [split_unfold db page key rid flags sp hav]
    generalize hdb2 : move_entries { db with next := db.next + 1 } page db.next
      (pivot_index db.rt_flags (db.pages page).entries.length) = db2
    generalize htgt : (if ((db.pages page).entries.getD
      (pivot_index db.rt_flags (db.pages page).entries.length) default).key ≤ key
      then db.next else page) = tgt
    have htg : tgt = db.next ∨ tgt = page := by
      rw [← htgt]; split_ifs
      · exact Or.inl rfl
      · exact Or.inr rfl
    obtain ⟨f1, f2, f3, f4, f5, f6, f7⟩ :=
      nosplit_frame db2 tgt key rid sp.record (flags ||| NOFLUSH)
    have hst := nosplit_status db2 tgt key rid sp.record (flags ||| NOFLUSH)
    obtain ⟨m1, m2, m3⟩ := move_entries_pages { db with next := db.next + 1 } page db.next
      (pivot_index db.rt_flags (db.pages page).entries.length) hne
    have ml := move_entries_links { db with next := db.next + 1 } page db.next
      (pivot_index db.rt_flags (db.pages page).entries.length)
    rw [hdb2] at m1 m2 m3 ml
    have g1 : db2.next = db.next + 1 := by rw [← hdb2]; rfl
    have g2 : db2.avail = db.avail := by rw [← hdb2]; rfl
    have g3 : db2.rootpage = db.rootpage := by rw [← hdb2]; rfl
    have g4 : db2.maxkeys = db.maxkeys := by rw [← hdb2]; rfl
    have g5 : db2.rt_flags = db.rt_flags := by rw [← hdb2]; rfl
    simp only at m1 m2 m3 ml
    generalize my_insert_nosplit db2 tgt key rid sp.record (flags ||| NOFLUSH) = n at *
    have hother : ∀ q, q ≠ page → q ≠ db.next → n.2.pages q = db.pages q := by
      intro q h1 h2
      rw [f6 q (by rcases htg with h | h <;> rw [h] <;> assumption), m3 q h1 h2]
    by_cases hn : n.1 = 0
    · rw [if_neg (by simpa using hn)]
      have fl := fix_links_fields n.2 page db.next
      refine ⟨by rw [fl.2.1, f2, g2], by rw [fl.2.2.1, f3, g3], by rw [fl.2.2.2.1, f4, g4],
        by rw [fl.2.2.2.2, f5, g5], by rw [fl.1, f1, g1]; omega,
        fun h => absurd (show (1 : Int) = 0 from h) (by decide), ?_, ?_⟩
      · intro q h1 h2
        obtain ⟨k1, k2⟩ := fix_links_keep n.2 page db.next q
        show ((fix_links n.2 page db.next).pages q).entries = _ ∧
          ((fix_links n.2 page db.next).pages q).ptr_left = _
        rw [k1, k2, hother q h1 h2]
        exact ⟨rfl, rfl⟩
      · intro _
        refine ⟨hav, by rw [fl.1, f1, g1], rfl, ?_⟩
        intro q
        show ((fix_links n.2 page db.next).pages q).left = _ ∧
          ((fix_links n.2 page db.next).pages q).right = _
        have hR : (n.2.pages page).right = (db.pages page).right := by
          rw [(f7 page).2.2, (ml page).2, if_pos rfl]
        have hL : (n.2.pages page).left = (db.pages page).left := by
          rw [(f7 page).2.1, (ml page).1, if_pos rfl]
        have hqR : (n.2.pages q).right = if q = page then (db.pages page).right
            else if q = db.next then 0 else (db.pages q).right := by
          rw [(f7 q).2.2, (ml q).2]
        have hqL : (n.2.pages q).left = if q = page then (db.pages page).left
            else if q = db.next then 0 else (db.pages q).left := by
          rw [(f7 q).2.1, (ml q).1]
        rw [fix_links_pages _ _ _ hne, hR, hL]
        by_cases c1 : (db.pages page).right ≠ 0 ∧ q = (db.pages page).right
        · rw [if_pos c1, if_pos c1]
          simp only
          refine ⟨trivial, ?_⟩
          rw [hqR]
          by_cases c2 : q = page
          · rw [if_pos c2, if_pos c2]
          · rw [if_neg c2, if_neg c2, if_neg c2]
            by_cases c3 : q = db.next
            · rw [if_pos c3, if_pos c3]
            · rw [if_neg c3, if_neg c3, if_neg c3]
        · rw [if_neg c1, if_neg c1]
          by_cases c2 : q = page
          · rw [if_pos c2, if_pos c2, if_pos c2]
            exact ⟨rfl, rfl⟩
          · rw [if_neg c2, if_neg c2, if_neg c2]
            by_cases c3 : q = db.next
            · rw [if_pos c3, if_pos c3, if_pos c3]
              exact ⟨rfl, rfl⟩
            · rw [if_neg c3, if_neg c3, if_neg c3, hqL, hqR, if_neg c2, if_neg c2,
                if_neg c3, if_neg c3]
              exact ⟨rfl, rfl⟩
    · rw [if_pos (by simpa using hn)]
      have hnd : n = (HAM_DUPLICATE_KEY, db2) := by
        rcases hst with h | h
        · exact absurd h hn
        · exact h
      refine ⟨by rw [← g2]; exact f2, by rw [← g3]; exact f3, by rw [← g4]; exact f4,
        by rw [← g5]; exact f5, by show db.next ≤ n.2.next; rw [f1, g1]; omega, hn, ?_, ?_⟩
      · intro q h1 h2
        show (n.2.pages q).entries = _ ∧ (n.2.pages q).ptr_left = _
        rw [hother q h1 h2]
        exact ⟨rfl, rfl⟩
      · intro h
        rw [hnd] at h
        exact absurd (show (-12 : Int) = 1 from h) (by decide)
  · have hav2 : db.avail db.next = false := by simpa using hav
    rw [split_fail db page key rid flags sp hav2]
    refine ⟨rfl, rfl, rfl, rfl, le_refl _,
      fun h => absurd (show (-6 : Int) = 0 from h) (by decide),
      fun _ _ _ => ⟨rfl, rfl⟩, fun h => absurd (show (-6 : Int) = 1 from h) (by decide)⟩

/-- C26 (sibling links after a split).  For a page `P` below the page counter whose
right link `R` is null or another allocated page, and the new page `N` (`db.next`):
when `my_insert_split` returns `SPLIT`, as it does for a full leaf and a new key,
then `N.left = P`, `N.right = R`, `P.right = N`, and `R.left = N` when `R` is not
null; `P.left` is unchanged, and so are the right link of every page other than `P`
and `N` and the left link of every page other than `P`, `N` and `R`. -/
theorem split_sibling_links (db : ham_db_t) (page key rid flags : Nat)
    (sp : insert_scratchpad_t) (hlt : page < db.next)
    (hR1 : (db.pages page).right ≠ page) (hR2 : (db.pages page).right < db.next)
    (hst : (my_insert_split db page key rid flags sp).1 = SPLIT) :
    ((my_insert_split db page key rid flags sp).2.1.pages db.next).left = page ∧
    ((my_insert_split db page key rid flags sp).2.1.pages db.next).right
      = (db.pages page).right ∧
    ((my_insert_split db page key rid flags sp).2.1.pages page).right = db.next ∧
    ((db.pages page).right ≠ 0 →
      ((my_insert_split db page key rid flags sp).2.1.pages (db.pages page).right).left
        = db.next) ∧
    ((my_insert_split db page key rid flags sp).2.1.pages page).left = (db.pages page).left ∧
    (∀ q, q ≠ page → q ≠ db.next →
      ((my_insert_split db page key rid flags sp).2.1.pages q).right = (db.pages q).right) ∧
    (∀ q, q ≠ page → q ≠ db.next → (db.pages page).right = 0 ∨ q ≠ (db.pages page).right →
      ((my_insert_split db page key rid flags sp).2.1.pages q).left = (db.pages q).left) := by
  have hne : page ≠ db.next := by omega
  obtain ⟨_, _, _, _, _, _, _, hs⟩ := split_facts db page key rid flags sp hne
  obtain ⟨_, _, _, hl⟩ := hs hst
  refine ⟨?_, ?_, ?_, ?_, ?_, ?_, ?_⟩
  · rw [(hl db.next).1, if_neg (by intro h; omega), if_neg (Ne.symm hne), if_pos rfl]
  · rw [(hl db.next).2, if_neg (Ne.symm hne), if_pos rfl]
  · rw [(hl page).2, if_pos rfl]
  · intro h0
    rw [(hl _).1, if_pos ⟨h0, rfl⟩]
  · rw [(hl page).1, if_neg (by intro h; exact hR1 h.2.symm), if_pos rfl]
  · intro q h1 h2
    rw [(hl q).2, if_neg h1, if_neg h2]
  · intro q h1 h2 h3
    rw [(hl q).1, if_neg (by
      intro h
      rcases h3 with h3 | h3
      · exact h.1 h3
      · exact h3 h.2), if_neg h1, if_neg h2]

/-- Witness for C26: in the tree of three full leaves the leaf 1 (right neighbour 2) is
split for the key 15; the new page 5 stands between the pages 1 and 2. -/
theorem split_sibling_links_witness :
    ((my_insert_split full_two_level_tree 1 15 0 0 ⟨0, 15, 0, 0⟩).2.1.pages 5).left = 1 ∧
    ((my_insert_split full_two_level_tree 1 15 0 0 ⟨0, 15, 0, 0⟩).2.1.pages 5).right = 2 ∧
    ((my_insert_split full_two_level_tree 1 15 0 0 ⟨0, 15, 0, 0⟩).2.1.pages 1).right = 5 ∧
    ((my_insert_split full_two_level_tree 1 15 0 0 ⟨0, 15, 0, 0⟩).2.1.pages 2).left = 5 :=
  ⟨(split_sibling_links full_two_level_tree 1 15 0 0 ⟨0, 15, 0, 0⟩ (by decide) (by decide)
      (by decide) (by decide)).1,
   (split_sibling_links full_two_level_tree 1 15 0 0 ⟨0, 15, 0, 0⟩ (by decide) (by decide)
      (by decide) (by decide)).2.1,
   (split_sibling_links full_two_level_tree 1 15 0 0 ⟨0, 15, 0, 0⟩ (by decide) (by decide)
      (by decide) (by decide)).2.2.1,
   (split_sibling_links full_two_level_tree 1 15 0 0 ⟨0, 15, 0, 0⟩ (by decide) (by decide)
      (by decide) (by decide)).2.2.2.1 (by decide)⟩

/-- The claim of C27 about the place of the key fails for a key equal to the pivot
key: the full internal node 4 of `full_two_level_tree` has the entries (30, page 2)
and (50, page 3) and the pivot 1; `my_insert_split` for the key 50 (not greater than
the pivot key 50) with the rid 9 keeps (30, page 2) in the old node and stores
(50, 9) in the new node 5, since it inserts into the new page when `cmp <= 0`. -/
theorem internal_split_equal_key_counterexample :
    (my_insert_split full_two_level_tree 4 50 9 HAM_OVERWRITE ⟨0, 0, 0, 0⟩).1 = SPLIT ∧
    ((full_two_level_tree.pages 4).entries.getD
      (pivot_index full_two_level_tree.rt_flags
        (full_two_level_tree.pages 4).entries.length) default).key = 50 ∧
    ¬ (50 > ((full_two_level_tree.pages 4).entries.getD
      (pivot_index full_two_level_tree.rt_flags
        (full_two_level_tree.pages 4).entries.length) default).key) ∧
    50 ∉ ((my_insert_split full_two_level_tree 4 50 9 HAM_OVERWRITE
      ⟨0, 0, 0, 0⟩).2.1.pages 4).entries.map (fun e => e.key) ∧
    ((my_insert_split full_two_level_tree 4 50 9 HAM_OVERWRITE ⟨0, 0, 0, 0⟩).2.1.pages 4).entries
      = [⟨30, 2, []⟩] ∧
    ((my_insert_split full_two_level_tree 4 50 9 HAM_OVERWRITE ⟨0, 0, 0, 0⟩).2.1.pages 5).entries
      = [⟨50, 9, []⟩] := by
  decide

/-- C27 (internal split layout), as amended.  A full internal node with strictly
ascending keys (`count ≥ 2` entries `E`, pivot `p`, the child pointer of `E[p]` not
null) and a key that is not the key of an entry other than `E[p]`, when the new page
can be allocated: after `my_insert_split` the old node keeps the entries `E[0, p)`,
the new node holds the entries `E[p+1, count)`, `count - p - 1` of them, and has the
child pointer of `E[p]` as its `ptr_left`; the entry for the key (the key with the
rid) is put at its sorted position into the new node if the key is greater than or
equal to the key of `E[p]`, and into the old node if it is smaller.  The key of
`E[p]` is the one handed to the parent, with the new page as rid, and unless the
inserted key equals it, it is a key of neither node. -/
theorem internal_split_layout (db : ham_db_t) (page key rid flags : Nat)
    (sp : insert_scratchpad_t) (hav : db.avail db.next = true) (hlt : page < db.next)
    (hint : (db.pages page).ptr_left ≠ 0)
    (hs : ((db.pages page).entries.map (fun e => e.key)).Pairwise (· < ·))
    (hcount : 2 ≤ (db.pages page).entries.length)
    (hp : ((db.pages page).entries.getD
      (pivot_index db.rt_flags (db.pages page).entries.length) default).ptr ≠ 0)
    (hx1 : key ∉ ((db.pages page).entries.take
      (pivot_index db.rt_flags (db.pages page).entries.length)).map (fun e => e.key))
    (hx2 : key ∉ ((db.pages page).entries.drop
      (pivot_index db.rt_flags (db.pages page).entries.length + 1)).map (fun e => e.key)) :
    (my_insert_split db page key rid flags sp).1 = SPLIT ∧
    (((db.pages page).entries.getD
          (pivot_index db.rt_flags (db.pages page).entries.length) default).key ≤ key →
      ((my_insert_split db page key rid flags sp).2.1.pages page).entries
        = (db.pages page).entries.take (pivot_index db.rt_flags (db.pages page).entries.length) ∧
      ((my_insert_split db page key rid flags sp).2.1.pages db.next).entries
        = put ⟨key, rid, []⟩ ((db.pages page).entries.drop
            (pivot_index db.rt_flags (db.pages page).entries.length + 1))) ∧
    (key < ((db.pages page).entries.getD
          (pivot_index db.rt_flags (db.pages page).entries.length) default).key →
      ((my_insert_split db page key rid flags sp).2.1.pages page).entries
        = put ⟨key, rid, []⟩ ((db.pages page).entries.take
            (pivot_index db.rt_flags (db.pages page).entries.length)) ∧
      ((my_insert_split db page key rid flags sp).2.1.pages db.next).entries
        = (db.pages page).entries.drop
            (pivot_index db.rt_flags (db.pages page).entries.length + 1)) ∧
    ((db.pages page).entries.drop
        (pivot_index db.rt_flags (db.pages page).entries.length + 1)).length
      = (db.pages page).entries.length
        - pivot_index db.rt_flags (db.pages page).entries.length - 1 ∧
    ((my_insert_split db page key rid flags sp).2.1.pages db.next).ptr_left
      = ((db.pages page).entries.getD
          (pivot_index db.rt_flags (db.pages page).entries.length) default).ptr ∧
    ((my_insert_split db page key rid flags sp).2.1.pages page).ptr_left
      = (db.pages page).ptr_left ∧
    (my_insert_split db page key rid flags sp).2.2.key
      = ((db.pages page).entries.getD
          (pivot_index db.rt_flags (db.pages page).entries.length) default).key ∧
    (my_insert_split db page key rid flags sp).2.2.rid = db.next ∧
    (key ≠ ((db.pages page).entries.getD
          (pivot_index db.rt_flags (db.pages page).entries.length) default).key →
      ((db.pages page).entries.getD
          (pivot_index db.rt_flags (db.pages page).entries.length) default).key ∉
        ((my_insert_split db page key rid flags sp).2.1.pages page).entries.map
          (fun e => e.key) ∧
      ((db.pages page).entries.getD
          (pivot_index db.rt_flags (db.pages page).entries.length) default).key ∉
        ((my_insert_split db page key rid flags sp).2.1.pages db.next).entries.map
          (fun e => e.key)) := by
  have hne : page ≠ db.next := by omega
  obtain ⟨hp1, hp2⟩ := pivot_bounds db.rt_flags (db.pages page).entries.length hcount
  obtain ⟨q1, _, q3⟩ := pivot_keys (db.pages page).entries
    (pivot_index db.rt_flags (db.pages page).entries.length) hp2 hs
  have hint2 : btree_node_is_leaf (db.pages page) = false := by
    unfold btree_node_is_leaf; simpa using hint
  obtain ⟨m1, m2, m3⟩ := move_entries_pages { db with next := db.next + 1 } page db.next
    (pivot_index db.rt_flags (db.pages page).entries.length) hne
  rw [split_unfold db page key rid flags sp hav]
  generalize hdb2 : move_entries { db with next := db.next + 1 } page db.next
    (pivot_index db.rt_flags (db.pages page).entries.length) = db2 at *
  simp only at m1 m2 m3
  rw [hint2] at m2
  simp only [Bool.false_eq_true, if_false] at m2
  generalize hE : (db.pages page).entries = E at *
  generalize hpv : pivot_index db.rt_flags E.length = pv at *
  generalize he : E.getD pv default = e at *
  have hlen : (E.drop (pv + 1)).length = E.length - pv - 1 := by
    rw [List.length_drop]; omega
  have hlf1 : btree_node_is_leaf (db2.pages page) = false := by
    rw [m1]; unfold btree_node_is_leaf; simpa using hint
  have hlf2 : btree_node_is_leaf (db2.pages db.next) = false := by
    rw [m2]; unfold btree_node_is_leaf; simpa using hp
  by_cases hc : e.key ≤ key
  · rw [if_pos hc, nosplit_new db2 db.next key rid sp.record _
      (by rw [m2]; exact sorted_drop E (pv + 1) hs) (by rw [m2]; exact hx2), hlf2, m2]
    simp only [ne_eq, not_true_eq_false, if_false]
    have k := fix_links_keep (db2.setPage db.next (set_entries ⟨e.ptr, 0, 0, E.drop (pv + 1)⟩
      (put (new_entry false key rid sp.record) (E.drop (pv + 1))))) page db.next
    rw [(k page).1, (k page).2, (k db.next).1, (k db.next).2, setPage_other _ _ _ _ hne,
      setPage_same, m1]
    have hnew : new_entry false key rid sp.record = ⟨key, rid, []⟩ := rfl
    rw [hnew]
    refine ⟨trivial, fun _ => ⟨rfl, rfl⟩, fun h => absurd hc (by omega), hlen,
      rfl, rfl, trivial, trivial, ?_⟩
    intro hk
    refine ⟨fun h => absurd (q1 _ h) (by omega), ?_⟩
    show e.key ∉ (put ⟨key, rid, []⟩ (E.drop (pv + 1))).map (fun e => e.key)
    rw [mem_put_keys]
    intro h
    rcases h with h | h
    · exact hk h.symm
    · exact absurd (q3 _ h) (by omega)
  · rw [if_neg hc, nosplit_new db2 page key rid sp.record _
      (by rw [m1]; exact sorted_take E pv hs) (by rw [m1]; exact hx1), hlf1, m1]
    simp only [ne_eq, not_true_eq_false, if_false]
    have k := fix_links_keep (db2.setPage page (set_entries
      ⟨(db.pages page).ptr_left, (db.pages page).left, (db.pages page).right, E.take pv⟩
      (put (new_entry false key rid sp.record) (E.take pv)))) page db.next
    rw [(k page).1, (k page).2, (k db.next).1, (k db.next).2,
      setPage_other _ _ _ _ (Ne.symm hne), setPage_same, m2]
    have hnew : new_entry false key rid sp.record = ⟨key, rid, []⟩ := rfl
    rw [hnew]
    refine ⟨trivial, fun h => absurd h hc, fun _ => ⟨rfl, rfl⟩, hlen,
      rfl, rfl, trivial, trivial, ?_⟩
    intro hk
    refine ⟨?_, fun h => absurd (q3 _ h) (by omega)⟩
    show e.key ∉ (put ⟨key, rid, []⟩ (E.take pv)).map (fun e => e.key)
    rw [mem_put_keys]
    intro h
    rcases h with h | h
    · exact hk h.symm
    · exact absurd (q1 _ h) (by omega)

/-- Witness for C27: the full root of `full_two_level_tree` (entries (30, page 2) and
(50, page 3), pivot 1) takes the key 60 with the rid 5: the old node keeps (30, 2),
the new node 5 holds (60, 5) behind the `ptr_left` 3, and 50 goes to the parent. -/
theorem internal_split_layout_witness :
    ((my_insert_split full_two_level_tree 4 60 5 HAM_OVERWRITE ⟨0, 0, 0, 0⟩).2.1.pages 4).entries
      = [⟨30, 2, []⟩] ∧
    ((my_insert_split full_two_level_tree 4 60 5 HAM_OVERWRITE ⟨0, 0, 0, 0⟩).2.1.pages 5).entries
      = [⟨60, 5, []⟩] ∧
    ((my_insert_split full_two_level_tree 4 60 5 HAM_OVERWRITE
      ⟨0, 0, 0, 0⟩).2.1.pages 5).ptr_left = 3 ∧
    (my_insert_split full_two_level_tree 4 60 5 HAM_OVERWRITE ⟨0, 0, 0, 0⟩).2.2.key = 50 :=
  ⟨((internal_split_layout full_two_level_tree 4 60 5 HAM_OVERWRITE ⟨0, 0, 0, 0⟩ (by decide)
      (by decide) (by decide) (by decide) (by decide) (by decide) (by decide)
      (by decide)).2.1 (by decide)).1,
   ((internal_split_layout full_two_level_tree 4 60 5 HAM_OVERWRITE ⟨0, 0, 0, 0⟩ (by decide)
      (by decide) (by decide) (by decide) (by decide) (by decide) (by decide)
      (by decide)).2.1 (by decide)).2,
   (internal_split_layout full_two_level_tree 4 60 5 HAM_OVERWRITE ⟨0, 0, 0, 0⟩ (by decide)
      (by decide) (by decide) (by decide) (by decide) (by decide) (by decide)
      (by decide)).2.2.2.2.1,
   (internal_split_layout full_two_level_tree 4 60 5 HAM_OVERWRITE ⟨0, 0, 0, 0⟩ (by decide)
      (by decide) (by decide) (by decide) (by decide) (by decide) (by decide)
      (by decide)).2.2.2.2.2.2.1⟩

/-- What `my_insert_split` does to the constants of the database and to the page
counter, for every page: the status is never success, and with the status `SPLIT` the
page counter grew by one, the scratchpad holds the key at the pivot and the new page,
and the new page is the right neighbour of the split page. -/
theorem split_fields (db : ham_db_t) (page key rid flags : Nat) (sp : insert_scratchpad_t) :
    (my_insert_split db page key rid flags sp).2.1.avail = db.avail ∧
    (my_insert_split db page key rid flags sp).2.1.rootpage = db.rootpage ∧
    (my_insert_split db page key rid flags sp).2.1.maxkeys = db.maxkeys ∧
    (my_insert_split db page key rid flags sp).2.1.rt_flags = db.rt_flags ∧
    db.next ≤ (my_insert_split db page key rid flags sp).2.1.next ∧
    (my_insert_split db page key rid flags sp).1 ≠ 0 ∧
    ((my_insert_split db page key rid flags sp).1 = SPLIT →
      (my_insert_split db page key rid flags sp).2.1.next = db.next + 1 ∧
      (my_insert_split db page key rid flags sp).2.2 = ⟨sp.flags, sp.record,
        ((db.pages page).entries.getD
          (pivot_index db.rt_flags (db.pages page).entries.length) default).key, db.next⟩ ∧
      ((my_insert_split db page key rid flags sp).2.1.pages page).right = db.next) := by
  by_cases hav : db.avail db.next = true
  · rw [split_unfold db page key rid flags sp hav]
    generalize hdb2 : move_entries { db with next := db.next + 1 } page db.next
      (pivot_index db.rt_flags (db.pages page).entries.length) = db2
    generalize (if ((db.pages page).entries.getD
      (pivot_index db.rt_flags (db.pages page).entries.length) default).key ≤ key
      then db.next else page) = tgt
    obtain ⟨f1, f2, f3, f4, f5, _, _⟩ :=
      nosplit_frame db2 tgt key rid sp.record (flags ||| NOFLUSH)
    have hst := nosplit_status db2 tgt key rid sp.record (flags ||| NOFLUSH)
    have g1 : db2.next = db.next + 1 := by rw [← hdb2]; rfl
    have g2 : db2.avail = db.avail := by rw [← hdb2]; rfl
    have g3 : db2.rootpage = db.rootpage := by rw [← hdb2]; rfl
    have g4 : db2.maxkeys = db.maxkeys := by rw [← hdb2]; rfl
    have g5 : db2.rt_flags = db.rt_flags := by rw [← hdb2]; rfl
    generalize my_insert_nosplit db2 tgt key rid sp.record (flags ||| NOFLUSH) = n at *
    by_cases hn : n.1 = 0
    · rw [if_neg (by simpa using hn)]
      have fl := fix_links_fields n.2 page db.next
      exact ⟨by rw [fl.2.1, f2, g2], by rw [fl.2.2.1, f3, g3], by rw [fl.2.2.2.1, f4, g4],
        by rw [fl.2.2.2.2, f5, g5], by rw [fl.1, f1, g1]; omega,
        fun h => absurd (show (1 : Int) = 0 from h) (by decide),
        fun _ => ⟨by rw [fl.1, f1, g1], rfl, fix_links_right n.2 page db.next⟩⟩
    · rw [if_pos (by simpa using hn)]
      have hnd : n = (HAM_DUPLICATE_KEY, db2) := by
        rcases hst with h | h
        · exact absurd h hn
        · exact h
      refine ⟨by rw [← g2]; exact f2, by rw [← g3]; exact f3, by rw [← g4]; exact f4,
        by rw [← g5]; exact f5, by show db.next ≤ n.2.next; rw [f1, g1]; omega, hn, ?_⟩
      intro h
      rw [hnd] at h
      exact absurd (show (-12 : Int) = 1 from h) (by decide)
  · have hav2 : db.avail db.next = false := by simpa using hav
    rw [split_fail db page key rid flags sp hav2]
    exact ⟨rfl, rfl, rfl, rfl, le_refl _,
      fun h => absurd (show (-6 : Int) = 0 from h) (by decide),
      fun h => absurd (show (-6 : Int) = 1 from h) (by decide)⟩

/-- What `my_insert_in_page` does to the constants of the database and to the page
counter; with the status `SPLIT` the page counter grew by one and the propagated rid
is the new page, the right neighbour of the page. -/
theorem in_page_fields (db : ham_db_t) (page key rid flags : Nat) (sp : insert_scratchpad_t) :
    (my_insert_in_page db page key rid flags sp).2.1.avail = db.avail ∧
    (my_insert_in_page db page key rid flags sp).2.1.rootpage = db.rootpage ∧
    (my_insert_in_page db page key rid flags sp).2.1.maxkeys = db.maxkeys ∧
    (my_insert_in_page db page key rid flags sp).2.1.rt_flags = db.rt_flags ∧
    db.next ≤ (my_insert_in_page db page key rid flags sp).2.1.next ∧
    ((my_insert_in_page db page key rid flags sp).1 = SPLIT →
      (my_insert_in_page db page key rid flags sp).2.1.next = db.next + 1 ∧
      (my_insert_in_page db page key rid flags sp).2.2.rid = db.next ∧
      ((my_insert_in_page db page key rid flags sp).2.1.pages page).right = db.next) := by
  have hns : ∀ fl, (my_insert_nosplit db page key rid sp.record fl).2.avail = db.avail ∧
      (my_insert_nosplit db page key rid sp.record fl).2.rootpage = db.rootpage ∧
      (my_insert_nosplit db page key rid sp.record fl).2.maxkeys = db.maxkeys ∧
      (my_insert_nosplit db page key rid sp.record fl).2.rt_flags = db.rt_flags ∧
      db.next ≤ (my_insert_nosplit db page key rid sp.record fl).2.next ∧
      ((my_insert_nosplit db page key rid sp.record fl).1 = SPLIT →
        (my_insert_nosplit db page key rid sp.record fl).2.next = db.next + 1 ∧
        sp.rid = db.next ∧
        ((my_insert_nosplit db page key rid sp.record fl).2.pages page).right = db.next) := by
    intro fl
    obtain ⟨f1, f2, f3, f4, f5, _, _⟩ := nosplit_frame db page key rid sp.record fl
    refine ⟨f2, f3, f4, f5, by rw [f1], ?_⟩
    intro h
    rcases nosplit_status db page key rid sp.record fl with h1 | h1
    · rw [h1] at h
      exact absurd (show (0 : Int) = 1 from h) (by decide)
    · rw [h1] at h
      exact absurd (show (-12 : Int) = 1 from h) (by decide)
  unfold my_insert_in_page
  simp only
  split_ifs
  · exact hns flags
  · exact hns flags
  · exact ⟨rfl, rfl, rfl, rfl, le_refl _,
      fun h => absurd (show (-12 : Int) = 1 from h) (by decide)⟩
  · obtain ⟨s1, s2, s3, s4, s5, _, s7⟩ := split_fields db page key rid flags sp
    refine ⟨s1, s2, s3, s4, s5, fun h => ?_⟩
    obtain ⟨t1, t2, t3⟩ := s7 h
    exact ⟨t1, by rw [t2], t3⟩

/-- What `my_insert_recursive` does to the constants of the database and to the page
counter; with the status `SPLIT` the propagated rid is the page allocated last, the
new right neighbour of the page. -/
theorem recursive_fields : ∀ (fuel : Nat) (db : ham_db_t) (page key rid : Nat)
    (sp : insert_scratchpad_t),
    (my_insert_recursive fuel db page key rid sp).2.1.avail = db.avail ∧
    (my_insert_recursive fuel db page key rid sp).2.1.rootpage = db.rootpage ∧
    (my_insert_recursive fuel db page key rid sp).2.1.maxkeys = db.maxkeys ∧
    (my_insert_recursive fuel db page key rid sp).2.1.rt_flags = db.rt_flags ∧
    db.next ≤ (my_insert_recursive fuel db page key rid sp).2.1.next ∧
    ((my_insert_recursive fuel db page key rid sp).1 = SPLIT →
      (my_insert_recursive fuel db page key rid sp).2.1.next
        = (my_insert_recursive fuel db page key rid sp).2.2.rid + 1 ∧
      db.next ≤ (my_insert_recursive fuel db page key rid sp).2.2.rid ∧
      ((my_insert_recursive fuel db page key rid sp).2.1.pages page).right
        = (my_insert_recursive fuel db page key rid sp).2.2.rid) := by
  intro fuel
  induction fuel with
  | zero =>
    intro db page key rid sp
    exact ⟨rfl, rfl, rfl, rfl, le_refl _,
      fun h => absurd (show (-14 : Int) = 1 from h) (by decide)⟩
  | succ f ih =>
    intro db page key rid sp
    have hip : ∀ (d : ham_db_t) (k r fl : Nat) (s : insert_scratchpad_t),
        d.avail = db.avail → d.rootpage = db.rootpage → d.maxkeys = db.maxkeys →
        d.rt_flags = db.rt_flags → db.next ≤ d.next →
        ((my_insert_in_page d page k r fl s).2.1.avail = db.avail ∧
        (my_insert_in_page d page k r fl s).2.1.rootpage = db.rootpage ∧
        (my_insert_in_page d page k r fl s).2.1.maxkeys = db.maxkeys ∧
        (my_insert_in_page d page k r fl s).2.1.rt_flags = db.rt_flags ∧
        db.next ≤ (my_insert_in_page d page k r fl s).2.1.next ∧
        ((my_insert_in_page d page k r fl s).1 = SPLIT →
          (my_insert_in_page d page k r fl s).2.1.next
            = (my_insert_in_page d page k r fl s).2.2.rid + 1 ∧
          db.next ≤ (my_insert_in_page d page k r fl s).2.2.rid ∧
          ((my_insert_in_page d page k r fl s).2.1.pages page).right
            = (my_insert_in_page d page k r fl s).2.2.rid)) := by
      intro d k r fl s e1 e2 e3 e4 e5
      obtain ⟨s1, s2, s3, s4, s5, s6⟩ := in_page_fields d page k r fl s
      refine ⟨s1.trans e1, s2.trans e2, s3.trans e3, s4.trans e4, le_trans e5 s5, fun h => ?_⟩
      obtain ⟨t1, t2, t3⟩ := s6 h
      exact ⟨by rw [t1, t2], by rw [t2]; exact e5, by rw [t3, t2]⟩
    unfold my_insert_recursive
    simp only
    split_ifs with h1 h2 h3
    · exact hip db key rid sp.flags sp rfl rfl rfl rfl (le_refl _)
    · exact ⟨rfl, rfl, rfl, rfl, le_refl _,
        fun h => absurd (show (-14 : Int) = 1 from h) (by decide)⟩
    · obtain ⟨c1, c2, c3, c4, c5, _⟩ := ih db (btree_traverse_tree (db.pages page) key) key rid sp
      exact hip _ _ _ _ _ c1 c2 c3 c4 c5
    · obtain ⟨c1, c2, c3, c4, c5, _⟩ := ih db (btree_traverse_tree (db.pages page) key) key rid sp
      exact ⟨c1, c2, c3, c4, c5, fun h => absurd h h3⟩

/-- A key that fits into the node, or one whose blob can be allocated, is stored by
`my_insert_nosplit_extended` as by `my_insert_nosplit`. -/
theorem nosplit_extended_success (db : ham_db_t) (page key rid record flags : Nat)
    (key_size keysize : Nat) (blob_avail : Bool) (blob : Nat) (db_error : Int)
    (h : key_size ≤ keysize ∨ (blob_avail = true ∧ blob ≠ 0)) :
    my_insert_nosplit_extended db page key rid record flags key_size keysize blob_avail blob
      db_error = my_insert_nosplit db page key rid record flags := by
  have hnew : ∀ slot, insert_new_extended db page key rid record flags slot key_size keysize
      blob_avail blob db_error = insert_new db page key rid record flags slot := by
    intro slot
    unfold insert_new_extended insert_new key_insert_extended
    rcases h with h | ⟨h1, h2⟩
    · simp only [if_neg (show ¬ key_size > keysize by omega)]
    · simp only [h1, if_true, if_neg h2, ite_self]
  unfold my_insert_nosplit_extended my_insert_nosplit
  simp only [hnew]

/-- The node after a failed allocation of the blob: `my_insert_nosplit_extended`
returns the error of the database, and the page shows the first `count` slots of the
entries with the new entry put in: the entries from the slot of the key on have
moved, and the last one is cut off. -/
theorem nosplit_extended_failure (db : ham_db_t) (page key rid record flags : Nat)
    (key_size keysize : Nat) (blob : Nat) (db_error : Int) (hsize : key_size > keysize)
    (hs : ((db.pages page).entries.map (fun e => e.key)).Pairwise (· < ·))
    (hx : key ∉ (db.pages page).entries.map (fun e => e.key)) :
    my_insert_nosplit_extended db page key rid record flags key_size keysize false blob db_error
      = (db_error, db.setPage page (set_entries (db.pages page)
          ((put (new_entry (btree_node_is_leaf (db.pages page)) key rid record)
            (db.pages page).entries).take (db.pages page).entries.length))) := by
  have hnew : ∀ slot, insert_new_extended db page key rid record flags slot key_size keysize
      false blob db_error = (db_error, db.setPage page (set_entries (db.pages page)
        (((db.pages page).entries.take slot ++
          new_entry (btree_node_is_leaf (db.pages page)) key rid record ::
          (db.pages page).entries.drop slot).take (db.pages page).entries.length))) := by
    intro slot
    unfold insert_new_extended key_insert_extended new_entry key_set_record key_set_ptr
      set_entries
    by_cases hl : btree_node_is_leaf (db.pages page) = true
    · simp [hl, hsize]
    · simp [hl, hsize]
  obtain ⟨h1, h2⟩ := sorted_split _ key hs
  have hput : put (new_entry (btree_node_is_leaf (db.pages page)) key rid record)
      (db.pages page).entries
      = (db.pages page).entries.take (lower_count (db.pages page).entries key) ++
        new_entry (btree_node_is_leaf (db.pages page)) key rid record ::
        (db.pages page).entries.drop (lower_count (db.pages page).entries key) := rfl
  rw [hput]
  unfold my_insert_nosplit_extended
  simp only
  by_cases hlen : (db.pages page).entries.length = 0
  · rw [if_pos hlen, hnew]
    have : lower_count (db.pages page).entries key = 0 := by
      unfold lower_count
      have := List.countP_le_length (fun e => decide (e.key ≤ key)) (l := (db.pages page).entries)
      omega
    rw [this]
  · rw [if_neg hlen]
    unfold btree_get_slot
    simp only
    have hlc : (db.pages page).entries.countP (fun e => decide (e.key ≤ key))
        = lower_count (db.pages page).entries key := rfl
    rw [hlc]
    by_cases hn : lower_count (db.pages page).entries key = 0
    · simp only [hn, ↓reduceIte, hnew]
    · have hle : lower_count (db.pages page).entries key ≤ (db.pages page).entries.length :=
        List.countP_le_length _
      have hmem : (db.pages page).entries.getD (lower_count (db.pages page).entries key - 1)
          default ∈ (db.pages page).entries.take (lower_count (db.pages page).entries key) := by
        rw [List.getD_eq_getElem _ _ (by omega)]
        rw [List.mem_take_iff_getElem]
        exact ⟨lower_count (db.pages page).entries key - 1,
          by rw [Nat.min_eq_left hle]; omega, rfl⟩
      have hk := h1 _ hmem
      have hne : ((db.pages page).entries.getD (lower_count (db.pages page).entries key - 1)
          default).key ≠ key := by
        intro hh
        apply hx
        rw [← hh]
        exact List.mem_map_of_mem _ (List.mem_of_mem_take hmem)
      have hcmp : key_compare_int_to_pub ((db.pages page).entries.getD
          (lower_count (db.pages page).entries key - 1) default) key = -1 := by
        unfold key_compare_int_to_pub
        rw [if_pos (by omega)]
      simp only [hn, ↓reduceIte, hcmp]
      have h3 : ¬ ((lower_count (db.pages page).entries key : Int) - 1 = -1) := by omega
      rw [if_neg h3, if_neg (by decide), if_pos (by decide), hnew]
      have h4 : ((lower_count (db.pages page).entries key : Int) - 1 + 1).toNat
          = lower_count (db.pages page).entries key := by omega
      rw [h4]

/-- C29 (extended-key allocation failure), evaluated.  The leaf of `roomy_leaf_tree`
holds the keys 10 and 20 and has room; the key 15 has the size 40 with a key size of
21, and `key_insert_extended` returns 0.  The claim calls for an error with the
entries as they were.  `my_insert_nosplit` calls `key_insert_extended` behind the
`memmove` and the store of the key and returns in front of `btree_node_set_count`:
it returns the error (`HAM_OUT_OF_MEMORY` here), and the two slots that the node
shows hold the keys 10 and 15: the entry of the key 20 has moved behind the count. -/
theorem extended_key_failure_shifts :
    (my_insert_nosplit_extended roomy_leaf_tree 1 15 0 15 0 40 21 false 0
      HAM_OUT_OF_MEMORY).1 = HAM_OUT_OF_MEMORY ∧
    (roomy_leaf_tree.pages 1).entries = [⟨10, 10, []⟩, ⟨20, 20, []⟩] ∧
    ((my_insert_nosplit_extended roomy_leaf_tree 1 15 0 15 0 40 21 false 0
      HAM_OUT_OF_MEMORY).2.pages 1).entries = [⟨10, 10, []⟩, ⟨15, 15, []⟩] ∧
    ((my_insert_nosplit_extended roomy_leaf_tree 1 15 0 15 0 40 21 false 0
      HAM_OUT_OF_MEMORY).2.pages 1).entries ≠ (roomy_leaf_tree.pages 1).entries := by
  decide

theorem or_and_flag (a b : Nat) : (a ||| b) &&& b = b := by
  apply Nat.eq_of_testBit_eq
  intro i
  rw [Nat.testBit_and, Nat.testBit_or]
  cases Nat.testBit a i <;> cases Nat.testBit b i <;> rfl

theorem offset_bytes_length (rid : Nat) : (offset_bytes rid).length = 8 := by
  unfold offset_bytes
  rw [List.length_map, List.length_range]

/-- C31, the claim as stated fails: with a key size of 21, a key of 40 bytes and the
blob id 7, `my_insert_nosplit` succeeds, and the key area of the slot is not the first
21 bytes of the key: its last 8 bytes hold the blob id. -/
theorem extended_key_inline_bytes_counterexample :
    (my_insert_nosplit_slot 21 0 ((List.range 40).map (fun i => i + 1)) true 7
      HAM_OUT_OF_MEMORY).1 = 0 ∧
    (my_insert_nosplit_slot 21 0 ((List.range 40).map (fun i => i + 1)) true 7
      HAM_OUT_OF_MEMORY).2.1.key
      = [1, 2, 3, 4, 5, 6, 7, 8, 9, 10, 11, 12, 13, 7, 0, 0, 0, 0, 0, 0, 0] ∧
    ((List.range 40).map (fun i => i + 1)).take 21
      = [1, 2, 3, 4, 5, 6, 7, 8, 9, 10, 11, 12, 13, 14, 15, 16, 17, 18, 19, 20, 21] ∧
    (my_insert_nosplit_slot 21 0 ((List.range 40).map (fun i => i + 1)) true 7
      HAM_OUT_OF_MEMORY).2.1.key ≠ ((List.range 40).map (fun i => i + 1)).take 21 := by
  decide

/-- C31, amended (extended key layout).  When `my_insert_nosplit` inserts a new key
into a database with `keysize >= 8`, and `key_insert_extended` returns a blob id other
than 0 where it is called, the insert succeeds, reaches `btree_node_set_count`, and the
slot records the full size of the key.  If `key.size > keysize`, the key area holds the
first `keysize - 8` bytes of the key and, in its trailing 8 bytes, the blob id, and
`KEY_IS_EXTENDED` is set in the flags.  If `key.size <= keysize`, the key area holds
the bytes of the key, followed by the zeroes of the `memset`, and the flags are those
that `key_set_record` or `key_set_ptr` left: the insert does not set
`KEY_IS_EXTENDED`. -/
theorem extended_key_layout (keysize rec_flags : Nat) (key : List Nat) (blob : Nat)
    (db_error : Int) (hk : 8 ≤ keysize) (hb : blob ≠ 0) :
    (my_insert_nosplit_slot keysize rec_flags key true blob db_error).1 = 0 ∧
    (my_insert_nosplit_slot keysize rec_flags key true blob db_error).2.2 = true ∧
    (my_insert_nosplit_slot keysize rec_flags key true blob db_error).2.1.size = key.length ∧
    (my_insert_nosplit_slot keysize rec_flags key true blob db_error).2.1.key.length
      = keysize ∧
    (key.length > keysize →
      (my_insert_nosplit_slot keysize rec_flags key true blob db_error).2.1.key
        = key.take (keysize - 8) ++ offset_bytes blob ∧
      (my_insert_nosplit_slot keysize rec_flags key true blob db_error).2.1.flags
        = rec_flags ||| KEY_IS_EXTENDED ∧
      (my_insert_nosplit_slot keysize rec_flags key true blob db_error).2.1.flags
        &&& KEY_IS_EXTENDED = KEY_IS_EXTENDED) ∧
    (key.length ≤ keysize →
      (my_insert_nosplit_slot keysize rec_flags key true blob db_error).2.1.key
        = key ++ List.replicate (keysize - key.length) 0 ∧
      (my_insert_nosplit_slot keysize rec_flags key true blob db_error).2.1.flags
        = rec_flags) := by
  by_cases hl : key.length > keysize
  · have hlt : keysize < key.length := hl
    have e1 : (List.take keysize key ++ List.drop keysize
        (List.take keysize key ++ List.drop keysize (List.replicate keysize 0)))
        = List.take keysize key := by
      rw [List.drop_append_of_le_length (by rw [List.length_take]; omega)]
      rw [List.drop_of_length_le (by rw [List.length_take]; omega)]
      rw [List.drop_of_length_le (by rw [List.length_replicate])]
      simp only [List.append_nil]
    have e2 : List.drop keysize (List.take keysize key) = [] :=
      List.drop_of_length_le (by rw [List.length_take]; omega)
    have e3 : List.take (keysize - 8) (List.take keysize key) = List.take (keysize - 8) key := by
      rw [List.take_take, Nat.min_eq_left (by omega)]
    have hres : my_insert_nosplit_slot keysize rec_flags key true blob db_error
        = (0, ⟨key.length, rec_flags ||| KEY_IS_EXTENDED,
            key.take (keysize - 8) ++ offset_bytes blob⟩, true) := by
      unfold my_insert_nosplit_slot
      simp only [if_pos hl, if_pos hlt, key_set_size, key_set_flags, key_get_flags,
        key_set_key, key_set_extended_rid, key_insert_extended, if_true, if_neg hb]
      rw [e1, e2, e3, List.append_nil]
    rw [hres]
    refine ⟨rfl, rfl, rfl, ?_, fun _ => ⟨rfl, rfl, or_and_flag _ _⟩,
      fun h => absurd h (by omega)⟩
    show (key.take (keysize - 8) ++ offset_bytes blob).length = keysize
    rw [List.length_append, List.length_take, offset_bytes_length]
    omega
  · have hlt : ¬ keysize < key.length := hl
    have e1 : List.take key.length key = key := List.take_length key
    have e2 : List.drop key.length (List.replicate keysize 0)
        = List.replicate (keysize - key.length) 0 := by
      rw [List.drop_replicate]
    have hres : my_insert_nosplit_slot keysize rec_flags key true blob db_error
        = (0, ⟨key.length, rec_flags, key ++ List.replicate (keysize - key.length) 0⟩,
            true) := by
      unfold my_insert_nosplit_slot
      simp only [if_neg hl, if_neg hlt, key_set_size, key_set_key]
      rw [e1, e2]
    rw [hres]
    refine ⟨rfl, rfl, rfl, ?_, fun h => absurd h hl, fun _ => ⟨rfl, rfl⟩⟩
    show (key ++ List.replicate (keysize - key.length) 0).length = keysize
    rw [List.length_append, List.length_replicate]
    omega

/-- C31, amended, at a key of 40 bytes with a key size of 21 and the blob id 7. -/
theorem extended_key_layout_witness :
    (8 ≤ 21 ∧ (7 : Nat) ≠ 0) ∧
    (my_insert_nosplit_slot 21 0 ((List.range 40).map (fun i => i + 1)) true 7
      HAM_OUT_OF_MEMORY).2.1.size = 40 ∧
    (my_insert_nosplit_slot 21 0 ((List.range 40).map (fun i => i + 1)) true 7
      HAM_OUT_OF_MEMORY).2.1.flags &&& KEY_IS_EXTENDED = KEY_IS_EXTENDED :=
  ⟨⟨by decide, by decide⟩,
   (extended_key_layout 21 0 ((List.range 40).map (fun i => i + 1)) 7 HAM_OUT_OF_MEMORY
      (by decide) (by decide)).2.2.1,
   ((extended_key_layout 21 0 ((List.range 40).map (fun i => i + 1)) 7 HAM_OUT_OF_MEMORY
      (by decide) (by decide)).2.2.2.2.1 (by decide)).2.2⟩

/-- The counts after `my_insert_nosplit`: the count of the page grows by at most one,
every other page keeps its count, and a key that `btree_node_search_by_key` finds in
the page adds no entry. -/
theorem nosplit_length (db : ham_db_t) (page key rid record flags : Nat) (q : Nat) :
    ((my_insert_nosplit db page key rid record flags).2.pages q).entries.length
      ≤ (db.pages q).entries.length + (if q = page then 1 else 0) ∧
    (btree_node_search_by_key (db.pages page) key ≥ 0 →
      ((my_insert_nosplit db page key rid record flags).2.pages q).entries.length
        = (db.pages q).entries.length) := by
  generalize hr : btree_get_slot (db.pages page) key = r
  have hsearch : btree_node_search_by_key (db.pages page) key ≥ 0 → r.1 ≥ 0 ∧ r.2 = 0 := by
    unfold btree_node_search_by_key
    rw [hr]
    simp only
    intro h
    by_contra hc
    rw [if_neg hc] at h
    exact absurd h (by decide)
  have hempty : (db.pages page).entries.length = 0 → r.1 = -1 := by
    intro h0
    rw [← hr]
    unfold btree_get_slot
    simp only
    have := List.countP_le_length (fun e => decide (e.key ≤ key)) (l := (db.pages page).entries)
    rw [if_pos (by omega)]
  have hnew : ∀ (slot : Nat) (x : int_key_t),
      ((db.setPage page (set_entries (db.pages page)
          ((db.pages page).entries.take slot ++ x :: (db.pages page).entries.drop slot))).pages
        q).entries.length ≤ (db.pages q).entries.length + (if q = page then 1 else 0) := by
    intro slot x
    rw [setPage_pages]
    unfold set_entries
    by_cases hq : q = page
    · rw [if_pos hq, if_pos hq, hq]
      simp only [List.length_append, List.length_cons, List.length_take, List.length_drop]
      omega
    · rw [if_neg hq, if_neg hq]
      omega
  have hset : ∀ (i : Nat) (b : int_key_t),
      ((db.setPage page
        { db.pages page with entries := (db.pages page).entries.set i b }).pages q).entries.length
        = (db.pages q).entries.length := by
    intro i b
    rw [setPage_pages]
    by_cases hq : q = page
    · rw [if_pos hq, hq]
      simp only [List.length_set]
    · rw [if_neg hq]
  unfold my_insert_nosplit
  simp only [insert_new_eq, hr]
  by_cases c0 : (db.pages page).entries.length = 0
  · rw [if_pos c0]
    exact ⟨hnew _ _, fun h => absurd (hempty c0) (by have := (hsearch h).1; omega)⟩
  · rw [if_neg c0]
    by_cases c1 : r.1 = -1
    · rw [if_pos c1]
      exact ⟨hnew _ _, fun h => absurd c1 (by have := (hsearch h).1; omega)⟩
    · rw [if_neg c1]
      by_cases c2 : r.2 = 0
      · rw [if_pos c2]
        by_cases c3 : flags &&& HAM_OVERWRITE ≠ 0 ∧ btree_node_is_leaf (db.pages page) = false
        · rw [if_pos c3]
          exact ⟨Nat.le_add_right _ _, fun _ => rfl⟩
        · rw [if_neg c3]
          by_cases c4 : flags &&& HAM_OVERWRITE = 0 ∧ flags &&& HAM_DUPLICATE = 0
          · rw [if_pos c4]
            exact ⟨Nat.le_add_right _ _, fun _ => rfl⟩
          · rw [if_neg c4]
            exact ⟨by rw [hset]; exact Nat.le_add_right _ _, fun _ => hset _ _⟩
      · rw [if_neg c2]
        by_cases c5 : r.2 < 0
        · rw [if_pos c5]
          exact ⟨hnew _ _, fun h => absurd (hsearch h).2 c2⟩
        · rw [if_neg c5]
          exact ⟨hnew _ _, fun h => absurd (hsearch h).2 c2⟩

/-- The counts after `move_entries` with the pivot `pv`: the page keeps the entries
before the pivot, the new page gets those from the pivot on, or those behind it. -/
theorem move_entries_length (db : ham_db_t) (page newpage pv : Nat) (q : Nat) :
    ((move_entries db page newpage pv).pages q).entries.length
      = (if q = page then min pv (db.pages page).entries.length
         else if q = newpage then
           (if btree_node_is_leaf (db.pages page) = true then (db.pages page).entries.length - pv
            else (db.pages page).entries.length - (pv + 1))
         else (db.pages q).entries.length) := by
  unfold move_entries
  simp only [setPage_pages]
  by_cases h1 : q = page
  · rw [if_pos h1, if_pos h1]
    simp only [List.length_take]
  · rw [if_neg h1, if_neg h1]
    by_cases h2 : q = newpage
    · rw [if_pos h2, if_pos h2]
      cases btree_node_is_leaf (db.pages page)
      · simp only [Bool.false_eq_true, if_false, List.length_drop]
      · simp only [if_true, List.length_drop]
    · rw [if_neg h2, if_neg h2]

/-- The counts after `my_insert_split`: when every node holds at most `maxkeys >= 2`
entries before, every node does afterwards, whatever the status. -/
theorem split_length (db : ham_db_t) (page key rid flags : Nat) (sp : insert_scratchpad_t)
    (hmax : 2 ≤ db.maxkeys) (hfill : ∀ q, (db.pages q).entries.length ≤ db.maxkeys) (q : Nat) :
    ((my_insert_split db page key rid flags sp).2.1.pages q).entries.length ≤ db.maxkeys := by
  by_cases hav : db.avail db.next = true
  · rw [split_unfold db page key rid flags sp hav]
    have hM := move_entries_length { db with next := db.next + 1 } page db.next
      (pivot_index db.rt_flags (db.pages page).entries.length) q
    generalize hdb2 : move_entries { db with next := db.next + 1 } page db.next
      (pivot_index db.rt_flags (db.pages page).entries.length) = db2 at hM
    generalize htgt : (if ((db.pages page).entries.getD
      (pivot_index db.rt_flags (db.pages page).entries.length) default).key ≤ key
      then db.next else page) = tgt
    have htg : tgt = db.next ∨ tgt = page := by
      rw [← htgt]
      split_ifs
      · exact Or.inl rfl
      · exact Or.inr rfl
    have hN := (nosplit_length db2 tgt key rid sp.record (flags ||| NOFLUSH) q).1
    have hpage := hfill page
    have hq := hfill q
    have hpv : pivot_index db.rt_flags (db.pages page).entries.length
        = (db.pages page).entries.length - 4 ∧ (db.pages page).entries.length > 8 ∨
        pivot_index db.rt_flags (db.pages page).entries.length
        = (db.pages page).entries.length / 2 := by
      unfold pivot_index
      split_ifs with h
      · exact Or.inl ⟨rfl, h.2⟩
      · exact Or.inr rfl
    have hbound : ((my_insert_nosplit db2 tgt key rid sp.record (flags ||| NOFLUSH)).2.pages
        q).entries.length ≤ db.maxkeys := by
      have hM1 : (db2.pages q).entries.length
          = (if q = page then
               min (pivot_index db.rt_flags (db.pages page).entries.length)
                 (db.pages page).entries.length
             else if q = db.next then
               (if btree_node_is_leaf (db.pages page) = true then
                  (db.pages page).entries.length
                    - pivot_index db.rt_flags (db.pages page).entries.length
                else (db.pages page).entries.length
                    - (pivot_index db.rt_flags (db.pages page).entries.length + 1))
             else (db.pages q).entries.length) := hM
      clear hM
      generalize pivot_index db.rt_flags (db.pages page).entries.length = pv at hM1 hpv
      generalize (db.pages page).entries.length = count at hM1 hpv hpage
      have hM2 := hM1
      by_cases h1 : q = page
      · rw [if_pos h1] at hM2
        by_cases h2 : q = tgt
        · rw [if_pos h2] at hN
          rcases hpv with ⟨hp, hc⟩ | hp <;> omega
        · rw [if_neg h2] at hN
          rcases hpv with ⟨hp, hc⟩ | hp <;> omega
      · rw [if_neg h1] at hM2
        by_cases h3 : q = db.next
        · rw [if_pos h3] at hM2
          by_cases h2 : q = tgt
          · rw [if_pos h2] at hN
            split_ifs at hM2 <;> rcases hpv with ⟨hp, hc⟩ | hp <;> omega
          · rw [if_neg h2] at hN
            split_ifs at hM2 <;> rcases hpv with ⟨hp, hc⟩ | hp <;> omega
        · rw [if_neg h3] at hM2
          have h2 : ¬ q = tgt := by
            rcases htg with h | h
            · rw [h]; exact h3
            · rw [h]; exact h1
          rw [if_neg h2] at hN
          omega
    split_ifs
    · exact hbound
    · show ((fix_links _ page db.next).pages q).entries.length ≤ db.maxkeys
      rw [(fix_links_keep _ page db.next q).1]
      exact hbound
  · have hav2 : db.avail db.next = false := by
      cases h : db.avail db.next
      · rfl
      · exact absurd h hav
    rw [split_fail db page key rid flags sp hav2]
    exact hfill q

/-- The counts after `my_insert_in_page`: when every node holds at most
`maxkeys >= 2` entries before, every node does afterwards. -/
theorem in_page_length (db : ham_db_t) (page key rid flags : Nat) (sp : insert_scratchpad_t)
    (hmax : 2 ≤ db.maxkeys) (hfill : ∀ q, (db.pages q).entries.length ≤ db.maxkeys) (q : Nat) :
    ((my_insert_in_page db page key rid flags sp).2.1.pages q).entries.length
      ≤ db.maxkeys := by
  unfold my_insert_in_page
  simp only
  by_cases hroom : (db.pages page).entries.length < db.maxkeys
  · rw [if_pos hroom]
    have hN := (nosplit_length db page key rid sp.record flags q).1
    have hq := hfill q
    show ((my_insert_nosplit db page key rid sp.record flags).2.pages q).entries.length
      ≤ db.maxkeys
    by_cases h1 : q = page
    · rw [if_pos h1] at hN
      rw [h1] at hN hq ⊢
      omega
    · rw [if_neg h1] at hN
      omega
  · rw [if_neg hroom]
    by_cases hfound : btree_node_is_leaf (db.pages page) = true ∧
        btree_node_search_by_key (db.pages page) key ≥ 0
    · rw [if_pos hfound]
      by_cases hfl : flags &&& HAM_OVERWRITE ≠ 0 ∨ flags &&& HAM_DUPLICATE ≠ 0
      · rw [if_pos hfl]
        show ((my_insert_nosplit db page key rid sp.record flags).2.pages q).entries.length
          ≤ db.maxkeys
        rw [(nosplit_length db page key rid sp.record flags q).2 hfound.2]
        exact hfill q
      · rw [if_neg hfl]
        exact hfill q
    · rw [if_neg hfound]
      exact split_length db page key rid flags sp hmax hfill q

/-- The counts after `my_insert_recursive`: when every node holds at most
`maxkeys >= 2` entries before, every node does afterwards. -/
theorem recursive_length : ∀ (fuel : Nat) (db : ham_db_t) (page key rid : Nat)
    (sp : insert_scratchpad_t), 2 ≤ db.maxkeys →
    (∀ q, (db.pages q).entries.length ≤ db.maxkeys) →
    ∀ q, ((my_insert_recursive fuel db page key rid sp).2.1.pages q).entries.length
      ≤ db.maxkeys := by
  intro fuel
  induction fuel with
  | zero =>
    intro db page key rid sp _ hfill q
    exact hfill q
  | succ f ih =>
    intro db page key rid sp hmax hfill q
    unfold my_insert_recursive
    simp only
    split_ifs with h1 h2 h3
    · exact in_page_length db page key rid sp.flags sp hmax hfill q
    · exact hfill q
    · obtain ⟨_, _, c3, _⟩ :=
        recursive_fields f db (btree_traverse_tree (db.pages page) key) key rid sp
      have hrec := ih db (btree_traverse_tree (db.pages page) key) key rid sp hmax hfill
      rw [← c3] at hrec hmax ⊢
      exact in_page_length _ page _ _ _ _ hmax hrec q
    · exact ih db (btree_traverse_tree (db.pages page) key) key rid sp hmax hfill q

/-- The function `my_insert_nosplit` removes no entry: no count falls. -/
theorem nosplit_length_ge (db : ham_db_t) (page key rid record flags : Nat) (q : Nat) :
    (db.pages q).entries.length
      ≤ ((my_insert_nosplit db page key rid record flags).2.pages q).entries.length := by
  have hnew : ∀ (slot : Nat) (x : int_key_t),
      (db.pages q).entries.length ≤ ((db.setPage page (set_entries (db.pages page)
          ((db.pages page).entries.take slot ++ x :: (db.pages page).entries.drop slot))).pages
        q).entries.length := by
    intro slot x
    rw [setPage_pages]
    unfold set_entries
    by_cases hq : q = page
    · rw [if_pos hq, hq]
      simp only [List.length_append, List.length_cons, List.length_take, List.length_drop]
      omega
    · rw [if_neg hq]
  have hset : ∀ (i : Nat) (b : int_key_t),
      ((db.setPage page
        { db.pages page with entries := (db.pages page).entries.set i b }).pages q).entries.length
        = (db.pages q).entries.length := by
    intro i b
    rw [setPage_pages]
    by_cases hq : q = page
    · rw [if_pos hq, hq]
      simp only [List.length_set]
    · rw [if_neg hq]
  unfold my_insert_nosplit
  simp only [insert_new_eq]
  by_cases c0 : (db.pages page).entries.length = 0
  · rw [if_pos c0]
    exact hnew _ _
  · rw [if_neg c0]
    by_cases c1 : (btree_get_slot (db.pages page) key).1 = -1
    · rw [if_pos c1]
      exact hnew _ _
    · rw [if_neg c1]
      by_cases c2 : (btree_get_slot (db.pages page) key).2 = 0
      · rw [if_pos c2]
        by_cases c3 : flags &&& HAM_OVERWRITE ≠ 0 ∧ btree_node_is_leaf (db.pages page) = false
        · rw [if_pos c3]
        · rw [if_neg c3]
          by_cases c4 : flags &&& HAM_OVERWRITE = 0 ∧ flags &&& HAM_DUPLICATE = 0
          · rw [if_pos c4]
          · rw [if_neg c4]
            exact le_of_eq (hset _ _).symm
      · rw [if_neg c2]
        by_cases c5 : (btree_get_slot (db.pages page) key).2 < 0
        · rw [if_pos c5]
          exact hnew _ _
        · rw [if_neg c5]
          exact hnew _ _

/-- The counts after `btree_insert_cursor`: when every node holds at most
`maxkeys >= 2` entries before, every node does afterwards; the new root of a root
split holds one entry at most. -/
theorem insert_length (db : ham_db_t) (key record flags : Nat) (hmax : 2 ≤ db.maxkeys)
    (hfill : ∀ q, (db.pages q).entries.length ≤ db.maxkeys) (q : Nat) :
    ((btree_insert_cursor db key record flags).2.pages q).entries.length ≤ db.maxkeys := by
  have hrec := recursive_length db.next db db.rootpage key 0 ⟨flags, record, 0, 0⟩ hmax hfill
  unfold btree_insert_cursor
  simp only
  generalize my_insert_recursive db.next db db.rootpage key 0 ⟨flags, record, 0, 0⟩ = r at hrec
  by_cases hs : r.1 = SPLIT
  · rw [if_pos hs]
    unfold db_alloc_page
    by_cases hav : r.2.1.avail r.2.1.next = true
    · rw [if_pos hav]
      simp only
      have hN := (nosplit_length
        (({ r.2.1 with next := r.2.1.next + 1 } : ham_db_t).setPage r.2.1.next
          ⟨r.2.1.rootpage, 0, 0, []⟩) r.2.1.next r.2.2.key r.2.2.rid r.2.2.record
        (flags ||| NOFLUSH) q).1
      rw [setPage_pages] at hN
      have hq := hrec q
      have hfin : ((my_insert_nosplit
          (({ r.2.1 with next := r.2.1.next + 1 } : ham_db_t).setPage r.2.1.next
            ⟨r.2.1.rootpage, 0, 0, []⟩) r.2.1.next r.2.2.key r.2.2.rid r.2.2.record
          (flags ||| NOFLUSH)).2.pages q).entries.length ≤ db.maxkeys := by
        by_cases h1 : q = r.2.1.next
        · rw [if_pos h1, if_pos h1] at hN
          have h0 : (⟨r.2.1.rootpage, 0, 0, []⟩ : btree_node_t).entries.length = 0 := rfl
          omega
        · rw [if_neg h1, if_neg h1] at hN
          have h0 : (({ r.2.1 with next := r.2.1.next + 1 } : ham_db_t).pages q).entries.length
              = (r.2.1.pages q).entries.length := rfl
          omega
      split_ifs
      · exact hfin
      · exact hfin
    · rw [if_neg hav]
      exact hrec q
  · rw [if_neg hs]
    exact hrec q

/-- C32 (node fill bounds).  For `maxkeys >= 2`: if every node holds at most `maxkeys`
entries before `btree_insert`, every node does afterwards, whatever the key, the flags
and the status.  When `my_insert_in_page` returns success and the page has gained an
entry, the page held fewer than `maxkeys` entries before.  And when `my_insert_split`
splits a full leaf (status `SPLIT`), the old leaf and the new leaf both hold at least
one entry, for the pivot `count / 2` and for the pivot `count - 4` of the
record-number databases alike. -/
theorem node_fill_bounds (db : ham_db_t) (key record flags : Nat) (hmax : 2 ≤ db.maxkeys)
    (hfill : ∀ q, (db.pages q).entries.length ≤ db.maxkeys) :
    (btree_insert db key record flags).2.maxkeys = db.maxkeys ∧
    (∀ q, ((btree_insert db key record flags).2.pages q).entries.length ≤ db.maxkeys) ∧
    (∀ (page rid fl : Nat) (sp : insert_scratchpad_t),
      (my_insert_in_page db page key rid fl sp).1 = 0 →
      (db.pages page).entries.length
        < ((my_insert_in_page db page key rid fl sp).2.1.pages page).entries.length →
      (db.pages page).entries.length < db.maxkeys) ∧
    (∀ (page rid fl : Nat) (sp : insert_scratchpad_t), page < db.next →
      btree_node_is_leaf (db.pages page) = true →
      db.maxkeys ≤ (db.pages page).entries.length →
      (my_insert_split db page key rid fl sp).1 = SPLIT →
      1 ≤ ((my_insert_split db page key rid fl sp).2.1.pages page).entries.length ∧
      1 ≤ ((my_insert_split db page key rid fl sp).2.1.pages db.next).entries.length) := by
  refine ⟨?_, insert_length db key record flags hmax hfill, ?_, ?_⟩
  · unfold btree_insert btree_insert_cursor
    simp only
    obtain ⟨_, _, c3, _⟩ :=
      recursive_fields db.next db db.rootpage key 0 ⟨flags, record, 0, 0⟩
    generalize my_insert_recursive db.next db db.rootpage key 0 ⟨flags, record, 0, 0⟩ = r at c3
    by_cases hs : r.1 = SPLIT
    · rw [if_pos hs]
      unfold db_alloc_page
      by_cases hav : r.2.1.avail r.2.1.next = true
      · rw [if_pos hav]
        simp only
        have hN := (nosplit_frame
          (({ r.2.1 with next := r.2.1.next + 1 } : ham_db_t).setPage r.2.1.next
            ⟨r.2.1.rootpage, 0, 0, []⟩) r.2.1.next r.2.2.key r.2.2.rid r.2.2.record
          (flags ||| NOFLUSH)).2.2.2.1
        split_ifs
        · exact hN.trans c3
        · exact hN.trans c3
      · rw [if_neg hav]
        exact c3
    · rw [if_neg hs]
      exact c3
  · intro page rid fl sp hst hgrow
    by_contra hroom
    unfold my_insert_in_page at hst hgrow
    simp only at hst hgrow
    rw [if_neg hroom] at hst hgrow
    by_cases hfound : btree_node_is_leaf (db.pages page) = true ∧
        btree_node_search_by_key (db.pages page) key ≥ 0
    · rw [if_pos hfound] at hst hgrow
      by_cases hfl : fl &&& HAM_OVERWRITE ≠ 0 ∨ fl &&& HAM_DUPLICATE ≠ 0
      · rw [if_pos hfl] at hgrow
        have := (nosplit_length db page key rid sp.record fl page).2 hfound.2
        have hg : (db.pages page).entries.length
            < ((my_insert_nosplit db page key rid sp.record fl).2.pages page).entries.length :=
          hgrow
        omega
      · rw [if_neg hfl] at hgrow
        exact absurd hgrow (lt_irrefl _)
    · rw [if_neg hfound] at hst
      exact (split_fields db page key rid fl sp).2.2.2.2.2.1 hst
  · intro page rid fl sp hlt hleaf hfull hst
    have hne : page ≠ db.next := by omega
    by_cases hav : db.avail db.next = true
    · rw [split_unfold db page key rid fl sp hav] at hst ⊢
      have hMp := move_entries_length { db with next := db.next + 1 } page db.next
        (pivot_index db.rt_flags (db.pages page).entries.length) page
      have hMn := move_entries_length { db with next := db.next + 1 } page db.next
        (pivot_index db.rt_flags (db.pages page).entries.length) db.next
      generalize hdb2 : move_entries { db with next := db.next + 1 } page db.next
        (pivot_index db.rt_flags (db.pages page).entries.length) = db2 at hMp hMn hst
      generalize htgt : (if ((db.pages page).entries.getD
        (pivot_index db.rt_flags (db.pages page).entries.length) default).key ≤ key
        then db.next else page) = tgt at hst
      have gp := nosplit_length_ge db2 tgt key rid sp.record (fl ||| NOFLUSH) page
      have gn := nosplit_length_ge db2 tgt key rid sp.record (fl ||| NOFLUSH) db.next
      have hstatus := nosplit_status db2 tgt key rid sp.record (fl ||| NOFLUSH)
      have hpv : 1 ≤ pivot_index db.rt_flags (db.pages page).entries.length ∧
          pivot_index db.rt_flags (db.pages page).entries.length
            < (db.pages page).entries.length := by
        unfold pivot_index
        split_ifs <;> omega
      have hMp1 : (db2.pages page).entries.length
          = min (pivot_index db.rt_flags (db.pages page).entries.length)
              (db.pages page).entries.length := by
        rw [hMp, if_pos rfl]
      have hMn1 : (db2.pages db.next).entries.length
          = (db.pages page).entries.length
              - pivot_index db.rt_flags (db.pages page).entries.length := by
        rw [hMn, if_neg (Ne.symm hne), if_pos rfl]
        have hl : btree_node_is_leaf
            (({ db with next := db.next + 1 } : ham_db_t).pages page) = true := hleaf
        rw [if_pos hl]
      by_cases hr : (my_insert_nosplit db2 tgt key rid sp.record (fl ||| NOFLUSH)).1 ≠ 0
      · rw [if_pos hr] at hst
        rcases hstatus with h0 | h0
        · exact absurd h0 hr
        · rw [h0] at hst
          exact absurd (show (-12 : Int) = 1 from hst) (by decide)
      · rw [if_neg hr]
        show 1 ≤ ((fix_links _ page db.next).pages page).entries.length ∧
          1 ≤ ((fix_links _ page db.next).pages db.next).entries.length
        rw [(fix_links_keep _ page db.next page).1, (fix_links_keep _ page db.next db.next).1]
        omega
    · have hav2 : db.avail db.next = false := by
        cases h : db.avail db.next
        · rfl
        · exact absurd h hav
      rw [split_fail db page key rid fl sp hav2] at hst
      exact absurd (show (-6 : Int) = 1 from hst) (by decide)

/-- C32 on the tree whose root is the full leaf with the keys 10 and 20
(`maxkeys = 2`): after the insert of the key 15 no node holds more than two entries,
and the split of the leaf leaves entries in both leaves. -/
theorem node_fill_bounds_witness :
    (2 ≤ full_leaf_tree.maxkeys ∧
      ∀ q, (full_leaf_tree.pages q).entries.length ≤ full_leaf_tree.maxkeys) ∧
    (∀ q, ((btree_insert full_leaf_tree 15 15 0).2.pages q).entries.length
      ≤ full_leaf_tree.maxkeys) ∧
    1 ≤ ((my_insert_split full_leaf_tree 1 15 0 0 ⟨0, 15, 0, 0⟩).2.1.pages 1).entries.length ∧
    1 ≤ ((my_insert_split full_leaf_tree 1 15 0 0 ⟨0, 15, 0, 0⟩).2.1.pages
      full_leaf_tree.next).entries.length :=
  ⟨⟨by decide, fun q => by unfold full_leaf_tree; simp only; split_ifs <;> decide⟩,
   (node_fill_bounds full_leaf_tree 15 15 0 (by decide)
      (fun q => by unfold full_leaf_tree; simp only; split_ifs <;> decide)).2.1,
   (node_fill_bounds full_leaf_tree 15 15 0 (by decide)
      (fun q => by unfold full_leaf_tree; simp only; split_ifs <;> decide)).2.2.2
      1 0 0 ⟨0, 15, 0, 0⟩ (by decide) (by decide) (by decide) (by decide)⟩

/-- The split of a full leaf of a record-number database with ten keys
(`maxkeys = 10`, pivot `count - 4 = 6`) for the key 11: the old leaf keeps six
entries, the new leaf holds the other four and the new key. -/
theorem recno_split_counts :
    ((my_insert_split
      ⟨fun q => if q = 1 then ⟨0, 0, 0, (List.range 10).map (fun k => ⟨k + 1, k + 1, []⟩)⟩
        else ⟨0, 0, 0, []⟩, 2, fun _ => true, 1, 10, HAM_RECORD_NUMBER⟩
      1 11 0 0 ⟨0, 11, 0, 0⟩).1 = SPLIT) ∧
    ((my_insert_split
      ⟨fun q => if q = 1 then ⟨0, 0, 0, (List.range 10).map (fun k => ⟨k + 1, k + 1, []⟩)⟩
        else ⟨0, 0, 0, []⟩, 2, fun _ => true, 1, 10, HAM_RECORD_NUMBER⟩
      1 11 0 0 ⟨0, 11, 0, 0⟩).2.1.pages 1).entries.length = 6 ∧
    ((my_insert_split
      ⟨fun q => if q = 1 then ⟨0, 0, 0, (List.range 10).map (fun k => ⟨k + 1, k + 1, []⟩)⟩
        else ⟨0, 0, 0, []⟩, 2, fun _ => true, 1, 10, HAM_RECORD_NUMBER⟩
      1 11 0 0 ⟨0, 11, 0, 0⟩).2.1.pages 2).entries.length = 5 := by
  decide

/-- C33, the claim as stated fails: the keys 1 to 5 inserted into an empty tree with
`maxkeys = 2` all return success, and in the tree the internal node 3 has the right
sibling 6, the internal node that the split of node 3 created, whose left sibling is
node 3. -/
theorem internal_nodes_link_siblings_counterexample :
    (insert_all (empty_tree 2 0) [1, 2, 3, 4, 5]).1 = [0, 0, 0, 0, 0] ∧
    btree_node_is_leaf ((insert_all (empty_tree 2 0) [1, 2, 3, 4, 5]).2.pages 3) = false ∧
    ((insert_all (empty_tree 2 0) [1, 2, 3, 4, 5]).2.pages 3).right = 6 ∧
    btree_node_is_leaf ((insert_all (empty_tree 2 0) [1, 2, 3, 4, 5]).2.pages 6) = false ∧
    ((insert_all (empty_tree 2 0) [1, 2, 3, 4, 5]).2.pages 6).left = 3 ∧
    ((insert_all (empty_tree 2 0) [1, 2, 3, 4, 5]).2.pages 3).right ≠ 0 := by
  decide

/-- C33, amended (internal nodes link siblings as leaves do).  When `my_insert_split`
splits an internal node `P` (an allocated page whose right link `R` is null or another
allocated page) and returns `SPLIT`, the new node `N` is linked behind `P`:
`N.left = P`, `N.right = R`, `P.right = N`, and `R.left = N` when `R` is not null;
`P.left` stays, and `N` is an internal node below the child of the pivot entry.  And
in every tree built by inserts of distinct keys into an empty tree with
`maxkeys >= 2`, the right link of an internal node is null or leads to an internal
node, never to a leaf. -/
theorem internal_nodes_link_siblings (db : ham_db_t) (page key rid flags : Nat)
    (sp : insert_scratchpad_t) (maxkeys rt_flags : Nat) (keys : List Nat)
    (hlt : page < db.next) (hint : btree_node_is_leaf (db.pages page) = false)
    (hR1 : (db.pages page).right ≠ page) (hR2 : (db.pages page).right < db.next)
    (hst : (my_insert_split db page key rid flags sp).1 = SPLIT)
    (hmax : 2 ≤ maxkeys) (hnd : keys.Nodup) :
    (((my_insert_split db page key rid flags sp).2.1.pages db.next).left = page ∧
     ((my_insert_split db page key rid flags sp).2.1.pages db.next).right
       = (db.pages page).right ∧
     ((my_insert_split db page key rid flags sp).2.1.pages page).right = db.next ∧
     ((db.pages page).right ≠ 0 →
       ((my_insert_split db page key rid flags sp).2.1.pages (db.pages page).right).left
         = db.next) ∧
     ((my_insert_split db page key rid flags sp).2.1.pages page).left = (db.pages page).left ∧
     ((my_insert_split db page key rid flags sp).2.1.pages db.next).ptr_left
       = ((db.pages page).entries.getD
           (pivot_index db.rt_flags (db.pages page).entries.length) default).ptr) ∧
    (∀ q, q < (insert_all (empty_tree maxkeys rt_flags) keys).2.next →
      btree_node_is_leaf ((insert_all (empty_tree maxkeys rt_flags) keys).2.pages q) = false →
      ((insert_all (empty_tree maxkeys rt_flags) keys).2.pages q).right = 0 ∨
      (((insert_all (empty_tree maxkeys rt_flags) keys).2.pages q).right
          < (insert_all (empty_tree maxkeys rt_flags) keys).2.next ∧
        btree_node_is_leaf ((insert_all (empty_tree maxkeys rt_flags) keys).2.pages
          ((insert_all (empty_tree maxkeys rt_flags) keys).2.pages q).right) = false)) := by
  have hne : page ≠ db.next := by omega
  obtain ⟨_, _, _, _, _, _, _, hs⟩ := split_facts db page key rid flags sp hne
  obtain ⟨hav, _, _, hl⟩ := hs hst
  refine ⟨⟨?_, ?_, ?_, ?_, ?_, ?_⟩, ?_⟩
  · rw [(hl db.next).1, if_neg (by intro h; omega), if_neg (Ne.symm hne), if_pos rfl]
  · rw [(hl db.next).2, if_neg (Ne.symm hne), if_pos rfl]
  · rw [(hl page).2, if_pos rfl]
  · intro h0
    rw [(hl _).1, if_pos ⟨h0, rfl⟩]
  · rw [(hl page).1, if_neg (by intro h; exact hR1 h.2.symm), if_pos rfl]
  · rw [split_unfold db page key rid flags sp hav] at hst ⊢
    have hmv : ((move_entries { db with next := db.next + 1 } page db.next
        (pivot_index db.rt_flags (db.pages page).entries.length)).pages db.next).ptr_left
        = ((db.pages page).entries.getD
            (pivot_index db.rt_flags (db.pages page).entries.length) default).ptr := by
      have hl2 : btree_node_is_leaf
          (({ db with next := db.next + 1 } : ham_db_t).pages page) = false := hint
      unfold move_entries
      simp only [setPage_pages, if_neg (Ne.symm hne), ↓reduceIte, hl2, Bool.false_eq_true]
    generalize hdb2 : move_entries { db with next := db.next + 1 } page db.next
      (pivot_index db.rt_flags (db.pages page).entries.length) = db2 at hmv hst
    generalize htgt : (if ((db.pages page).entries.getD
      (pivot_index db.rt_flags (db.pages page).entries.length) default).key ≤ key
      then db.next else page) = tgt at hst
    have hfr := ((nosplit_frame db2 tgt key rid sp.record (flags ||| NOFLUSH)).2.2.2.2.2.2
      db.next).1
    have hstatus := nosplit_status db2 tgt key rid sp.record (flags ||| NOFLUSH)
    by_cases hr : (my_insert_nosplit db2 tgt key rid sp.record (flags ||| NOFLUSH)).1 ≠ 0
    · rw [if_pos hr] at hst
      rcases hstatus with h0 | h0
      · exact absurd h0 hr
      · rw [h0] at hst
        exact absurd (show (-12 : Int) = 1 from hst) (by decide)
    · rw [if_neg hr]
      show ((fix_links _ page db.next).pages db.next).ptr_left = _
      rw [(fix_links_keep _ page db.next db.next).2, hfr, hmv]
  · obtain ⟨_, h1, hi1, t1, _⟩ := insert_all_spec keys (empty_tree maxkeys rt_flags) 0 1
      (empty_tree_inv maxkeys rt_flags) hmax (fun _ => rfl) hnd (by
        intro k _ hk
        exact absurd hk (List.not_mem_nil _))
    have hil := t1.2.2.2.2
    have hleaf : ∀ n : btree_node_t, btree_node_is_leaf n = false ↔ n.ptr_left ≠ 0 := by
      intro n
      unfold btree_node_is_leaf
      simp
    intro q hq hqi
    rcases hil q hq ((hleaf _).1 hqi) with h | ⟨h2, h3⟩
    · exact Or.inl h
    · exact Or.inr ⟨h2, (hleaf _).2 h3⟩

/-- C33, amended, at the full root of `full_two_level_tree` (split for the key 60 and
the rid 5) and at the tree of the keys 1 to 5. -/
theorem internal_nodes_link_siblings_witness :
    ((my_insert_split full_two_level_tree 4 60 5 HAM_OVERWRITE ⟨0, 0, 0, 0⟩).2.1.pages
      full_two_level_tree.next).left = 4 ∧
    ((my_insert_split full_two_level_tree 4 60 5 HAM_OVERWRITE ⟨0, 0, 0, 0⟩).2.1.pages
      4).right = full_two_level_tree.next ∧
    ((my_insert_split full_two_level_tree 4 60 5 HAM_OVERWRITE ⟨0, 0, 0, 0⟩).2.1.pages
      full_two_level_tree.next).ptr_left
      = ((full_two_level_tree.pages 4).entries.getD (pivot_index full_two_level_tree.rt_flags
          (full_two_level_tree.pages 4).entries.length) default).ptr ∧
    (((insert_all (empty_tree 2 0) [1, 2, 3, 4, 5]).2.pages 3).right = 0 ∨
      (((insert_all (empty_tree 2 0) [1, 2, 3, 4, 5]).2.pages 3).right
          < (insert_all (empty_tree 2 0) [1, 2, 3, 4, 5]).2.next ∧
        btree_node_is_leaf ((insert_all (empty_tree 2 0) [1, 2, 3, 4, 5]).2.pages
          ((insert_all (empty_tree 2 0) [1, 2, 3, 4, 5]).2.pages 3).right) = false)) :=
  ⟨(internal_nodes_link_siblings full_two_level_tree 4 60 5 HAM_OVERWRITE ⟨0, 0, 0, 0⟩ 2 0
      [1, 2, 3, 4, 5] (by decide) (by decide) (by decide) (by decide) (by decide) (by decide)
      (by decide)).1.1,
   (internal_nodes_link_siblings full_two_level_tree 4 60 5 HAM_OVERWRITE ⟨0, 0, 0, 0⟩ 2 0
      [1, 2, 3, 4, 5] (by decide) (by decide) (by decide) (by decide) (by decide) (by decide)
      (by decide)).1.2.2.1,
   (internal_nodes_link_siblings full_two_level_tree 4 60 5 HAM_OVERWRITE ⟨0, 0, 0, 0⟩ 2 0
      [1, 2, 3, 4, 5] (by decide) (by decide) (by decide) (by decide) (by decide) (by decide)
      (by decide)).1.2.2.2.2.2,
   (internal_nodes_link_siblings full_two_level_tree 4 60 5 HAM_OVERWRITE ⟨0, 0, 0, 0⟩ 2 0
      [1, 2, 3, 4, 5] (by decide) (by decide) (by decide) (by decide) (by decide) (by decide)
      (by decide)).2 3 (by decide) (by decide)⟩

end BtreeInsert

namespace BtreeInsert

/-! ## Cursors keep their key -/

theorem current_key_coupled (db : ham_db_t) (p s : Nat) (h : s < (db.pages p).entries.length) :
    current_key db (ham_bt_cursor_t.coupled p s)
      = some ((db.pages p).entries.getD s default).key := by
  unfold current_key
  simp only
  rw [List.get?_eq_getElem?, List.getElem?_eq_getElem h, List.getD_eq_getElem _ _ h]
  rfl

/-- A cursor keeps its key when a store into pages leaves the entry of its slot with
the same key. -/
theorem current_key_keep (db db1 : ham_db_t) (p s : Nat)
    (h : ((db1.pages p).entries.get? s).map (fun e => e.key)
      = ((db.pages p).entries.get? s).map (fun e => e.key)) :
    current_key db1 (ham_bt_cursor_t.coupled p s)
      = current_key db (ham_bt_cursor_t.coupled p s) := h

/-- The uncoupled cursor holds the key of its slot. -/
theorem uncouple_key (db db1 : ham_db_t) (page start : Nat) (c : ham_bt_cursor_t)
    (hok : cursor_on_slot db c)
    (hkeep : ∀ p s, c = ham_bt_cursor_t.coupled p s → ¬ (p = page ∧ start ≤ s) →
      ((db1.pages p).entries.get? s).map (fun e => e.key)
        = ((db.pages p).entries.get? s).map (fun e => e.key)) :
    current_key db1 (db_uncouple_all_cursors db page start c) = current_key db c := by
  cases c with
  | nil => rfl
  | uncoupled k => rfl
  | coupled p s =>
    unfold db_uncouple_all_cursors
    simp only
    by_cases h : p = page ∧ start ≤ s
    · rw [if_pos h, current_key_coupled db p s hok.2]
      rfl
    · rw [if_neg h]
      exact hkeep p s rfl h

theorem get?_insert_before (E : List int_key_t) (x : int_key_t) (slot s : Nat) (h : s < slot)
    (hs : slot ≤ E.length) :
    (E.take slot ++ x :: E.drop slot).get? s = E.get? s := by
  rw [List.get?_eq_getElem?, List.get?_eq_getElem?,
    List.getElem?_append_left (by rw [List.length_take]; omega),
    List.getElem?_take_of_lt h]

/-- A cursor denotes the same key in two databases whose slots hold the same keys. -/
theorem current_key_congr_keys (db db1 : ham_db_t) (c : ham_bt_cursor_t)
    (h : ∀ p s, ((db1.pages p).entries.get? s).map (fun e => e.key)
      = ((db.pages p).entries.get? s).map (fun e => e.key)) :
    current_key db1 c = current_key db c := by
  cases c with
  | nil => rfl
  | uncoupled k => rfl
  | coupled p s => exact h p s

/-- A cursor denotes the same key in two databases whose pages hold the same entries. -/
theorem current_key_congr (db db1 : ham_db_t) (c : ham_bt_cursor_t)
    (h : ∀ p, (db1.pages p).entries = (db.pages p).entries) :
    current_key db1 c = current_key db c := by
  cases c with
  | nil => rfl
  | uncoupled k => rfl
  | coupled p s =>
    unfold current_key
    simp only [h p]

theorem uncouple_cases (db : ham_db_t) (page start : Nat) (c : ham_bt_cursor_t)
    (hok : cursor_on_slot db c) :
    db_uncouple_all_cursors db page start c = c ∨
    ∃ k, current_key db c = some k ∧
      db_uncouple_all_cursors db page start c = ham_bt_cursor_t.uncoupled k := by
  cases c with
  | nil => exact Or.inl rfl
  | uncoupled k => exact Or.inl rfl
  | coupled p s =>
    unfold db_uncouple_all_cursors
    simp only
    by_cases h : p = page ∧ start ≤ s
    · rw [if_pos h]
      exact Or.inr ⟨_, current_key_coupled db p s hok.2, rfl⟩
    · rw [if_neg h]
      exact Or.inl rfl

/-- The store of a new entry at `slot` behind the call of `db_uncouple_all_cursors` with
`slot`: every cursor keeps its key. -/
theorem insert_new_cursor (db : ham_db_t) (page key rid record flags slot : Nat)
    (c : ham_bt_cursor_t) (hok : cursor_on_slot db c)
    (hs : slot ≤ (db.pages page).entries.length) :
    current_key (insert_new db page key rid record flags slot).2
      (db_uncouple_all_cursors db page slot c) = current_key db c := by
  apply uncouple_key db _ page slot c hok
  intro p s _ hn
  rw [insert_new_eq]
  simp only [setPage_pages]
  by_cases hp : p = page
  · subst hp
    rw [if_pos rfl]
    have hlt : s < slot := by
      by_contra hcon
      exact hn ⟨rfl, by omega⟩
    show ((((db.pages p).entries.take slot ++ _ :: (db.pages p).entries.drop slot)).get? s).map _
      = _
    rw [get?_insert_before _ _ _ _ hlt hs]
  · rw [if_neg hp]

theorem get_slot_range (node : btree_node_t) (key : Nat) :
    (btree_get_slot node key).1 = -1 ∨
    (0 ≤ (btree_get_slot node key).1 ∧
      ((btree_get_slot node key).1 + 1).toNat ≤ node.entries.length) := by
  have hle : node.entries.countP (fun e => decide (e.key ≤ key)) ≤ node.entries.length :=
    List.countP_le_length _
  unfold btree_get_slot
  simp only
  split_ifs with h
  · exact Or.inl rfl
  · right
    simp only
    omega

theorem get?_set_key (E : List int_key_t) (i s : Nat) (b : int_key_t)
    (hb : b.key = (E.getD i default).key) :
    ((E.set i b).get? s).map (fun e => e.key) = (E.get? s).map (fun e => e.key) := by
  rw [List.get?_eq_getElem?, List.get?_eq_getElem?, List.getElem?_set]
  by_cases h : i = s
  · subst h
    rw [if_pos rfl]
    by_cases hl : i < E.length
    · rw [if_pos hl, List.getElem?_eq_getElem hl]
      rw [List.getD_eq_getElem _ _ hl] at hb
      simp only [Option.map_some', hb]
    · rw [if_neg hl, List.getElem?_eq_none (by omega)]
  · rw [if_neg h]

/-- Cursors and `my_insert_nosplit`: every cursor that rests on a slot denotes the same
key after the function as before. -/
theorem nosplit_cursor (db : ham_db_t) (page key rid record flags : Nat)
    (c : ham_bt_cursor_t) (hok : cursor_on_slot db c) :
    current_key (my_insert_nosplit db page key rid record flags).2
      (my_insert_nosplit_uncouple db page key c) = current_key db c := by
  unfold my_insert_nosplit my_insert_nosplit_uncouple
  simp only
  by_cases hlen : (db.pages page).entries.length = 0
  · rw [if_pos hlen, if_pos hlen]
    cases c with
    | nil => rfl
    | uncoupled k => rfl
    | coupled p s =>
      rw [insert_new_eq]
      apply current_key_keep
      simp only [setPage_pages]
      by_cases hp : p = page
      · subst hp
        have := hok.2
        omega
      · rw [if_neg hp]
  · rw [if_neg hlen, if_neg hlen]
    rcases get_slot_range (db.pages page) key with h1 | ⟨h1, h2⟩
    · rw [if_pos h1, if_pos h1]
      exact insert_new_cursor db page key rid record flags 0 c hok (Nat.zero_le _)
    · have hn1 : ¬ (btree_get_slot (db.pages page) key).1 = -1 := by omega
      rw [if_neg hn1, if_neg hn1]
      by_cases hc0 : (btree_get_slot (db.pages page) key).2 = 0
      · rw [if_pos hc0, if_pos hc0]
        split_ifs
        · rfl
        · rfl
        · apply current_key_congr_keys
          intro p s
          simp only [setPage_pages]
          by_cases hp : p = page
          · subst hp
            rw [if_pos rfl]
            apply get?_set_key
            rw [key_set_record_key]
          · rw [if_neg hp]
        · apply current_key_congr_keys
          intro p s
          simp only [setPage_pages]
          by_cases hp : p = page
          · subst hp
            rw [if_pos rfl]
            apply get?_set_key
            rfl
          · rw [if_neg hp]
      · rw [if_neg hc0, if_neg hc0]
        by_cases hcl : (btree_get_slot (db.pages page) key).2 < 0
        · rw [if_pos hcl, if_pos hcl]
          exact insert_new_cursor db page key rid record flags _ c hok h2
        · rw [if_neg hcl, if_neg hcl]
          exact insert_new_cursor db page key rid record flags _ c hok (by omega)

theorem fix_links_entries (db : ham_db_t) (page newpage : Nat) (hne : page ≠ newpage)
    (i : Nat) : ((fix_links db page newpage).pages i).entries = (db.pages i).entries := by
  rw [fix_links_pages _ _ _ hne]
  by_cases h1 : (db.pages page).right ≠ 0 ∧ i = (db.pages page).right
  · rw [if_pos h1]
    by_cases h2 : i = page
    · simp only [h2, if_true]
    · simp only [h2, if_false]
  · rw [if_neg h1]
    by_cases h2 : i = page
    · rw [if_pos h2, h2]
    · rw [if_neg h2]
      by_cases h3 : i = newpage
      · rw [if_pos h3, h3]
      · rw [if_neg h3]

/-- The cursors after the call of `db_uncouple_all_cursors` with the pivot and the move
of the entries to the new page. -/
theorem move_cursor (db : ham_db_t) (page pivot : Nat) (c : ham_bt_cursor_t)
    (hok : cursor_on_slot db c) (hlt : page < db.next) :
    current_key (move_entries { db with next := db.next + 1 } page db.next pivot)
      (db_uncouple_all_cursors { db with next := db.next + 1 } page pivot c)
      = current_key db c ∧
    cursor_on_slot (move_entries { db with next := db.next + 1 } page db.next pivot)
      (db_uncouple_all_cursors { db with next := db.next + 1 } page pivot c) := by
  have hne : page ≠ db.next := by omega
  obtain ⟨m1, m2, m3⟩ := move_entries_pages { db with next := db.next + 1 } page db.next
    pivot hne
  simp only at m1 m3
  cases c with
  | nil => exact ⟨rfl, trivial⟩
  | uncoupled k => exact ⟨rfl, trivial⟩
  | coupled p s =>
    obtain ⟨hp, hs⟩ := hok
    unfold db_uncouple_all_cursors
    simp only
    by_cases h : p = page ∧ pivot ≤ s
    · rw [if_pos h]
      exact ⟨(current_key_coupled db p s hs).symm, trivial⟩
    · rw [if_neg h]
      by_cases hpp : p = page
      · subst hpp
        have hsl : s < pivot := by
          by_contra hcon
          exact h ⟨rfl, by omega⟩
        constructor
        · apply current_key_keep
          rw [m1]
          simp only
          rw [List.get?_eq_getElem?, List.get?_eq_getElem?, List.getElem?_take_of_lt hsl]
        · refine ⟨by show p < db.next + 1; omega, ?_⟩
          rw [m1]
          simp only [List.length_take]
          omega
      · have hpn : p ≠ db.next := by omega
        constructor
        · apply current_key_keep
          rw [m3 p hpp hpn]
        · refine ⟨by show p < db.next + 1; omega, ?_⟩
          rw [m3 p hpp hpn]
          exact hs

/-- Cursors and `my_insert_split`: every cursor that rests on a slot denotes the same key
after the function as before. -/
theorem split_cursor (db : ham_db_t) (page key rid flags : Nat) (sp : insert_scratchpad_t)
    (c : ham_bt_cursor_t) (hok : cursor_on_slot db c) (hlt : page < db.next) :
    current_key (my_insert_split db page key rid flags sp).2.1
      (my_insert_split_uncouple db page key c) = current_key db c := by
  have hne : page ≠ db.next := by omega
  unfold my_insert_split my_insert_split_uncouple db_alloc_page
  by_cases hav : db.avail db.next = true
  · rw [if_pos hav]
    simp only
    generalize hpv : (if db.rt_flags &&& HAM_RECORD_NUMBER ≠ 0 ∧ (db.pages page).entries.length > 8
      then (db.pages page).entries.length - 4 else (db.pages page).entries.length / 2) = pv
    obtain ⟨k1, k2⟩ := move_cursor db page pv c hok hlt
    generalize move_entries { db with next := db.next + 1 } page db.next pv = db2 at k1 k2 ⊢
    generalize db_uncouple_all_cursors { db with next := db.next + 1 } page pv c = c1
      at k1 k2 ⊢
    have hfin : ∀ t, current_key
        (if (my_insert_nosplit db2 t key rid sp.record (flags ||| NOFLUSH)).1 ≠ 0 then
          ((my_insert_nosplit db2 t key rid sp.record (flags ||| NOFLUSH)).1,
            (my_insert_nosplit db2 t key rid sp.record (flags ||| NOFLUSH)).2, sp)
         else (SPLIT,
            fix_links (my_insert_nosplit db2 t key rid sp.record (flags ||| NOFLUSH)).2 page
              db.next,
            ({ sp with key := ((db.pages page).entries.getD pv default).key, rid := db.next } :
              insert_scratchpad_t))).2.1
        (my_insert_nosplit_uncouple db2 t key c1) = current_key db c := by
      intro t
      have hn := nosplit_cursor db2 t key rid sp.record (flags ||| NOFLUSH) c1 k2
      split_ifs
      · exact hn.trans k1
      · simp only
        rw [current_key_congr _ _ _ (fix_links_entries _ page db.next hne)]
        exact hn.trans k1
    by_cases hc : key_compare_int_to_pub ((db.pages page).entries.getD pv default) key ≤ 0
    · simp only [if_pos hc]
      exact hfin db.next
    · simp only [if_neg hc]
      exact hfin page
  · have hav2 : db.avail db.next = false := by simpa using hav
    simp only [hav2, Bool.false_eq_true, ↓reduceIte]

theorem nosplit_uncouple_cases (db : ham_db_t) (page key : Nat) (c : ham_bt_cursor_t)
    (hok : cursor_on_slot db c) :
    my_insert_nosplit_uncouple db page key c = c ∨
    ∃ k, current_key db c = some k ∧
      my_insert_nosplit_uncouple db page key c = ham_bt_cursor_t.uncoupled k := by
  unfold my_insert_nosplit_uncouple
  simp only
  split_ifs
  · exact Or.inl rfl
  · exact uncouple_cases db page _ c hok
  · exact Or.inl rfl
  · exact uncouple_cases db page _ c hok
  · exact uncouple_cases db page _ c hok

theorem split_uncouple_cases (db : ham_db_t) (page key : Nat) (c : ham_bt_cursor_t)
    (hok : cursor_on_slot db c) (hlt : page < db.next) :
    my_insert_split_uncouple db page key c = c ∨
    ∃ k, current_key db c = some k ∧
      my_insert_split_uncouple db page key c = ham_bt_cursor_t.uncoupled k := by
  unfold my_insert_split_uncouple db_alloc_page
  by_cases hav : db.avail db.next = true
  · rw [if_pos hav]
    simp only
    generalize hpv : (if db.rt_flags &&& HAM_RECORD_NUMBER ≠ 0 ∧ (db.pages page).entries.length > 8
      then (db.pages page).entries.length - 4 else (db.pages page).entries.length / 2) = pv
    obtain ⟨k1, k2⟩ := move_cursor db page pv c hok hlt
    have hu := uncouple_cases { db with next := db.next + 1 } page pv c
      (by
        cases c with
        | nil => trivial
        | uncoupled k => trivial
        | coupled p s => exact ⟨by show p < db.next + 1; have := hok.1; omega, hok.2⟩)
    have hsame : current_key { db with next := db.next + 1 } c = current_key db c :=
      current_key_congr _ _ _ (fun _ => rfl)
    rw [hsame] at hu
    generalize move_entries { db with next := db.next + 1 } page db.next pv = db2 at k1 k2 ⊢
    generalize db_uncouple_all_cursors { db with next := db.next + 1 } page pv c = c1
      at k1 k2 hu ⊢
    have hfin : ∀ t, my_insert_nosplit_uncouple db2 t key c1 = c ∨
        ∃ k, current_key db c = some k ∧
          my_insert_nosplit_uncouple db2 t key c1 = ham_bt_cursor_t.uncoupled k := by
      intro t
      rcases nosplit_uncouple_cases db2 t key c1 k2 with h | ⟨k, h1, h2⟩
      · rw [h]
        exact hu
      · exact Or.inr ⟨k, by rw [← k1]; exact h1, h2⟩
    split_ifs
    · exact hfin db.next
    · exact hfin page
  · have hav2 : db.avail db.next = false := by simpa using hav
    simp only [hav2, Bool.false_eq_true, ↓reduceIte]
    exact Or.inl trivial

/-- C18 (cursor uncouple).  For every page below the page counter, every insert into
it and every cursor `c` that rests on a slot of an allocated page (or is uncoupled or
nil): after `my_insert_nosplit`, which shifts the entries from the insertion slot, and
after `my_insert_split`, which moves the entries from the pivot, the cursor denotes the
key that it denoted before.  `db_uncouple_all_cursors` is called with the lowest slot
that is moved and before the move, so the cursor either is what it was, coupled to a
slot whose key has not changed, or it is uncoupled and holds the key of its slot. -/
theorem cursors_keep_key (db : ham_db_t) (page key rid record flags : Nat)
    (sp : insert_scratchpad_t) (c : ham_bt_cursor_t) (hok : cursor_on_slot db c)
    (hlt : page < db.next) :
    current_key (my_insert_nosplit db page key rid record flags).2
      (my_insert_nosplit_uncouple db page key c) = current_key db c ∧
    current_key (my_insert_split db page key rid flags sp).2.1
      (my_insert_split_uncouple db page key c) = current_key db c ∧
    (my_insert_nosplit_uncouple db page key c = c ∨
      ∃ k, current_key db c = some k ∧
        my_insert_nosplit_uncouple db page key c = ham_bt_cursor_t.uncoupled k) ∧
    (my_insert_split_uncouple db page key c = c ∨
      ∃ k, current_key db c = some k ∧
        my_insert_split_uncouple db page key c = ham_bt_cursor_t.uncoupled k) :=
  ⟨nosplit_cursor db page key rid record flags c hok,
   split_cursor db page key rid flags sp c hok hlt,
   nosplit_uncouple_cases db page key c hok,
   split_uncouple_cases db page key c hok hlt⟩

/-- Witness for C18: the full leaf with the keys 10 and 20 and a cursor on slot 1, the
key 20; the insert of 25 splits the leaf at the pivot 1, and the cursor still denotes
the key 20. -/
theorem cursors_keep_key_witness :
    current_key (my_insert_split full_leaf_tree 1 25 0 0 ⟨0, 25, 0, 0⟩).2.1
      (my_insert_split_uncouple full_leaf_tree 1 25 (ham_bt_cursor_t.coupled 1 1)) = some 20 :=
  (cursors_keep_key full_leaf_tree 1 25 0 25 0 ⟨0, 25, 0, 0⟩ (ham_bt_cursor_t.coupled 1 1)
    ⟨by decide, by decide⟩ (by decide)).2.1

/-- The entry that was put in front of the entries from `slot` on stands at `slot`. -/
theorem get?_insert_at (E : List int_key_t) (x : int_key_t) (slot : Nat)
    (h : slot ≤ E.length) : (E.take slot ++ x :: E.drop slot).get? slot = some x := by
  have hl : (E.take slot).length = slot := by rw [List.length_take]; omega
  rw [List.get?_eq_getElem?, List.getElem?_append_right (by omega), hl, Nat.sub_self]
  exact List.getElem?_cons_zero

/-- The two results of `btree_get_slot`: no key is smaller than or equal to `key`, or
the slot of the last such key with the comparison of that key. -/
theorem get_slot_cases (node : btree_node_t) (key : Nat) :
    btree_get_slot node key = (-1, 1) ∨
    (1 ≤ lower_count node.entries key ∧ lower_count node.entries key ≤ node.entries.length ∧
      btree_get_slot node key = ((lower_count node.entries key : Int) - 1,
        key_compare_int_to_pub
          (node.entries.getD (lower_count node.entries key - 1) default) key)) := by
  have hle : lower_count node.entries key ≤ node.entries.length := List.countP_le_length _
  have hlc : node.entries.countP (fun e => decide (e.key ≤ key))
      = lower_count node.entries key := rfl
  unfold btree_get_slot
  simp only [hlc]
  by_cases h : lower_count node.entries key = 0
  · rw [if_pos h]; exact Or.inl rfl
  · rw [if_neg h]; exact Or.inr ⟨by omega, hle, rfl⟩

/-- The cursor of the insert after `my_insert_nosplit` on a leaf that returns success:
it is coupled to the page, and its slot holds the key. -/
theorem nosplit_couple_slot (db : ham_db_t) (page key rid record flags : Nat)
    (c : ham_bt_cursor_t) (hleaf : (db.pages page).ptr_left = 0)
    (hst : (my_insert_nosplit db page key rid record flags).1 = 0) :
    ∃ s, my_insert_nosplit_couple db page key flags true c = ham_bt_cursor_t.coupled page s ∧
      (((my_insert_nosplit db page key rid record flags).2.pages page).entries.get? s).map
        (fun e => e.key) = some key := by
  have hlf : btree_node_is_leaf (db.pages page) = true := by
    unfold btree_node_is_leaf; simpa using hleaf
  have hnew : ∀ slot, slot ≤ (db.pages page).entries.length →
      (((insert_new db page key rid record flags slot).2.pages page).entries.get? slot).map
        (fun e => e.key) = some key := by
    intro slot hslot
    rw [insert_new_eq]
    simp only [setPage_pages, if_true]
    show (((db.pages page).entries.take slot ++ _ :: (db.pages page).entries.drop slot).get?
      slot).map (fun e => e.key) = some key
    rw [get?_insert_at _ _ _ hslot]
    rfl
  unfold my_insert_nosplit at hst ⊢
  unfold my_insert_nosplit_couple couple_cursor
  simp only at hst ⊢
  simp only [if_true]
  by_cases hlen : (db.pages page).entries.length = 0
  · rw [if_pos hlen, if_pos hlen]
    exact ⟨0, rfl, hnew 0 (Nat.zero_le _)⟩
  · rw [if_neg hlen] at hst ⊢
    rw [if_neg hlen]
    rcases get_slot_cases (db.pages page) key with h1 | ⟨h1, h2, h3⟩
    · rw [h1]
      simp only [if_true]
      exact ⟨0, rfl, hnew 0 (Nat.zero_le _)⟩
    · rw [h3] at hst ⊢
      simp only at hst ⊢
      have hn1 : ¬ ((lower_count (db.pages page).entries key : Int) - 1 = -1) := by omega
      rw [if_neg hn1] at hst ⊢
      rw [if_neg hn1]
      have ht1 : ((lower_count (db.pages page).entries key : Int) - 1).toNat
          = lower_count (db.pages page).entries key - 1 := by omega
      have ht2 : ((lower_count (db.pages page).entries key : Int) - 1 + 1).toNat
          = lower_count (db.pages page).entries key := by omega
      by_cases hc0 : key_compare_int_to_pub ((db.pages page).entries.getD
          (lower_count (db.pages page).entries key - 1) default) key = 0
      · rw [if_pos hc0] at hst ⊢
        rw [if_pos hc0]
        have hkey : ((db.pages page).entries.getD
            (lower_count (db.pages page).entries key - 1) default).key = key := by
          unfold key_compare_int_to_pub at hc0
          by_contra hne
          by_cases a : ((db.pages page).entries.getD
              (lower_count (db.pages page).entries key - 1) default).key < key
          · rw [if_pos a] at hc0
            exact absurd hc0 (by decide)
          · rw [if_neg a, if_neg hne] at hc0
            exact absurd hc0 (by decide)
        have hfl : ¬ (flags &&& HAM_OVERWRITE ≠ 0 ∧ btree_node_is_leaf (db.pages page) = false) := by
          rw [hlf]; simp
        rw [if_neg hfl] at hst ⊢
        rw [if_neg hfl]
        by_cases hd : flags &&& HAM_OVERWRITE = 0 ∧ flags &&& HAM_DUPLICATE = 0
        · rw [if_pos hd] at hst
          exact absurd (show (-12 : Int) = 0 from hst) (by decide)
        · rw [if_neg hd, if_neg hd]
          refine ⟨_, rfl, ?_⟩
          simp only [setPage_pages, if_true, hlf, ht1]
          rw [get?_set_key _ _ _ _ (by rw [key_set_record_key]), List.get?_eq_getElem?,
            List.getElem?_eq_getElem (by omega), Option.map_some']
          rw [List.getD_eq_getElem _ _ (by omega)] at hkey
          rw [hkey]
      · rw [if_neg hc0] at hst ⊢
        rw [if_neg hc0]
        by_cases hcl : key_compare_int_to_pub ((db.pages page).entries.getD
            (lower_count (db.pages page).entries key - 1) default) key < 0
        · rw [if_pos hcl, if_pos hcl, ht2]
          exact ⟨_, rfl, hnew _ h2⟩
        · rw [if_neg hcl, if_neg hcl, ht1]
          exact ⟨_, rfl, hnew _ (by omega)⟩

/-- A cursor that is coupled to another page, when `my_insert_nosplit` gets no cursor:
the function leaves it as it is. -/
theorem nosplit_couple_detached (db : ham_db_t) (page key flags q s : Nat) (hq : q ≠ page) :
    my_insert_nosplit_couple db page key flags false (ham_bt_cursor_t.coupled q s)
      = ham_bt_cursor_t.coupled q s := by
  have hu : ∀ start, db_uncouple_all_cursors db page start (ham_bt_cursor_t.coupled q s)
      = ham_bt_cursor_t.coupled q s := by
    intro start
    unfold db_uncouple_all_cursors
    simp only
    rw [if_neg (fun h => hq h.1)]
  unfold my_insert_nosplit_couple couple_cursor
  simp only [hu, Bool.false_eq_true, if_false, ite_self]

/-- The steps of `my_insert_split_couple` when the new page can be allocated. -/
theorem split_couple_unfold (db : ham_db_t) (page key rid flags : Nat)
    (sp : insert_scratchpad_t) (sc : Bool × ham_bt_cursor_t) (hav : db.avail db.next = true) :
    my_insert_split_couple db page key rid flags sp sc =
      if (my_insert_nosplit
          (move_entries { db with next := db.next + 1 } page db.next
            (pivot_index db.rt_flags (db.pages page).entries.length))
          (if ((db.pages page).entries.getD
              (pivot_index db.rt_flags (db.pages page).entries.length) default).key ≤ key
            then db.next else page) key rid sp.record (flags ||| NOFLUSH)).1 ≠ 0 then
        (sc.1, my_insert_nosplit_couple
          (move_entries { db with next := db.next + 1 } page db.next
            (pivot_index db.rt_flags (db.pages page).entries.length))
          (if ((db.pages page).entries.getD
              (pivot_index db.rt_flags (db.pages page).entries.length) default).key ≤ key
            then db.next else page) key (flags ||| NOFLUSH) sc.1
          (db_uncouple_all_cursors { db with next := db.next + 1 } page
            (pivot_index db.rt_flags (db.pages page).entries.length) sc.2))
      else
        (false, my_insert_nosplit_couple
          (move_entries { db with next := db.next + 1 } page db.next
            (pivot_index db.rt_flags (db.pages page).entries.length))
          (if ((db.pages page).entries.getD
              (pivot_index db.rt_flags (db.pages page).entries.length) default).key ≤ key
            then db.next else page) key (flags ||| NOFLUSH) sc.1
          (db_uncouple_all_cursors { db with next := db.next + 1 } page
            (pivot_index db.rt_flags (db.pages page).entries.length) sc.2)) := by
  unfold my_insert_split_couple db_alloc_page
  rw [if_pos hav]
  simp only
  have hpv2 : (if db.rt_flags &&& HAM_RECORD_NUMBER ≠ 0 ∧ (db.pages page).entries.length > 8
      then (db.pages page).entries.length - 4
      else (db.pages page).entries.length / 2)
      = pivot_index db.rt_flags (db.pages page).entries.length := rfl
  rw [hpv2]
  by_cases hc : ((db.pages page).entries.getD
      (pivot_index db.rt_flags (db.pages page).entries.length) default).key ≤ key
  · rw [if_pos ((compare_le _ key).2 hc), if_pos hc, if_pos ((compare_le _ key).2 hc)]
  · rw [if_neg (fun h => hc ((compare_le _ key).1 h)), if_neg hc,
      if_neg (fun h => hc ((compare_le _ key).1 h))]

/-- The pages that `my_insert_in_page` leaves as they are: every page other than the
page itself and the one that a split allocates keeps its entries and `ptr_left`. -/
theorem in_page_frame (db : ham_db_t) (page key rid flags : Nat) (sp : insert_scratchpad_t)
    (hne : page ≠ db.next) (q : Nat) (hq1 : q ≠ page) (hq2 : q ≠ db.next) :
    ((my_insert_in_page db page key rid flags sp).2.1.pages q).entries = (db.pages q).entries ∧
    ((my_insert_in_page db page key rid flags sp).2.1.pages q).ptr_left
      = (db.pages q).ptr_left := by
  have hns : ∀ fl, ((my_insert_nosplit db page key rid sp.record fl).2.pages q).entries
        = (db.pages q).entries ∧
      ((my_insert_nosplit db page key rid sp.record fl).2.pages q).ptr_left
        = (db.pages q).ptr_left := by
    intro fl
    obtain ⟨_, _, _, _, _, f6, _⟩ := nosplit_frame db page key rid sp.record fl
    rw [f6 q hq1]
    exact ⟨rfl, rfl⟩
  unfold my_insert_in_page
  simp only
  split_ifs
  · exact hns flags
  · exact hns flags
  · exact ⟨rfl, rfl⟩
  · obtain ⟨_, _, _, _, _, _, s7, _⟩ := split_facts db page key rid flags sp hne
    exact s7 q hq1 hq2

/-- A cursor that is coupled to a page other than the page of `my_insert_in_page` and
the page that a split allocates, with `scratchpad->cursor` cleared: the function
leaves it as it is. -/
theorem in_page_couple_detached (db : ham_db_t) (page key rid flags : Nat)
    (sp : insert_scratchpad_t) (q s : Nat) (hq1 : q ≠ page) (hq2 : q ≠ db.next) :
    my_insert_in_page_couple db page key rid flags sp (false, ham_bt_cursor_t.coupled q s)
      = (false, ham_bt_cursor_t.coupled q s) := by
  unfold my_insert_in_page_couple
  simp only
  split_ifs
  · rw [nosplit_couple_detached db page key flags q s hq1]
  · rw [nosplit_couple_detached db page key flags q s hq1]
  · rfl
  · by_cases hav : db.avail db.next = true
    · rw [split_couple_unfold db page key rid flags sp _ hav]
      have hu : db_uncouple_all_cursors { db with next := db.next + 1 } page
          (pivot_index db.rt_flags (db.pages page).entries.length)
          (ham_bt_cursor_t.coupled q s) = ham_bt_cursor_t.coupled q s := by
        unfold db_uncouple_all_cursors
        simp only
        rw [if_neg (fun h => hq1 h.1)]
      simp only [hu]
      have ht : q ≠ (if ((db.pages page).entries.getD
          (pivot_index db.rt_flags (db.pages page).entries.length) default).key ≤ key
          then db.next else page) := by
        split_ifs
        · exact hq2
        · exact hq1
      rw [nosplit_couple_detached _ _ key _ q s ht]
      split_ifs <;> rfl
    · have hav2 : db.avail db.next = false := by simpa using hav
      unfold my_insert_split_couple db_alloc_page
      simp [hav2]

/-- The cursor of the insert after `my_insert_in_page` on a leaf that returns success
or `SPLIT`: `scratchpad->cursor` is cleared, and the cursor is coupled to the leaf or
to the new leaf of the split, at the slot that holds the key. -/
theorem in_page_couple_leaf (db : ham_db_t) (page key rid flags : Nat)
    (sp : insert_scratchpad_t) (c : ham_bt_cursor_t) (hleaf : (db.pages page).ptr_left = 0)
    (hlt : page < db.next)
    (hst : (my_insert_in_page db page key rid flags sp).1 = 0 ∨
      (my_insert_in_page db page key rid flags sp).1 = SPLIT) :
    ∃ q s, my_insert_in_page_couple db page key rid flags sp (true, c)
        = (false, ham_bt_cursor_t.coupled q s) ∧
      (q = page ∨ db.next ≤ q) ∧ q < (my_insert_in_page db page key rid flags sp).2.1.next ∧
      ((my_insert_in_page db page key rid flags sp).2.1.pages q).ptr_left = 0 ∧
      (((my_insert_in_page db page key rid flags sp).2.1.pages q).entries.get? s).map
        (fun e => e.key) = some key := by
  have hne : page ≠ db.next := by omega
  have hns : ∀ fl, ((my_insert_nosplit db page key rid sp.record fl).1 = 0 ∨
      (my_insert_nosplit db page key rid sp.record fl).1 = SPLIT) →
      ∃ q s, ((false, my_insert_nosplit_couple db page key fl true c) :
          Bool × ham_bt_cursor_t) = (false, ham_bt_cursor_t.coupled q s) ∧
        (q = page ∨ db.next ≤ q) ∧ q < (my_insert_nosplit db page key rid sp.record fl).2.next ∧
        ((my_insert_nosplit db page key rid sp.record fl).2.pages q).ptr_left = 0 ∧
        (((my_insert_nosplit db page key rid sp.record fl).2.pages q).entries.get? s).map
          (fun e => e.key) = some key := by
    intro fl h
    have h0 : (my_insert_nosplit db page key rid sp.record fl).1 = 0 := by
      rcases nosplit_status db page key rid sp.record fl with h1 | h1
      · exact h1
      · rw [h1] at h
        rcases h with h | h
        · exact absurd (show (-12 : Int) = 0 from h) (by decide)
        · exact absurd (show (-12 : Int) = 1 from h) (by decide)
    obtain ⟨s, e1, e2⟩ := nosplit_couple_slot db page key rid sp.record fl c hleaf h0
    obtain ⟨f1, _, _, _, _, _, f7⟩ := nosplit_frame db page key rid sp.record fl
    exact ⟨page, s, by rw [e1], Or.inl rfl, by rw [f1]; exact hlt,
      by rw [(f7 page).1]; exact hleaf, e2⟩
  unfold my_insert_in_page at hst ⊢
  unfold my_insert_in_page_couple
  simp only at hst ⊢
  by_cases h1 : (db.pages page).entries.length < db.maxkeys
  · rw [if_pos h1] at hst ⊢
    rw [if_pos h1]
    exact hns flags hst
  · rw [if_neg h1] at hst ⊢
    rw [if_neg h1]
    by_cases h2 : btree_node_is_leaf (db.pages page) = true ∧
        btree_node_search_by_key (db.pages page) key ≥ 0
    · rw [if_pos h2] at hst ⊢
      rw [if_pos h2]
      by_cases h3 : flags &&& HAM_OVERWRITE ≠ 0 ∨ flags &&& HAM_DUPLICATE ≠ 0
      · rw [if_pos h3] at hst ⊢
        rw [if_pos h3]
        exact hns flags hst
      · rw [if_neg h3] at hst
        rcases hst with h | h
        · exact absurd (show (-12 : Int) = 0 from h) (by decide)
        · exact absurd (show (-12 : Int) = 1 from h) (by decide)
    · rw [if_neg h2] at hst ⊢
      rw [if_neg h2]
      by_cases hav : db.avail db.next = true
      · rw [split_unfold db page key rid flags sp hav] at hst ⊢
        rw [split_couple_unfold db page key rid flags sp _ hav]
        obtain ⟨m1, m2, _⟩ := move_entries_pages { db with next := db.next + 1 } page db.next
          (pivot_index db.rt_flags (db.pages page).entries.length) hne
        have hlf : btree_node_is_leaf (db.pages page) = true := by
          unfold btree_node_is_leaf; simpa using hleaf
        simp only at m1 m2
        rw [hlf] at m2
        simp only [if_true] at m2
        generalize hdb2 : move_entries { db with next := db.next + 1 } page db.next
          (pivot_index db.rt_flags (db.pages page).entries.length) = db2 at *
        have g1 : db2.next = db.next + 1 := by rw [← hdb2]; rfl
        generalize htgt : (if ((db.pages page).entries.getD
          (pivot_index db.rt_flags (db.pages page).entries.length) default).key ≤ key
          then db.next else page) = tgt at *
        have htg : tgt = db.next ∨ tgt = page := by
          rw [← htgt]; split_ifs
          · exact Or.inl rfl
          · exact Or.inr rfl
        have htl : (db2.pages tgt).ptr_left = 0 := by
          rcases htg with h | h
          · rw [h, m2]
          · rw [h, m1]; exact hleaf
        by_cases hn : (my_insert_nosplit db2 tgt key rid sp.record (flags ||| NOFLUSH)).1 = 0
        · obtain ⟨s, e1, e2⟩ := nosplit_couple_slot db2 tgt key rid sp.record
            (flags ||| NOFLUSH) (db_uncouple_all_cursors { db with next := db.next + 1 } page
              (pivot_index db.rt_flags (db.pages page).entries.length) c) htl hn
          obtain ⟨f1, _, _, _, _, _, f7⟩ :=
            nosplit_frame db2 tgt key rid sp.record (flags ||| NOFLUSH)
          rw [if_neg (by simpa using hn), if_neg (by simpa using hn)]
          simp only
          have k := fix_links_keep (my_insert_nosplit db2 tgt key rid sp.record
            (flags ||| NOFLUSH)).2 page db.next tgt
          have fl := fix_links_fields (my_insert_nosplit db2 tgt key rid sp.record
            (flags ||| NOFLUSH)).2 page db.next
          refine ⟨tgt, s, by rw [e1], ?_, ?_, ?_, ?_⟩
          · rcases htg with h | h
            · exact Or.inr (by rw [h])
            · exact Or.inl h
          · rw [fl.1, f1, g1]
            rcases htg with h | h <;> omega
          · rw [k.2, (f7 tgt).1]; exact htl
          · rw [k.1]; exact e2
        · rw [if_pos (by simpa using hn)] at hst
          simp only at hst
          rcases nosplit_status db2 tgt key rid sp.record (flags ||| NOFLUSH) with h | h
          · exact absurd h hn
          · rw [h] at hst
            rcases hst with h | h
            · exact absurd (show (-12 : Int) = 0 from h) (by decide)
            · exact absurd (show (-12 : Int) = 1 from h) (by decide)
      · have hav2 : db.avail db.next = false := by simpa using hav
        rw [split_fail db page key rid flags sp hav2] at hst
        rcases hst with h | h
        · exact absurd (show (-6 : Int) = 0 from h) (by decide)
        · exact absurd (show (-6 : Int) = 1 from h) (by decide)

/-- Every child of a node that obeys the left-separator convention has an ordered
subtree. -/
theorem Kids_mem_sub (sh : Nat → Nat × List (Nat × Nat)) (h : Nat) :
    ∀ (es : List (Nat × Nat)) (c lo hi : Nat), Kids (Sub sh h) c lo es hi →
      ∀ d ∈ c :: es.map Prod.snd, ∃ a b, Sub sh h d a b := by
  intro es
  induction es with
  | nil =>
    intro c lo hi hk d hd
    rw [List.map_nil, List.mem_singleton] at hd
    rw [hd]
    exact ⟨lo, hi, hk.2⟩
  | cons e es ih =>
    intro c lo hi hk d hd
    rcases List.mem_cons.1 hd with h1 | h1
    · rw [h1]
      exact ⟨lo, e.1, hk.2.1⟩
    · exact ih e.2 e.1 hi hk.2.2 d h1

/-- The child that `btree_traverse_tree` takes in an internal node is one of its
children. -/
theorem traverse_kid (db : ham_db_t) (p key : Nat) (hpl : (db.pages p).ptr_left ≠ 0) :
    btree_traverse_tree (db.pages p) key ∈ kids (shapes db p) := by
  have hsh : shapes db p = shape (db.pages p) := rfl
  have hk : kids (shapes db p) = (db.pages p).ptr_left ::
      (((db.pages p).entries.take (lower_count (db.pages p).entries key)).map
          (fun e => (e.key, e.ptr)) ++
        ((db.pages p).entries.drop (lower_count (db.pages p).entries key)).map
          (fun e => (e.key, e.ptr))).map Prod.snd := by
    rw [hsh]
    show (shape (db.pages p)).1 :: (shape (db.pages p)).2.map Prod.snd = _
    rw [shape_items _ hpl, ← List.map_append, List.take_append_drop]
    rfl
  rw [hk, traverse_eq]
  exact descent_kid _ _ _

/-- The cursor of the insert after `my_insert_recursive` below a page of an ordered
subtree with distinct allocated pages: when the status is success or `SPLIT`,
`scratchpad->cursor` is cleared and the cursor is coupled to a leaf page, one of the
subtree or a new one, at a slot that holds the key. -/
theorem recursive_couple : ∀ (h fuel : Nat) (db : ham_db_t) (p key rid : Nat)
    (sp : insert_scratchpad_t) (c : ham_bt_cursor_t) (lo hi : Nat), h < fuel →
    Sub (shapes db) h p lo hi → (pagesOf (shapes db) h p).Nodup →
    (∀ q ∈ pagesOf (shapes db) h p, q < db.next) →
    ((my_insert_recursive fuel db p key rid sp).1 = 0 ∨
      (my_insert_recursive fuel db p key rid sp).1 = SPLIT) →
    ∃ q s, my_insert_recursive_couple fuel db p key rid sp (true, c)
        = (false, ham_bt_cursor_t.coupled q s) ∧
      (q ∈ pagesOf (shapes db) h p ∨ db.next ≤ q) ∧
      q < (my_insert_recursive fuel db p key rid sp).2.1.next ∧
      ((my_insert_recursive fuel db p key rid sp).2.1.pages q).ptr_left = 0 ∧
      (((my_insert_recursive fuel db p key rid sp).2.1.pages q).entries.get? s).map
        (fun e => e.key) = some key := by
  intro h
  induction h with
  | zero =>
    intro fuel db p key rid sp c lo hi hf hs _ hr hst
    obtain ⟨f, rfl⟩ : ∃ f, fuel = f + 1 := ⟨fuel - 1, by omega⟩
    have hleaf : (db.pages p).ptr_left = 0 := hs.1
    have hlf : btree_node_is_leaf (db.pages p) = true := by
      unfold btree_node_is_leaf; simpa using hleaf
    have hlt : p < db.next := hr p (mem_pagesOf_self _ _ _)
    unfold my_insert_recursive at hst ⊢
    unfold my_insert_recursive_couple
    simp only [hlf, ↓reduceIte] at hst ⊢
    obtain ⟨q, s, e1, e2, e3, e4, e5⟩ := in_page_couple_leaf db p key rid sp.flags sp c hleaf hlt hst
    refine ⟨q, s, e1, ?_, e3, e4, e5⟩
    rcases e2 with h1 | h1
    · left; rw [h1, pagesOf_zero]; exact List.mem_singleton.2 rfl
    · exact Or.inr h1
  | succ h ih =>
    intro fuel db p key rid sp c lo hi hf hs hnd hr hst
    obtain ⟨f, rfl⟩ : ∃ f, fuel = f + 1 := ⟨fuel - 1, by omega⟩
    obtain ⟨hc0, hkids⟩ := (Sub_succ _ _ _ _ _).1 hs
    have hpl : (db.pages p).ptr_left ≠ 0 := hc0
    have hint : btree_node_is_leaf (db.pages p) = false := by
      unfold btree_node_is_leaf; simpa using hpl
    have hkid := traverse_kid db p key hpl
    obtain ⟨a, b, hsub⟩ := Kids_mem_sub (shapes db) h _ _ _ _ hkids _ hkid
    have hsl : (pagesOf (shapes db) h (btree_traverse_tree (db.pages p) key)).Sublist
        ((kids (shapes db p)).flatMap (pagesOf (shapes db) h)) :=
      sublist_flatMap_of_mem _ _ _ hkid
    rw [pagesOf_succ] at hnd hr
    have hpn : p ∉ pagesOf (shapes db) h (btree_traverse_tree (db.pages p) key) :=
      fun hh => (List.nodup_cons.1 hnd).1 (hsl.subset hh)
    have hplt : p < db.next := hr p (List.mem_cons_self _ _)
    have hnd2 := (List.nodup_cons.1 hnd).2.sublist hsl
    have hr2 : ∀ q ∈ pagesOf (shapes db) h (btree_traverse_tree (db.pages p) key),
        q < db.next := fun q hq => hr q (List.mem_cons_of_mem _ (hsl.subset hq))
    have IH := ih f db (btree_traverse_tree (db.pages p) key) key rid sp c a b (by omega)
      hsub hnd2 hr2
    obtain ⟨_, _, _, _, c5, _⟩ :=
      recursive_fields f db (btree_traverse_tree (db.pages p) key) key rid sp
    unfold my_insert_recursive at hst ⊢
    unfold my_insert_recursive_couple
    simp only [hint, Bool.false_eq_true, ↓reduceIte] at hst ⊢
    by_cases hch : btree_traverse_tree (db.pages p) key = 0
    · rw [if_pos hch] at hst
      rcases hst with h1 | h1
      · exact absurd (show (-14 : Int) = 0 from h1) (by decide)
      · exact absurd (show (-14 : Int) = 1 from h1) (by decide)
    · rw [if_neg hch] at hst ⊢
      rw [if_neg hch]
      generalize hrd : my_insert_recursive f db (btree_traverse_tree (db.pages p) key) key rid sp
        = r at *
      by_cases hsp : r.1 = SPLIT
      · rw [if_pos hsp] at hst ⊢
        rw [if_pos hsp]
        obtain ⟨q, s, e1, e2, e3, e4, e5⟩ := IH (Or.inr hsp)
        have hq1 : q ≠ p := by
          rcases e2 with h1 | h1
          · intro hh; rw [hh] at h1; exact hpn h1
          · omega
        have hq2 : q ≠ r.2.1.next := by omega
        have hp2 : p ≠ r.2.1.next := by omega
        rw [e1, in_page_couple_detached r.2.1 p _ _ _ _ q s hq1 hq2]
        obtain ⟨k1, k2⟩ := in_page_frame r.2.1 p r.2.2.key r.2.2.rid
          (r.2.2.flags ||| HAM_OVERWRITE) r.2.2 hp2 q hq1 hq2
        obtain ⟨_, _, _, _, i5, _⟩ := in_page_fields r.2.1 p r.2.2.key r.2.2.rid
          (r.2.2.flags ||| HAM_OVERWRITE) r.2.2
        refine ⟨q, s, rfl, ?_, by omega, by rw [k2]; exact e4, by rw [k1]; exact e5⟩
        rcases e2 with h1 | h1
        · exact Or.inl (List.mem_cons_of_mem _ (hsl.subset h1))
        · exact Or.inr h1
      · rw [if_neg hsp] at hst ⊢
        rw [if_neg hsp]
        obtain ⟨q, s, e1, e2, e3, e4, e5⟩ := IH hst
        refine ⟨q, s, e1, ?_, e3, e4, e5⟩
        rcases e2 with h1 | h1
        · exact Or.inl (List.mem_cons_of_mem _ (hsl.subset h1))
        · exact Or.inr h1

/-- The invariants of `full_two_level_tree`. -/
theorem full_two_level_tree_inv : TreeAt full_two_level_tree 1 61 := by
  have hsh1 : shapes full_two_level_tree 1 = (0, [(10, 0), (20, 0)]) := by decide
  have hsh2 : shapes full_two_level_tree 2 = (0, [(30, 0), (40, 0)]) := by decide
  have hsh3 : shapes full_two_level_tree 3 = (0, [(50, 0), (60, 0)]) := by decide
  have hsh4 : shapes full_two_level_tree 4 = (1, [(30, 2), (50, 3)]) := by decide
  have hp : pagesOf (shapes full_two_level_tree) 1 full_two_level_tree.rootpage
      = [4, 1, 2, 3] := by decide
  have hl : leavesOf (shapes full_two_level_tree) 1 full_two_level_tree.rootpage
      = [1, 2, 3] := by decide
  refine ⟨?_, ?_, ?_, ?_, ?_⟩
  · show Sub (shapes full_two_level_tree) 1 4 0 61
    rw [Sub_succ, hsh4]
    refine ⟨by decide, ?_⟩
    show 0 < 30 ∧ Sub _ 0 1 0 30 ∧ 30 < 50 ∧ Sub _ 0 2 30 50 ∧ 50 < 61 ∧ Sub _ 0 3 50 61
    refine ⟨by decide, ?_, by decide, ?_, by decide, ?_⟩
    · rw [Sub_zero, hsh1]; decide
    · rw [Sub_zero, hsh2]; decide
    · rw [Sub_zero, hsh3]; decide
  · rw [hp]; decide
  · rw [hp]; decide
  · rw [hl]
    exact ⟨rfl, rfl, rfl, rfl, rfl, rfl, trivial⟩
  · intro q hq hpl
    have h4 : q = 4 := by
      by_contra hne
      apply hpl
      show (if q = 1 then (⟨0, 0, 2, [⟨10, 10, []⟩, ⟨20, 20, []⟩]⟩ : btree_node_t)
        else if q = 2 then ⟨0, 1, 3, [⟨30, 30, []⟩, ⟨40, 40, []⟩]⟩
        else if q = 3 then ⟨0, 2, 0, [⟨50, 50, []⟩, ⟨60, 60, []⟩]⟩
        else if q = 4 then ⟨1, 0, 0, [⟨30, 2, []⟩, ⟨50, 3, []⟩]⟩
        else ⟨0, 0, 0, []⟩).ptr_left = 0
      split_ifs <;> rfl
    rw [h4]
    exact Or.inl rfl

/-- C30 (the cursor follows the inserted item).  For every tree that obeys the
invariants (of any height) and every call of `btree_insert_cursor` with a cursor
that returns success, whatever the state of the cursor before the call: on return
the cursor is coupled, neither nil nor uncoupled; its page is an allocated leaf page,
a page of the tree before the call or one that the insert allocated, and its slot
holds the key of the insert, so that the cursor denotes this key.  This covers the
insert into a leaf with room, the overwrite of a key that exists, the split of the
leaf, and the splits of ancestors and of the root: the inserts of the propagated keys
into the parents and into the new root get no cursor and leave the cursor as the
leaf level coupled it. -/
theorem cursor_follows_insert (db : ham_db_t) (key record flags h hi : Nat)
    (c : ham_bt_cursor_t) (ht : TreeAt db h hi)
    (hst : (btree_insert_cursor db key record flags).1 = 0) :
    ∃ q s, btree_insert_cursor_couple db key record flags c = ham_bt_cursor_t.coupled q s ∧
      (q ∈ pagesOf (shapes db) h db.rootpage ∨ db.next ≤ q) ∧
      q < (btree_insert_cursor db key record flags).2.next ∧
      ((btree_insert_cursor db key record flags).2.pages q).ptr_left = 0 ∧
      (((btree_insert_cursor db key record flags).2.pages q).entries.get? s).map
        (fun e => e.key) = some key ∧
      current_key (btree_insert_cursor db key record flags).2
        (btree_insert_cursor_couple db key record flags c) = some key := by
  have hfuel := tree_height_lt db h hi ht
  obtain ⟨hs, hnd, hr, _, _⟩ := ht
  have R := recursive_couple h db.next db db.rootpage key 0 ⟨flags, record, 0, 0⟩ c 0 hi hfuel
    hs hnd (fun q hq => (hr q hq).2)
  obtain ⟨_, f2, _, _, _, _⟩ :=
    recursive_fields db.next db db.rootpage key 0 ⟨flags, record, 0, 0⟩
  have hroot : db.rootpage ≠ 0 := by
    have := (hr _ (mem_pagesOf_self _ _ _)).1
    omega
  have hfin : ∀ (D : ham_db_t) (q s : Nat),
      ((D.pages q).entries.get? s).map (fun e => e.key) = some key →
      current_key D (ham_bt_cursor_t.coupled q s) = some key := fun D q s hh => hh
  unfold btree_insert_cursor at hst ⊢
  unfold btree_insert_cursor_couple
  simp only at hst ⊢
  generalize my_insert_recursive db.next db db.rootpage key 0 ⟨flags, record, 0, 0⟩ = r at *
  by_cases hsp : r.1 = SPLIT
  · rw [if_pos hsp] at hst ⊢
    rw [if_pos hsp]
    obtain ⟨q, s, e1, e2, e3, e4, e5⟩ := R (Or.inr hsp)
    unfold db_alloc_page at hst ⊢
    by_cases hav : r.2.1.avail r.2.1.next = true
    · rw [if_pos hav] at hst ⊢
      simp only at hst ⊢
      have hroot1 : r.2.1.rootpage ≠ 0 := by rw [f2]; exact hroot
      rw [root_nosplit _ _ _ _ _ _ _ hroot1]
      simp only [ne_eq, not_true_eq_false, ↓reduceIte]
      have hq : q ≠ r.2.1.next := by omega
      rw [e1]
      simp only
      rw [nosplit_couple_detached _ _ _ _ q s hq]
      refine ⟨q, s, rfl, e2, ?_, ?_, ?_, ?_⟩
      · show q < r.2.1.next + 1
        omega
      · rw [setPage_other _ _ _ _ hq]; exact e4
      · rw [setPage_other _ _ _ _ hq]; exact e5
      · apply hfin
        rw [setPage_other _ _ _ _ hq]; exact e5
    · rw [if_neg hav] at hst
      exact absurd (show (-6 : Int) = 0 from hst) (by decide)
  · rw [if_neg hsp] at hst ⊢
    rw [if_neg hsp]
    simp only at hst ⊢
    obtain ⟨q, s, e1, e2, e3, e4, e5⟩ := R (Or.inl hst)
    rw [e1]
    exact ⟨q, s, rfl, e2, e3, e4, e5, hfin _ q s e5⟩

/-- Witness for C30: the insert of 70 into `full_two_level_tree` with a nil cursor
splits the leaf 3, the root and creates a new root; the cursor ends coupled to slot 1
of the new leaf 5, which holds 60 and 70. -/
theorem cursor_follows_insert_witness :
    (∃ q s, btree_insert_cursor_couple full_two_level_tree 70 70 0 ham_bt_cursor_t.nil
        = ham_bt_cursor_t.coupled q s ∧
      (q ∈ pagesOf (shapes full_two_level_tree) 1 full_two_level_tree.rootpage ∨
        full_two_level_tree.next ≤ q) ∧
      q < (btree_insert_cursor full_two_level_tree 70 70 0).2.next ∧
      ((btree_insert_cursor full_two_level_tree 70 70 0).2.pages q).ptr_left = 0 ∧
      (((btree_insert_cursor full_two_level_tree 70 70 0).2.pages q).entries.get? s).map
        (fun e => e.key) = some 70 ∧
      current_key (btree_insert_cursor full_two_level_tree 70 70 0).2
        (btree_insert_cursor_couple full_two_level_tree 70 70 0 ham_bt_cursor_t.nil)
        = some 70) ∧
    btree_insert_cursor_couple full_two_level_tree 70 70 0 ham_bt_cursor_t.nil
      = ham_bt_cursor_t.coupled 5 1 ∧
    ((btree_insert_cursor full_two_level_tree 70 70 0).2.pages 5).entries
      = [⟨60, 60, []⟩, ⟨70, 70, []⟩] :=
  ⟨cursor_follows_insert full_two_level_tree 70 70 0 1 61 ham_bt_cursor_t.nil
    full_two_level_tree_inv (by decide), by decide, by decide⟩

/-- In a list of entries with strictly ascending keys, the store into the slot of a
key changes the entry of that key and no other. -/
theorem set_eq_map (es : List int_key_t) (i : Nat) (key record : Nat)
    (hs : (es.map (fun e => e.key)).Pairwise (· < ·)) (hi : i < es.length)
    (hk : (es.getD i default).key = key) :
    es.set i { es.getD i default with ptr := record }
      = es.map (fun e => if e.key = key then { e with ptr := record } else e) := by
  apply List.ext_getElem
  · simp only [List.length_set, List.length_map]
  · intro j h1 h2
    rw [List.getElem_set, List.getElem_map]
    have h1 : j < es.length := by
      rw [List.length_map] at h2
      exact h2
    have hg : es.getD i default = es[i] := List.getD_eq_getElem _ _ hi
    rw [hg] at hk
    simp only [hg]
    by_cases hji : i = j
    · subst hji
      rw [if_pos rfl, if_pos hk]
    · rw [if_neg hji]
      have hne : (es[j]).key ≠ key := by
        intro hjk
        have hp := List.pairwise_iff_getElem.1 hs
        rcases Nat.lt_or_gt_of_ne hji with h | h
        · have h3 := hp i j (by rw [List.length_map]; exact hi)
            (by rw [List.length_map]; exact h1) h
          rw [List.getElem_map, List.getElem_map, hk, hjk] at h3
          exact lt_irrefl _ h3
        · have h3 := hp j i (by rw [List.length_map]; exact h1)
            (by rw [List.length_map]; exact hi) h
          rw [List.getElem_map, List.getElem_map, hk, hjk] at h3
          exact lt_irrefl _ h3
      rw [if_neg hne]

/-- A key that is stored in a leaf, with the flag `HAM_OVERWRITE`: `my_insert_nosplit`
returns success and replaces the record of the entry of the key. -/
theorem nosplit_overwrite (db : ham_db_t) (page key rid record flags : Nat)
    (hleaf : (db.pages page).ptr_left = 0)
    (hs : ((db.pages page).entries.map (fun e => e.key)).Pairwise (· < ·))
    (hx : key ∈ (db.pages page).entries.map (fun e => e.key))
    (hfl : flags &&& HAM_OVERWRITE ≠ 0) :
    my_insert_nosplit db page key rid record flags
      = (0, overwrite_record db page key record) := by
  obtain ⟨g1, g2, g3, g4⟩ := get_slot_stored (db.pages page) key hs hx
  have hlf : btree_node_is_leaf (db.pages page) = true := by
    unfold btree_node_is_leaf; simpa using hleaf
  unfold my_insert_nosplit
  simp only [g3, hlf]
  rw [if_neg (by omega), if_neg (by omega)]
  simp only [↓reduceIte, Bool.true_eq_false, and_false]
  rw [if_neg (fun h => hfl h.1)]
  have h4 : ((lower_count (db.pages page).entries key : Int) - 1).toNat
      = lower_count (db.pages page).entries key - 1 := by omega
  rw [h4]
  unfold key_set_record overwrite_record set_entries
  rw [if_pos (Or.inr hfl)]
  rw [set_eq_map _ _ key record hs (by omega) g4]

/-- A key that is stored in a leaf, with the flag `HAM_OVERWRITE`: `my_insert_in_page`
returns success and replaces the record of the entry of the key, in a leaf with free
slots and in a full leaf alike. -/
theorem in_page_overwrite (db : ham_db_t) (page key rid flags : Nat) (sp : insert_scratchpad_t)
    (hleaf : (db.pages page).ptr_left = 0)
    (hs : ((db.pages page).entries.map (fun e => e.key)).Pairwise (· < ·))
    (hx : key ∈ (db.pages page).entries.map (fun e => e.key))
    (hfl : flags &&& HAM_OVERWRITE ≠ 0) :
    my_insert_in_page db page key rid flags sp
      = (0, overwrite_record db page key sp.record, sp) := by
  obtain ⟨g1, g2, g3, g4⟩ := get_slot_stored (db.pages page) key hs hx
  have hlf : btree_node_is_leaf (db.pages page) = true := by
    unfold btree_node_is_leaf; simpa using hleaf
  have hsearch : btree_node_search_by_key (db.pages page) key ≥ 0 := by
    unfold btree_node_search_by_key
    simp only [g3]
    rw [if_pos ⟨by omega, trivial⟩]
    omega
  unfold my_insert_in_page
  simp only
  by_cases hroom : (db.pages page).entries.length < db.maxkeys
  · rw [if_pos hroom, nosplit_overwrite db page key rid sp.record flags hleaf hs hx hfl]
  · rw [if_neg hroom, if_pos ⟨hlf, hsearch⟩, if_pos (Or.inl hfl),
      nosplit_overwrite db page key rid sp.record flags hleaf hs hx hfl]

/-- A key that is stored below the page, with the flag `HAM_OVERWRITE` in the
scratchpad: `my_insert_recursive` returns success and replaces the record of the entry
of the key in the leaf that holds it. -/
theorem recursive_overwrite : ∀ (h fuel : Nat) (db : ham_db_t) (p key rid : Nat)
    (sp : insert_scratchpad_t) (lo hi : Nat),
    Sub (shapes db) h p lo hi → key ∈ keysOf (shapes db) h p → h < fuel →
    (∀ q ∈ pagesOf (shapes db) h p, 0 < q) → sp.flags &&& HAM_OVERWRITE ≠ 0 →
    ∃ leaf, leaf ∈ leavesOf (shapes db) h p ∧ (db.pages leaf).ptr_left = 0 ∧
      ((db.pages leaf).entries.map (fun e => e.key)).Pairwise (· < ·) ∧
      key ∈ (db.pages leaf).entries.map (fun e => e.key) ∧
      my_insert_recursive fuel db p key rid sp
        = (0, overwrite_record db leaf key sp.record, sp) := by
  intro h
  induction h with
  | zero =>
    intro fuel db p key rid sp lo hi hs hx hfuel _ hfl
    cases fuel with
    | zero => exact absurd hfuel (by omega)
    | succ f =>
      have hleaf : (db.pages p).ptr_left = 0 := hs.1
      have hlf : btree_node_is_leaf (db.pages p) = true := by
        unfold btree_node_is_leaf; simpa using hleaf
      have hsorted := hs.2.1
      rw [keysOf_zero] at hx
      have hsh : shapes db p = shape (db.pages p) := rfl
      rw [hsh, shape_keys] at hsorted hx
      refine ⟨p, by rw [leavesOf_zero]; exact List.mem_singleton.2 rfl, hleaf, hsorted, hx, ?_⟩
      unfold my_insert_recursive
      simp only [hlf, ↓reduceIte]
      exact in_page_overwrite db p key rid sp.flags sp hleaf hsorted hx hfl
  | succ h ih =>
    intro fuel db p key rid sp lo hi hs hx hfuel hpos hfl
    cases fuel with
    | zero => exact absurd hfuel (by omega)
    | succ f =>
      obtain ⟨hc0, hkids⟩ := (Sub_succ _ _ _ _ _).1 hs
      have hshp : shapes db p = shape (db.pages p) := rfl
      have hsorted := (Kids_sorted _ _ _ _ _ hkids).1
      rw [hshp] at hc0 hkids hsorted
      rw [shape_fst] at hc0 hkids
      obtain ⟨A, B, hAB, hA, hB, htr⟩ := descent_split (db.pages p) key hc0 hsorted
      rw [hAB] at hkids
      have hx2 : key ∈ ((db.pages p).ptr_left :: (A ++ B).map Prod.snd).flatMap
          (keysOf (shapes db) h) := by
        rw [keysOf_succ] at hx
        have : kids (shapes db p) = (db.pages p).ptr_left :: (A ++ B).map Prod.snd := by
          rw [hshp]
          show (shape (db.pages p)).1 :: (shape (db.pages p)).2.map Prod.snd = _
          rw [hAB]; rfl
        rw [this] at hx
        exact hx
      obtain ⟨k1, a, b, k2⟩ := focus_keys _ _ (fun d a b => Sub_keys (shapes db) h d a b)
        A B _ lo hi key hkids hA hB hx2
      rw [← htr] at k1 k2
      have hint : btree_node_is_leaf (db.pages p) = false := by
        unfold btree_node_is_leaf; simpa using hc0
      have hkid := traverse_kid db p key hc0
      have hpos2 : ∀ q ∈ pagesOf (shapes db) h (btree_traverse_tree (db.pages p) key), 0 < q :=
        fun q hq => hpos q (mem_pagesOf_kid _ _ _ _ _ hkid hq)
      have hch : btree_traverse_tree (db.pages p) key ≠ 0 := by
        have := hpos2 _ (mem_pagesOf_self _ _ _)
        omega
      obtain ⟨leaf, l1, l2, l3, l4, l5⟩ := ih f db _ key rid sp a b k2 k1 (by omega) hpos2 hfl
      refine ⟨leaf, ?_, l2, l3, l4, ?_⟩
      · rw [leavesOf_succ]
        exact List.mem_flatMap.2 ⟨_, hkid, l1⟩
      · unfold my_insert_recursive
        simp only [hint, Bool.false_eq_true, ↓reduceIte]
        rw [if_neg hch, l5]
        exact if_neg (fun h => absurd (show (0 : Int) = 1 from h) (by decide))

/-- What `overwrite_record` changes: the page counter and the other pages stay, and the
leaf keeps its links, its count and its keys; each of its entries stays in its slot,
and only the entry of the key has another record. -/
theorem overwrite_record_facts (db : ham_db_t) (leaf key record : Nat) :
    (overwrite_record db leaf key record).next = db.next ∧
    (overwrite_record db leaf key record).rootpage = db.rootpage ∧
    (∀ q, q ≠ leaf → (overwrite_record db leaf key record).pages q = db.pages q) ∧
    ((overwrite_record db leaf key record).pages leaf).ptr_left = (db.pages leaf).ptr_left ∧
    ((overwrite_record db leaf key record).pages leaf).left = (db.pages leaf).left ∧
    ((overwrite_record db leaf key record).pages leaf).right = (db.pages leaf).right ∧
    ((overwrite_record db leaf key record).pages leaf).entries.length
      = (db.pages leaf).entries.length ∧
    ((overwrite_record db leaf key record).pages leaf).entries.map (fun e => e.key)
      = (db.pages leaf).entries.map (fun e => e.key) ∧
    (∀ i, i < (db.pages leaf).entries.length →
      ((overwrite_record db leaf key record).pages leaf).entries.getD i default
        = (if ((db.pages leaf).entries.getD i default).key = key then
            { (db.pages leaf).entries.getD i default with ptr := record }
           else (db.pages leaf).entries.getD i default)) := by
  have hp : (overwrite_record db leaf key record).pages leaf
      = set_entries (db.pages leaf) ((db.pages leaf).entries.map
          (fun e => if e.key = key then { e with ptr := record } else e)) := by
    unfold overwrite_record
    rw [setPage_same]
  refine ⟨rfl, rfl, fun q hq => ?_, ?_, ?_, ?_, ?_, ?_, ?_⟩
  · unfold overwrite_record
    exact setPage_other _ _ _ _ hq
  · rw [hp]; rfl
  · rw [hp]; rfl
  · rw [hp]; rfl
  · rw [hp]
    show ((db.pages leaf).entries.map _).length = _
    rw [List.length_map]
  · rw [hp]
    show ((db.pages leaf).entries.map _).map _ = _
    rw [List.map_map]
    apply List.map_congr_left
    intro e _
    show (if e.key = key then ({ e with ptr := record } : int_key_t) else e).key = e.key
    split_ifs <;> rfl
  · intro i hi
    rw [hp]
    show ((db.pages leaf).entries.map _).getD i default = _
    rw [List.getD_eq_getElem _ _ (by rw [List.length_map]; exact hi),
      List.getD_eq_getElem _ _ hi, List.getElem_map]

/-- C34 (overwrite keeps the keys).  In a tree that obeys the invariants, for a key
that is stored, `btree_insert` with `HAM_OVERWRITE` returns success without a split
(no page is allocated, the root stays): the database afterwards is the one before but
for the leaf that holds the key; that leaf keeps its links, its count and its sequence
of keys, every entry stays in its slot, and only the entry of the key differs, in its
record reference.  `my_insert_in_page` does so on every leaf with ascending keys that
holds the key, whether the leaf has free slots or is full. -/
theorem overwrite_keeps_keys (db : ham_db_t) (key record flags h hi : Nat)
    (ht : TreeAt db h hi) (hx : key ∈ keysOf (shapes db) h db.rootpage)
    (hfl : flags &&& HAM_OVERWRITE ≠ 0) :
    (∃ leaf, leaf ∈ leavesOf (shapes db) h db.rootpage ∧
      key ∈ (db.pages leaf).entries.map (fun e => e.key) ∧
      btree_insert db key record flags = (HAM_SUCCESS, overwrite_record db leaf key record) ∧
      (btree_insert db key record flags).2.next = db.next ∧
      (btree_insert db key record flags).2.rootpage = db.rootpage ∧
      (∀ q, q ≠ leaf → (btree_insert db key record flags).2.pages q = db.pages q) ∧
      ((btree_insert db key record flags).2.pages leaf).left = (db.pages leaf).left ∧
      ((btree_insert db key record flags).2.pages leaf).right = (db.pages leaf).right ∧
      ((btree_insert db key record flags).2.pages leaf).entries.length
        = (db.pages leaf).entries.length ∧
      ((btree_insert db key record flags).2.pages leaf).entries.map (fun e => e.key)
        = (db.pages leaf).entries.map (fun e => e.key) ∧
      (∀ i, i < (db.pages leaf).entries.length →
        ((btree_insert db key record flags).2.pages leaf).entries.getD i default
          = (if ((db.pages leaf).entries.getD i default).key = key then
              { (db.pages leaf).entries.getD i default with ptr := record }
             else (db.pages leaf).entries.getD i default))) ∧
    (∀ (page rid : Nat) (sp : insert_scratchpad_t), (db.pages page).ptr_left = 0 →
      ((db.pages page).entries.map (fun e => e.key)).Pairwise (· < ·) →
      key ∈ (db.pages page).entries.map (fun e => e.key) →
      my_insert_in_page db page key rid flags sp
        = (HAM_SUCCESS, overwrite_record db page key sp.record, sp)) := by
  refine ⟨?_, fun page rid sp h1 h2 h3 => in_page_overwrite db page key rid flags sp h1 h2 h3 hfl⟩
  obtain ⟨leaf, l1, _, _, l4, l5⟩ := recursive_overwrite h db.next db db.rootpage key 0
    ⟨flags, record, 0, 0⟩ 0 hi ht.1 hx (tree_height_lt db h hi ht)
    (fun q hq => (ht.2.2.1 q hq).1) hfl
  have hres : btree_insert db key record flags
      = (HAM_SUCCESS, overwrite_record db leaf key record) := by
    unfold btree_insert btree_insert_cursor
    simp only
    rw [l5]
    exact if_neg (fun h => absurd (show (0 : Int) = 1 from h) (by decide))
  obtain ⟨f1, f2, f3, _, f5, f6, f7, f8, f9⟩ := overwrite_record_facts db leaf key record
  refine ⟨leaf, l1, l4, hres, ?_⟩
  rw [hres]
  exact ⟨f1, f2, f3, f5, f6, f7, f8, f9⟩

/-- C34 on the tree of three full leaves: the key 30 stands in the full leaf 2; the
insert with `HAM_OVERWRITE` and the record 99 returns success and leaves the keys 30
and 40 in the leaf, with the record 99 for the key 30. -/
theorem overwrite_keeps_keys_witness :
    (TreeAt full_two_level_tree 1 61 ∧
      30 ∈ keysOf (shapes full_two_level_tree) 1 full_two_level_tree.rootpage ∧
      HAM_OVERWRITE &&& HAM_OVERWRITE ≠ 0) ∧
    (btree_insert full_two_level_tree 30 99 HAM_OVERWRITE).1 = HAM_SUCCESS ∧
    ((btree_insert full_two_level_tree 30 99 HAM_OVERWRITE).2.pages 2).entries
      = [⟨30, 99, []⟩, ⟨40, 40, []⟩] ∧
    my_insert_in_page full_two_level_tree 2 30 0 HAM_OVERWRITE ⟨HAM_OVERWRITE, 99, 0, 0⟩
      = (HAM_SUCCESS, overwrite_record full_two_level_tree 2 30 99,
          ⟨HAM_OVERWRITE, 99, 0, 0⟩) :=
  ⟨⟨full_two_level_tree_inv, by decide, by decide⟩, by decide, by decide,
   (overwrite_keeps_keys full_two_level_tree 30 99 HAM_OVERWRITE 1 61 full_two_level_tree_inv
      (by decide) (by decide)).2 2 0 ⟨HAM_OVERWRITE, 99, 0, 0⟩ (by decide) (by decide)
      (by decide)⟩

/-- C24 (pivot choice).  On a node with `count` entries `my_insert_split` uses the
pivot index `count / 2`, and `count - 4` for a database with the record-number flag
when `count > 8`; in both cases `1 ≤ pivot < count` whenever `count ≥ 2`.  The split
shows the index, whenever the new page can be allocated: for a key that is not smaller
than the key at the pivot the old page keeps exactly the entries in front of the
pivot, for a smaller key the new page holds exactly the entries from the pivot on (in
an internal node those behind the pivot); the status is `SPLIT`, or
`HAM_DUPLICATE_KEY` from `my_insert_nosplit`, and `SPLIT` for a key that a node with
ascending keys does not hold; with `SPLIT` the key handed to the parent is the key at
the pivot. -/
theorem split_pivot_choice (db : ham_db_t) (page key rid flags : Nat)
    (sp : insert_scratchpad_t) (hav : db.avail db.next = true) (hlt : page < db.next) :
    (db.rt_flags &&& HAM_RECORD_NUMBER ≠ 0 → (db.pages page).entries.length > 8 →
      pivot_index db.rt_flags (db.pages page).entries.length
        = (db.pages page).entries.length - 4) ∧
    (db.rt_flags &&& HAM_RECORD_NUMBER = 0 ∨ (db.pages page).entries.length ≤ 8 →
      pivot_index db.rt_flags (db.pages page).entries.length
        = (db.pages page).entries.length / 2) ∧
    (2 ≤ (db.pages page).entries.length →
      1 ≤ pivot_index db.rt_flags (db.pages page).entries.length ∧
      pivot_index db.rt_flags (db.pages page).entries.length
        < (db.pages page).entries.length) ∧
    (((db.pages page).entries.getD
        (pivot_index db.rt_flags (db.pages page).entries.length) default).key ≤ key →
      ((my_insert_split db page key rid flags sp).2.1.pages page).entries
        = (db.pages page).entries.take
            (pivot_index db.rt_flags (db.pages page).entries.length)) ∧
    (key < ((db.pages page).entries.getD
        (pivot_index db.rt_flags (db.pages page).entries.length) default).key →
      ((my_insert_split db page key rid flags sp).2.1.pages db.next).entries
        = (db.pages page).entries.drop
            (if btree_node_is_leaf (db.pages page) = true then
              pivot_index db.rt_flags (db.pages page).entries.length
             else pivot_index db.rt_flags (db.pages page).entries.length + 1)) ∧
    ((my_insert_split db page key rid flags sp).1 = SPLIT ∨
      (my_insert_split db page key rid flags sp).1 = HAM_DUPLICATE_KEY) ∧
    ((my_insert_split db page key rid flags sp).1 = SPLIT →
      (my_insert_split db page key rid flags sp).2.2.key
        = ((db.pages page).entries.getD
            (pivot_index db.rt_flags (db.pages page).entries.length) default).key ∧
      (my_insert_split db page key rid flags sp).2.2.rid = db.next) ∧
    (((db.pages page).entries.map (fun e => e.key)).Pairwise (· < ·) →
      key ∉ (db.pages page).entries.map (fun e => e.key) →
      (btree_node_is_leaf (db.pages page) = false → ((db.pages page).entries.getD
        (pivot_index db.rt_flags (db.pages page).entries.length) default).ptr ≠ 0) →
      (my_insert_split db page key rid flags sp).1 = SPLIT) := by
  have hne : page ≠ db.next := by omega
  refine ⟨?_, ?_, pivot_bounds _ _, ?_, ?_, ?_,
    fun h => split_pivot_key db page key rid flags sp h, ?_⟩
  · intro h1 h2
    unfold pivot_index
    rw [if_pos ⟨h1, h2⟩]
  · intro h
    unfold pivot_index
    rw [if_neg]
    intro hc
    rcases h with h | h
    · exact hc.1 h
    · omega
  · intro hc
    rw [split_unfold db page key rid flags sp hav, if_pos hc]
    obtain ⟨m1, _, _⟩ := move_entries_pages { db with next := db.next + 1 } page db.next
      (pivot_index db.rt_flags (db.pages page).entries.length) hne
    generalize hdb2 : move_entries { db with next := db.next + 1 } page db.next
      (pivot_index db.rt_flags (db.pages page).entries.length) = db2 at m1
    have hfr := (nosplit_frame db2 db.next key rid sp.record (flags ||| NOFLUSH)).2.2.2.2.2.1
      page hne
    have hfin : ((my_insert_nosplit db2 db.next key rid sp.record (flags ||| NOFLUSH)).2.pages
        page).entries = (db.pages page).entries.take
          (pivot_index db.rt_flags (db.pages page).entries.length) := by
      rw [hfr, m1]
    by_cases hr : (my_insert_nosplit db2 db.next key rid sp.record (flags ||| NOFLUSH)).1 ≠ 0
    · rw [if_pos hr]
      exact hfin
    · rw [if_neg hr]
      show ((fix_links _ page db.next).pages page).entries = _
      rw [(fix_links_keep _ page db.next page).1]
      exact hfin
  · intro hc
    have hc2 : ¬ ((db.pages page).entries.getD
        (pivot_index db.rt_flags (db.pages page).entries.length) default).key ≤ key := by
      omega
    rw [split_unfold db page key rid flags sp hav, if_neg hc2]
    obtain ⟨_, m2, _⟩ := move_entries_pages { db with next := db.next + 1 } page db.next
      (pivot_index db.rt_flags (db.pages page).entries.length) hne
    generalize hdb2 : move_entries { db with next := db.next + 1 } page db.next
      (pivot_index db.rt_flags (db.pages page).entries.length) = db2 at m2
    have hfr := (nosplit_frame db2 page key rid sp.record (flags ||| NOFLUSH)).2.2.2.2.2.1
      db.next (Ne.symm hne)
    have hfin : ((my_insert_nosplit db2 page key rid sp.record (flags ||| NOFLUSH)).2.pages
        db.next).entries = (db.pages page).entries.drop
          (if btree_node_is_leaf (db.pages page) = true then
            pivot_index db.rt_flags (db.pages page).entries.length
           else pivot_index db.rt_flags (db.pages page).entries.length + 1) := by
      rw [hfr, m2]
      show (if btree_node_is_leaf (db.pages page) = true then
          (db.pages page).entries.drop (pivot_index db.rt_flags (db.pages page).entries.length)
        else (db.pages page).entries.drop
          (pivot_index db.rt_flags (db.pages page).entries.length + 1)) = _
      split_ifs <;> rfl
    by_cases hr : (my_insert_nosplit db2 page key rid sp.record (flags ||| NOFLUSH)).1 ≠ 0
    · rw [if_pos hr]
      exact hfin
    · rw [if_neg hr]
      show ((fix_links _ page db.next).pages db.next).entries = _
      rw [(fix_links_keep _ page db.next db.next).1]
      exact hfin
  · rw [split_unfold db page key rid flags sp hav]
    generalize move_entries { db with next := db.next + 1 } page db.next
      (pivot_index db.rt_flags (db.pages page).entries.length) = db2
    generalize (if ((db.pages page).entries.getD
      (pivot_index db.rt_flags (db.pages page).entries.length) default).key ≤ key
      then db.next else page) = tgt
    rcases nosplit_status db2 tgt key rid sp.record (flags ||| NOFLUSH) with h0 | h0
    · rw [if_neg (fun h => h h0)]
      exact Or.inl rfl
    · rw [h0]
      exact Or.inr rfl
  · intro hs hx hp
    rw [split_eq db page key rid flags sp hav hne hs hx hp]

/-- C24 on two splits: the full leaf with the keys 10 and 20 (pivot 1) for the key 25,
and the full leaf of a record-number database with the keys 1 to 10 (pivot
`10 - 4 = 6`) for the key 11: the old leaf keeps the entries in front of the pivot,
and the key at the pivot goes to the parent. -/
theorem split_pivot_choice_witness :
    (full_leaf_tree.avail full_leaf_tree.next = true ∧ 1 < full_leaf_tree.next ∧
      recno_leaf_tree.avail recno_leaf_tree.next = true ∧ 1 < recno_leaf_tree.next) ∧
    ((my_insert_split full_leaf_tree 1 25 0 0 ⟨0, 25, 0, 0⟩).2.1.pages 1).entries
      = [⟨10, 10, []⟩] ∧
    ((my_insert_split recno_leaf_tree 1 11 0 0 ⟨0, 11, 0, 0⟩).2.1.pages 1).entries
      = [⟨1, 1, []⟩, ⟨2, 2, []⟩, ⟨3, 3, []⟩, ⟨4, 4, []⟩, ⟨5, 5, []⟩, ⟨6, 6, []⟩] ∧
    (my_insert_split recno_leaf_tree 1 11 0 0 ⟨0, 11, 0, 0⟩).1 = SPLIT ∧
    (my_insert_split recno_leaf_tree 1 11 0 0 ⟨0, 11, 0, 0⟩).2.2.key = 7 ∧
    pivot_index recno_leaf_tree.rt_flags (recno_leaf_tree.pages 1).entries.length = 6 :=
  ⟨⟨by decide, by decide, by decide, by decide⟩,
   ((split_pivot_choice full_leaf_tree 1 25 0 0 ⟨0, 25, 0, 0⟩ (by decide)
      (by decide)).2.2.2.1 (by decide)).trans (by decide),
   ((split_pivot_choice recno_leaf_tree 1 11 0 0 ⟨0, 11, 0, 0⟩ (by decide)
      (by decide)).2.2.2.1 (by decide)).trans (by decide),
   (split_pivot_choice recno_leaf_tree 1 11 0 0 ⟨0, 11, 0, 0⟩ (by decide)
      (by decide)).2.2.2.2.2.2.2 (by decide) (by decide) (by decide),
   (((split_pivot_choice recno_leaf_tree 1 11 0 0 ⟨0, 11, 0, 0⟩ (by decide)
      (by decide)).2.2.2.2.2.2.1 (by decide)).1).trans (by decide),
   ((split_pivot_choice recno_leaf_tree 1 11 0 0 ⟨0, 11, 0, 0⟩ (by decide)
      (by decide)).1 (by decide) (by decide)).trans (by decide)⟩

/-- The database after the insert of 70 with one page left: the leaf 3 keeps the key 50
and is linked to the new leaf 5 with the keys 60 and 70, which the root does not
know. -/
theorem alloc_failure_internal_example :
    (btree_insert_cursor full_two_level_tree_one_page 70 70 0).1 = HAM_OUT_OF_MEMORY ∧
    ((btree_insert_cursor full_two_level_tree_one_page 70 70 0).2.pages 3).entries
      = [⟨50, 50, []⟩] ∧
    ((btree_insert_cursor full_two_level_tree_one_page 70 70 0).2.pages 3).right = 5 ∧
    ((btree_insert_cursor full_two_level_tree_one_page 70 70 0).2.pages 5).entries
      = [⟨60, 60, []⟩, ⟨70, 70, []⟩] ∧
    ((btree_insert_cursor full_two_level_tree_one_page 70 70 0).2.pages 4).entries
      = [⟨30, 2, []⟩, ⟨50, 3, []⟩] ∧
    (btree_insert_cursor full_two_level_tree_one_page 70 70 0).2.rootpage = 4 := by
  decide

/-- C4, the claim as stated fails.  In `stray_link_tree` the keys of every node ascend,
the root obeys the left-separator convention, and the leaves 1, 2, 3 form a doubly
linked list in the order of the tree; the tree consists of distinct allocated pages.
Its root, the internal node 4, has the right link 2, a leaf.  `btree_insert` of the key
70 returns success: the leaf 3 and then the root are split, and `my_insert_split` on
the root stores the new internal node 6 as the left sibling of page 2.  Afterwards the
leaves are 1, 2, 3, 5 and do not form a doubly linked list: leaf 1 has the right
sibling 2, leaf 2 the left sibling 6, an internal node; the tree does not obey the
invariants in any reading of its height. -/
theorem insert_breaks_leaf_chain_counterexample :
    Sub (shapes stray_link_tree) 1 stray_link_tree.rootpage 0 61 ∧
    (pagesOf (shapes stray_link_tree) 1 stray_link_tree.rootpage).Nodup ∧
    (∀ q ∈ pagesOf (shapes stray_link_tree) 1 stray_link_tree.rootpage,
      0 < q ∧ q < stray_link_tree.next) ∧
    leavesOf (shapes stray_link_tree) 1 stray_link_tree.rootpage = [1, 2, 3] ∧
    Chain stray_link_tree.pages 0 [1, 2, 3] 0 ∧
    (stray_link_tree.pages 4).right = 2 ∧
    (btree_insert stray_link_tree 70 70 0).1 = 0 ∧
    leavesOf (shapes (btree_insert stray_link_tree 70 70 0).2) 2
      (btree_insert stray_link_tree 70 70 0).2.rootpage = [1, 2, 3, 5] ∧
    ((btree_insert stray_link_tree 70 70 0).2.pages 1).right = 2 ∧
    ((btree_insert stray_link_tree 70 70 0).2.pages 2).left = 6 ∧
    btree_node_is_leaf ((btree_insert stray_link_tree 70 70 0).2.pages 6) = false ∧
    ¬ Chain (btree_insert stray_link_tree 70 70 0).2.pages 0 [1, 2, 3, 5] 0 ∧
    ¬ TreeInv (btree_insert stray_link_tree 70 70 0).2 := by
  have hsh1 : shapes stray_link_tree 1 = (0, [(10, 0), (20, 0)]) := by decide
  have hsh2 : shapes stray_link_tree 2 = (0, [(30, 0), (40, 0)]) := by decide
  have hsh3 : shapes stray_link_tree 3 = (0, [(50, 0), (60, 0)]) := by decide
  have hsh4 : shapes stray_link_tree 4 = (1, [(30, 2), (50, 3)]) := by decide
  have hp : pagesOf (shapes stray_link_tree) 1 stray_link_tree.rootpage = [4, 1, 2, 3] := by
    decide
  have hl : leavesOf (shapes (btree_insert stray_link_tree 70 70 0).2) 2
      (btree_insert stray_link_tree 70 70 0).2.rootpage = [1, 2, 3, 5] := by decide
  have hleft : ((btree_insert stray_link_tree 70 70 0).2.pages 2).left = 6 := by decide
  have hroot : (btree_insert stray_link_tree 70 70 0).2.rootpage = 7 := by decide
  have a1 : shapes (btree_insert stray_link_tree 70 70 0).2 1 = (0, [(10, 0), (20, 0)]) := by
    decide
  have a4 : shapes (btree_insert stray_link_tree 70 70 0).2 4 = (1, [(30, 2)]) := by decide
  have a7 : shapes (btree_insert stray_link_tree 70 70 0).2 7 = (4, [(50, 6)]) := by decide
  have hnc : ¬ Chain (btree_insert stray_link_tree 70 70 0).2.pages 0 [1, 2, 3, 5] 0 := by
    intro hc
    have h2 : ((btree_insert stray_link_tree 70 70 0).2.pages 2).left = 1 := hc.2.2.1
    rw [hleft] at h2
    exact absurd h2 (by decide)
  refine ⟨?_, ?_, ?_, by decide, ⟨rfl, rfl, rfl, rfl, rfl, rfl, trivial⟩, by decide, by decide,
    hl, by decide, hleft, by decide, hnc, ?_⟩
  · show Sub (shapes stray_link_tree) 1 4 0 61
    rw [Sub_succ, hsh4]
    refine ⟨by decide, ?_⟩
    show 0 < 30 ∧ Sub _ 0 1 0 30 ∧ 30 < 50 ∧ Sub _ 0 2 30 50 ∧ 50 < 61 ∧ Sub _ 0 3 50 61
    refine ⟨by decide, ?_, by decide, ?_, by decide, ?_⟩
    · rw [Sub_zero, hsh1]; decide
    · rw [Sub_zero, hsh2]; decide
    · rw [Sub_zero, hsh3]; decide
  · rw [hp]; decide
  · rw [hp]; decide
  · rintro ⟨h, hi, hs, _, _, hch, _⟩
    rw [hroot] at hs
    match h, hs, hch with
    | 0, hs, _ =>
      have h0 := ((Sub_zero _ _ _ _).1 hs).1
      rw [a7] at h0
      exact absurd h0 (by decide)
    | 1, hs, _ =>
      have hk := ((Sub_succ _ _ _ _ _).1 hs).2
      rw [a7] at hk
      have h4 : Sub (shapes (btree_insert stray_link_tree 70 70 0).2) 0 4 0 50 := hk.2.1
      have h0 := ((Sub_zero _ _ _ _).1 h4).1
      rw [a4] at h0
      exact absurd h0 (by decide)
    | 2, _, hch =>
      rw [hl] at hch
      exact hnc hch
    | n + 3, hs, _ =>
      have hk := ((Sub_succ _ _ _ _ _).1 hs).2
      rw [a7] at hk
      have h4 : Sub (shapes (btree_insert stray_link_tree 70 70 0).2) (n + 2) 4 0 50 := hk.2.1
      have hk4 := ((Sub_succ _ _ _ _ _).1 h4).2
      rw [a4] at hk4
      have h1 : Sub (shapes (btree_insert stray_link_tree 70 70 0).2) (n + 1) 1 0 30 := hk4.2.1
      have h0 := ((Sub_succ _ _ _ _ _).1 h1).1
      rw [a1] at h0
      exact absurd rfl h0

end BtreeInsert

namespace MergeReader

/-! ## The merged scan -/

theorem keys_cons_sorted (a : Nat × Nat) (A : List (Nat × Nat))
    (h : ((a :: A).map Prod.fst).Pairwise (· < ·)) :
    (∀ e ∈ A, a.1 < e.1) ∧ (A.map Prod.fst).Pairwise (· < ·) := by
  rw [List.map_cons, List.pairwise_cons] at h
  exact ⟨fun e he => h.1 e.1 (List.mem_map_of_mem _ he), h.2⟩

theorem not_mem_keys (k : Nat) (B : List (Nat × Nat)) (h : ∀ e ∈ B, k < e.1) :
    k ∉ B.map Prod.fst := by
  intro hk
  obtain ⟨e, he, hek⟩ := List.mem_map.1 hk
  have := h e he
  omega

/-- The rows of the merge: every staged entry, and every B+tree entry whose key is not
staged; the keys of the rows are strictly ascending. -/
theorem merge_loop_spec : ∀ (fuel : Nat) (A B : List (Nat × Nat)),
    A.length + B.length ≤ fuel → (A.map Prod.fst).Pairwise (· < ·) →
    (B.map Prod.fst).Pairwise (· < ·) →
    (∀ e, e ∈ merge_loop fuel A B ↔ (e ∈ B ∨ (e ∈ A ∧ e.1 ∉ B.map Prod.fst))) ∧
    ((merge_loop fuel A B).map Prod.fst).Pairwise (· < ·) := by
  intro fuel
  induction fuel with
  | zero =>
    intro A B hl _ _
    have hA : A = [] := List.length_eq_zero.1 (by omega)
    have hB : B = [] := List.length_eq_zero.1 (by omega)
    subst hA hB
    simp [merge_loop]
  | succ fuel ih =>
    intro A B hl hA hB
    cases A with
    | nil =>
      cases B with
      | nil => simp [merge_loop]
      | cons b B =>
        obtain ⟨hb1, hb2⟩ := keys_cons_sorted b B hB
        obtain ⟨i1, i2⟩ := ih [] B (by simp only [List.length_cons, List.length_nil] at hl ⊢; omega)
          hA hb2
        rw [merge_loop]
        constructor
        · intro e
          rw [List.mem_cons, i1]
          simp
        · rw [List.map_cons, List.pairwise_cons]
          refine ⟨?_, i2⟩
          intro k hk
          obtain ⟨e, he, rfl⟩ := List.mem_map.1 hk
          rcases (i1 e).1 he with h | h
          · exact hb1 e h
          · exact absurd h.1 (List.not_mem_nil _)
    | cons a A =>
      obtain ⟨ha1, ha2⟩ := keys_cons_sorted a A hA
      cases B with
      | nil =>
        obtain ⟨i1, i2⟩ := ih A [] (by simp only [List.length_cons, List.length_nil] at hl ⊢; omega)
          ha2 hB
        rw [merge_loop]
        constructor
        · intro e
          rw [List.mem_cons, i1]
          simp
        · rw [List.map_cons, List.pairwise_cons]
          refine ⟨?_, i2⟩
          intro k hk
          obtain ⟨e, he, rfl⟩ := List.mem_map.1 hk
          rcases (i1 e).1 he with h | h
          · exact absurd h (List.not_mem_nil _)
          · exact ha1 e h.1
      | cons b B =>
        obtain ⟨hb1, hb2⟩ := keys_cons_sorted b B hB
        simp only [List.length_cons] at hl
        rw [merge_loop]
        by_cases h1 : a.1 < b.1
        · rw [if_pos h1]
          obtain ⟨i1, i2⟩ := ih A (b :: B) (by simp only [List.length_cons]; omega) ha2 hB
          have hnot : a.1 ∉ (b :: B).map Prod.fst := not_mem_keys _ _ (by
            intro e he
            rcases List.mem_cons.1 he with h | h
            · rw [h]; exact h1
            · exact lt_trans h1 (hb1 e h))
          constructor
          · intro e
            rw [List.mem_cons, i1]
            constructor
            · rintro (h | h | h)
              · exact Or.inr ⟨by rw [h]; exact List.mem_cons_self _ _, by rw [h]; exact hnot⟩
              · exact Or.inl h
              · exact Or.inr ⟨List.mem_cons_of_mem _ h.1, h.2⟩
            · rintro (h | ⟨h, h2⟩)
              · exact Or.inr (Or.inl h)
              · rcases List.mem_cons.1 h with h3 | h3
                · exact Or.inl h3
                · exact Or.inr (Or.inr ⟨h3, h2⟩)
          · rw [List.map_cons, List.pairwise_cons]
            refine ⟨?_, i2⟩
            intro k hk
            obtain ⟨e, he, rfl⟩ := List.mem_map.1 hk
            rcases (i1 e).1 he with h | h
            · rcases List.mem_cons.1 h with h3 | h3
              · rw [h3]; exact h1
              · exact lt_trans h1 (hb1 e h3)
            · exact ha1 e h.1
        · rw [if_neg h1]
          by_cases h2 : b.1 < a.1
          · rw [if_pos h2]
            obtain ⟨i1, i2⟩ := ih (a :: A) B (by simp only [List.length_cons]; omega) hA hb2
            constructor
            · intro e
              rw [List.mem_cons, i1]
              constructor
              · rintro (h | h | h)
                · exact Or.inl (by rw [h]; exact List.mem_cons_self _ _)
                · exact Or.inl (List.mem_cons_of_mem _ h)
                · refine Or.inr ⟨h.1, ?_⟩
                  rw [List.map_cons, List.mem_cons, not_or]
                  refine ⟨?_, h.2⟩
                  rcases List.mem_cons.1 h.1 with h3 | h3
                  · rw [h3]; omega
                  · have := ha1 e h3; omega
              · rintro (h | ⟨h, h3⟩)
                · rcases List.mem_cons.1 h with h4 | h4
                  · exact Or.inl h4
                  · exact Or.inr (Or.inl h4)
                · rw [List.map_cons, List.mem_cons, not_or] at h3
                  exact Or.inr (Or.inr ⟨h, h3.2⟩)
            · rw [List.map_cons, List.pairwise_cons]
              refine ⟨?_, i2⟩
              intro k hk
              obtain ⟨e, he, rfl⟩ := List.mem_map.1 hk
              rcases (i1 e).1 he with h | h
              · exact hb1 e h
              · rcases List.mem_cons.1 h.1 with h3 | h3
                · rw [h3]; exact h2
                · exact lt_trans h2 (ha1 e h3)
          · rw [if_neg h2]
            have heq : a.1 = b.1 := by omega
            obtain ⟨i1, i2⟩ := ih A B (by omega) ha2 hb2
            constructor
            · intro e
              rw [List.mem_cons, i1]
              constructor
              · rintro (h | h | h)
                · exact Or.inl (by rw [h]; exact List.mem_cons_self _ _)
                · exact Or.inl (List.mem_cons_of_mem _ h)
                · refine Or.inr ⟨List.mem_cons_of_mem _ h.1, ?_⟩
                  rw [List.map_cons, List.mem_cons, not_or]
                  refine ⟨?_, h.2⟩
                  have := ha1 e h.1
                  omega
              · rintro (h | ⟨h, h3⟩)
                · rcases List.mem_cons.1 h with h4 | h4
                  · exact Or.inl h4
                  · exact Or.inr (Or.inl h4)
                · rw [List.map_cons, List.mem_cons, not_or] at h3
                  rcases List.mem_cons.1 h with h4 | h4
                  · rw [h4] at h3
                    exact absurd heq h3.1
                  · exact Or.inr (Or.inr ⟨h4, h3.2⟩)
            · rw [List.map_cons, List.pairwise_cons]
              refine ⟨?_, i2⟩
              intro k hk
              obtain ⟨e, he, rfl⟩ := List.mem_map.1 hk
              rcases (i1 e).1 he with h | h
              · exact hb1 e h
              · have := ha1 e h.1
                omega

theorem merge_scan_keys (btree staged : List (Nat × Nat))
    (hA : (btree.map Prod.fst).Pairwise (· < ·)) (hB : (staged.map Prod.fst).Pairwise (· < ·)) :
    ((merge_scan btree staged).map Prod.fst).toFinset
      = (btree.map Prod.fst).toFinset ∪ (staged.map Prod.fst).toFinset := by
  obtain ⟨h1, _⟩ := merge_loop_spec _ btree staged (le_refl _) hA hB
  ext k
  rw [List.mem_toFinset, Finset.mem_union, List.mem_toFinset, List.mem_toFinset]
  unfold merge_scan
  constructor
  · intro hk
    obtain ⟨e, he, rfl⟩ := List.mem_map.1 hk
    rcases (h1 e).1 he with h | h
    · exact Or.inr (List.mem_map_of_mem _ h)
    · exact Or.inl (List.mem_map_of_mem _ h.1)
  · intro hk
    by_cases hs : k ∈ staged.map Prod.fst
    · obtain ⟨e, he, rfl⟩ := List.mem_map.1 hs
      exact List.mem_map_of_mem _ ((h1 e).2 (Or.inl he))
    · rcases hk with h | h
      · obtain ⟨e, he, rfl⟩ := List.mem_map.1 h
        exact List.mem_map_of_mem _ ((h1 e).2 (Or.inr ⟨he, hs⟩))
      · exact absurd h hs

theorem nodup_of_ascending (l : List Nat) (h : l.Pairwise (· < ·)) : l.Nodup :=
  h.imp (fun hab => Nat.ne_of_lt hab)

/-- C19 (merge reader).  For every B+tree stream and every staged stream with strictly
ascending keys: the keys of the merged scan are strictly ascending, so that no key is
emitted twice; a key is emitted exactly if it occurs in one of the streams; every
staged entry is emitted, and a B+tree entry is emitted exactly if its key is not
staged; the keys of the scan are the keys of both streams in sorted order.  Hence
`COUNT($key)` is the number of distinct keys and `SUM($key)` is their sum. -/
theorem merge_scan_spec (btree staged : List (Nat × Nat))
    (hA : (btree.map Prod.fst).Pairwise (· < ·)) (hB : (staged.map Prod.fst).Pairwise (· < ·)) :
    ((merge_scan btree staged).map Prod.fst).Pairwise (· < ·) ∧
    (∀ k, k ∈ (merge_scan btree staged).map Prod.fst ↔
      (k ∈ btree.map Prod.fst ∨ k ∈ staged.map Prod.fst)) ∧
    (∀ e, e ∈ merge_scan btree staged ↔
      (e ∈ staged ∨ (e ∈ btree ∧ e.1 ∉ staged.map Prod.fst))) ∧
    (merge_scan btree staged).map Prod.fst
      = Finset.sort (· ≤ ·) ((btree.map Prod.fst).toFinset ∪ (staged.map Prod.fst).toFinset) ∧
    uqi_count btree staged
      = ((btree.map Prod.fst).toFinset ∪ (staged.map Prod.fst).toFinset).card ∧
    uqi_sum btree staged
      = ∑ k ∈ (btree.map Prod.fst).toFinset ∪ (staged.map Prod.fst).toFinset, k := by
  obtain ⟨h1, h2⟩ := merge_loop_spec _ btree staged (le_refl _) hA hB
  have hk := merge_scan_keys btree staged hA hB
  have h2s : ((merge_scan btree staged).map Prod.fst).Pairwise (· < ·) := h2
  have hnd := nodup_of_ascending _ h2s
  refine ⟨h2s, ?_, h1, ?_, ?_, ?_⟩
  · intro k
    have := congrArg (fun s => k ∈ s) hk
    simpa only [List.mem_toFinset, Finset.mem_union, eq_iff_iff] using this
  · rw [← hk]
    exact ((List.toFinset_sort (· ≤ ·) hnd).2 (h2s.imp (fun hab => Nat.le_of_lt hab))).symm
  · unfold uqi_count
    rw [← hk, List.toFinset_card_of_nodup hnd, List.length_map]
  · unfold uqi_sum
    rw [← hk, List.sum_toFinset _ hnd, List.map_id']

/-- Witness for C19: the keys 1 to 3 and 7 to 9 in the B+tree and the keys 4 to 6 staged
(the records tell the streams apart): the merged scan counts nine keys. -/
theorem merge_scan_spec_witness :
    uqi_count [(1, 0), (2, 0), (3, 0), (7, 0), (8, 0), (9, 0)] [(4, 1), (5, 1), (6, 1)] = 9 ∧
    ((merge_scan [(1, 0), (2, 0), (3, 0), (7, 0), (8, 0), (9, 0)]
      [(4, 1), (5, 1), (6, 1)]).map Prod.fst).Pairwise (· < ·) :=
  ⟨(merge_scan_spec [(1, 0), (2, 0), (3, 0), (7, 0), (8, 0), (9, 0)] [(4, 1), (5, 1), (6, 1)]
      (by decide) (by decide)).2.2.2.2.1.trans (by decide),
   (merge_scan_spec [(1, 0), (2, 0), (3, 0), (7, 0), (8, 0), (9, 0)] [(4, 1), (5, 1), (6, 1)]
      (by decide) (by decide)).1⟩

end MergeReader
